import Mathlib

/-!
# GtkTimSort

A shallow embedding of `gtk/timsort/gtktimsort.c`, the incremental TimSort of GTK.

The source instantiates one template four times (element widths 4, 8, 16 and a
generic width); the four instances are textually identical, the width only
scales pointer arithmetic.  Here a pointer into the sorted array is the index
of the element it points to, so one embedding covers the four instances.

Conventions of the embedding:

* the array is a `List α`, the scratch array `tmp` another one;
* `gsize` is a natural number; it is reduced modulo `2 ^ 64` where the source
  relies on wrap-around;
* every function that reads or writes memory returns an `Option`: `none` stands
  for an access outside the buffer, a failing `g_assert`, or a loop that did not
  finish within the fuel computed from its arguments;
* the capacity `GTK_TIM_SORT_MAX_PENDING` of the run stack is a constant of a
  header that is not part of the sources: the functions whose name ends in
  `_checked` take it as the parameter `max_pending` and fail when
  `gtk_tim_sort_push_run` finds the stack full, the functions without the suffix
  leave that one assertion aside;
* `out_change` is an `Option`: `none` is the `NULL` pointer callers may pass.
-/

set_option linter.all false

namespace TimSort

variable {α : Type}

/-! ## Constants and data -/

def MIN_MERGE : Nat := 32

def MIN_GALLOP : Nat := 7

/-- The modulus of `gsize` arithmetic. -/
def GSIZE_MOD : Nat := 2 ^ 64

def G_MAXSIZE : Nat := 2 ^ 64 - 1

/-- A run of the pending-run stack: first element and number of elements. -/
structure GtkTimSortRun where
  base : Nat
  len : Nat
  deriving DecidableEq, Repr

/-- The value written through `out_change`: a `GtkTimSortRun` whose `base` may
be `NULL` (`none`). -/
structure GtkTimSortChange where
  base : Option Nat
  len : Nat
  deriving DecidableEq, Repr

/-- The sorter.  `mem` is the memory the pointer given to `gtk_tim_sort_init`
points to; `base` and `size` delimit the part of it not yet split into runs;
`run` holds the entries `run[0] .. run[pending_runs - 1]`.  The contents of
`tmp` never outlive a merge, only its capacity `tmp_length` is kept.  The
comparison function is passed to every operation instead of being stored. -/
structure GtkTimSort (α : Type) where
  element_size : Nat
  mem : List α
  base : Nat
  size : Nat
  min_gallop : Nat
  max_merge_size : Nat
  min_run : Nat
  tmp_length : Nat
  run : List GtkTimSortRun
  deriving DecidableEq, Repr

def GtkTimSort.pending_runs (self : GtkTimSort α) : Nat := self.run.length

/-! ## Memory primitives -/

/-- Read the element a pointer points to. -/
def load (buf : List α) (p : Nat) : Option α := buf[p]?

/-- Write an element through a pointer. -/
def store (buf : List α) (p : Nat) (x : α) : Option (List α) :=
  if p < buf.length then some (buf.set p x) else none

/-- The macro `ASSIGN (x, y)`: copy one element from `src_buf[src]` to `dst_buf[dst]`. -/
def ASSIGN (dst_buf : List α) (dst : Nat) (src_buf : List α) (src : Nat) : Option (List α) :=
  match load src_buf src with
  | some x => store dst_buf dst x
  | none => none

/-- Copy `n` elements from `src_buf[src ..]` to `dst_buf[dst ..]`, the source
being read in full before anything is written: `memcpy` between two buffers. -/
def memcpy (dst_buf : List α) (dst : Nat) (src_buf : List α) (src n : Nat) : Option (List α) :=
  if src + n ≤ src_buf.length ∧ dst + n ≤ dst_buf.length then
    some (dst_buf.take dst ++ ((src_buf.drop src).take n ++ dst_buf.drop (dst + n)))
  else none

/-- The function `memmove`: `memcpy` inside one buffer, the ranges may overlap. -/
def memmove (buf : List α) (dst src n : Nat) : Option (List α) :=
  memcpy buf dst buf src n

/-- Read through a pointer that may have been moved below the start of its buffer. -/
def loadI (buf : List α) (p : Int) : Option α :=
  if 0 ≤ p then load buf p.toNat else none

def storeI (buf : List α) (p : Int) (x : α) : Option (List α) :=
  if 0 ≤ p then store buf p.toNat x else none

def ASSIGNI (dst_buf : List α) (dst : Int) (src_buf : List α) (src : Int) : Option (List α) :=
  match loadI src_buf src with
  | some x => storeI dst_buf dst x
  | none => none

def memcpyI (dst_buf : List α) (dst : Int) (src_buf : List α) (src : Int) (n : Nat) :
    Option (List α) :=
  if 0 ≤ dst ∧ 0 ≤ src then memcpy dst_buf dst.toNat src_buf src.toNat n else none

def memmoveI (buf : List α) (dst src : Int) (n : Nat) : Option (List α) :=
  memcpyI buf dst buf src n

/-- The call `memcpy (tmp, base, LEN (len))` that fills the scratch array, whose
capacity was ensured just before: the `len` elements of `tmp` it initialises.
What lies behind them in `tmp` is not initialised and reading it is an error. -/
def memcpy_tmp (mem : List α) (base len : Nat) : Option (List α) :=
  if base + len ≤ mem.length then some ((mem.drop base).take len) else none

/-- The function `gtk_tim_sort_compare` on two pointers. -/
def gtk_tim_sort_compare (cmp : α → α → Int) (abuf : List α) (a : Nat) (bbuf : List α) (b : Nat) :
    Option Int :=
  match load abuf a, load bbuf b with
  | some x, some y => some (cmp x y)
  | _, _ => none

/-- The function `gtk_tim_sort_compare` with the element behind the first pointer
already read. -/
def compare_key (cmp : α → α → Int) (key : α) (buf : List α) (p : Nat) : Option Int :=
  match load buf p with
  | some y => some (cmp key y)
  | none => none

def gtk_tim_sort_compareI (cmp : α → α → Int) (abuf : List α) (a : Int) (bbuf : List α) (b : Int) :
    Option Int :=
  match loadI abuf a, loadI bbuf b with
  | some x, some y => some (cmp x y)
  | _, _ => none

/-! ## Set-up -/

def compute_min_run_loop : Nat → Nat → Nat → Nat
  | 0, n, r => n + r
  | fuel + 1, n, r =>
    if n ≥ MIN_MERGE then compute_min_run_loop fuel (n >>> 1) (r ||| (n &&& 1))
    else n + r

/-- The function `compute_min_run`; its loop halves `n`, so `n` rounds are enough. -/
def compute_min_run (n : Nat) : Nat := compute_min_run_loop n n 0

def gtk_tim_sort_init (base : List α) (size element_size : Nat) : GtkTimSort α :=
  { element_size := element_size
    mem := base
    base := 0
    size := size
    min_gallop := MIN_GALLOP
    max_merge_size := G_MAXSIZE
    min_run := compute_min_run size
    tmp_length := 0
    run := [] }

/-- The function `gtk_tim_sort_push_run`, its first assertion left aside.  The
capacity `GTK_TIM_SORT_MAX_PENDING` of the array `run` is declared in a header that
is not part of the sources, and the assertion
`g_assert (self->pending_runs < GTK_TIM_SORT_MAX_PENDING)` is stated apart: it is the
predicate `push_run_assertion`, and `gtk_tim_sort_push_run_checked` is the function
with it, which fails on a full stack, for a capacity given as a parameter.  In a sort
driven by `gtk_tim_sort_step` from a freshly initialised sorter the assertion holds
at every push for a capacity of 86 entries or more, so that the two functions agree
there; what is stated of a sorter restored by `gtk_tim_sort_set_runs`, or of a push
from an arbitrary state, is stated of the functions with the assertion. -/
def gtk_tim_sort_push_run (self : GtkTimSort α) (base len : Nat) : Option (GtkTimSort α) :=
  if len ≤ self.size then
    some { self with
      run := self.run ++ [{ base := base, len := len }]
      base := self.base + len
      size := self.size - len }
  else none

def gtk_tim_sort_ensure_capacity (self : GtkTimSort α) (min_capacity : Nat) : GtkTimSort α :=
  if self.tmp_length < min_capacity then
    let new_size := min_capacity
    let new_size := new_size ||| (new_size >>> 1)
    let new_size := new_size ||| (new_size >>> 2)
    let new_size := new_size ||| (new_size >>> 4)
    let new_size := new_size ||| (new_size >>> 8)
    let new_size := new_size ||| (new_size >>> 16)
    let new_size := new_size ||| (new_size >>> 32)
    let new_size := (new_size + 1) % GSIZE_MOD
    let new_size := if new_size = 0 then min_capacity else new_size
    { self with tmp_length := new_size }
  else self

def gtk_tim_sort_set_change (out_change : Option GtkTimSortChange) (base : Option Nat) (len : Nat) :
    Option GtkTimSortChange :=
  match out_change with
  | some _ => some { base := base, len := len }
  | none => none

def gtk_tim_sort_set_max_merge_size (self : GtkTimSort α) (max_merge_size : Nat) : GtkTimSort α :=
  let max_merge_size := if max_merge_size = 0 then G_MAXSIZE else max_merge_size
  { self with max_merge_size := max_merge_size }

/-! ## Run detection -/

def reverse_range_loop : Nat → List α → Nat → Nat → Option (List α)
  | 0, _, _, _ => none
  | fuel + 1, mem, front, back =>
    if front < back then
      match load mem front with
      | none => none
      | some t =>
        match ASSIGN mem front mem back with
        | none => none
        | some mem1 =>
          match store mem1 back t with
          | none => none
          | some mem2 => reverse_range_loop fuel mem2 (front + 1) (back - 1)
    else some mem

def reverse_range (mem : List α) (a hi : Nat) : Option (List α) :=
  if hi > 0 then reverse_range_loop hi mem a (a + (hi - 1)) else none

/-- The loop of the descending branch of `prepare_run`. -/
def prepare_run_desc (cmp : α → α → Int) (mem : List α) (size : Nat) :
    Nat → Nat → Nat → Nat → Option Nat
  | 0, _, _, _ => none
  | fuel + 1, run_hi, cur, next =>
    if run_hi < size then
      match gtk_tim_sort_compare cmp mem next mem cur with
      | none => none
      | some c =>
        if c < 0 then prepare_run_desc cmp mem size fuel (run_hi + 1) next (next + 1)
        else some run_hi
    else some run_hi

/-- The loop of the ascending branch of `prepare_run`. -/
def prepare_run_asc (cmp : α → α → Int) (mem : List α) (size : Nat) :
    Nat → Nat → Nat → Nat → Option Nat
  | 0, _, _, _ => none
  | fuel + 1, run_hi, cur, next =>
    if run_hi < size then
      match gtk_tim_sort_compare cmp mem next mem cur with
      | none => none
      | some c =>
        if c ≥ 0 then prepare_run_asc cmp mem size fuel (run_hi + 1) next (next + 1)
        else some run_hi
    else some run_hi

/-- The function `prepare_run`: the length of the run found at `self->base`, the
memory after a possible reversal, and `out_change`. -/
def prepare_run (cmp : α → α → Int) (self : GtkTimSort α) (out_change : Option GtkTimSortChange) :
    Option (Nat × List α × Option GtkTimSortChange) :=
  let run_hi := 1
  if self.size ≤ run_hi then
    some (self.size, self.mem, gtk_tim_sort_set_change out_change none 0)
  else
    let cur := self.base + 1
    let next := cur + 1
    let run_hi := run_hi + 1
    match gtk_tim_sort_compare cmp self.mem cur self.mem self.base with
    | none => none
    | some c =>
      if c < 0 then
        match prepare_run_desc cmp self.mem self.size self.size run_hi cur next with
        | none => none
        | some run_hi =>
          match reverse_range self.mem self.base run_hi with
          | none => none
          | some mem =>
            some (run_hi, mem, gtk_tim_sort_set_change out_change (some self.base) run_hi)
      else
        match prepare_run_asc cmp self.mem self.size self.size run_hi cur next with
        | none => none
        | some run_hi =>
          some (run_hi, self.mem, gtk_tim_sort_set_change out_change none 0)

/-! ## Binary insertion sort -/

/-- The inner loop of `binary_sort`: the binary search for the slot of the pivot
at `startp` among the `right` elements from `leftp` on; returns the final `leftp`. -/
def binary_sort_search (cmp : α → α → Int) (mem : List α) (startp : Nat) :
    Nat → Nat → Nat → Option Nat
  | 0, _, _ => none
  | fuel + 1, leftp, right =>
    if 0 < right then
      let mid := right >>> 1
      let midp := leftp + mid
      match gtk_tim_sort_compare cmp mem startp mem midp with
      | none => none
      | some c =>
        if c < 0 then binary_sort_search cmp mem startp fuel leftp mid
        else binary_sort_search cmp mem startp fuel (midp + 1) (right - (mid + 1))
    else some leftp

/-- The `for` loop of `binary_sort`; returns the memory, `change_min` and `change_max`. -/
def binary_sort_loop (cmp : α → α → Int) (a hi : Nat) :
    Nat → List α → Nat → Nat → Nat → Nat → Option (List α × Nat × Nat)
  | 0, _, _, _, _, _ => none
  | fuel + 1, mem, start, startp, change_min, change_max =>
    if start < hi then
      match binary_sort_search cmp mem startp (start + 1) a start with
      | none => none
      | some leftp =>
        let n := startp - leftp
        if n = 0 then
          binary_sort_loop cmp a hi fuel mem (start + 1) (startp + 1) change_min change_max
        else
          match load mem startp with
          | none => none
          | some pivot =>
            match memmove mem (leftp + 1) leftp n with
            | none => none
            | some mem1 =>
              match store mem1 leftp pivot with
              | none => none
              | some mem2 =>
                binary_sort_loop cmp a hi fuel mem2 (start + 1) (startp + 1)
                  (min change_min leftp) (max change_max (startp + 1))
    else some (mem, change_min, change_max)

/-- The function `binary_sort` on the `hi` elements from `a` on, the first `start`
of which are sorted. -/
def binary_sort (cmp : α → α → Int) (mem : List α) (a hi start : Nat)
    (inout_change : Option GtkTimSortChange) : Option (List α × Option GtkTimSortChange) :=
  let change_min := a + hi
  let change_max := a
  if start ≤ hi then
    let start := if start = 0 then start + 1 else start
    let startp := a + start
    match binary_sort_loop cmp a hi (hi + 1) mem start startp change_min change_max with
    | none => none
    | some (mem1, change_min, change_max) =>
      if change_max > a then
        if change_min < a + hi then
          match inout_change with
          | none => some (mem1, none)
          | some c =>
            if c.len ≠ 0 then
              match c.base with
              | none => none
              | some cbase =>
                let change_max := max change_max (cbase + c.len)
                let change_min := min change_min cbase
                some (mem1, gtk_tim_sort_set_change inout_change (some change_min)
                  (change_max - change_min))
            else
              some (mem1, gtk_tim_sort_set_change inout_change (some change_min)
                (change_max - change_min))
        else none
      else some (mem1, inout_change)
  else none

/-- The function `merge_append`: the Boolean it returns, the sorter and `out_change`. -/
def merge_append (cmp : α → α → Int) (self : GtkTimSort α) (out_change : Option GtkTimSortChange) :
    Option (Bool × GtkTimSort α × Option GtkTimSortChange) :=
  match prepare_run cmp self out_change with
  | none => none
  | some (run_len, mem, out_change) =>
    if run_len = 0 then some (false, { self with mem := mem }, out_change)
    else if run_len < self.min_run then
      let force := min self.size self.min_run
      match binary_sort cmp mem self.base force run_len out_change with
      | none => none
      | some (mem1, out_change) =>
        match gtk_tim_sort_push_run { self with mem := mem1 } self.base force with
        | none => none
        | some self1 => some (true, self1, out_change)
    else
      match gtk_tim_sort_push_run { self with mem := mem } self.base run_len with
      | none => none
      | some self1 => some (true, self1, out_change)

/-! ## Galloping -/

/-- The four galloping loops of `gallop_left` and `gallop_right`: while
`ofs < max_ofs` and the comparison of the key with the element at `elem ofs`
passes `test`, `last_ofs = ofs; ofs = (ofs << 1) + 1`.  Returns `(last_ofs, ofs)`. -/
def gallop_ofs_loop (cmp : α → α → Int) (key : α) (buf : List α) (elem : Nat → Nat)
    (test : Int → Bool) (max_ofs : Nat) : Nat → Nat → Nat → Option (Nat × Nat)
  | 0, _, _ => none
  | fuel + 1, last_ofs, ofs =>
    if ofs < max_ofs then
      match compare_key cmp key buf (elem ofs) with
      | none => none
      | some c =>
        if test c then
          gallop_ofs_loop cmp key buf elem test max_ofs fuel ofs (((ofs <<< 1) + 1) % GSIZE_MOD)
        else some (last_ofs, ofs)
    else some (last_ofs, ofs)

/-- The closing binary search of `gallop_left` and `gallop_right`: while
`last_ofs < ofs`, with `m` the midpoint, `last_ofs = m + 1` when the comparison
of the key with the element at `m` passes `right`, else `ofs = m`. -/
def gallop_search_loop (cmp : α → α → Int) (key : α) (buf : List α) (base : Nat)
    (right : Int → Bool) : Nat → Nat → Nat → Option Nat
  | 0, _, _ => none
  | fuel + 1, last_ofs, ofs =>
    if last_ofs < ofs then
      let m := (last_ofs &&& ofs) + ((last_ofs ^^^ ofs) >>> 1)
      match compare_key cmp key buf (base + m) with
      | none => none
      | some c =>
        if right c then gallop_search_loop cmp key buf base right fuel (m + 1) ofs
        else gallop_search_loop cmp key buf base right fuel last_ofs m
    else some ofs

def gallop_left (cmp : α → α → Int) (key : α) (buf : List α) (base len hint : Nat) :
    Option Nat :=
  let hintp := base + hint
  let last_ofs := 0
  let ofs := 1
  if len > 0 ∧ hint < len then
    match compare_key cmp key buf hintp with
    | none => none
    | some c =>
      let bounds : Option (Nat × Nat) :=
        if c > 0 then
          let max_ofs := len - hint
          match gallop_ofs_loop cmp key buf (fun ofs => hintp + ofs) (fun c => decide (c > 0))
              max_ofs (max_ofs + 1) last_ofs ofs with
          | none => none
          | some (last_ofs, ofs) =>
            let ofs := if ofs > max_ofs then max_ofs else ofs
            some (last_ofs + (hint + 1), ofs + hint)
        else
          let max_ofs := hint + 1
          match gallop_ofs_loop cmp key buf (fun ofs => hintp - ofs) (fun c => decide (c ≤ 0))
              max_ofs (max_ofs + 1) last_ofs ofs with
          | none => none
          | some (last_ofs, ofs) =>
            let ofs := if ofs > max_ofs then max_ofs else ofs
            let tmp := last_ofs
            some (hint + 1 - ofs, hint - tmp)
      match bounds with
      | none => none
      | some (last_ofs, ofs) =>
        if last_ofs ≤ ofs ∧ ofs ≤ len then
          gallop_search_loop cmp key buf base (fun c => decide (c > 0)) (ofs - last_ofs + 1)
            last_ofs ofs
        else none
  else none

def gallop_right (cmp : α → α → Int) (key : α) (buf : List α) (base len hint : Nat) :
    Option Nat :=
  let hintp := base + hint
  let ofs := 1
  let last_ofs := 0
  if len > 0 ∧ hint < len then
    match compare_key cmp key buf hintp with
    | none => none
    | some c =>
      let bounds : Option (Nat × Nat) :=
        if c < 0 then
          let max_ofs := hint + 1
          match gallop_ofs_loop cmp key buf (fun ofs => hintp - ofs) (fun c => decide (c < 0))
              max_ofs (max_ofs + 1) last_ofs ofs with
          | none => none
          | some (last_ofs, ofs) =>
            let ofs := if ofs > max_ofs then max_ofs else ofs
            let tmp := last_ofs
            some (hint + 1 - ofs, hint - tmp)
        else
          let max_ofs := len - hint
          match gallop_ofs_loop cmp key buf (fun ofs => hintp + ofs) (fun c => decide (c ≥ 0))
              max_ofs (max_ofs + 1) last_ofs ofs with
          | none => none
          | some (last_ofs, ofs) =>
            let ofs := if ofs > max_ofs then max_ofs else ofs
            some (last_ofs + (hint + 1), ofs + hint)
      match bounds with
      | none => none
      | some (last_ofs, ofs) =>
        if last_ofs ≤ ofs ∧ ofs ≤ len then
          gallop_search_loop cmp key buf base (fun c => decide (c ≥ 0)) (ofs - last_ofs + 1)
            last_ofs ofs
        else none
  else none

/-! ## Merging -/

/-- The local variables of `merge_lo`, with the memory they point into. -/
structure MergeLo (α : Type) where
  mem : List α
  cursor1 : Nat
  cursor2 : Nat
  dest : Nat
  len1 : Nat
  len2 : Nat
  min_gallop : Nat
  deriving DecidableEq, Repr

/-- The first inner loop of `merge_lo` (one element at a time).  The Boolean is
`true` when the loop is left by `goto outer`, `false` when it is left by `break`. -/
def merge_lo_linear (cmp : α → α → Int) (tmp : List α) :
    Nat → MergeLo α → Nat → Nat → Option (Bool × MergeLo α)
  | 0, _, _, _ => none
  | fuel + 1, v, count1, count2 =>
    if v.len1 > 1 ∧ v.len2 > 0 then
      match gtk_tim_sort_compare cmp v.mem v.cursor2 tmp v.cursor1 with
      | none => none
      | some c =>
        if c < 0 then
          match ASSIGN v.mem v.dest v.mem v.cursor2 with
          | none => none
          | some mem =>
            let v1 := { v with mem := mem, dest := v.dest + 1, cursor2 := v.cursor2 + 1,
                               len2 := v.len2 - 1 }
            let count2 := count2 + 1
            if v1.len2 = 0 then some (true, v1)
            else if count2 ≥ v1.min_gallop then some (false, v1)
            else merge_lo_linear cmp tmp fuel v1 0 count2
        else
          match ASSIGN v.mem v.dest tmp v.cursor1 with
          | none => none
          | some mem =>
            let v1 := { v with mem := mem, dest := v.dest + 1, cursor1 := v.cursor1 + 1,
                               len1 := v.len1 - 1 }
            let count1 := count1 + 1
            if v1.len1 = 1 then some (true, v1)
            else if count1 ≥ v1.min_gallop then some (false, v1)
            else merge_lo_linear cmp tmp fuel v1 count1 0
    else none

/-- The block `if (count1 != 0) { memcpy (dest, cursor1, LEN (count1)); ... }` of
the galloping loop of `merge_lo`, without the `goto` that ends it. -/
def merge_lo_copy1 (tmp : List α) (v : MergeLo α) (count1 : Nat) : Option (MergeLo α) :=
  if count1 ≠ 0 then
    match memcpy v.mem v.dest tmp v.cursor1 count1 with
    | none => none
    | some mem =>
      some { v with mem := mem, dest := v.dest + count1, cursor1 := v.cursor1 + count1,
                    len1 := v.len1 - count1 }
  else some v

/-- The block `if (count2 != 0) { memmove (dest, cursor2, LEN (count2)); ... }` of
the galloping loop of `merge_lo`, without the `goto` that ends it. -/
def merge_lo_copy2 (v : MergeLo α) (count2 : Nat) : Option (MergeLo α) :=
  if count2 ≠ 0 then
    match memmove v.mem v.dest v.cursor2 count2 with
    | none => none
    | some mem =>
      some { v with mem := mem, dest := v.dest + count2, cursor2 := v.cursor2 + count2,
                    len2 := v.len2 - count2 }
  else some v

/-- The second inner loop of `merge_lo` (galloping).  The Boolean is `true` when
the loop is left by `goto outer`, `false` when its condition fails. -/
def merge_lo_gallop (cmp : α → α → Int) (tmp : List α) :
    Nat → MergeLo α → Option (Bool × MergeLo α)
  | 0, _ => none
  | fuel + 1, v =>
    if v.len1 > 1 ∧ v.len2 > 0 then
      match load v.mem v.cursor2 with
      | none => none
      | some key2 =>
      match gallop_right cmp key2 tmp v.cursor1 v.len1 0 with
      | none => none
      | some count1 =>
      match merge_lo_copy1 tmp v count1 with
      | none => none
      | some v1 =>
      if count1 ≠ 0 ∧ v1.len1 ≤ 1 then some (true, v1)
      else
      match ASSIGN v1.mem v1.dest v1.mem v1.cursor2 with
      | none => none
      | some mem =>
      let v2 := { v1 with mem := mem, dest := v1.dest + 1, cursor2 := v1.cursor2 + 1,
                          len2 := v1.len2 - 1 }
      if v2.len2 = 0 then some (true, v2)
      else
      match load tmp v2.cursor1 with
      | none => none
      | some key1 =>
      match gallop_left cmp key1 v2.mem v2.cursor2 v2.len2 0 with
      | none => none
      | some count2 =>
      match merge_lo_copy2 v2 count2 with
      | none => none
      | some v3 =>
      if count2 ≠ 0 ∧ v3.len2 = 0 then some (true, v3)
      else
      match ASSIGN v3.mem v3.dest tmp v3.cursor1 with
      | none => none
      | some mem =>
      let v4 := { v3 with mem := mem, dest := v3.dest + 1, cursor1 := v3.cursor1 + 1,
                          len1 := v3.len1 - 1 }
      if v4.len1 = 1 then some (true, v4)
      else
      let v5 := if v4.min_gallop > 0 then { v4 with min_gallop := v4.min_gallop - 1 } else v4
      if count1 ≥ MIN_GALLOP ∨ count2 ≥ MIN_GALLOP then merge_lo_gallop cmp tmp fuel v5
      else some (false, v5)
    else none

/-- The loop `while (TRUE)` of `merge_lo`, up to the label `outer`. -/
def merge_lo_outer (cmp : α → α → Int) (tmp : List α) : Nat → MergeLo α → Option (MergeLo α)
  | 0, _ => none
  | fuel + 1, v =>
    match merge_lo_linear cmp tmp (v.len1 + v.len2) v 0 0 with
    | none => none
    | some (true, v1) => some v1
    | some (false, v1) =>
      match merge_lo_gallop cmp tmp (v1.len1 + v1.len2) v1 with
      | none => none
      | some (true, v2) => some v2
      | some (false, v2) =>
        merge_lo_outer cmp tmp fuel { v2 with min_gallop := v2.min_gallop + 2 }

def merge_lo (cmp : α → α → Int) (self : GtkTimSort α) (base1 len1 base2 len2 : Nat) :
    Option (GtkTimSort α) :=
  let self := gtk_tim_sort_ensure_capacity self len1
  if len1 > 0 ∧ len2 > 0 ∧ base1 + len1 = base2 then
    match memcpy_tmp self.mem base1 len1 with
    | none => none
    | some tmp =>
    let cursor1 := 0
    let cursor2 := base2
    let dest := base1
    match ASSIGN self.mem dest self.mem cursor2 with
    | none => none
    | some mem =>
    let dest := dest + 1
    let cursor2 := cursor2 + 1
    let len2 := len2 - 1
    if len2 = 0 then
      match memcpy mem dest tmp cursor1 len1 with
      | none => none
      | some mem1 => some { self with mem := mem1 }
    else if len1 = 1 then
      match memmove mem dest cursor2 len2 with
      | none => none
      | some mem1 =>
        match ASSIGN mem1 (dest + len2) tmp cursor1 with
        | none => none
        | some mem2 => some { self with mem := mem2 }
    else
      let min_gallop := self.min_gallop
      match merge_lo_outer cmp tmp (len1 + len2)
          { mem := mem, cursor1 := cursor1, cursor2 := cursor2, dest := dest, len1 := len1,
            len2 := len2, min_gallop := min_gallop } with
      | none => none
      | some v =>
        let self := { self with min_gallop := if v.min_gallop < 1 then 1 else v.min_gallop }
        if v.len1 = 1 then
          if v.len2 > 0 then
            match memmove v.mem v.dest v.cursor2 v.len2 with
            | none => none
            | some mem1 =>
              match ASSIGN mem1 (v.dest + v.len2) tmp v.cursor1 with
              | none => none
              | some mem2 => some { self with mem := mem2 }
          else none
        else if v.len1 = 0 then
          some { self with mem := v.mem }
        else
          if v.len2 = 0 ∧ v.len1 > 1 then
            match memcpy v.mem v.dest tmp v.cursor1 v.len1 with
            | none => none
            | some mem1 => some { self with mem := mem1 }
          else none
  else none

/-- The local variables of `merge_hi`.  Its cursors move downwards and come to
rest one element below the range they traverse, so they are integers. -/
structure MergeHi (α : Type) where
  mem : List α
  cursor1 : Int
  cursor2 : Int
  dest : Int
  len1 : Nat
  len2 : Nat
  min_gallop : Nat
  deriving DecidableEq, Repr

/-- The first inner loop of `merge_hi`; `true` when it is left by `goto outer`. -/
def merge_hi_linear (cmp : α → α → Int) (tmp : List α) :
    Nat → MergeHi α → Nat → Nat → Option (Bool × MergeHi α)
  | 0, _, _, _ => none
  | fuel + 1, v, count1, count2 =>
    if v.len1 > 0 ∧ v.len2 > 1 then
      match gtk_tim_sort_compareI cmp tmp v.cursor2 v.mem v.cursor1 with
      | none => none
      | some c =>
        if c < 0 then
          match ASSIGNI v.mem v.dest v.mem v.cursor1 with
          | none => none
          | some mem =>
            let v1 := { v with mem := mem, dest := v.dest - 1, cursor1 := v.cursor1 - 1,
                               len1 := v.len1 - 1 }
            let count1 := count1 + 1
            let count2 := 0
            if v1.len1 = 0 then some (true, v1)
            else if (count1 ||| count2) < v1.min_gallop then
              merge_hi_linear cmp tmp fuel v1 count1 count2
            else some (false, v1)
        else
          match ASSIGNI v.mem v.dest tmp v.cursor2 with
          | none => none
          | some mem =>
            let v1 := { v with mem := mem, dest := v.dest - 1, cursor2 := v.cursor2 - 1,
                               len2 := v.len2 - 1 }
            let count2 := count2 + 1
            let count1 := 0
            if v1.len2 = 1 then some (true, v1)
            else if (count1 ||| count2) < v1.min_gallop then
              merge_hi_linear cmp tmp fuel v1 count1 count2
            else some (false, v1)
    else none

/-- The block `if (count1 != 0) { ...; memmove (INCPTR (dest), INCPTR (cursor1),
LEN (count1)); }` of the galloping loop of `merge_hi`, without the `goto` that ends it. -/
def merge_hi_move1 (v : MergeHi α) (count1 : Nat) : Option (MergeHi α) :=
  if count1 ≠ 0 then
    let dest := v.dest - count1
    let cursor1 := v.cursor1 - count1
    match memmoveI v.mem (dest + 1) (cursor1 + 1) count1 with
    | none => none
    | some mem =>
      some { v with mem := mem, dest := dest, cursor1 := cursor1, len1 := v.len1 - count1 }
  else some v

/-- The block `if (count2 != 0) { ...; memcpy (INCPTR (dest), INCPTR (cursor2),
LEN (count2)); }` of the galloping loop of `merge_hi`, without the `goto` that ends it. -/
def merge_hi_move2 (tmp : List α) (v : MergeHi α) (count2 : Nat) : Option (MergeHi α) :=
  if count2 ≠ 0 then
    let dest := v.dest - count2
    let cursor2 := v.cursor2 - count2
    match memcpyI v.mem (dest + 1) tmp (cursor2 + 1) count2 with
    | none => none
    | some mem =>
      some { v with mem := mem, dest := dest, cursor2 := cursor2, len2 := v.len2 - count2 }
  else some v

/-- The second inner loop of `merge_hi` (galloping); `true` when it is left by
`goto outer`. -/
def merge_hi_gallop (cmp : α → α → Int) (tmp : List α) (base1 : Nat) :
    Nat → MergeHi α → Option (Bool × MergeHi α)
  | 0, _ => none
  | fuel + 1, v =>
    if v.len1 > 0 ∧ v.len2 > 1 then
      match loadI tmp v.cursor2 with
      | none => none
      | some key2 =>
      match gallop_right cmp key2 v.mem base1 v.len1 (v.len1 - 1) with
      | none => none
      | some k1 =>
      let count1 := v.len1 - k1
      match merge_hi_move1 v count1 with
      | none => none
      | some v1 =>
      if count1 ≠ 0 ∧ v1.len1 = 0 then some (true, v1)
      else
      match ASSIGNI v1.mem v1.dest tmp v1.cursor2 with
      | none => none
      | some mem =>
      let v2 := { v1 with mem := mem, dest := v1.dest - 1, cursor2 := v1.cursor2 - 1,
                          len2 := v1.len2 - 1 }
      if v2.len2 = 1 then some (true, v2)
      else
      match loadI v2.mem v2.cursor1 with
      | none => none
      | some key1 =>
      match gallop_left cmp key1 tmp 0 v2.len2 (v2.len2 - 1) with
      | none => none
      | some k2 =>
      let count2 := v2.len2 - k2
      match merge_hi_move2 tmp v2 count2 with
      | none => none
      | some v3 =>
      if count2 ≠ 0 ∧ v3.len2 ≤ 1 then some (true, v3)
      else
      match ASSIGNI v3.mem v3.dest v3.mem v3.cursor1 with
      | none => none
      | some mem =>
      let v4 := { v3 with mem := mem, dest := v3.dest - 1, cursor1 := v3.cursor1 - 1,
                          len1 := v3.len1 - 1 }
      if v4.len1 = 0 then some (true, v4)
      else
      let v5 := if v4.min_gallop > 0 then { v4 with min_gallop := v4.min_gallop - 1 } else v4
      if count1 ≥ MIN_GALLOP ∨ count2 ≥ MIN_GALLOP then merge_hi_gallop cmp tmp base1 fuel v5
      else some (false, v5)
    else none

/-- The loop `while (TRUE)` of `merge_hi`, up to the label `outer`. -/
def merge_hi_outer (cmp : α → α → Int) (tmp : List α) (base1 : Nat) :
    Nat → MergeHi α → Option (MergeHi α)
  | 0, _ => none
  | fuel + 1, v =>
    match merge_hi_linear cmp tmp (v.len1 + v.len2) v 0 0 with
    | none => none
    | some (true, v1) => some v1
    | some (false, v1) =>
      match merge_hi_gallop cmp tmp base1 (v1.len1 + v1.len2) v1 with
      | none => none
      | some (true, v2) => some v2
      | some (false, v2) =>
        merge_hi_outer cmp tmp base1 fuel { v2 with min_gallop := v2.min_gallop + 2 }

def merge_hi (cmp : α → α → Int) (self : GtkTimSort α) (base1 len1 base2 len2 : Nat) :
    Option (GtkTimSort α) :=
  let self := gtk_tim_sort_ensure_capacity self len2
  if len1 > 0 ∧ len2 > 0 ∧ base1 + len1 = base2 then
    match memcpy_tmp self.mem base2 len2 with
    | none => none
    | some tmp =>
    let cursor1 : Int := (base1 : Int) + ((len1 : Int) - 1)
    let cursor2 : Int := (len2 : Int) - 1
    let dest : Int := (base2 : Int) + ((len2 : Int) - 1)
    match ASSIGNI self.mem dest self.mem cursor1 with
    | none => none
    | some mem =>
    let dest := dest - 1
    let cursor1 := cursor1 - 1
    let len1 := len1 - 1
    if len1 = 0 then
      match memcpyI mem (dest - ((len2 : Int) - 1)) tmp 0 len2 with
      | none => none
      | some mem1 => some { self with mem := mem1 }
    else if len2 = 1 then
      let dest := dest - (len1 : Int)
      let cursor1 := cursor1 - (len1 : Int)
      match memmoveI mem (dest + 1) (cursor1 + 1) len1 with
      | none => none
      | some mem1 =>
        match ASSIGNI mem1 dest tmp cursor2 with
        | none => none
        | some mem2 => some { self with mem := mem2 }
    else
      let min_gallop := self.min_gallop
      match merge_hi_outer cmp tmp base1 (len1 + len2)
          { mem := mem, cursor1 := cursor1, cursor2 := cursor2, dest := dest, len1 := len1,
            len2 := len2, min_gallop := min_gallop } with
      | none => none
      | some v =>
        let self := { self with min_gallop := if v.min_gallop < 1 then 1 else v.min_gallop }
        if v.len2 = 1 then
          if v.len1 > 0 then
            let dest := v.dest - (v.len1 : Int)
            let cursor1 := v.cursor1 - (v.len1 : Int)
            match memmoveI v.mem (dest + 1) (cursor1 + 1) v.len1 with
            | none => none
            | some mem1 =>
              match ASSIGNI mem1 dest tmp v.cursor2 with
              | none => none
              | some mem2 => some { self with mem := mem2 }
          else none
        else if v.len2 = 0 then
          some { self with mem := v.mem }
        else
          if v.len1 = 0 ∧ v.len2 > 0 then
            match memcpyI v.mem (v.dest - ((v.len2 : Int) - 1)) tmp 0 v.len2 with
            | none => none
            | some mem1 => some { self with mem := mem1 }
          else none
  else none

/-! ## The run stack -/

/-- The code of `merge_at` from the label `done` on.  The test
`i == self->pending_runs - 3` is one of `gsize` values, the subtraction wraps. -/
def merge_at_done (self : GtkTimSort α) (i : Nat) : Option (GtkTimSort α) :=
  match self.run[i]?, self.run[i + 1]? with
  | some ri, some ri1 =>
    let run := self.run.set i { ri with len := ri.len + ri1.len }
    if i = (self.pending_runs + GSIZE_MOD - 3) % GSIZE_MOD then
      match run[i + 2]? with
      | some ri2 => some { self with run := (run.set (i + 1) ri2).dropLast }
      | none => none
    else some { self with run := run.dropLast }
  | _, _ => none

def merge_at (cmp : α → α → Int) (self : GtkTimSort α) (i : Nat)
    (out_change : Option GtkTimSortChange) :
    Option (GtkTimSort α × Option GtkTimSortChange) :=
  match self.run[i]?, self.run[i + 1]? with
  | some ri, some ri1 =>
    let base1 := ri.base
    let len1 := ri.len
    let base2 := ri1.base
    let len2 := ri1.len
    if self.pending_runs ≥ 2
        ∧ (i = (self.pending_runs + GSIZE_MOD - 2) % GSIZE_MOD
            ∨ i = (self.pending_runs + GSIZE_MOD - 3) % GSIZE_MOD)
        ∧ (len1 > 0 ∧ len2 > 0) ∧ base1 + len1 = base2 then
      match load self.mem base2 with
      | none => none
      | some key2 =>
      match gallop_right cmp key2 self.mem base1 len1 0 with
      | none => none
      | some k =>
      let base1 := base1 + k
      let len1 := len1 - k
      if len1 = 0 then
        match merge_at_done self i with
        | none => none
        | some self1 => some (self1, gtk_tim_sort_set_change out_change none 0)
      else
      match load self.mem (base1 + (len1 - 1)) with
      | none => none
      | some key1 =>
      match gallop_left cmp key1 self.mem base2 len2 (len2 - 1) with
      | none => none
      | some len2 =>
      if len2 = 0 then
        match merge_at_done self i with
        | none => none
        | some self1 => some (self1, gtk_tim_sort_set_change out_change none 0)
      else if len1 ≤ len2 then
        if len1 > self.max_merge_size then
          let base1 := ri.base + (ri.len - self.max_merge_size)
          match merge_lo cmp self base1 self.max_merge_size base2 len2 with
          | none => none
          | some self1 =>
            let out_change := gtk_tim_sort_set_change out_change (some base1)
              (self.max_merge_size + len2)
            let run := self1.run.set i { ri with len := ri.len - self.max_merge_size }
            let run := run.set (i + 1)
              { base := ri1.base - self.max_merge_size, len := ri1.len + self.max_merge_size }
            if ri.base + (ri.len - self.max_merge_size) = ri1.base - self.max_merge_size then
              some ({ self1 with run := run }, out_change)
            else none
        else
          match merge_lo cmp self base1 len1 base2 len2 with
          | none => none
          | some self1 =>
            match merge_at_done self1 i with
            | none => none
            | some self2 =>
              some (self2, gtk_tim_sort_set_change out_change (some base1) (len1 + len2))
      else
        if len2 > self.max_merge_size then
          match merge_hi cmp self base1 len1 base2 self.max_merge_size with
          | none => none
          | some self1 =>
            let out_change := gtk_tim_sort_set_change out_change (some base1)
              (len1 + self.max_merge_size)
            let run := self1.run.set i { ri with len := ri.len + self.max_merge_size }
            let run := run.set (i + 1)
              { base := ri1.base + self.max_merge_size, len := ri1.len - self.max_merge_size }
            if ri.base + (ri.len + self.max_merge_size) = ri1.base + self.max_merge_size then
              some ({ self1 with run := run }, out_change)
            else none
        else
          match merge_hi cmp self base1 len1 base2 len2 with
          | none => none
          | some self1 =>
            match merge_at_done self1 i with
            | none => none
            | some self2 =>
              some (self2, gtk_tim_sort_set_change out_change (some base1) (len1 + len2))
    else none
  | _, _ => none

/-- The length of the run `run[i]` of the stack. -/
def run_len (self : GtkTimSort α) (i : Nat) : Option Nat :=
  match self.run[i]? with
  | some r => some r.len
  | none => none

/-- The first condition of `merge_collapse`:
`n > 0 && run[n - 1].len <= run[n].len + run[n + 1].len`. -/
def merge_collapse_cond1 (self : GtkTimSort α) (n : Nat) : Option Bool :=
  if n > 0 then
    match run_len self (n - 1), run_len self n, run_len self (n + 1) with
    | some a, some b, some c => some (decide (a ≤ b + c))
    | _, _, _ => none
  else some false

/-- The second condition of `merge_collapse`:
`n > 1 && run[n - 2].len <= run[n].len + run[n - 1].len`. -/
def merge_collapse_cond2 (self : GtkTimSort α) (n : Nat) : Option Bool :=
  if n > 1 then
    match run_len self (n - 2), run_len self n, run_len self (n - 1) with
    | some a, some b, some c => some (decide (a ≤ b + c))
    | _, _, _ => none
  else some false

/-- The function `merge_collapse`; the second condition is evaluated only when
the first one fails. -/
def merge_collapse (cmp : α → α → Int) (self : GtkTimSort α)
    (out_change : Option GtkTimSortChange) :
    Option (Bool × GtkTimSort α × Option GtkTimSortChange) :=
  if self.pending_runs ≤ 1 then some (false, self, out_change)
  else
    let n := self.pending_runs - 2
    let violated : Option Bool :=
      match merge_collapse_cond1 self n with
      | none => none
      | some true => some true
      | some false => merge_collapse_cond2 self n
    match violated with
    | none => none
    | some true =>
      match run_len self (n - 1), run_len self (n + 1) with
      | some a, some c =>
        let n := if a < c then n - 1 else n
        match merge_at cmp self n out_change with
        | none => none
        | some (self1, out_change) => some (true, self1, out_change)
      | _, _ => none
    | some false =>
      match run_len self n, run_len self (n + 1) with
      | some b, some c =>
        if b > c then some (false, self, out_change)
        else
          match merge_at cmp self n out_change with
          | none => none
          | some (self1, out_change) => some (true, self1, out_change)
      | _, _ => none

def merge_force_collapse (cmp : α → α → Int) (self : GtkTimSort α)
    (out_change : Option GtkTimSortChange) :
    Option (Bool × GtkTimSort α × Option GtkTimSortChange) :=
  if self.pending_runs ≤ 1 then some (false, self, out_change)
  else
    let n := self.pending_runs - 2
    let lower : Option Bool :=
      if n > 0 then
        match run_len self (n - 1), run_len self (n + 1) with
        | some a, some c => some (decide (a < c))
        | _, _ => none
      else some false
    match lower with
    | none => none
    | some b =>
      let n := if b then n - 1 else n
      match merge_at cmp self n out_change with
      | none => none
      | some (self1, out_change) => some (true, self1, out_change)

/-- The template function `step`, the same for every width. -/
def step (cmp : α → α → Int) (self : GtkTimSort α) (out_change : Option GtkTimSortChange) :
    Option (Bool × GtkTimSort α × Option GtkTimSortChange) :=
  match merge_collapse cmp self out_change with
  | none => none
  | some (true, self1, out_change) => some (true, self1, out_change)
  | some (false, self1, out_change) =>
    match merge_append cmp self1 out_change with
    | none => none
    | some (true, self2, out_change) => some (true, self2, out_change)
    | some (false, self2, out_change) =>
      match merge_force_collapse cmp self2 out_change with
      | none => none
      | some (true, self3, out_change) => some (true, self3, out_change)
      | some (false, self3, out_change) => some (false, self3, out_change)

/-! ## Entry points -/

/-- The instance of `step` for 4-byte elements. -/
def gtk_tim_sort_step_4 (cmp : α → α → Int) (self : GtkTimSort α)
    (out_change : Option GtkTimSortChange) :
    Option (Bool × GtkTimSort α × Option GtkTimSortChange) :=
  step cmp self out_change

/-- The instance of `step` for 8-byte elements. -/
def gtk_tim_sort_step_8 (cmp : α → α → Int) (self : GtkTimSort α)
    (out_change : Option GtkTimSortChange) :
    Option (Bool × GtkTimSort α × Option GtkTimSortChange) :=
  step cmp self out_change

/-- The instance of `step` for 16-byte elements. -/
def gtk_tim_sort_step_16 (cmp : α → α → Int) (self : GtkTimSort α)
    (out_change : Option GtkTimSortChange) :
    Option (Bool × GtkTimSort α × Option GtkTimSortChange) :=
  step cmp self out_change

/-- The instance of `step` for every other element size. -/
def gtk_tim_sort_step_default (cmp : α → α → Int) (self : GtkTimSort α)
    (out_change : Option GtkTimSortChange) :
    Option (Bool × GtkTimSort α × Option GtkTimSortChange) :=
  step cmp self out_change

def gtk_tim_sort_step (cmp : α → α → Int) (self : GtkTimSort α)
    (out_change : Option GtkTimSortChange) :
    Option (Bool × GtkTimSort α × Option GtkTimSortChange) :=
  match self.element_size with
  | 4 => gtk_tim_sort_step_4 cmp self out_change
  | 8 => gtk_tim_sort_step_8 cmp self out_change
  | 16 => gtk_tim_sort_step_16 cmp self out_change
  | _ => gtk_tim_sort_step_default cmp self out_change

/-- The loop `while (gtk_tim_sort_step (&self, NULL));` run for at most `fuel`
calls: the sorter after the call that returned `FALSE`. -/
def gtk_tim_sort_loop (cmp : α → α → Int) : Nat → GtkTimSort α → Option (GtkTimSort α)
  | 0, _ => none
  | fuel + 1, self =>
    match gtk_tim_sort_step cmp self none with
    | none => none
    | some (true, self1, _) => gtk_tim_sort_loop cmp fuel self1
    | some (false, self1, _) => some self1

/-- The function `gtk_tim_sort`: the array after sorting, when the loop ends
within `fuel` calls of `gtk_tim_sort_step`. -/
def gtk_tim_sort (cmp : α → α → Int) (fuel : Nat) (base : List α) (size element_size : Nat) :
    Option (List α) :=
  match gtk_tim_sort_loop cmp fuel (gtk_tim_sort_init base size element_size) with
  | none => none
  | some self => some self.mem

/-! ## Specification vocabulary -/

/-- The comparison function is that of a total preorder: the sign of
`cmp x y` is the opposite of the sign of `cmp y x`, and `cmp · · ≤ 0` is
transitive. -/
structure TotalPreorder (cmp : α → α → Int) : Prop where
  swap : ∀ x y, cmp x y < 0 ↔ 0 < cmp y x
  trans : ∀ x y z, cmp x y ≤ 0 → cmp y z ≤ 0 → cmp x z ≤ 0

/-- The list is non-decreasing under the comparison function. -/
def Sorted (cmp : α → α → Int) (l : List α) : Prop :=
  l.Pairwise (fun x y => cmp x y ≤ 0)

/-- The records of `l` that compare equal to `k`, in the order of `l`. -/
def equal_to (cmp : α → α → Int) (k : α) (l : List α) : List α :=
  l.filter (fun x => decide (cmp x k = 0))

/-- The list `l'` is a stable rearrangement of `l`: a permutation in which the
records that compare equal keep their relative order. -/
def Stable (cmp : α → α → Int) (l l' : List α) : Prop :=
  l.Perm l' ∧ ∀ k, equal_to cmp k l' = equal_to cmp k l

/-- One round of the element-wise merge: the elements of the second list that
are strictly smaller than `x` are taken, then `x`, then `rest` merges what is
left of the second list with what follows `x` in the first. -/
def naive_merge_head (cmp : α → α → Int) (x : α) (rest : List α → List α) : List α → List α
  | [] => x :: rest []
  | y :: ys => if cmp y x < 0 then y :: naive_merge_head cmp x rest ys else x :: rest (y :: ys)

/-- The element-wise stable merge of two lists: the head of the second list is
taken only when it is strictly smaller than the head of the first. -/
def naive_merge (cmp : α → α → Int) : List α → List α → List α
  | [] => fun ys => ys
  | x :: xs => naive_merge_head cmp x (naive_merge cmp xs)

/-- The list is strictly decreasing under the comparison function. -/
def StrictDesc (cmp : α → α → Int) (l : List α) : Prop :=
  l.Pairwise (fun x y => cmp y x < 0)

/-- The list `m'` has the elements of `m` at every index outside `[lo, lo + len)`. -/
def AgreeOutside (lo len : Nat) (m m' : List α) : Prop :=
  m'.length = m.length ∧ ∀ i, (i < lo ∨ lo + len ≤ i) → m'[i]? = m[i]?

/-- The range `[lo, lo + len)` is not empty and is the smallest range outside of
which `m'` has the elements of `m`: `m'` has a strictly smaller element than `m`
at its first index and a strictly greater one at its last index. -/
def Changed (cmp : α → α → Int) (lo len : Nat) (m m' : List α) : Prop :=
  0 < len ∧ AgreeOutside lo len m m' ∧
    (∃ x x0, m'[lo]? = some x ∧ m[lo]? = some x0 ∧ cmp x x0 < 0) ∧
    (∃ z z0, m'[lo + len - 1]? = some z ∧ m[lo + len - 1]? = some z0 ∧ cmp z0 z < 0)

/-- The value `binary_sort` leaves in `inout_change` once it has moved elements
of `[change_min, change_max)`: that range, joined with the range `inout_change`
held when it holds one. -/
def union_change (inout_change : Option GtkTimSortChange) (change_min change_max : Nat) :
    Option GtkTimSortChange :=
  match inout_change with
  | none => none
  | some c =>
    match c.base with
    | some cbase =>
      if c.len ≠ 0 then
        some { base := some (min change_min cbase),
               len := max change_max (cbase + c.len) - min change_min cbase }
      else some { base := some change_min, len := change_max - change_min }
    | none => some { base := some change_min, len := change_max - change_min }

/-- The state of `merge_lo` between two of its steps, for the memory
`P ++ (merged range) ++ Q`: the elements `D` are merged already, `X` is what is left
of the first run (in `tmp`, from `cursor1` on) and `Y` what is left of the second run
(in the array, from `cursor2` on); between `D` and `Y` lie `len1` elements that
will be overwritten. -/
def MergeLoState (P Q tmp : List α) (v : MergeLo α) (D X Y : List α) : Prop :=
  ∃ G U, v.mem = P ++ (D ++ (G ++ (Y ++ Q))) ∧ G.length = X.length ∧ tmp = U ++ X ∧
    U.length = v.cursor1 ∧ v.dest = P.length + D.length ∧ v.cursor2 = v.dest + X.length ∧
    v.len1 = X.length ∧ v.len2 = Y.length

/-- The two runs a merge works on: both are sorted and the last element of the
first is strictly greater than every element of the second. -/
def MergeOrder (cmp : α → α → Int) (X Y : List α) : Prop :=
  Sorted cmp X ∧ Sorted cmp Y ∧ ∃ X0 xl, X = X0 ++ [xl] ∧ ∀ y ∈ Y, cmp y xl < 0

/-- What a merge function leaves alone in the sorter: everything but the memory,
`min_gallop` and the capacity of `tmp`. -/
def MergeFrame (self self' : GtkTimSort α) : Prop :=
  self'.run = self.run ∧ self'.base = self.base ∧ self'.size = self.size ∧
    self'.max_merge_size = self.max_merge_size ∧ self'.min_run = self.min_run ∧
    self'.element_size = self.element_size

/-- The state of `merge_hi` between two of its steps, for the memory
`P ++ (merged range) ++ Q`: the elements `D` are merged already (they end the
range), `X` is what is left of the first run (in the array, up to `cursor1`) and
`Y` what is left of the second run (in `tmp`, up to `cursor2`); between `X` and
`D` lie `len2` elements that will be overwritten. -/
def MergeHiState (P Q tmp : List α) (v : MergeHi α) (D X Y : List α) : Prop :=
  ∃ G V, v.mem = P ++ (X ++ (G ++ (D ++ Q))) ∧ G.length = Y.length ∧ tmp = Y ++ V ∧
    v.cursor1 = ((P.length + X.length : Nat) : Int) - 1 ∧
    v.cursor2 = ((Y.length : Nat) : Int) - 1 ∧
    v.dest = ((P.length + X.length + Y.length : Nat) : Int) - 1 ∧
    v.len1 = X.length ∧ v.len2 = Y.length

/-- The two runs `merge_hi` works on: both are sorted and the first element of
the second is strictly smaller than every element of the first. -/
def MergeOrderHi (cmp : α → α → Int) (X Y : List α) : Prop :=
  Sorted cmp X ∧ Sorted cmp Y ∧ ∃ y0 Y0, Y = y0 :: Y0 ∧ ∀ x ∈ X, cmp y0 x < 0

/-! ## Resumable states -/

/-- The stack entries of consecutive runs laid out from the index `b` on. -/
def runs_of : Nat → List (List α) → List GtkTimSortRun
  | _, [] => []
  | b, s :: ss => { base := b, len := s.length } :: runs_of (b + s.length) ss

/-- The sorter holds the pending runs `segs`, one after the other from the start of
the array, each of them non-empty and sorted, followed by the unconsumed `tail`. -/
def Layout (cmp : α → α → Int) (self : GtkTimSort α) (segs : List (List α)) (tail : List α) :
    Prop :=
  self.mem = segs.flatten ++ tail ∧ self.run = runs_of 0 segs ∧
    self.base = segs.flatten.length ∧ self.size = tail.length ∧
    ∀ s ∈ segs, s ≠ [] ∧ Sorted cmp s

/-- The number of pairs of positions of the list that are out of order. -/
def inversions (cmp : α → α → Int) : List α → Nat
  | [] => 0
  | x :: xs => xs.countP (fun y => decide (cmp y x < 0)) + inversions cmp xs

/-- The number of pairs of an element of `l` and an element of `r` that are out of
order when `l` comes first. -/
def cross_inversions (cmp : α → α → Int) (l r : List α) : Nat :=
  (l.map (fun x => r.countP (fun y => decide (cmp y x < 0)))).sum

/-- What a call leaves in `out_change` for the memory `m` it found and the memory
`m'` it left: `(NULL, 0)` when it changed nothing, and otherwise the smallest range
that holds every change. -/
def Reported (cmp : α → α → Int) (oc oc' : Option GtkTimSortChange) (m m' : List α) : Prop :=
  (m' = m ∧ oc' = gtk_tim_sort_set_change oc none 0) ∨
    ∃ lo len, Changed cmp lo len m m' ∧ oc' = gtk_tim_sort_set_change oc (some lo) len

/-- The fields of the sorter that no merge modifies. -/
def SameParams (self self' : GtkTimSort α) : Prop :=
  self'.base = self.base ∧ self'.size = self.size ∧
    self'.max_merge_size = self.max_merge_size ∧ self'.min_run = self.min_run ∧
    self'.element_size = self.element_size

/-- The states of a sorter for the array `base` of `size` elements: the one
`gtk_tim_sort_init` builds, and those that calls of `gtk_tim_sort_set_max_merge_size`
and of `gtk_tim_sort_step` lead to. -/
inductive Reachable (cmp : α → α → Int) (base : List α) (size element_size : Nat) :
    GtkTimSort α → Prop
  | init : Reachable cmp base size element_size (gtk_tim_sort_init base size element_size)
  | set_max (s : GtkTimSort α) (m : Nat) : Reachable cmp base size element_size s →
      Reachable cmp base size element_size (gtk_tim_sort_set_max_merge_size s m)
  | step (s s' : GtkTimSort α) (oc oc' : Option GtkTimSortChange) (b : Bool) :
      Reachable cmp base size element_size s →
      gtk_tim_sort_step cmp s oc = some (b, s', oc') →
      Reachable cmp base size element_size s'

/-- The elements of the array that the run `r` of the stack covers. -/
def run_slice (mem : List α) (r : GtkTimSortRun) : List α :=
  (mem.drop r.base).take r.len

/-- The invariant of the sorter between two calls of `gtk_tim_sort_step`, for the
array `input` it was initialised with: the memory is a stable rearrangement of
`input` made of sorted pending runs and of the unconsumed tail, the cap on merges
is positive and the number of elements fits `gsize`. -/
def Resumable (cmp : α → α → Int) (input : List α) (self : GtkTimSort α) : Prop :=
  (∃ segs tail, Layout cmp self segs tail) ∧ Stable cmp input self.mem ∧
    1 ≤ self.max_merge_size ∧ input.length < GSIZE_MOD

/-- The comparison of integers by their difference. -/
def int_cmp (x y : Int) : Int := x - y

/-- What a call of `gtk_tim_sort_step` that returns `TRUE` does to the sorter: the
memory is rearranged stably, `out_change` reports it, the sorter is again made of
sorted runs and a tail, and either the tail is shorter or it is the same and the
number of inversions plus the number of pending runs is smaller. -/
def StepOutcome (cmp : α → α → Int) (self self' : GtkTimSort α)
    (oc oc' : Option GtkTimSortChange) : Prop :=
  Stable cmp self.mem self'.mem ∧ Reported cmp oc oc' self.mem self'.mem ∧
    (∃ segs tail, Layout cmp self' segs tail) ∧
    self'.max_merge_size = self.max_merge_size ∧ self'.element_size = self.element_size ∧
    self'.min_run = self.min_run ∧
    (self'.size < self.size ∨ (self'.size = self.size ∧
      inversions cmp self'.mem + self'.pending_runs <
        inversions cmp self.mem + self.pending_runs))

/-- The comparison of records made of an integer key and a tag, by the difference
of their keys. -/
def key_cmp (x y : Int × Nat) : Int := x.1 - y.1

/-! ## Saved runs and progress -/

/-- The function `gtk_tim_sort_get_runs`: the entries it writes to `runs`, the
lengths of the pending runs and the closing `0`. -/
def gtk_tim_sort_get_runs (self : GtkTimSort α) : List Nat :=
  self.run.map (fun r => r.len) ++ [0]

/-- The loop `for (i = 0; runs[i] != 0; i++)` of `gtk_tim_sort_set_runs` on what
is left of the array `runs`; reading behind its last entry is an error. -/
def set_runs_loop : List Nat → GtkTimSort α → Option (GtkTimSort α)
  | [], _ => none
  | r :: runs, self =>
    if r ≠ 0 then
      match gtk_tim_sort_push_run self self.base r with
      | none => none
      | some self1 => set_runs_loop runs self1
    else some self

/-- The function `gtk_tim_sort_set_runs`; it returns at once when a run is
pending. -/
def gtk_tim_sort_set_runs (self : GtkTimSort α) (runs : List Nat) : Option (GtkTimSort α) :=
  if self.pending_runs = 0 then set_runs_loop runs self else some self

/-- The constant `DEPTH` of `gtk_tim_sort_get_progress`: the runs after the first
`DEPTH + 1` do not count. -/
def DEPTH : Nat := 4

/-- The `for` loop of `gtk_tim_sort_get_progress`, at most `DEPTH` rounds: the
values of `i`, `last` and `progress` it ends with.  The sums and products are
those of `gsize`. -/
def get_progress_loop (self : GtkTimSort α) : Nat → Nat → Nat → Nat → Option (Nat × Nat × Nat)
  | 0, _, _, _ => none
  | fuel + 1, i, last, progress =>
    if i < DEPTH + 1 ∧ i < self.pending_runs then
      match run_len self i with
      | none => none
      | some len =>
        get_progress_loop self fuel (i + 1) (min last len)
          ((progress + ((DEPTH + 1 - i) * max last len) % GSIZE_MOD) % GSIZE_MOD)
    else some (i, last, progress)

/-- The function `gtk_tim_sort_get_progress`: `0` when no run is pending, else the
weighted sum of the loop, completed by the smallest length seen when fewer than
`DEPTH + 1` runs are pending, divided by `DEPTH`. -/
def gtk_tim_sort_get_progress (self : GtkTimSort α) : Option Nat :=
  if self.pending_runs = 0 then some 0
  else
    match run_len self 0 with
    | none => none
    | some last =>
      match get_progress_loop self (DEPTH + 1) 1 last 0 with
      | none => none
      | some (i, last, progress) =>
        let progress :=
          if i < DEPTH + 1 then (progress + ((DEPTH + 1 - i) * last) % GSIZE_MOD) % GSIZE_MOD
          else progress
        some (progress / DEPTH)

/-- The value of `gtk_tim_sort_get_progress` in closed form, for the lengths of the
pending runs from the bottom of the stack on: only the first `DEPTH + 1` of them
count. -/
def progress_of : List Nat → Nat
  | [] => 0
  | [a] => 4 * a / 4
  | [a, b] => (4 * max a b + 3 * min a b) / 4
  | [a, b, c] => (4 * max a b + 3 * max (min a b) c + 2 * min (min a b) c) / 4
  | [a, b, c, d] =>
    (4 * max a b + 3 * max (min a b) c + 2 * max (min (min a b) c) d +
      1 * min (min (min a b) c) d) / 4
  | a :: b :: c :: d :: e :: _ =>
    (4 * max a b + 3 * max (min a b) c + 2 * max (min (min a b) c) d +
      1 * max (min (min (min a b) c) d) e) / 4

/-- The stack entries of consecutive runs of the lengths `rs` laid out from the
index `b` on. -/
def runs_from : Nat → List Nat → List GtkTimSortRun
  | _, [] => []
  | b, r :: rs => { base := b, len := r } :: runs_from (b + r) rs

/-- An array of 32 integers made of an ascending run of 20 elements, whose last two
are greater than everything else, followed by an ascending run of 12 elements. -/
def two_runs_input : List Int :=
  [0, 1, 2, 3, 4, 5, 6, 7, 8, 9, 10, 11, 12, 13, 14, 15, 16, 17, 100, 101,
    50, 51, 52, 53, 54, 55, 56, 57, 58, 59, 60, 61]

/-- The even numbers `0, 2, ..., 198`. -/
def evens : List Int := (List.range 100).map (fun (i : Nat) => 2 * (i : Int))

/-- The odd numbers `1, 3, ..., 199`. -/
def odds : List Int := (List.range 100).map (fun (i : Nat) => 2 * (i : Int) + 1)

/-- The sorter holds the pending runs `segs`, one after the other from the start of
the array, each of them non-empty, followed by the unconsumed `tail`.  The runs need
not be sorted: this is `Layout` for the comparison function that finds all elements
equal. -/
def Arranged (self : GtkTimSort α) (segs : List (List α)) (tail : List α) : Prop :=
  Layout (fun _ _ => 0) self segs tail

/-- What holds of the sorter between two calls of `gtk_tim_sort_step` whatever the
comparison function does, for the array `input` it was initialised with: the memory
is a permutation of `input` made of pending runs and of the unconsumed tail, the cap
on merges is positive and the number of elements fits `gsize`. -/
def MemorySafe (input : List α) (self : GtkTimSort α) : Prop :=
  (∃ segs tail, Arranged self segs tail) ∧ self.mem.Perm input ∧
    1 ≤ self.max_merge_size ∧ input.length < GSIZE_MOD

/-- The galloping searches stay in bounds under `cmp`: on a range `S` of a buffer,
with a hint inside the range, `gallop_left` and `gallop_right` return, having read
inside `S` only, and the offset `k` they return satisfies `k ≤ len`. -/
def GallopInBounds (cmp : α → α → Int) : Prop :=
  ∀ (key : α) (A S B : List α) (hint : Nat), hint < S.length → S.length < GSIZE_MOD →
    (∃ k, gallop_left cmp key (A ++ (S ++ B)) A.length S.length hint = some k ∧
      k ≤ S.length) ∧
    (∃ k, gallop_right cmp key (A ++ (S ++ B)) A.length S.length hint = some k ∧
      k ≤ S.length)

/-- The merges stay in bounds under `cmp`: on two adjacent non-empty ranges `X` and
`Y` of the array, `merge_lo` and `merge_hi` return, having read and written inside the
two ranges and the scratch array only, and they leave a permutation of `X ++ Y` in
the place of the two ranges and every other element where it was. -/
def MergeInBounds (cmp : α → α → Int) : Prop :=
  ∀ (self : GtkTimSort α) (P X Y Q : List α), self.mem = P ++ (X ++ (Y ++ Q)) →
    1 ≤ X.length → 1 ≤ Y.length → X.length + Y.length < GSIZE_MOD →
    (∃ self' M, merge_lo cmp self P.length X.length (P.length + X.length) Y.length =
        some self' ∧ self'.mem = P ++ (M ++ Q) ∧ M.Perm (X ++ Y)) ∧
    (∃ self' M, merge_hi cmp self P.length X.length (P.length + X.length) Y.length =
        some self' ∧ self'.mem = P ++ (M ++ Q) ∧ M.Perm (X ++ Y))

/-- The insertion sort stays in bounds under `cmp`: on a range `W` of the array, a
start index between 1 and its length, and an `inout_change` that is `NULL` or holds a
range whose base is `NULL` only when its length is 0, `binary_sort` returns, having
read and written inside `W` only, and leaves a permutation of `W` in its place and
every other element where it was. -/
def BinarySortInBounds (cmp : α → α → Int) : Prop :=
  ∀ (A W B : List α) (start : Nat) (ic : Option GtkTimSortChange), 0 < start →
    start ≤ W.length → (∀ c, ic = some c → c.base = none → c.len = 0) →
    ∃ W' oc', binary_sort cmp (A ++ (W ++ B)) A.length W.length start ic =
        some (A ++ (W' ++ B), oc') ∧ W'.Perm W

/-! ## The lengths on the run stack -/

/-- The lengths of the pending runs, the newest run first. -/
def stack_lens (self : GtkTimSort α) : List Nat :=
  (self.run.map (fun r => r.len)).reverse

/-- The test `merge_collapse` makes before it returns `FALSE`, on the lengths of
the pending runs, newest first: with `z`, `y`, `x`, `w` the lengths of `run[n + 1]`,
`run[n]`, `run[n - 1]`, `run[n - 2]`, neither `x <= y + z` nor `w <= y + x` holds,
and `y > z`. -/
def CollapseDone : List Nat → Prop
  | z :: y :: x :: w :: _ => ¬ x ≤ y + z ∧ ¬ w ≤ y + x ∧ y > z
  | [z, y, x] => ¬ x ≤ y + z ∧ y > z
  | [z, y] => y > z
  | _ => True

/-- What one call of `merge_at` by `merge_collapse` or `merge_force_collapse` does
to the lengths of the pending runs, newest first, under the cap `m`: the two newest
runs, or, when the third newest is shorter than the newest, the second and third
newest, are merged, or `m` elements pass from one of the two to the other. -/
inductive MergeMove (m : Nat) : List Nat → List Nat → Prop
  | full_top (z y : Nat) (rest : List Nat) : MergeMove m (z :: y :: rest) ((y + z) :: rest)
  | lo_top (z y : Nat) (rest : List Nat) : m < y → m < z →
      MergeMove m (z :: y :: rest) ((z + m) :: (y - m) :: rest)
  | hi_top (z y : Nat) (rest : List Nat) : m < z → m + 1 < y →
      MergeMove m (z :: y :: rest) ((z - m) :: (y + m) :: rest)
  | full_next (z y x : Nat) (rest : List Nat) : x < z →
      MergeMove m (z :: y :: x :: rest) (z :: (x + y) :: rest)
  | lo_next (z y x : Nat) (rest : List Nat) : x < z → m < x → m < y →
      MergeMove m (z :: y :: x :: rest) (z :: (y + m) :: (x - m) :: rest)
  | hi_next (z y x : Nat) (rest : List Nat) : x < z → m < y → m + 1 < x →
      MergeMove m (z :: y :: x :: rest) (z :: (y - m) :: (x + m) :: rest)

/-- Every run is longer than the two runs pushed after it taken together, on the
lengths of the pending runs, newest first. -/
def GInv : List Nat → Prop
  | z :: y :: x :: rest => x > y + z ∧ GInv (y :: x :: rest)
  | _ => True

/-- The invariant of the run stack: every run is longer than the next one, and
longer than the next two taken together. -/
def StackInv (t : List Nat) : Prop :=
  GInv t ∧ ∀ z y rest, t = z :: y :: rest → y > z

/-- The three newest runs, of lengths `z`, `y`, `x`, are in a state that only a
complete merge ends: `x <= y + z`, or `y` is too short for a capped merge and
`y <= z`. -/
def Tainted (m : Nat) : List Nat → Prop
  | z :: y :: x :: _ => x ≤ y + z ∨ (y ≤ m ∧ y ≤ z)
  | _ => False

/-- What holds of the lengths of the pending runs, newest first, between two calls
of `gtk_tim_sort_step` under the cap `m`: below the three newest runs every run is
longer than the next two together, and so is the fifth newest unless the three
newest are `Tainted`. -/
def MidInv (m : Nat) (t : List Nat) : Prop :=
  GInv (t.drop 3) ∧
    ∀ z y x w v rest, t = z :: y :: x :: w :: v :: rest → v > w + x ∨ Tainted m t

/-- The three newest runs hold at least `k` elements, and so do the two newest
unless the three newest are `Tainted`. -/
def Mass (k m : Nat) (t : List Nat) : Prop :=
  t = [] ∨ (k ≤ (t.take 3).sum ∧ (k ≤ (t.take 2).sum ∨ Tainted m t))

/-- The states that calls of `gtk_tim_sort_step`, and nothing else, lead to from
the state `s0`. -/
inductive DrivenFrom (cmp : α → α → Int) (s0 : GtkTimSort α) : GtkTimSort α → Prop
  | start : DrivenFrom cmp s0 s0
  | step (s s' : GtkTimSort α) (oc oc' : Option GtkTimSortChange) (b : Bool) :
      DrivenFrom cmp s0 s → gtk_tim_sort_step cmp s oc = some (b, s', oc') →
      DrivenFrom cmp s0 s'

/-- The smallest sum of `n + 2` run lengths, newest first, the newest of which are
`z` and `y`, when every run is longer than the two before it together. -/
def min_stack_sum : Nat → Nat → Nat → Nat
  | 0, z, y => z + y
  | n + 1, z, y => z + min_stack_sum n y (y + z + 1)

/-- The coefficients `(a, b, c)` with `min_stack_sum n z y = a * z + b * y + c`. -/
def stack_coeffs : Nat → Nat × Nat × Nat
  | 0 => (1, 1, 0)
  | n + 1 => (1 + (stack_coeffs n).2.1, (stack_coeffs n).1 + (stack_coeffs n).2.1,
      (stack_coeffs n).2.2 + (stack_coeffs n).2.1)

/-- The assertion `g_assert (self->pending_runs < GTK_TIM_SORT_MAX_PENDING)` of
`gtk_tim_sort_push_run`, for the capacity `max_pending` of the array `run`: the
macro `GTK_TIM_SORT_MAX_PENDING` is defined in a header that is not part of the
sources. -/
def push_run_assertion (max_pending : Nat) (self : GtkTimSort α) : Prop :=
  self.pending_runs < max_pending

/-- A sorter capped at merges of one element that holds the two pending runs `[5, 6]`
and `[1, 2, 3, 7]`.  Both elements of the first run and the first three elements of
the second run are out of place: trimmed, the first run is the shorter one. -/
def capped_lo_state : GtkTimSort Int :=
  { gtk_tim_sort_set_max_merge_size (gtk_tim_sort_init [5, 6, 1, 2, 3, 7] 6 4) 1 with
    run := [{ base := 0, len := 2 }, { base := 2, len := 4 }], base := 6, size := 0 }

/-- A sorter capped at merges of one element that holds the two pending runs
`[4, 5, 6, 7]` and `[1, 2, 8]`.  The four elements of the first run and the first two
elements of the second run are out of place: trimmed, the second run is the shorter
one. -/
def capped_hi_state : GtkTimSort Int :=
  { gtk_tim_sort_set_max_merge_size (gtk_tim_sort_init [4, 5, 6, 7, 1, 2, 8] 7 4) 1 with
    run := [{ base := 0, len := 4 }, { base := 4, len := 3 }], base := 7, size := 0 }

/-- The sorter for the array `[3, 1, 2]`, before its first step. -/
def first_step_before : GtkTimSort Int := gtk_tim_sort_init [3, 1, 2] 3 4

/-- The sorter for the array `[3, 1, 2]` after its first step, which found the run
`[3, 1]`, reversed it, extended it to the whole array and pushed it. -/
def first_step_after : GtkTimSort Int :=
  { gtk_tim_sort_init [1, 2, 3] 3 4 with
    run := [{ base := 0, len := 3 }], base := 3, size := 0 }

/-- A sorter for the array `[4, 5, 1, 2, 3, 6]` that holds the three pending runs
`[4]`, `[5]` and `[1, 2, 3, 6]`, of lengths 1, 1 and 4. -/
def three_runs_state : GtkTimSort Int :=
  { gtk_tim_sort_init [4, 5, 1, 2, 3, 6] 6 4 with
    run := [{ base := 0, len := 1 }, { base := 1, len := 1 }, { base := 2, len := 4 }],
    base := 6, size := 0 }

/-- The sorter `three_runs_state` after the merge of its two oldest runs, which are in
order already: it holds the two pending runs `[4, 5]` and `[1, 2, 3, 6]`. -/
def three_runs_merged : GtkTimSort Int :=
  { three_runs_state with run := [{ base := 0, len := 2 }, { base := 2, len := 4 }] }

/-- The sorter for `two_runs_input` after the step that pushes its first run. -/
def two_runs_first : GtkTimSort Int :=
  { gtk_tim_sort_init two_runs_input 32 4 with
    run := [{ base := 0, len := 20 }], base := 20, size := 12 }

/-- The sorter for `two_runs_input` after the two steps that push its two runs. -/
def two_runs_pushed : GtkTimSort Int :=
  { gtk_tim_sort_init two_runs_input 32 4 with
    run := [{ base := 0, len := 20 }, { base := 20, len := 12 }], base := 32, size := 0 }

/-- The sorter for `two_runs_input` after the merge of its two runs, which copied the
two elements `100` and `101` to the scratch array. -/
def two_runs_merged : GtkTimSort Int :=
  { two_runs_pushed with
    mem := [0, 1, 2, 3, 4, 5, 6, 7, 8, 9, 10, 11, 12, 13, 14, 15, 16, 17,
      50, 51, 52, 53, 54, 55, 56, 57, 58, 59, 60, 61, 100, 101],
    tmp_length := 4, run := [{ base := 0, len := 32 }] }

/-! ## The capacity of the run stack -/

/-- The function `gtk_tim_sort_push_run` with the assertion
`g_assert (self->pending_runs < GTK_TIM_SORT_MAX_PENDING)` it starts with, for the
capacity `max_pending` of the array `run`: the macro `GTK_TIM_SORT_MAX_PENDING` is
defined in a header that is not part of the sources, so the capacity is a parameter.
The call fails on a full stack. -/
def gtk_tim_sort_push_run_checked (max_pending : Nat) (self : GtkTimSort α) (base len : Nat) :
    Option (GtkTimSort α) :=
  if self.pending_runs < max_pending then gtk_tim_sort_push_run self base len else none

/-- The function `merge_append` on a run stack of capacity `max_pending`: the code
of `merge_append`, its call of `gtk_tim_sort_push_run` with the assertion on the
number of pending runs. -/
def merge_append_checked (max_pending : Nat) (cmp : α → α → Int) (self : GtkTimSort α)
    (out_change : Option GtkTimSortChange) :
    Option (Bool × GtkTimSort α × Option GtkTimSortChange) :=
  match prepare_run cmp self out_change with
  | none => none
  | some (run_len, mem, out_change) =>
    if run_len = 0 then some (false, { self with mem := mem }, out_change)
    else if run_len < self.min_run then
      let force := min self.size self.min_run
      match binary_sort cmp mem self.base force run_len out_change with
      | none => none
      | some (mem1, out_change) =>
        match gtk_tim_sort_push_run_checked max_pending { self with mem := mem1 }
            self.base force with
        | none => none
        | some self1 => some (true, self1, out_change)
    else
      match gtk_tim_sort_push_run_checked max_pending { self with mem := mem }
          self.base run_len with
      | none => none
      | some self1 => some (true, self1, out_change)

/-- The template function `step` on a run stack of capacity `max_pending`. -/
def step_checked (max_pending : Nat) (cmp : α → α → Int) (self : GtkTimSort α)
    (out_change : Option GtkTimSortChange) :
    Option (Bool × GtkTimSort α × Option GtkTimSortChange) :=
  match merge_collapse cmp self out_change with
  | none => none
  | some (true, self1, out_change) => some (true, self1, out_change)
  | some (false, self1, out_change) =>
    match merge_append_checked max_pending cmp self1 out_change with
    | none => none
    | some (true, self2, out_change) => some (true, self2, out_change)
    | some (false, self2, out_change) =>
      match merge_force_collapse cmp self2 out_change with
      | none => none
      | some (true, self3, out_change) => some (true, self3, out_change)
      | some (false, self3, out_change) => some (false, self3, out_change)

/-- The function `gtk_tim_sort_step` on a run stack of capacity `max_pending`; the
four instances of the template are the same function here. -/
def gtk_tim_sort_step_checked (max_pending : Nat) (cmp : α → α → Int) (self : GtkTimSort α)
    (out_change : Option GtkTimSortChange) :
    Option (Bool × GtkTimSort α × Option GtkTimSortChange) :=
  match self.element_size with
  | 4 => step_checked max_pending cmp self out_change
  | 8 => step_checked max_pending cmp self out_change
  | 16 => step_checked max_pending cmp self out_change
  | _ => step_checked max_pending cmp self out_change

/-- The loop `while (gtk_tim_sort_step (&self, NULL));` on a run stack of capacity
`max_pending`, run for at most `fuel` calls. -/
def gtk_tim_sort_loop_checked (max_pending : Nat) (cmp : α → α → Int) :
    Nat → GtkTimSort α → Option (GtkTimSort α)
  | 0, _ => none
  | fuel + 1, self =>
    match gtk_tim_sort_step_checked max_pending cmp self none with
    | none => none
    | some (true, self1, _) => gtk_tim_sort_loop_checked max_pending cmp fuel self1
    | some (false, self1, _) => some self1

/-- The loop of `gtk_tim_sort_set_runs` on a run stack of capacity `max_pending`. -/
def set_runs_loop_checked (max_pending : Nat) : List Nat → GtkTimSort α → Option (GtkTimSort α)
  | [], _ => none
  | r :: runs, self =>
    if r ≠ 0 then
      match gtk_tim_sort_push_run_checked max_pending self self.base r with
      | none => none
      | some self1 => set_runs_loop_checked max_pending runs self1
    else some self

/-- The function `gtk_tim_sort_set_runs` on a run stack of capacity `max_pending`. -/
def gtk_tim_sort_set_runs_checked (max_pending : Nat) (self : GtkTimSort α) (runs : List Nat) :
    Option (GtkTimSort α) :=
  if self.pending_runs = 0 then set_runs_loop_checked max_pending runs self else some self

/-- What keeps the run stack of a sorter for the array `input` below 86 entries: the
sorter is `MemorySafe`, its `min_run` is the one `gtk_tim_sort_init` computes for the
array, and the lengths of its pending runs satisfy `MidInv` and, while the tail is
not empty, `Mass`, for its cap on merges. -/
def StackSafe (input : List α) (self : GtkTimSort α) : Prop :=
  MemorySafe input self ∧ self.min_run = compute_min_run input.length ∧
    MidInv self.max_merge_size (stack_lens self) ∧
    (0 < self.size → Mass self.min_run self.max_merge_size (stack_lens self))

/-- The bookkeeping of a complete merge of `run[i]` and `run[i + 1]`, which were `ri`
and `ri1` in `self`: in `s'` one run less is pending, `run[i]` has the base of `ri`
and the length of the two runs together, a run that was above the pair is at the
index `i + 1`, and the runs below the index `i` are as they were. -/
def MergedAt (self s' : GtkTimSort α) (i : Nat) (ri ri1 : GtkTimSortRun) : Prop :=
  s'.pending_runs + 1 = self.pending_runs ∧
    s'.run[i]? = some { base := ri.base, len := ri.len + ri1.len } ∧
    (∀ r, self.run[i + 2]? = some r → s'.run[i + 1]? = some r) ∧
    (∀ j, j < i → s'.run[j]? = self.run[j]?)

/-- The numbers `0` to `97`, an array of 98 elements in increasing order. -/
def full_stack_input : List Int := (List.range 98).map (fun (i : Nat) => (i : Int))

/-- The lengths of 86 runs and the closing `0`: 82 runs of one element, and runs of
8, 4, 2 and 1 elements. -/
def full_stack_runs : List Nat := List.replicate 82 1 ++ [8, 4, 2, 1, 0]

/-- The sorter for `full_stack_input` that holds the 86 runs of `full_stack_runs`;
the last element of the array is its unconsumed tail. -/
def full_stack_state : GtkTimSort Int :=
  { gtk_tim_sort_init full_stack_input 98 4 with
    run := runs_from 0 (List.replicate 82 1 ++ [8, 4, 2, 1]), base := 97, size := 1 }

/-! # Properties -/

/-! ## The comparison function -/

theorem TotalPreorder.cmp_self {cmp : α → α → Int} (h : TotalPreorder cmp) (x : α) :
    cmp x x = 0 := by
  have h1 := h.swap x x
  omega

theorem TotalPreorder.pos_iff {cmp : α → α → Int} (h : TotalPreorder cmp) (x y : α) :
    0 < cmp x y ↔ cmp y x < 0 := (h.swap y x).symm

theorem TotalPreorder.nonneg_iff {cmp : α → α → Int} (h : TotalPreorder cmp) (x y : α) :
    0 ≤ cmp x y ↔ cmp y x ≤ 0 := by
  have h1 := h.swap x y
  have h2 := h.swap y x
  omega

theorem TotalPreorder.not_lt_iff {cmp : α → α → Int} (h : TotalPreorder cmp) (x y : α) :
    ¬ cmp x y < 0 ↔ cmp y x ≤ 0 := by
  have h1 := h.swap x y
  have h2 := h.swap y x
  omega

theorem TotalPreorder.eq_zero_iff {cmp : α → α → Int} (h : TotalPreorder cmp) (x y : α) :
    cmp x y = 0 ↔ cmp x y ≤ 0 ∧ cmp y x ≤ 0 := by
  have h1 := h.swap x y
  have h2 := h.swap y x
  omega

theorem TotalPreorder.lt_of_lt_of_le {cmp : α → α → Int} (h : TotalPreorder cmp) {x y z : α}
    (h1 : cmp x y < 0) (h2 : cmp y z ≤ 0) : cmp x z < 0 := by
  by_contra hc
  have h3 : cmp z x ≤ 0 := (h.not_lt_iff x z).1 hc
  have h4 : cmp y x ≤ 0 := h.trans y z x h2 h3
  have h5 := (h.not_lt_iff x y).2 h4
  exact h5 h1

theorem TotalPreorder.lt_of_le_of_lt {cmp : α → α → Int} (h : TotalPreorder cmp) {x y z : α}
    (h1 : cmp x y ≤ 0) (h2 : cmp y z < 0) : cmp x z < 0 := by
  by_contra hc
  have h3 : cmp z x ≤ 0 := (h.not_lt_iff x z).1 hc
  have h4 : cmp z y ≤ 0 := h.trans z x y h3 h1
  have h5 := (h.not_lt_iff y z).2 h4
  exact h5 h2

theorem TotalPreorder.le_of_lt {cmp : α → α → Int} (_h : TotalPreorder cmp) {x y : α}
    (h1 : cmp x y < 0) : cmp x y ≤ 0 := by omega

theorem TotalPreorder.ne_of_lt {cmp : α → α → Int} (h : TotalPreorder cmp) {x y : α}
    (h1 : cmp x y < 0) : x ≠ y := by
  intro e
  subst e
  have := h.cmp_self x
  omega

/-- Records that compare equal compare alike with every third record. -/
theorem TotalPreorder.eq_zero_congr {cmp : α → α → Int} (h : TotalPreorder cmp) {x y : α}
    (hxy : cmp x y = 0) (k : α) : cmp x k = 0 ↔ cmp y k = 0 := by
  have e1 := (h.eq_zero_iff x y).1 hxy
  constructor
  · intro hk
    have e2 := (h.eq_zero_iff x k).1 hk
    exact (h.eq_zero_iff y k).2 ⟨h.trans _ _ _ e1.2 e2.1, h.trans _ _ _ e2.2 e1.1⟩
  · intro hk
    have e2 := (h.eq_zero_iff y k).1 hk
    exact (h.eq_zero_iff x k).2 ⟨h.trans _ _ _ e1.1 e2.1, h.trans _ _ _ e2.2 e1.2⟩

/-! ## The element-wise merge -/

theorem naive_merge_nil_left (cmp : α → α → Int) (ys : List α) :
    naive_merge cmp [] ys = ys := rfl

theorem naive_merge_nil_right (cmp : α → α → Int) (xs : List α) :
    naive_merge cmp xs [] = xs := by
  induction xs with
  | nil => rfl
  | cons x xs ih => simp [naive_merge, naive_merge_head, ih]

theorem naive_merge_cons_cons (cmp : α → α → Int) (x y : α) (xs ys : List α) :
    naive_merge cmp (x :: xs) (y :: ys) =
      if cmp y x < 0 then y :: naive_merge cmp (x :: xs) ys
      else x :: naive_merge cmp xs (y :: ys) := by
  simp [naive_merge, naive_merge_head]

theorem naive_merge_cons_lt (cmp : α → α → Int) {x y : α} (xs ys : List α) (h : cmp y x < 0) :
    naive_merge cmp (x :: xs) (y :: ys) = y :: naive_merge cmp (x :: xs) ys := by
  rw [naive_merge_cons_cons, if_pos h]

theorem naive_merge_cons_ge (cmp : α → α → Int) {x y : α} (xs ys : List α) (h : ¬ cmp y x < 0) :
    naive_merge cmp (x :: xs) (y :: ys) = x :: naive_merge cmp xs (y :: ys) := by
  rw [naive_merge_cons_cons, if_neg h]

theorem naive_merge_perm (cmp : α → α → Int) (xs ys : List α) :
    (naive_merge cmp xs ys).Perm (xs ++ ys) := by
  induction xs generalizing ys with
  | nil => simp [naive_merge_nil_left]
  | cons x xs ihx =>
    induction ys with
    | nil => simp [naive_merge_nil_right]
    | cons y ys ihy =>
      rw [naive_merge_cons_cons]
      split
      · refine (List.Perm.cons y ihy).trans ?_
        exact (@List.perm_middle _ y (x :: xs) ys).symm
      · exact List.Perm.cons x (ihx (y :: ys))

theorem naive_merge_length (cmp : α → α → Int) (xs ys : List α) :
    (naive_merge cmp xs ys).length = xs.length + ys.length := by
  have := (naive_merge_perm cmp xs ys).length_eq
  simpa using this

theorem mem_naive_merge (cmp : α → α → Int) (xs ys : List α) (z : α) :
    z ∈ naive_merge cmp xs ys ↔ z ∈ xs ∨ z ∈ ys := by
  rw [(naive_merge_perm cmp xs ys).mem_iff, List.mem_append]

theorem naive_merge_sorted {cmp : α → α → Int} (h : TotalPreorder cmp) (xs ys : List α)
    (hx : Sorted cmp xs) (hy : Sorted cmp ys) : Sorted cmp (naive_merge cmp xs ys) := by
  induction xs generalizing ys with
  | nil => simpa [naive_merge_nil_left] using hy
  | cons x xs ihx =>
    induction ys with
    | nil => simpa [naive_merge_nil_right] using hx
    | cons y ys ihy =>
      have hx' := List.pairwise_cons.1 hx
      have hy' := List.pairwise_cons.1 hy
      rw [naive_merge_cons_cons]
      split
      · rename_i hlt
        refine List.pairwise_cons.2 ⟨?_, ihy hy'.2⟩
        intro z hz
        rcases (mem_naive_merge cmp _ _ z).1 hz with hz | hz
        · rcases List.mem_cons.1 hz with rfl | hz
          · omega
          · have := hx'.1 z hz
            exact h.trans _ _ _ (by omega) this
        · exact hy'.1 z hz
      · rename_i hge
        have hxy : cmp x y ≤ 0 := (h.not_lt_iff y x).1 hge
        refine List.pairwise_cons.2 ⟨?_, ihx (y :: ys) hx'.2 hy⟩
        intro z hz
        rcases (mem_naive_merge cmp _ _ z).1 hz with hz | hz
        · exact hx'.1 z hz
        · rcases List.mem_cons.1 hz with rfl | hz
          · exact hxy
          · exact h.trans _ _ _ hxy (hy'.1 z hz)

/-! ## Stable rearrangements -/

theorem equal_to_append (cmp : α → α → Int) (k : α) (l₁ l₂ : List α) :
    equal_to cmp k (l₁ ++ l₂) = equal_to cmp k l₁ ++ equal_to cmp k l₂ := by
  simp [equal_to]

theorem equal_to_cons (cmp : α → α → Int) (k x : α) (l : List α) :
    equal_to cmp k (x :: l) = if cmp x k = 0 then x :: equal_to cmp k l else equal_to cmp k l := by
  simp only [equal_to, List.filter_cons]
  by_cases hx : cmp x k = 0 <;> simp [hx]

theorem equal_to_eq_nil {cmp : α → α → Int} {k : α} {l : List α}
    (h : ∀ x ∈ l, cmp x k ≠ 0) : equal_to cmp k l = [] := by
  simp only [equal_to, List.filter_eq_nil_iff]
  intro x hx
  simpa using h x hx

theorem naive_merge_equal_to {cmp : α → α → Int} (h : TotalPreorder cmp) (k : α)
    (xs ys : List α) (hx : Sorted cmp xs) :
    equal_to cmp k (naive_merge cmp xs ys) = equal_to cmp k xs ++ equal_to cmp k ys := by
  induction xs generalizing ys with
  | nil => simp [naive_merge_nil_left, equal_to]
  | cons x xs ihx =>
    induction ys with
    | nil => simp [naive_merge_nil_right, equal_to]
    | cons y ys ihy =>
      have hx' := List.pairwise_cons.1 hx
      rw [naive_merge_cons_cons]
      split
      · rename_i hlt
        rw [equal_to_cons, ihy]
        by_cases hyk : cmp y k = 0
        · have hnil : equal_to cmp k (x :: xs) = [] := by
            apply equal_to_eq_nil
            intro z hz hzk
            have hzy : cmp z y = 0 := by
              have e1 := (h.eq_zero_iff z k).1 hzk
              have e2 := (h.eq_zero_iff y k).1 hyk
              exact (h.eq_zero_iff z y).2 ⟨h.trans _ _ _ e1.1 e2.2, h.trans _ _ _ e2.1 e1.2⟩
            have hxz : cmp x z ≤ 0 := by
              rcases List.mem_cons.1 hz with rfl | hz
              · have := h.cmp_self z; omega
              · exact hx'.1 z hz
            have : cmp y z < 0 := h.lt_of_lt_of_le hlt hxz
            have := (h.swap y z).1 this
            omega
          rw [if_pos hyk, hnil, equal_to_cons, if_pos hyk]
          simp
        · rw [if_neg hyk, equal_to_cons cmp k y, if_neg hyk]
      · rw [equal_to_cons, ihx (y :: ys) hx'.2, equal_to_cons cmp k x]
        split <;> simp

theorem naive_merge_stable {cmp : α → α → Int} (h : TotalPreorder cmp)
    (xs ys : List α) (hx : Sorted cmp xs) :
    Stable cmp (xs ++ ys) (naive_merge cmp xs ys) :=
  ⟨(naive_merge_perm cmp xs ys).symm, fun k => by
    rw [naive_merge_equal_to h k xs ys hx, equal_to_append]⟩

theorem stable_refl (cmp : α → α → Int) (l : List α) : Stable cmp l l :=
  ⟨List.Perm.refl l, fun _ => rfl⟩

theorem stable_trans {cmp : α → α → Int} {l₁ l₂ l₃ : List α}
    (h₁ : Stable cmp l₁ l₂) (h₂ : Stable cmp l₂ l₃) : Stable cmp l₁ l₃ :=
  ⟨h₁.1.trans h₂.1, fun k => (h₂.2 k).trans (h₁.2 k)⟩

theorem stable_append {cmp : α → α → Int} {l l' : List α} (h : Stable cmp l l')
    (A B : List α) : Stable cmp (A ++ (l ++ B)) (A ++ (l' ++ B)) :=
  ⟨List.Perm.append_left A (List.Perm.append_right B h.1), fun k => by
    simp only [equal_to_append, h.2 k]⟩

theorem stable_length_eq {cmp : α → α → Int} {l l' : List α} (h : Stable cmp l l') :
    l'.length = l.length := h.1.length_eq.symm

/-- A sorted stable rearrangement is unique. -/
theorem sorted_stable_unique_aux {cmp : α → α → Int} (h : TotalPreorder cmp) :
    ∀ (l₁ l₂ : List α), Sorted cmp l₁ → Sorted cmp l₂ → l₁.Perm l₂ →
      (∀ k, equal_to cmp k l₁ = equal_to cmp k l₂) → l₁ = l₂ := by
  intro l₁
  induction l₁ with
  | nil =>
    intro l₂ _ _ hp _
    exact (List.Perm.nil_eq hp)
  | cons x t₁ ih =>
    intro l₂ hs₁ hs₂ hp he
    cases l₂ with
    | nil => exact absurd hp.symm (by simp)
    | cons y t₂ =>
      have hs₁' := List.pairwise_cons.1 hs₁
      have hs₂' := List.pairwise_cons.1 hs₂
      have hxy : cmp x y ≤ 0 := by
        have : y ∈ x :: t₁ := hp.symm.subset (List.mem_cons_self _ _)
        rcases List.mem_cons.1 this with rfl | hy
        · have := h.cmp_self y; omega
        · exact hs₁'.1 y hy
      have hyx : cmp y x ≤ 0 := by
        have : x ∈ y :: t₂ := hp.subset (List.mem_cons_self _ _)
        rcases List.mem_cons.1 this with rfl | hx
        · have := h.cmp_self x; omega
        · exact hs₂'.1 x hx
      have hyx0 : cmp y x = 0 := (h.eq_zero_iff y x).2 ⟨hyx, hxy⟩
      have e := he x
      rw [equal_to_cons, equal_to_cons, if_pos (h.cmp_self x), if_pos hyx0] at e
      have hxe : x = y := (List.cons.inj e).1
      subst hxe
      have hp' : t₁.Perm t₂ := (List.perm_cons x).1 hp
      have he' : ∀ k, equal_to cmp k t₁ = equal_to cmp k t₂ := by
        intro k
        have e := he k
        rw [equal_to_cons, equal_to_cons] at e
        split at e
        · exact (List.cons.inj e).2
        · exact e
      rw [ih t₂ hs₁'.2 hs₂'.2 hp' he']

theorem sorted_stable_unique {cmp : α → α → Int} (h : TotalPreorder cmp) {l l₁ l₂ : List α}
    (hs₁ : Sorted cmp l₁) (hs₂ : Sorted cmp l₂) (h₁ : Stable cmp l l₁) (h₂ : Stable cmp l l₂) :
    l₁ = l₂ :=
  sorted_stable_unique_aux h l₁ l₂ hs₁ hs₂ (h₁.1.symm.trans h₂.1)
    (fun k => (h₁.2 k).trans (h₂.2 k).symm)

/-! ## Memory primitives -/

theorem load_eq {buf A B : List α} {x : α} {p : Nat} (hb : buf = A ++ x :: B)
    (hp : A.length = p) : load buf p = some x := by
  subst hb hp
  simp only [load]
  rw [List.getElem?_append_right (Nat.le_refl _)]
  simp

theorem load_seg {buf A seg B : List α} {p i : Nat} (hb : buf = A ++ (seg ++ B))
    (hp : A.length + i = p) (hi : i < seg.length) : load buf p = seg[i]? := by
  subst hb hp
  simp only [load]
  rw [List.getElem?_append_right (by omega)]
  simp only [Nat.add_sub_cancel_left]
  rw [List.getElem?_append_left hi]

theorem store_eq {buf A B : List α} {x : α} (y : α) {p : Nat} (hb : buf = A ++ x :: B)
    (hp : A.length = p) : store buf p y = some (A ++ y :: B) := by
  subst hb hp
  simp [store]

theorem ASSIGN_eq {dst_buf src_buf A B U V : List α} {x y : α} {dst src : Nat}
    (hd : dst_buf = A ++ x :: B) (hA : A.length = dst)
    (hs : src_buf = U ++ y :: V) (hU : U.length = src) :
    ASSIGN dst_buf dst src_buf src = some (A ++ y :: B) := by
  simp only [ASSIGN, load_eq hs hU, store_eq y hd hA]

theorem memcpy_eq {dst_buf src_buf A M B U W V : List α} {dst src n : Nat}
    (hd : dst_buf = A ++ (M ++ B)) (hA : A.length = dst) (hM : M.length = n)
    (hs : src_buf = U ++ (W ++ V)) (hU : U.length = src) (hW : W.length = n) :
    memcpy dst_buf dst src_buf src n = some (A ++ (W ++ B)) := by
  subst hd hs hA hU hM
  have h1 : U.length + M.length ≤ (U ++ (W ++ V)).length := by simp; omega
  have h2 : A.length + M.length ≤ (A ++ (M ++ B)).length := by simp
  simp only [memcpy, h1, h2, and_self, if_true]
  congr 2
  · simp
  · congr 1
    · rw [List.drop_left, List.take_left' hW]
    · rw [← List.append_assoc, List.drop_left' (by simp)]

theorem memmove_eq {buf A M B U W V : List α} {dst src n : Nat}
    (hd : buf = A ++ (M ++ B)) (hA : A.length = dst) (hM : M.length = n)
    (hs : buf = U ++ (W ++ V)) (hU : U.length = src) (hW : W.length = n) :
    memmove buf dst src n = some (A ++ (W ++ B)) :=
  memcpy_eq hd hA hM hs hU hW

theorem memcpy_tmp_eq {mem A W B : List α} {base len : Nat}
    (hb : mem = A ++ (W ++ B)) (hA : A.length = base) (hW : W.length = len) :
    memcpy_tmp mem base len = some W := by
  subst hb hA hW
  simp [memcpy_tmp]

theorem compare_eq (cmp : α → α → Int) {abuf bbuf A B U V : List α} {x y : α} {a b : Nat}
    (ha : abuf = A ++ x :: B) (hA : A.length = a)
    (hb : bbuf = U ++ y :: V) (hU : U.length = b) :
    gtk_tim_sort_compare cmp abuf a bbuf b = some (cmp x y) := by
  simp only [gtk_tim_sort_compare, load_eq ha hA, load_eq hb hU]

theorem compare_key_seg (cmp : α → α → Int) (key : α) {buf A seg B : List α} {p i : Nat}
    (hb : buf = A ++ (seg ++ B)) (hp : A.length + i = p) (hi : i < seg.length) :
    compare_key cmp key buf p = some (cmp key seg[i]) := by
  simp only [compare_key, load_seg hb hp hi, List.getElem?_eq_getElem hi]

theorem loadI_ofNat (buf : List α) (p : Nat) : loadI buf (p : Int) = load buf p := by
  simp [loadI]

theorem storeI_ofNat (buf : List α) (p : Nat) (x : α) :
    storeI buf (p : Int) x = store buf p x := by
  simp [storeI]

theorem ASSIGNI_ofNat (dst_buf : List α) (dst : Nat) (src_buf : List α) (src : Nat) :
    ASSIGNI dst_buf (dst : Int) src_buf (src : Int) = ASSIGN dst_buf dst src_buf src := by
  simp only [ASSIGNI, ASSIGN, loadI_ofNat, storeI_ofNat]

theorem memcpyI_ofNat (dst_buf : List α) (dst : Nat) (src_buf : List α) (src n : Nat) :
    memcpyI dst_buf (dst : Int) src_buf (src : Int) n = memcpy dst_buf dst src_buf src n := by
  simp [memcpyI]

theorem memmoveI_ofNat (buf : List α) (dst src n : Nat) :
    memmoveI buf (dst : Int) (src : Int) n = memmove buf dst src n := by
  simp [memmoveI, memmove, memcpyI]

theorem compareI_ofNat (cmp : α → α → Int) (abuf : List α) (a : Nat) (bbuf : List α) (b : Nat) :
    gtk_tim_sort_compareI cmp abuf (a : Int) bbuf (b : Int) =
      gtk_tim_sort_compare cmp abuf a bbuf b := by
  simp only [gtk_tim_sort_compareI, gtk_tim_sort_compare, loadI_ofNat]

/-! ## Reversal of a range -/

theorem reverse_range_loop_eq (fuel : Nat) :
    ∀ (A mid B : List α) (front back : Nat), A.length = front →
      back + 1 = front + mid.length → mid.length + 1 ≤ 2 * fuel →
      reverse_range_loop fuel (A ++ (mid ++ B)) front back = some (A ++ (mid.reverse ++ B)) := by
  induction fuel with
  | zero => intro A mid B front back _ _ hf; omega
  | succ fuel ih =>
    intro A mid B front back hA hback hf
    rw [reverse_range_loop]
    by_cases hlt : front < back
    · rw [if_pos hlt]
      -- at least two elements
      obtain ⟨x, mid1, rfl⟩ : ∃ x mid1, mid = x :: mid1 := by
        cases mid with
        | nil => simp at hback; omega
        | cons x m => exact ⟨x, m, rfl⟩
      obtain ⟨mid2, y, rfl⟩ : ∃ mid2 y, mid1 = mid2 ++ [y] := by
        rcases List.eq_nil_or_concat mid1 with h | ⟨m, y, h⟩
        · subst h; simp at hback; omega
        · exact ⟨m, y, by simpa using h⟩
      simp only [List.length_cons, List.length_append, List.length_nil] at hback hf
      have hmem : A ++ (x :: (mid2 ++ [y]) ++ B) = (A ++ x :: mid2) ++ y :: B := by simp
      rw [load_eq (A := A) (x := x) (B := mid2 ++ [y] ++ B) (by simp) hA]
      simp only
      rw [ASSIGN_eq (A := A) (x := x) (B := mid2 ++ [y] ++ B) (U := A ++ x :: mid2) (y := y)
        (V := B) (by simp) hA (by simp) (by simp; omega)]
      simp only
      rw [store_eq (A := A ++ y :: mid2) (x := y) (B := B) x (by simp) (by simp; omega)]
      simp only
      have := ih (A ++ [y]) mid2 (x :: B) (front + 1) (back - 1) (by simp; omega) (by omega)
        (by omega)
      simp only [List.append_assoc, List.singleton_append, List.cons_append,
        List.reverse_cons, List.reverse_append, List.reverse_nil, List.nil_append] at this ⊢
      exact this
    · rw [if_neg hlt]
      have hlen : mid.length ≤ 1 := by omega
      have : mid.reverse = mid := by
        match mid, hlen with
        | [], _ => rfl
        | [_], _ => rfl
      rw [this]

theorem reverse_range_eq {mem A S B : List α} {a hi : Nat} (hm : mem = A ++ (S ++ B))
    (hA : A.length = a) (hs : S.length = hi) (hpos : 0 < hi) :
    reverse_range mem a hi = some (A ++ (S.reverse ++ B)) := by
  subst hm
  rw [reverse_range, if_pos hpos]
  exact reverse_range_loop_eq hi A S B a (a + (hi - 1)) hA (by omega) (by omega)

/-! ## Run detection -/

theorem sorted_append_singleton {cmp : α → α → Int} (h : TotalPreorder cmp) {l : List α}
    {z y : α} (hs : Sorted cmp (l ++ [z])) (hzy : cmp z y ≤ 0) :
    Sorted cmp ((l ++ [z]) ++ [y]) := by
  unfold Sorted at hs ⊢
  rw [List.pairwise_append]
  refine ⟨hs, List.pairwise_singleton _ _, ?_⟩
  intro a ha b hb
  rw [List.mem_singleton] at hb
  subst hb
  rw [List.mem_append, List.mem_singleton] at ha
  rcases ha with ha | rfl
  · have := (List.pairwise_append.1 hs).2.2 a ha z (List.mem_singleton_self z)
    exact h.trans _ _ _ this hzy
  · exact hzy

theorem strictDesc_append_singleton {cmp : α → α → Int} (h : TotalPreorder cmp) {l : List α}
    {z y : α} (hs : StrictDesc cmp (l ++ [z])) (hzy : cmp y z < 0) :
    StrictDesc cmp ((l ++ [z]) ++ [y]) := by
  unfold StrictDesc at hs ⊢
  rw [List.pairwise_append]
  refine ⟨hs, List.pairwise_singleton _ _, ?_⟩
  intro a ha b hb
  rw [List.mem_singleton] at hb
  subst hb
  rw [List.mem_append, List.mem_singleton] at ha
  rcases ha with ha | rfl
  · have := (List.pairwise_append.1 hs).2.2 a ha z (List.mem_singleton_self z)
    exact h.lt_of_lt_of_le hzy (by omega)
  · exact hzy

theorem StrictDesc.sorted_reverse {cmp : α → α → Int} {l : List α}
    (hs : StrictDesc cmp l) : Sorted cmp l.reverse := by
  unfold Sorted
  rw [List.pairwise_reverse]
  exact hs.imp (fun h => by omega)

theorem StrictDesc.equal_to_length {cmp : α → α → Int} (h : TotalPreorder cmp) (k : α) :
    ∀ {l : List α}, StrictDesc cmp l → (equal_to cmp k l).length ≤ 1 := by
  intro l
  induction l with
  | nil => intro _; simp [equal_to]
  | cons x l ih =>
    intro hs
    have hs' := List.pairwise_cons.1 hs
    rw [equal_to_cons]
    split
    · rename_i hxk
      have : equal_to cmp k l = [] := by
        apply equal_to_eq_nil
        intro z hz hzk
        have h1 := hs'.1 z hz
        have h2 : cmp x z = 0 := by
          have e1 := (h.eq_zero_iff x k).1 hxk
          have e2 := (h.eq_zero_iff z k).1 hzk
          exact (h.eq_zero_iff x z).2 ⟨h.trans _ _ _ e1.1 e2.2, h.trans _ _ _ e2.1 e1.2⟩
        have := (h.swap z x).1 h1
        omega
      simp [this]
    · exact ih hs'.2

theorem StrictDesc.stable_reverse {cmp : α → α → Int} (h : TotalPreorder cmp) {l : List α}
    (hs : StrictDesc cmp l) : Stable cmp l l.reverse := by
  refine ⟨(List.reverse_perm l).symm, fun k => ?_⟩
  have hl := hs.equal_to_length h k
  simp only [equal_to, List.filter_reverse] at hl ⊢
  generalize List.filter (fun x => decide (cmp x k = 0)) l = f at hl
  match f, hl with
  | [], _ => rfl
  | [_], _ => rfl

theorem prepare_run_asc_spec {cmp : α → α → Int} (h : TotalPreorder cmp) (A : List α)
    (fuel : Nat) :
    ∀ (run : List α) (c : α) (rest : List α) (mem : List α) (size run_hi cur next : Nat),
      mem = A ++ (run ++ c :: rest) → size = run.length + 1 + rest.length →
      run_hi = run.length + 1 → cur = A.length + run.length → next = cur + 1 →
      rest.length + 1 ≤ fuel → Sorted cmp (run ++ [c]) →
      ∃ run' rest', prepare_run_asc cmp mem size fuel run_hi cur next = some run'.length ∧
        run ++ c :: rest = run' ++ rest' ∧ Sorted cmp run' ∧ run_hi ≤ run'.length ∧
        (∀ y t, rest' = y :: t → ∃ z init, run' = init ++ [z] ∧ cmp y z < 0) := by
  induction fuel with
  | zero => intro run c rest mem size run_hi cur next _ _ _ _ _ hf; omega
  | succ fuel ih =>
    intro run c rest mem size run_hi cur next hm hsize hhi hcur hnext hf hs
    rw [prepare_run_asc]
    cases rest with
    | nil =>
      rw [if_neg (by simp at hsize; omega)]
      exact ⟨run ++ [c], [], by simp [hhi], by simp, hs, by simp [hhi], by simp⟩
    | cons y rest =>
      rw [if_pos (by simp at hsize; omega)]
      rw [compare_eq cmp (A := A ++ (run ++ [c])) (x := y) (B := rest) (U := A ++ run) (y := c)
        (V := y :: rest) (by simp [hm]) (by simp; omega) (by simp [hm]) (by simp; omega)]
      simp only
      by_cases hc : cmp y c ≥ 0
      · rw [if_pos hc]
        have hcy : cmp c y ≤ 0 := (h.nonneg_iff y c).1 hc
        obtain ⟨run', rest', h1, h2, h3, h4, h5⟩ := ih (run ++ [c]) y rest mem size (run_hi + 1)
          next (next + 1) (by simp [hm]) (by simp at hsize ⊢; omega) (by simp; omega)
          (by simp; omega) rfl (by simp at hf; omega) (sorted_append_singleton h hs hcy)
        exact ⟨run', rest', h1, by simpa using h2, h3, by omega, h5⟩
      · rw [if_neg hc]
        refine ⟨run ++ [c], y :: rest, by simp [hhi], by simp, hs, by simp [hhi], ?_⟩
        intro y' t e
        obtain ⟨rfl, rfl⟩ := List.cons.inj e
        exact ⟨c, run, rfl, by omega⟩

theorem prepare_run_desc_spec {cmp : α → α → Int} (h : TotalPreorder cmp) (A : List α)
    (fuel : Nat) :
    ∀ (run : List α) (c : α) (rest : List α) (mem : List α) (size run_hi cur next : Nat),
      mem = A ++ (run ++ c :: rest) → size = run.length + 1 + rest.length →
      run_hi = run.length + 1 → cur = A.length + run.length → next = cur + 1 →
      rest.length + 1 ≤ fuel → StrictDesc cmp (run ++ [c]) →
      ∃ run' rest', prepare_run_desc cmp mem size fuel run_hi cur next = some run'.length ∧
        run ++ c :: rest = run' ++ rest' ∧ StrictDesc cmp run' ∧ run_hi ≤ run'.length ∧
        (∀ y t, rest' = y :: t → ∃ z init, run' = init ++ [z] ∧ ¬ cmp y z < 0) := by
  induction fuel with
  | zero => intro run c rest mem size run_hi cur next _ _ _ _ _ hf; omega
  | succ fuel ih =>
    intro run c rest mem size run_hi cur next hm hsize hhi hcur hnext hf hs
    rw [prepare_run_desc]
    cases rest with
    | nil =>
      rw [if_neg (by simp at hsize; omega)]
      exact ⟨run ++ [c], [], by simp [hhi], by simp, hs, by simp [hhi], by simp⟩
    | cons y rest =>
      rw [if_pos (by simp at hsize; omega)]
      rw [compare_eq cmp (A := A ++ (run ++ [c])) (x := y) (B := rest) (U := A ++ run) (y := c)
        (V := y :: rest) (by simp [hm]) (by simp; omega) (by simp [hm]) (by simp; omega)]
      simp only
      by_cases hc : cmp y c < 0
      · rw [if_pos hc]
        obtain ⟨run', rest', h1, h2, h3, h4, h5⟩ := ih (run ++ [c]) y rest mem size (run_hi + 1)
          next (next + 1) (by simp [hm]) (by simp at hsize ⊢; omega) (by simp; omega)
          (by simp; omega) rfl (by simp at hf; omega) (strictDesc_append_singleton h hs hc)
        exact ⟨run', rest', h1, by simpa using h2, h3, by omega, h5⟩
      · rw [if_neg hc]
        refine ⟨run ++ [c], y :: rest, by simp [hhi], by simp, hs, by simp [hhi], ?_⟩
        intro y' t e
        obtain ⟨rfl, rfl⟩ := List.cons.inj e
        exact ⟨c, run, rfl, hc⟩

theorem sorted_of_length_le_one (cmp : α → α → Int) {l : List α} (hl : l.length ≤ 1) :
    Sorted cmp l := by
  match l, hl with
  | [], _ => exact List.Pairwise.nil
  | [_], _ => exact List.pairwise_singleton _ _

/-- What `prepare_run` does on a sorter whose unconsumed part is `tail`: it
splits `tail` into a run and the rest, and leaves the run sorted, either as it
was or reversed. -/
theorem prepare_run_spec {cmp : α → α → Int} (h : TotalPreorder cmp) (self : GtkTimSort α)
    (oc : Option GtkTimSortChange) (A tail : List α) (hm : self.mem = A ++ tail)
    (hA : A.length = self.base) (ht : tail.length = self.size) :
    ∃ run rest run' oc', prepare_run cmp self oc = some (run.length, A ++ (run' ++ rest), oc') ∧
      tail = run ++ rest ∧ Sorted cmp run' ∧ Stable cmp run run' ∧
      (self.size ≤ 1 → rest = []) ∧ (2 ≤ self.size → 2 ≤ run.length) ∧
      ((run' = run ∧ oc' = gtk_tim_sort_set_change oc none 0 ∧
          (∀ y t, rest = y :: t → ∃ z init, run = init ++ [z] ∧ cmp y z < 0)) ∨
        (2 ≤ run.length ∧ StrictDesc cmp run ∧ run' = run.reverse ∧
          oc' = gtk_tim_sort_set_change oc (some self.base) run.length ∧
          (∀ y t, rest = y :: t → ∃ z init, run = init ++ [z] ∧ ¬ cmp y z < 0))) := by
  unfold prepare_run
  by_cases hsz : self.size ≤ 1
  · simp only [hsz, if_true]
    refine ⟨tail, [], tail, _, ?_, by simp, sorted_of_length_le_one cmp (by omega),
      stable_refl cmp tail, fun _ => rfl, fun h2 => by omega, Or.inl ⟨rfl, rfl, by simp⟩⟩
    simp [hm, ht]
  · simp only [hsz, if_false]
    obtain ⟨a0, a1, rest0, rfl⟩ : ∃ a0 a1 rest0, tail = a0 :: a1 :: rest0 := by
      match tail, ht with
      | [], ht => simp at ht; omega
      | [_], ht => simp at ht; omega
      | a0 :: a1 :: r, _ => exact ⟨a0, a1, r, rfl⟩
    simp only [List.length_cons] at ht
    rw [compare_eq cmp (A := A ++ [a0]) (x := a1) (B := rest0) (U := A) (y := a0)
        (V := a1 :: rest0) (by simp [hm]) (by simp; omega) (by simp [hm]) (by omega)]
    simp only
    by_cases hc : cmp a1 a0 < 0
    · rw [if_pos hc]
      have hs0 : StrictDesc cmp ([a0] ++ [a1]) := by
        simp [StrictDesc, hc]
      obtain ⟨run, rest, h1, h2, h3, h4, h5⟩ := prepare_run_desc_spec h A self.size [a0] a1 rest0
        self.mem self.size (1 + 1) (self.base + 1) (self.base + 1 + 1) (by simp [hm])
        (by simp; omega) (by simp) (by simp; omega) rfl (by omega) hs0
      rw [h1]
      simp only
      have hrpos : 0 < run.length := by omega
      rw [reverse_range_eq (A := A) (S := run) (B := rest) (by
        rw [hm]; simp only [List.singleton_append] at h2; rw [h2]) hA rfl hrpos]
      refine ⟨run, rest, run.reverse, _, rfl, by simpa using h2, h3.sorted_reverse,
        h3.stable_reverse h, fun h' => h'.elim, fun _ => by omega,
        Or.inr ⟨by omega, h3, rfl, rfl, h5⟩⟩
    · rw [if_neg hc]
      have hs0 : Sorted cmp ([a0] ++ [a1]) := by
        simp [Sorted, (h.not_lt_iff a1 a0).1 hc]
      obtain ⟨run, rest, h1, h2, h3, h4, h5⟩ := prepare_run_asc_spec h A self.size [a0] a1 rest0
        self.mem self.size (1 + 1) (self.base + 1) (self.base + 1 + 1) (by simp [hm])
        (by simp; omega) (by simp) (by simp; omega) rfl (by omega) hs0
      rw [h1]
      simp only
      refine ⟨run, rest, run, _, ?_, by simpa using h2, h3, stable_refl cmp run,
        fun h' => h'.elim, fun _ => by omega, Or.inl ⟨rfl, rfl, h5⟩⟩
      simp only [List.singleton_append] at h2
      rw [hm, h2]

/-! ## Binary insertion sort -/

theorem split_at_index (W : List α) (mid : Nat) (hmid : mid < W.length) :
    W = W.take mid ++ W[mid] :: W.drop (mid + 1) := by
  rw [← List.drop_eq_getElem_cons hmid, List.take_append_drop]

theorem Sorted.of_append_left {cmp : α → α → Int} {l₁ l₂ : List α}
    (hs : Sorted cmp (l₁ ++ l₂)) : Sorted cmp l₁ := (List.pairwise_append.1 hs).1

theorem Sorted.of_append_right {cmp : α → α → Int} {l₁ l₂ : List α}
    (hs : Sorted cmp (l₁ ++ l₂)) : Sorted cmp l₂ := (List.pairwise_append.1 hs).2.1

theorem Sorted.le_of_append {cmp : α → α → Int} {l₁ l₂ : List α}
    (hs : Sorted cmp (l₁ ++ l₂)) {x y : α} (hx : x ∈ l₁) (hy : y ∈ l₂) : cmp x y ≤ 0 :=
  (List.pairwise_append.1 hs).2.2 x hx y hy

theorem binary_sort_search_spec {cmp : α → α → Int} (h : TotalPreorder cmp) (A : List α)
    (y : α) (tl : List α) (fuel : Nat) :
    ∀ (L0 W R0 mem : List α) (startp leftp right : Nat),
      mem = A ++ (L0 ++ (W ++ (R0 ++ y :: tl))) →
      startp = A.length + L0.length + W.length + R0.length →
      leftp = A.length + L0.length → right = W.length → right + 1 ≤ fuel →
      Sorted cmp W → (∀ l ∈ L0, ¬ cmp y l < 0) → (∀ r ∈ R0, cmp y r < 0) →
      ∃ L R, binary_sort_search cmp mem startp fuel leftp right = some (A.length + L.length) ∧
        L0 ++ (W ++ R0) = L ++ R ∧ (∀ l ∈ L, ¬ cmp y l < 0) ∧ (∀ r ∈ R, cmp y r < 0) := by
  induction fuel with
  | zero => intro L0 W R0 mem startp leftp right _ _ _ _ hf; omega
  | succ fuel ih =>
    intro L0 W R0 mem startp leftp right hm hsp hlp hr hf hs hL hR
    rw [binary_sort_search]
    by_cases hpos : 0 < right
    · rw [if_pos hpos]
      simp only [Nat.shiftRight_eq_div_pow, pow_one]
      have hmid : right / 2 < W.length := by omega
      have hW := split_at_index W (right / 2) hmid
      generalize hW1 : W.take (right / 2) = W1 at hW
      generalize hW2 : W.drop (right / 2 + 1) = W2 at hW
      generalize hmv : W[right / 2] = m at hW
      have hW1len : W1.length = right / 2 := by
        rw [← hW1, List.length_take]; omega
      have hWlen : W.length = W1.length + 1 + W2.length := by
        rw [hW]; simp; omega
      rw [compare_eq cmp (A := A ++ (L0 ++ (W ++ R0))) (x := y) (B := tl)
        (U := A ++ (L0 ++ W1)) (y := m) (V := W2 ++ (R0 ++ y :: tl))
        (by simp [hm]) (by simp; omega) (by rw [hm, hW]; simp) (by simp; omega)]
      simp only
      rw [hW] at hs
      by_cases hc : cmp y m < 0
      · rw [if_pos hc]
        obtain ⟨L, R, h1, h2, h3, h4⟩ := ih L0 W1 (m :: W2 ++ R0) mem startp leftp (right / 2)
          (by rw [hm, hW]; simp) (by simp; omega) hlp (by omega) (by omega)
          hs.of_append_left hL (by
            intro r hr
            simp only [List.cons_append, List.mem_cons, List.mem_append] at hr
            rcases hr with rfl | hr | hr
            · exact hc
            · have := (List.pairwise_cons.1 hs.of_append_right).1 r hr
              exact h.lt_of_lt_of_le hc this
            · exact hR r hr)
        refine ⟨L, R, h1, ?_, h3, h4⟩
        rw [← h2, hW]; simp
      · rw [if_neg hc]
        obtain ⟨L, R, h1, h2, h3, h4⟩ := ih (L0 ++ (W1 ++ [m])) W2 R0 mem startp
          (leftp + right / 2 + 1) (right - (right / 2 + 1))
          (by rw [hm, hW]; simp) (by simp; omega) (by simp; omega) (by omega) (by omega)
          (List.pairwise_cons.1 hs.of_append_right).2 (by
            intro l hl
            simp only [List.mem_append, List.mem_singleton] at hl
            rcases hl with hl | hl | rfl
            · exact hL l hl
            · have hle : cmp l m ≤ 0 := hs.le_of_append hl (List.mem_cons_self _ _)
              have hmy : cmp m y ≤ 0 := (h.not_lt_iff y m).1 hc
              exact (h.not_lt_iff y l).2 (h.trans _ _ _ hle hmy)
            · exact hc) hR
        refine ⟨L, R, h1, ?_, h3, h4⟩
        rw [← h2, hW]; simp
    · rw [if_neg hpos]
      have hW : W = [] := List.eq_nil_of_length_eq_zero (by omega)
      subst hW
      exact ⟨L0, R0, by rw [hlp], by simp, hL, hR⟩

theorem sorted_insert {cmp : α → α → Int} (h : TotalPreorder cmp) {L R : List α} {y : α}
    (hs : Sorted cmp (L ++ R)) (hL : ∀ l ∈ L, ¬ cmp y l < 0) (hR : ∀ r ∈ R, cmp y r < 0) :
    Sorted cmp (L ++ y :: R) := by
  unfold Sorted at hs ⊢
  rw [List.pairwise_append] at hs ⊢
  refine ⟨hs.1, List.pairwise_cons.2 ⟨fun r hr => by have := hR r hr; omega, hs.2.1⟩, ?_⟩
  intro a ha b hb
  rcases List.mem_cons.1 hb with rfl | hb
  · exact (h.not_lt_iff _ _).1 (hL a ha)
  · exact hs.2.2 a ha b hb

theorem stable_insert {cmp : α → α → Int} (h : TotalPreorder cmp) {R : List α} {y : α}
    (hR : ∀ r ∈ R, cmp y r < 0) : Stable cmp (R ++ [y]) (y :: R) := by
  refine ⟨List.perm_append_singleton y R, fun k => ?_⟩
  rw [equal_to_append, equal_to_cons, equal_to_cons]
  by_cases hyk : cmp y k = 0
  · have : equal_to cmp k R = [] := by
      apply equal_to_eq_nil
      intro r hr hrk
      have := hR r hr
      have e1 := (h.eq_zero_iff y k).1 hyk
      have e2 := (h.eq_zero_iff r k).1 hrk
      have := (h.not_lt_iff y r).2 (h.trans _ _ _ e2.1 e1.2)
      contradiction
    rw [this]
    simp [hyk, equal_to]
  · simp [hyk, equal_to]

/-- The loop of `binary_sort` as a sequence of insertions: whatever property of
the sorted part, the part to insert and the change bounds is kept by one
insertion holds when the loop ends. -/
theorem binary_sort_loop_rule {cmp : α → α → Int} (h : TotalPreorder cmp) (A B : List α)
    (a hi : Nat) (Inv : List α → List α → Nat → Nat → Prop)
    (hstep : ∀ L R y rest cmin cmax, Inv (L ++ R) (y :: rest) cmin cmax → Sorted cmp (L ++ R) →
      (∀ l ∈ L, ¬ cmp y l < 0) → (∀ r ∈ R, cmp y r < 0) →
      hi = L.length + R.length + 1 + rest.length →
      (R = [] → Inv (L ++ [y]) rest cmin cmax) ∧
      (R ≠ [] → Inv (L ++ y :: R) rest (min cmin (a + L.length))
        (max cmax (a + L.length + R.length + 1))))
    (fuel : Nat) :
    ∀ (pre rest mem : List α) (start startp cmin cmax : Nat),
      mem = A ++ (pre ++ (rest ++ B)) → A.length = a → start = pre.length →
      hi = pre.length + rest.length → startp = a + start → rest.length + 1 ≤ fuel →
      Sorted cmp pre → Inv pre rest cmin cmax →
      ∃ pre' cmin' cmax', binary_sort_loop cmp a hi fuel mem start startp cmin cmax =
          some (A ++ (pre' ++ B), cmin', cmax') ∧ pre'.length = hi ∧ Sorted cmp pre' ∧
        Inv pre' [] cmin' cmax' := by
  induction fuel with
  | zero => intro pre rest mem start startp cmin cmax _ _ _ _ _ hf; omega
  | succ fuel ih =>
    intro pre rest mem start startp cmin cmax hm hA hst hhi hsp hf hs hinv
    rw [binary_sort_loop]
    cases rest with
    | nil =>
      rw [if_neg (by simp at hhi; omega)]
      exact ⟨pre, cmin, cmax, by simp [hm], by simp at hhi; omega, hs, hinv⟩
    | cons y rest =>
      simp only [List.length_cons] at hhi hf
      rw [if_pos (by omega)]
      obtain ⟨L, R, h1, h2, h3, h4⟩ := binary_sort_search_spec h A y (rest ++ B) (start + 1)
        [] pre [] mem startp a start (by simp [hm]) (by simp; omega) (by simp; omega) hst
        (by omega) hs (by simp) (by simp)
      simp only [List.nil_append, List.append_nil] at h2
      rw [h1]
      simp only
      have hlen : pre.length = L.length + R.length := by rw [h2]; simp
      subst h2
      rw [hlen] at hst hhi
      obtain ⟨hs1, hs2⟩ := hstep L R y rest cmin cmax hinv hs h3 h4 (by omega)
      by_cases hn : startp - (A.length + L.length) = 0
      · rw [if_pos hn]
        have hR : R = [] := List.eq_nil_of_length_eq_zero (by omega)
        subst hR
        simp only [List.append_nil, List.length_nil, Nat.add_zero] at hs hm hst hhi ⊢
        have hs' : Sorted cmp (L ++ [y]) := by
          have := sorted_insert h (L := L) (R := []) (y := y) (by simpa using hs) h3 h4
          simpa using this
        obtain ⟨pre', cmin', cmax', e1, e2, e3, e4⟩ := ih (L ++ [y]) rest mem (start + 1)
          (startp + 1) cmin cmax (by simp [hm]) hA (by simp; omega) (by simp; omega)
          (by omega) (by omega) hs' (hs1 rfl)
        exact ⟨pre', cmin', cmax', e1, e2, e3, e4⟩
      · rw [if_neg hn]
        have hRne : R ≠ [] := by
          intro e; subst e; simp at hst; omega
        obtain ⟨r0, R1, rfl⟩ := List.exists_cons_of_ne_nil hRne
        simp only [List.length_cons] at hst hhi
        rw [load_eq (A := A ++ (L ++ r0 :: R1)) (x := y) (B := rest ++ B) (by simp [hm])
          (by simp; omega)]
        simp only
        rw [memmove_eq (A := A ++ (L ++ [r0])) (M := R1 ++ [y]) (B := rest ++ B)
          (U := A ++ L) (W := r0 :: R1) (V := y :: (rest ++ B))
          (by simp [hm]) (by simp; omega) (by simp; omega) (by simp [hm]) (by simp)
          (by simp; omega)]
        simp only
        rw [store_eq (A := A ++ L) (x := r0) (B := r0 :: R1 ++ (rest ++ B)) y (by simp)
          (by simp)]
        simp only
        have hs' : Sorted cmp (L ++ y :: r0 :: R1) := sorted_insert h hs h3 h4
        have hmin : min cmin (A.length + L.length) = min cmin (a + L.length) := by rw [hA]
        have hmax : max cmax (startp + 1) = max cmax (a + L.length + (r0 :: R1).length + 1) := by
          simp only [List.length_cons]; congr 1; omega
        rw [hmin, hmax]
        obtain ⟨pre', cmin', cmax', e1, e2, e3, e4⟩ := ih (L ++ y :: r0 :: R1) rest
          (A ++ L ++ y :: (r0 :: R1 ++ (rest ++ B))) (start + 1)
          (startp + 1) _ _ (by simp) hA (by simp; omega) (by simp; omega)
          (by omega) (by omega) hs' (hs2 hRne)
        exact ⟨pre', cmin', cmax', e1, e2, e3, e4⟩

/-! ## Changed ranges -/

theorem getElem?_append3 (A m B : List α) (i : Nat) :
    (A ++ (m ++ B))[i]? = if i < A.length then A[i]? else
      if i - A.length < m.length then m[i - A.length]? else B[i - A.length - m.length]? := by
  split
  · rename_i hA
    rw [List.getElem?_append_left hA]
  · rename_i hA
    rw [List.getElem?_append_right (by omega)]
    split
    · rename_i hm
      rw [List.getElem?_append_left hm]
    · rename_i hm
      rw [List.getElem?_append_right (by omega)]

theorem getElem?_mid (A : List α) (x : α) (B : List α) {i : Nat} (hi : i = A.length) :
    (A ++ x :: B)[i]? = some x := by
  subst hi
  rw [List.getElem?_append_right (Nat.le_refl _)]
  simp

theorem agree_refl (lo len : Nat) (m : List α) : AgreeOutside lo len m m :=
  ⟨rfl, fun _ _ => rfl⟩

theorem agree_of_decomp {m m' P M M' S : List α} (hm : m = P ++ (M ++ S))
    (hm' : m' = P ++ (M' ++ S)) (hlen : M'.length = M.length) :
    AgreeOutside P.length M.length m m' := by
  subst hm hm'
  refine ⟨by simp [hlen], fun i hi => ?_⟩
  rw [getElem?_append3, getElem?_append3, hlen]
  split
  · rfl
  · rw [if_neg (by omega), if_neg (by omega)]

theorem changed_of_decomp (cmp : α → α → Int) {m n P M N S T V U W : List α}
    {x p z q : α} (hm : m = P ++ (M ++ S)) (hn : n = P ++ (N ++ S))
    (h1 : M = p :: T) (h1' : N = x :: V) (h2 : M = U ++ [q]) (h2' : N = W ++ [z])
    (hlen : N.length = M.length) (hlt : cmp x p < 0) (hgt : cmp q z < 0) :
    Changed cmp P.length M.length m n := by
  refine ⟨by rw [h1]; simp, agree_of_decomp hm hn hlen, ⟨x, p, ?_, ?_, hlt⟩,
    ⟨z, q, ?_, ?_, hgt⟩⟩
  · rw [hn, h1']; exact getElem?_mid P x _ rfl
  · rw [hm, h1]; exact getElem?_mid P p _ rfl
  · have hU : W.length + 1 = M.length := by rw [← hlen, h2']; simp
    rw [hn, h2']
    have : P ++ (W ++ [z] ++ S) = (P ++ W) ++ z :: S := by simp
    rw [this]
    exact getElem?_mid _ z _ (by simp; omega)
  · have hU : U.length + 1 = M.length := by rw [h2]; simp
    rw [hm]
    conv => lhs; rw [h2]
    have : P ++ (U ++ [q] ++ S) = (P ++ U) ++ q :: S := by simp
    rw [this]
    exact getElem?_mid _ q _ (by simp)

theorem agree_lift {lo len : Nat} {m m' : List α} (h : AgreeOutside lo len m m')
    (A B : List α) : AgreeOutside (A.length + lo) len (A ++ (m ++ B)) (A ++ (m' ++ B)) := by
  refine ⟨by simp [h.1], fun i hi => ?_⟩
  rw [getElem?_append3, getElem?_append3, h.1]
  split
  · rfl
  · split
    · exact h.2 _ (by omega)
    · rfl

theorem changed_lift {cmp : α → α → Int} {lo len : Nat} {m m' : List α}
    (h : Changed cmp lo len m m') (A B : List α) :
    Changed cmp (A.length + lo) len (A ++ (m ++ B)) (A ++ (m' ++ B)) := by
  obtain ⟨hpos, hag, ⟨x, x0, hx, hx0, hlt⟩, ⟨z, z0, hz, hz0, hgt⟩⟩ := h
  have key : ∀ (l : List α) (i : Nat) (v : α), l[i]? = some v →
      (A ++ (l ++ B))[A.length + i]? = some v := by
    intro l i v hv
    have hi : i < l.length := by
      by_contra hc
      rw [List.getElem?_eq_none (by omega)] at hv
      exact absurd hv (by simp)
    rw [getElem?_append3, if_neg (by omega), if_pos (by omega)]
    simp only [Nat.add_sub_cancel_left]
    exact hv
  refine ⟨hpos, agree_lift hag A B, ⟨x, x0, key _ _ _ hx, key _ _ _ hx0, hlt⟩, ⟨z, z0, ?_, ?_, hgt⟩⟩
  · have := key _ _ _ hz
    rwa [show A.length + (lo + len - 1) = A.length + lo + len - 1 by omega] at this
  · have := key _ _ _ hz0
    rwa [show A.length + (lo + len - 1) = A.length + lo + len - 1 by omega] at this

theorem changed_ne {cmp : α → α → Int} (h : TotalPreorder cmp) {lo len : Nat} {m m' : List α}
    (hc : Changed cmp lo len m m') : m'[lo]? ≠ m[lo]? ∧ m'[lo + len - 1]? ≠ m[lo + len - 1]? := by
  obtain ⟨_, _, ⟨x, x0, hx, hx0, hlt⟩, ⟨z, z0, hz, hz0, hgt⟩⟩ := hc
  constructor
  · rw [hx, hx0]
    intro e
    exact h.ne_of_lt hlt (Option.some.inj e)
  · rw [hz, hz0]
    intro e
    exact h.ne_of_lt hgt (Option.some.inj e).symm

/-- Two changes in a row add up to a change of the union of their ranges. -/
theorem changed_trans {cmp : α → α → Int} (h : TotalPreorder cmp) {lo₁ len₁ lo₂ len₂ : Nat}
    {m₀ m₁ m₂ : List α} (h₁ : Changed cmp lo₁ len₁ m₀ m₁) (h₂ : Changed cmp lo₂ len₂ m₁ m₂) :
    Changed cmp (min lo₁ lo₂) (max (lo₁ + len₁) (lo₂ + len₂) - min lo₁ lo₂) m₀ m₂ := by
  obtain ⟨hpos₁, hag₁, ⟨x, x0, hx, hx0, hlt⟩, ⟨z, z0, hz, hz0, hgt⟩⟩ := h₁
  obtain ⟨hpos₂, hag₂, ⟨x', x0', hx', hx0', hlt'⟩, ⟨z', z0', hz', hz0', hgt'⟩⟩ := h₂
  refine ⟨by omega, ⟨hag₂.1.trans hag₁.1, fun i hi => ?_⟩, ?_, ?_⟩
  · rw [hag₂.2 i (by omega), hag₁.2 i (by omega)]
  · rcases Nat.lt_trichotomy lo₁ lo₂ with hl | hl | hl
    · rw [Nat.min_eq_left (by omega)]
      exact ⟨x, x0, by rw [hag₂.2 lo₁ (Or.inl hl)]; exact hx, hx0, hlt⟩
    · subst hl
      rw [Nat.min_self]
      rw [hx] at hx0'
      obtain rfl := Option.some.inj hx0'
      exact ⟨x', x0, hx', hx0, h.lt_of_lt_of_le hlt' (by omega)⟩
    · rw [Nat.min_eq_right (by omega)]
      exact ⟨x', x0', hx', by rw [← hag₁.2 lo₂ (Or.inl hl)]; exact hx0', hlt'⟩
  · have e : min lo₁ lo₂ + (max (lo₁ + len₁) (lo₂ + len₂) - min lo₁ lo₂) - 1
        = max (lo₁ + len₁) (lo₂ + len₂) - 1 := by omega
    rw [e]
    rcases Nat.lt_trichotomy (lo₁ + len₁) (lo₂ + len₂) with hl | hl | hl
    · rw [Nat.max_eq_right (by omega)]
      exact ⟨z', z0', hz', by rw [← hag₁.2 _ (Or.inr (by omega))]; exact hz0', hgt'⟩
    · rw [← hl, Nat.max_self]
      rw [← hl, hz] at hz0'
      obtain rfl := Option.some.inj hz0'
      rw [← hl] at hz'
      exact ⟨z', z0, hz', hz0, h.lt_of_lt_of_le hgt (by omega)⟩
    · rw [Nat.max_eq_left (by omega)]
      exact ⟨z, z0, by rw [hag₂.2 _ (Or.inr (by omega))]; exact hz, hz0, hgt⟩

/-- One insertion of `binary_sort` that moves something. -/
theorem insert_changed (cmp : α → α → Int) (L : List α) {R : List α} (y : α) (rest : List α)
    (hne : R ≠ []) (hR : ∀ r ∈ R, cmp y r < 0) :
    Changed cmp L.length (R.length + 1) (L ++ (R ++ y :: rest)) (L ++ (y :: R ++ rest)) := by
  obtain ⟨r0, R1, rfl⟩ := List.exists_cons_of_ne_nil hne
  obtain ⟨R2, rl, hR2⟩ : ∃ R2 rl, r0 :: R1 = R2 ++ [rl] := by
    rcases List.eq_nil_or_concat (r0 :: R1) with e | ⟨R2, rl, e⟩
    · exact absurd e (by simp)
    · exact ⟨R2, rl, by simpa using e⟩
  have := changed_of_decomp cmp (m := L ++ (r0 :: R1 ++ y :: rest))
    (n := L ++ (y :: (r0 :: R1) ++ rest)) (P := L) (M := r0 :: R1 ++ [y])
    (N := y :: (r0 :: R1)) (S := rest) (T := R1 ++ [y]) (V := r0 :: R1) (U := r0 :: R1)
    (W := y :: R2) (x := y) (p := r0) (z := rl) (q := y) (by simp) (by simp) (by simp) rfl
    rfl (by rw [hR2]; simp) (by simp) (hR r0 (by simp)) (hR rl (by rw [hR2]; simp))
  simpa using this

/-- The reversal of a strictly decreasing run of two elements or more. -/
theorem reverse_changed {cmp : α → α → Int} {run : List α} (rest : List α)
    (hlen : 2 ≤ run.length) (hs : StrictDesc cmp run) :
    Changed cmp 0 run.length (run ++ rest) (run.reverse ++ rest) := by
  obtain ⟨x, run1, rfl⟩ : ∃ x run1, run = x :: run1 := by
    cases run with
    | nil => simp at hlen
    | cons x r => exact ⟨x, r, rfl⟩
  obtain ⟨run2, z, rfl⟩ : ∃ run2 z, run1 = run2 ++ [z] := by
    rcases List.eq_nil_or_concat run1 with e | ⟨r, z, e⟩
    · subst e; simp at hlen
    · exact ⟨r, z, by simpa using e⟩
  have hzx : cmp z x < 0 := (List.pairwise_cons.1 hs).1 z (by simp)
  exact changed_of_decomp cmp (P := []) (M := x :: (run2 ++ [z]))
    (N := (x :: (run2 ++ [z])).reverse) (S := rest) (T := run2 ++ [z])
    (V := run2.reverse ++ [x]) (U := x :: run2) (W := z :: run2.reverse) (x := z) (p := x)
    (z := x) (q := z) (by simp) (by simp) rfl (by simp) (by simp) (by simp) (by simp) hzx hzx

/-- What `binary_sort` does on the range `pre ++ rest` whose part `pre` is sorted:
it sorts the range stably, and either moves nothing and leaves `inout_change` as
it is, or reports the smallest range it changed. -/
theorem binary_sort_spec {cmp : α → α → Int} (h : TotalPreorder cmp) {mem A pre rest B : List α}
    {a hi start : Nat} (ic : Option GtkTimSortChange) (hm : mem = A ++ (pre ++ (rest ++ B)))
    (hA : A.length = a) (hst : start = pre.length) (hpos : 0 < start)
    (hhi : hi = pre.length + rest.length) (hs : Sorted cmp pre)
    (hic : ∀ c, ic = some c → c.base = none → c.len = 0) :
    ∃ seg' oc', binary_sort cmp mem a hi start ic = some (A ++ (seg' ++ B), oc') ∧
      seg'.length = hi ∧ Sorted cmp seg' ∧ Stable cmp (pre ++ rest) seg' ∧
      ((seg' = pre ++ rest ∧ oc' = ic) ∨
        (∃ lo len, Changed cmp lo len (pre ++ rest) seg' ∧
          oc' = union_change ic (a + lo) (a + lo + len))) := by
  have hstep : ∀ L R y rest' cmin cmax,
      (Stable cmp (pre ++ rest) ((L ++ R) ++ y :: rest') ∧
        (((L ++ R) ++ y :: rest' = pre ++ rest ∧ cmax = a ∧ cmin = a + hi) ∨
          (∃ lo len, cmin = a + lo ∧ cmax = a + lo + len ∧
            Changed cmp lo len (pre ++ rest) ((L ++ R) ++ y :: rest')))) →
      Sorted cmp (L ++ R) → (∀ l ∈ L, ¬ cmp y l < 0) → (∀ r ∈ R, cmp y r < 0) →
      hi = L.length + R.length + 1 + rest'.length →
      (R = [] → (Stable cmp (pre ++ rest) ((L ++ [y]) ++ rest') ∧
        (((L ++ [y]) ++ rest' = pre ++ rest ∧ cmax = a ∧ cmin = a + hi) ∨
          (∃ lo len, cmin = a + lo ∧ cmax = a + lo + len ∧
            Changed cmp lo len (pre ++ rest) ((L ++ [y]) ++ rest'))))) ∧
      (R ≠ [] → (Stable cmp (pre ++ rest) ((L ++ y :: R) ++ rest') ∧
        (((L ++ y :: R) ++ rest' = pre ++ rest ∧ max cmax (a + L.length + R.length + 1) = a ∧
            min cmin (a + L.length) = a + hi) ∨
          (∃ lo len, min cmin (a + L.length) = a + lo ∧
            max cmax (a + L.length + R.length + 1) = a + lo + len ∧
            Changed cmp lo len (pre ++ rest) ((L ++ y :: R) ++ rest'))))) := by
    intro L R y rest' cmin cmax hinv _ _ hR hhi'
    obtain ⟨hstab, hch⟩ := hinv
    constructor
    · intro hRnil
      subst hRnil
      simp only [List.append_nil, List.append_assoc, List.singleton_append] at hstab hch ⊢
      exact ⟨hstab, hch⟩
    · intro hRne
      have hst2 : Stable cmp (L ++ (R ++ [y] ++ rest')) (L ++ (y :: R ++ rest')) :=
        stable_append (stable_insert h hR) L rest'
      have hch2 := insert_changed cmp L y rest' hRne hR
      simp only [List.append_assoc, List.singleton_append, List.cons_append,
        List.nil_append] at hstab hch hst2 hch2 ⊢
      refine ⟨stable_trans hstab hst2, Or.inr ?_⟩
      rcases hch with ⟨e, hcmax, hcmin⟩ | ⟨lo, len, hcmin, hcmax, hc⟩
      · rw [e] at hch2
        exact ⟨L.length, R.length + 1, by omega, by omega, hch2⟩
      · have := changed_trans h hc hch2
        exact ⟨min lo L.length, max (lo + len) (L.length + (R.length + 1)) - min lo L.length,
          by omega, by omega, this⟩
  unfold binary_sort
  rw [if_pos (by omega), if_neg (by omega)]
  simp only
  obtain ⟨pre', cmin', cmax', e1, e2, e3, ⟨e4, e5⟩⟩ := binary_sort_loop_rule h A B a hi
    (fun p r cmin cmax => Stable cmp (pre ++ rest) (p ++ r) ∧
      ((p ++ r = pre ++ rest ∧ cmax = a ∧ cmin = a + hi) ∨
        (∃ lo len, cmin = a + lo ∧ cmax = a + lo + len ∧
          Changed cmp lo len (pre ++ rest) (p ++ r)))) hstep
    (hi + 1) pre rest mem start (a + start) (a + hi) a hm hA hst hhi rfl (by omega) hs
    ⟨stable_refl cmp _, Or.inl ⟨rfl, rfl, rfl⟩⟩
  rw [e1]
  simp only [List.append_nil] at e4 e5 ⊢
  rcases e5 with ⟨e, hcmax, hcmin⟩ | ⟨lo, len, hcmin, hcmax, hc⟩
  · rw [if_neg (by omega)]
    exact ⟨pre', ic, rfl, e2, e3, e4, Or.inl ⟨e, rfl⟩⟩
  · have hlen := hc.1
    have hlo : lo < hi := by
      obtain ⟨_, _, ⟨x, x0, _, hx0, _⟩, _⟩ := hc
      have : lo < (pre ++ rest).length := by
        by_contra hcon
        rw [List.getElem?_eq_none (by omega)] at hx0
        exact absurd hx0 (by simp)
      simp at this; omega
    rw [if_pos (by omega), if_pos (by omega)]
    refine ⟨pre', union_change ic cmin' cmax', ?_, e2, e3, e4, Or.inr ⟨lo, len, hc, by
      rw [hcmin, hcmax]⟩⟩
    cases ic with
    | none => rfl
    | some c =>
      simp only [union_change, gtk_tim_sort_set_change]
      cases hb : c.base with
      | none =>
        have := hic c rfl hb
        simp [this]
      | some cb =>
        by_cases hl : c.len = 0
        · simp [hl]
        · simp [hl]

/-! ## Galloping -/

theorem and_add_xor_shift (a b : Nat) : (a &&& b) + (a ^^^ b) / 2 = (a + b) / 2 := by
  have key : ∀ a b : Nat, 2 * (a &&& b) + (a ^^^ b) = a + b := by
    intro a
    induction a using Nat.binaryRec with
    | z => intro b; simp
    | f x n ih =>
      intro b
      induction b using Nat.binaryRec with
      | z => simp
      | f y m _ =>
        have := ih m
        rw [Nat.land_bit, Nat.xor_bit]
        simp only [Nat.bit_val]
        cases x <;> cases y <;> simp <;> omega
  have := key a b
  omega

theorem gallop_ofs_loop_spec (cmp : α → α → Int) (key : α) (buf : List α) (elem : Nat → Nat)
    (test : Int → Bool) (max_ofs : Nat) (T : Nat → Bool) (hmax : max_ofs < GSIZE_MOD)
    (hT : ∀ ofs, ofs < max_ofs → ∃ c, compare_key cmp key buf (elem ofs) = some c ∧
      test c = T ofs) (fuel : Nat) :
    ∀ (last ofs : Nat), max_ofs + 1 ≤ fuel + ofs → 0 < fuel → last < ofs →
      (∃ j, ofs + 1 = 2 ^ j) →
      last < max_ofs → T last = true →
      ∃ last' ofs', gallop_ofs_loop cmp key buf elem test max_ofs fuel last ofs
          = some (last', ofs') ∧
        last' < ofs' ∧ last' < max_ofs ∧ T last' = true ∧ (max_ofs ≤ ofs' ∨ T ofs' = false) := by
  induction fuel with
  | zero => intro last ofs _ hf; omega
  | succ fuel ih =>
    intro last ofs hf _ hlt hpow hl hTl
    rw [gallop_ofs_loop]
    by_cases ho : ofs < max_ofs
    · rw [if_pos ho]
      obtain ⟨c, hc, htc⟩ := hT ofs ho
      rw [hc]
      simp only
      by_cases ht : test c = true
      · rw [if_pos ht]
        obtain ⟨j, hj⟩ := hpow
        have hj64 : j < 64 := by
          by_contra hcon
          have : 2 ^ 64 ≤ 2 ^ j := Nat.pow_le_pow_right (by omega) (by omega)
          simp only [GSIZE_MOD] at hmax
          omega
        have hnext : (ofs <<< 1 + 1) % GSIZE_MOD = 2 * ofs + 1 := by
          have h2 : 2 ^ (j + 1) ≤ 2 ^ 64 := Nat.pow_le_pow_right (by omega) (by omega)
          rw [Nat.pow_succ] at h2
          rw [Nat.shiftLeft_eq, pow_one, Nat.mod_eq_of_lt (by simp only [GSIZE_MOD]; omega)]
          omega
        rw [hnext]
        exact ih ofs (2 * ofs + 1) (by omega) (by omega) (by omega)
          ⟨j + 1, by rw [Nat.pow_succ]; omega⟩ ho (by rw [← htc]; exact ht)
      · rw [if_neg ht]
        exact ⟨last, ofs, rfl, hlt, hl, hTl, Or.inr (by rw [← htc]; simpa using ht)⟩
    · rw [if_neg ho]
      exact ⟨last, ofs, rfl, hlt, hl, hTl, Or.inl (by omega)⟩

theorem gallop_search_loop_spec (cmp : α → α → Int) (key : α) (buf : List α) (base len : Nat)
    (right : Int → Bool) (R : Nat → Bool)
    (hR : ∀ i, i < len → ∃ c, compare_key cmp key buf (base + i) = some c ∧ right c = R i)
    (hmono : ∀ i j, i ≤ j → j < len → R j = true → R i = true) (fuel : Nat) :
    ∀ (last ofs : Nat), ofs < fuel + last → last ≤ ofs → ofs ≤ len →
      (last = 0 ∨ R (last - 1) = true) → (ofs = len ∨ R ofs = false) →
      ∃ k, gallop_search_loop cmp key buf base right fuel last ofs = some k ∧ k ≤ len ∧
        (∀ i, i < k → R i = true) ∧ (∀ i, k ≤ i → i < len → R i = false) := by
  induction fuel with
  | zero => intro last ofs hf hle _ _ _; omega
  | succ fuel ih =>
    intro last ofs hf hle hlen hl ho
    rw [gallop_search_loop]
    by_cases hlt : last < ofs
    · rw [if_pos hlt]
      simp only [Nat.shiftRight_eq_div_pow, pow_one, and_add_xor_shift]
      obtain ⟨c, hc, hrc⟩ := hR ((last + ofs) / 2) (by omega)
      rw [hc]
      simp only
      by_cases hr : right c = true
      · rw [if_pos hr]
        exact ih _ _ (by omega) (by omega) hlen
          (Or.inr (by simp only [Nat.add_sub_cancel]; rw [← hrc]; exact hr)) ho
      · rw [if_neg hr]
        exact ih _ _ (by omega) (by omega) (by omega) hl
          (Or.inr (by rw [← hrc]; simpa using hr))
    · rw [if_neg hlt]
      have e : last = ofs := by omega
      subst e
      refine ⟨last, rfl, hlen, fun i hi => ?_, fun i hi hil => ?_⟩
      · rcases hl with h0 | h1
        · omega
        · exact hmono i (last - 1) (by omega) (by omega) h1
      · rcases ho with h0 | h1
        · omega
        · by_contra hcon
          have := hmono last i hi hil (by simpa using hcon)
          rw [h1] at this
          exact absurd this (by simp)

/-- The galloping loop towards higher indices, and the bounds computed after it. -/
theorem gallop_bounds_up (cmp : α → α → Int) (key : α) {buf A S B : List α} {base len hint : Nat}
    (right test : Int → Bool) (R : Nat → Bool) (hb : buf = A ++ (S ++ B)) (hA : A.length = base)
    (hS : S.length = len) (hhint : hint < len) (hlen : len < GSIZE_MOD)
    (htest : ∀ c, test c = right c)
    (hR : ∀ i (hi : i < S.length), R i = right (cmp key S[i])) (h0 : R hint = true) :
    ∃ last ofs, gallop_ofs_loop cmp key buf (fun ofs => base + hint + ofs) test (len - hint)
        (len - hint + 1) 0 1 = some (last, ofs) ∧
      last + (hint + 1) ≤ (if ofs > len - hint then len - hint else ofs) + hint ∧
      (if ofs > len - hint then len - hint else ofs) + hint ≤ len ∧
      R (last + (hint + 1) - 1) = true ∧
      ((if ofs > len - hint then len - hint else ofs) + hint = len ∨
        R ((if ofs > len - hint then len - hint else ofs) + hint) = false) := by
  obtain ⟨last, ofs, h1, h2, h3, h4, h5⟩ := gallop_ofs_loop_spec cmp key buf
    (fun ofs => base + hint + ofs) test (len - hint) (fun ofs => R (hint + ofs)) (by omega)
    (fun ofs ho => by
      have hi : hint + ofs < S.length := by omega
      show ∃ c, compare_key cmp key buf (base + hint + ofs) = some c ∧ test c = R (hint + ofs)
      exact ⟨cmp key S[hint + ofs], compare_key_seg cmp key hb (by omega) hi, by
        rw [htest, hR _ hi]⟩)
    (len - hint + 1) 0 1 (by omega) (by omega) (by omega) ⟨1, rfl⟩ (by omega) h0
  refine ⟨last, ofs, h1, ?_, ?_, ?_, ?_⟩
  · split <;> omega
  · split <;> omega
  · rw [show last + (hint + 1) - 1 = hint + last by omega]; exact h4
  · by_cases hgt : ofs > len - hint
    · rw [if_pos hgt]; left; omega
    · rw [if_neg hgt]
      rcases h5 with h5 | h5
      · left; omega
      · right; rw [Nat.add_comm]; exact h5

/-- The galloping loop towards lower indices, and the bounds computed after it. -/
theorem gallop_bounds_down (cmp : α → α → Int) (key : α) {buf A S B : List α}
    {base len hint : Nat} (right test : Int → Bool) (R : Nat → Bool) (hb : buf = A ++ (S ++ B))
    (hA : A.length = base) (hS : S.length = len) (hhint : hint < len) (hlen : len < GSIZE_MOD)
    (htest : ∀ c, test c = !right c)
    (hR : ∀ i (hi : i < S.length), R i = right (cmp key S[i])) (h0 : R hint = false) :
    ∃ last ofs, gallop_ofs_loop cmp key buf (fun ofs => base + hint - ofs) test (hint + 1)
        (hint + 1 + 1) 0 1 = some (last, ofs) ∧
      hint + 1 - (if ofs > hint + 1 then hint + 1 else ofs) ≤ hint - last ∧
      hint - last ≤ len ∧
      (hint + 1 - (if ofs > hint + 1 then hint + 1 else ofs) = 0 ∨
        R (hint + 1 - (if ofs > hint + 1 then hint + 1 else ofs) - 1) = true) ∧
      (hint - last = len ∨ R (hint - last) = false) := by
  obtain ⟨last, ofs, h1, h2, h3, h4, h5⟩ := gallop_ofs_loop_spec cmp key buf
    (fun ofs => base + hint - ofs) test (hint + 1) (fun ofs => !R (hint - ofs)) (by omega)
    (fun ofs ho => by
      have hi : hint - ofs < S.length := by omega
      show ∃ c, compare_key cmp key buf (base + hint - ofs) = some c ∧
        test c = !R (hint - ofs)
      exact ⟨cmp key S[hint - ofs], compare_key_seg cmp key hb (by omega) hi, by
        rw [htest, hR _ hi]⟩)
    (hint + 1 + 1) 0 1 (by omega) (by omega) (by omega) ⟨1, rfl⟩ (by omega)
    (by simpa using h0)
  refine ⟨last, ofs, h1, ?_, by omega, ?_, Or.inr (by simpa using h4)⟩
  · split <;> omega
  · by_cases hgt : ofs > hint + 1
    · rw [if_pos hgt]; left; omega
    · rw [if_neg hgt]
      rcases h5 with h5 | h5
      · left; omega
      · right
        rw [show hint + 1 - ofs - 1 = hint - ofs by omega]
        simpa using h5

theorem mem_take_index {l : List α} {k : Nat} {x : α} (hx : x ∈ l.take k) :
    ∃ i, ∃ (hi : i < l.length), i < k ∧ l[i] = x := by
  obtain ⟨i, hi, e⟩ := List.getElem_of_mem hx
  rw [List.length_take] at hi
  exact ⟨i, by omega, by omega, by rw [← e, List.getElem_take]⟩

theorem mem_drop_index {l : List α} {k : Nat} {x : α} (hx : x ∈ l.drop k) :
    ∃ i, ∃ (hi : i < l.length), k ≤ i ∧ l[i] = x := by
  obtain ⟨i, hi, e⟩ := List.getElem_of_mem hx
  rw [List.length_drop] at hi
  exact ⟨k + i, by omega, by omega, by rw [← e, List.getElem_drop]⟩

theorem sorted_getElem_le {cmp : α → α → Int} (h : TotalPreorder cmp) {l : List α}
    (hs : Sorted cmp l) {i j : Nat} (hij : i ≤ j) (hj : j < l.length) :
    cmp (l[i]) (l[j]) ≤ 0 := by
  rcases Nat.lt_or_eq_of_le hij with hlt | rfl
  · exact (List.pairwise_iff_getElem.1 hs) i j (by omega) hj hlt
  · have := h.cmp_self l[i]
    omega

/-- The function `gallop_left` on a sorted range: the number of elements that are
strictly smaller than the key. -/
theorem gallop_left_spec {cmp : α → α → Int} (h : TotalPreorder cmp) (key : α)
    {buf A S B : List α} {base len hint : Nat} (hb : buf = A ++ (S ++ B)) (hA : A.length = base)
    (hS : S.length = len) (hhint : hint < len) (hlen : len < GSIZE_MOD) (hs : Sorted cmp S) :
    ∃ k, gallop_left cmp key buf base len hint = some k ∧ k ≤ len ∧
      (∀ x ∈ S.take k, cmp x key < 0) ∧ (∀ x ∈ S.drop k, cmp key x ≤ 0) := by
  let R : Nat → Bool := fun i => if hi : i < S.length then decide (cmp key S[i] > 0) else false
  have hR : ∀ i (hi : i < S.length), R i = (fun c => decide (c > 0)) (cmp key S[i]) := by
    intro i hi; simp only [R, dif_pos hi]
  have hmono : ∀ i j, i ≤ j → j < len → R j = true → R i = true := by
    intro i j hij hj hRj
    have hj' : j < S.length := by omega
    have hi' : i < S.length := by omega
    rw [hR j hj'] at hRj
    rw [hR i hi']
    simp only [gt_iff_lt, decide_eq_true_eq] at hRj ⊢
    have h1 : cmp S[j] key < 0 := (h.pos_iff _ _).1 hRj
    have h2 := sorted_getElem_le h hs hij hj'
    exact (h.pos_iff _ _).2 (h.lt_of_le_of_lt h2 h1)
  have hcomp : ∀ i, i < len → ∃ c, compare_key cmp key buf (base + i) = some c ∧
      (fun c => decide (c > 0)) c = R i := by
    intro i hi
    have hi' : i < S.length := by omega
    exact ⟨_, compare_key_seg cmp key hb (by omega) hi', (hR i hi').symm⟩
  have hfinal : ∀ k, k ≤ len → (∀ i, i < k → R i = true) → (∀ i, k ≤ i → i < len → R i = false) →
      (∀ x ∈ S.take k, cmp x key < 0) ∧ (∀ x ∈ S.drop k, cmp key x ≤ 0) := by
    intro k _ h1 h2
    constructor
    · intro x hx
      obtain ⟨i, hi, hik, rfl⟩ := mem_take_index hx
      have := h1 i hik
      rw [hR i hi] at this
      exact (h.pos_iff _ _).1 (by simpa using this)
    · intro x hx
      obtain ⟨i, hi, hik, rfl⟩ := mem_drop_index hx
      have := h2 i hik (by omega)
      rw [hR i hi] at this
      simpa using this
  unfold gallop_left
  rw [if_pos ⟨by omega, hhint⟩]
  have hhintS : hint < S.length := by omega
  rw [compare_key_seg cmp key hb (by omega) hhintS]
  simp only
  by_cases hc : cmp key S[hint] > 0
  · rw [if_pos hc]
    obtain ⟨last, ofs, e1, e2, e3, e4, e5⟩ := gallop_bounds_up cmp key (fun c => decide (c > 0))
      (fun c => decide (c > 0)) R hb hA hS hhint hlen (fun _ => rfl) hR
      (by rw [hR hint hhintS]; simpa using hc)
    rw [e1]
    simp only
    rw [if_pos ⟨e2, e3⟩]
    obtain ⟨k, f1, f2, f3, f4⟩ := gallop_search_loop_spec cmp key buf base len
      (fun c => decide (c > 0)) R hcomp hmono
      ((if ofs > len - hint then len - hint else ofs) + hint - (last + (hint + 1)) + 1)
      (last + (hint + 1)) ((if ofs > len - hint then len - hint else ofs) + hint) (by omega)
      e2 e3 (Or.inr e4) e5
    exact ⟨k, f1, f2, hfinal k f2 f3 f4⟩
  · rw [if_neg hc]
    obtain ⟨last, ofs, e1, e2, e3, e4, e5⟩ := gallop_bounds_down cmp key (fun c => decide (c > 0))
      (fun c => decide (c ≤ 0)) R hb hA hS hhint hlen
      (fun c => by by_cases hc0 : 0 < c <;> simp [hc0]; omega) hR
      (by rw [hR hint hhintS]; simpa using hc)
    rw [e1]
    simp only
    rw [if_pos ⟨e2, e3⟩]
    obtain ⟨k, f1, f2, f3, f4⟩ := gallop_search_loop_spec cmp key buf base len
      (fun c => decide (c > 0)) R hcomp hmono
      (hint - last - (hint + 1 - (if ofs > hint + 1 then hint + 1 else ofs)) + 1)
      (hint + 1 - (if ofs > hint + 1 then hint + 1 else ofs)) (hint - last) (by omega)
      e2 e3 e4 e5
    exact ⟨k, f1, f2, hfinal k f2 f3 f4⟩

/-- The function `gallop_right` on a sorted range: the number of elements that are
smaller than or equal to the key. -/
theorem gallop_right_spec {cmp : α → α → Int} (h : TotalPreorder cmp) (key : α)
    {buf A S B : List α} {base len hint : Nat} (hb : buf = A ++ (S ++ B)) (hA : A.length = base)
    (hS : S.length = len) (hhint : hint < len) (hlen : len < GSIZE_MOD) (hs : Sorted cmp S) :
    ∃ k, gallop_right cmp key buf base len hint = some k ∧ k ≤ len ∧
      (∀ x ∈ S.take k, cmp x key ≤ 0) ∧ (∀ x ∈ S.drop k, cmp key x < 0) := by
  let R : Nat → Bool := fun i => if hi : i < S.length then decide (cmp key S[i] ≥ 0) else false
  have hR : ∀ i (hi : i < S.length), R i = (fun c => decide (c ≥ 0)) (cmp key S[i]) := by
    intro i hi; simp only [R, dif_pos hi]
  have hmono : ∀ i j, i ≤ j → j < len → R j = true → R i = true := by
    intro i j hij hj hRj
    have hj' : j < S.length := by omega
    have hi' : i < S.length := by omega
    rw [hR j hj'] at hRj
    rw [hR i hi']
    simp only [ge_iff_le, decide_eq_true_eq] at hRj ⊢
    have h1 : cmp S[j] key ≤ 0 := (h.nonneg_iff _ _).1 hRj
    have h2 := sorted_getElem_le h hs hij hj'
    exact (h.nonneg_iff _ _).2 (h.trans _ _ _ h2 h1)
  have hcomp : ∀ i, i < len → ∃ c, compare_key cmp key buf (base + i) = some c ∧
      (fun c => decide (c ≥ 0)) c = R i := by
    intro i hi
    have hi' : i < S.length := by omega
    exact ⟨_, compare_key_seg cmp key hb (by omega) hi', (hR i hi').symm⟩
  have hfinal : ∀ k, k ≤ len → (∀ i, i < k → R i = true) → (∀ i, k ≤ i → i < len → R i = false) →
      (∀ x ∈ S.take k, cmp x key ≤ 0) ∧ (∀ x ∈ S.drop k, cmp key x < 0) := by
    intro k _ h1 h2
    constructor
    · intro x hx
      obtain ⟨i, hi, hik, rfl⟩ := mem_take_index hx
      have := h1 i hik
      rw [hR i hi] at this
      exact (h.nonneg_iff _ _).1 (by simpa using this)
    · intro x hx
      obtain ⟨i, hi, hik, rfl⟩ := mem_drop_index hx
      have := h2 i hik (by omega)
      rw [hR i hi] at this
      simpa using this
  unfold gallop_right
  rw [if_pos ⟨by omega, hhint⟩]
  have hhintS : hint < S.length := by omega
  rw [compare_key_seg cmp key hb (by omega) hhintS]
  simp only
  by_cases hc : cmp key S[hint] < 0
  · rw [if_pos hc]
    obtain ⟨last, ofs, e1, e2, e3, e4, e5⟩ := gallop_bounds_down cmp key (fun c => decide (c ≥ 0))
      (fun c => decide (c < 0)) R hb hA hS hhint hlen
      (fun c => by by_cases hc0 : 0 ≤ c <;> simp [hc0]; omega) hR
      (by rw [hR hint hhintS]; simpa using hc)
    rw [e1]
    simp only
    rw [if_pos ⟨e2, e3⟩]
    obtain ⟨k, f1, f2, f3, f4⟩ := gallop_search_loop_spec cmp key buf base len
      (fun c => decide (c ≥ 0)) R hcomp hmono
      (hint - last - (hint + 1 - (if ofs > hint + 1 then hint + 1 else ofs)) + 1)
      (hint + 1 - (if ofs > hint + 1 then hint + 1 else ofs)) (hint - last) (by omega)
      e2 e3 e4 e5
    exact ⟨k, f1, f2, hfinal k f2 f3 f4⟩
  · rw [if_neg hc]
    obtain ⟨last, ofs, e1, e2, e3, e4, e5⟩ := gallop_bounds_up cmp key (fun c => decide (c ≥ 0))
      (fun c => decide (c ≥ 0)) R hb hA hS hhint hlen (fun _ => rfl) hR
      (by rw [hR hint hhintS]; simpa using hc)
    rw [e1]
    simp only
    rw [if_pos ⟨e2, e3⟩]
    obtain ⟨k, f1, f2, f3, f4⟩ := gallop_search_loop_spec cmp key buf base len
      (fun c => decide (c ≥ 0)) R hcomp hmono
      ((if ofs > len - hint then len - hint else ofs) + hint - (last + (hint + 1)) + 1)
      (last + (hint + 1)) ((if ofs > len - hint then len - hint else ofs) + hint) (by omega)
      e2 e3 (Or.inr e4) e5
    exact ⟨k, f1, f2, hfinal k f2 f3 f4⟩

/-! ## Merging from the low end -/

theorem naive_merge_take_left (cmp : α → α → Int) (p xs : List α) (y : α) (ys : List α)
    (hp : ∀ x ∈ p, ¬ cmp y x < 0) :
    naive_merge cmp (p ++ xs) (y :: ys) = p ++ naive_merge cmp xs (y :: ys) := by
  induction p with
  | nil => rfl
  | cons a p ih =>
    rw [List.cons_append, naive_merge_cons_ge cmp _ _ (hp a (List.mem_cons_self _ _)), ih
      (fun x hx => hp x (List.mem_cons_of_mem _ hx))]
    rfl

theorem naive_merge_take_right (cmp : α → α → Int) (x : α) (xs q ys : List α)
    (hq : ∀ y ∈ q, cmp y x < 0) :
    naive_merge cmp (x :: xs) (q ++ ys) = q ++ naive_merge cmp (x :: xs) ys := by
  induction q with
  | nil => rfl
  | cons b q ih =>
    rw [List.cons_append, naive_merge_cons_lt cmp _ _ (hq b (List.mem_cons_self _ _)), ih
      (fun y hy => hq y (List.mem_cons_of_mem _ hy))]
    rfl

theorem naive_merge_singleton_left {cmp : α → α → Int} (x : α) (ys : List α)
    (hy : ∀ y ∈ ys, cmp y x < 0) : naive_merge cmp [x] ys = ys ++ [x] := by
  have := naive_merge_take_right cmp x [] ys [] hy
  simpa [naive_merge_nil_right] using this

theorem mergeOrder_tail_right {cmp : α → α → Int} {X : List α} {y : α} {Y : List α}
    (h : MergeOrder cmp X (y :: Y)) : MergeOrder cmp X Y := by
  obtain ⟨h1, h2, X0, xl, h3, h4⟩ := h
  exact ⟨h1, (List.pairwise_cons.1 h2).2, X0, xl, h3, fun z hz => h4 z (List.mem_cons_of_mem _ hz)⟩

theorem mergeOrder_drop_right {cmp : α → α → Int} {X Y : List α} (k : Nat)
    (h : MergeOrder cmp X Y) : MergeOrder cmp X (Y.drop k) := by
  obtain ⟨h1, h2, X0, xl, h3, h4⟩ := h
  refine ⟨h1, ?_, X0, xl, h3, fun z hz => h4 z (List.mem_of_mem_drop hz)⟩
  have : Sorted cmp (Y.take k ++ Y.drop k) := by rw [List.take_append_drop]; exact h2
  exact this.of_append_right

theorem mergeOrder_drop_left {cmp : α → α → Int} {X Y : List α} (k : Nat)
    (h : MergeOrder cmp X Y) (hk : k < X.length) : MergeOrder cmp (X.drop k) Y := by
  obtain ⟨h1, h2, X0, xl, h3, h4⟩ := h
  have hs : Sorted cmp (X.take k ++ X.drop k) := by rw [List.take_append_drop]; exact h1
  refine ⟨hs.of_append_right, h2, X0.drop k, xl, ?_, h4⟩
  rw [h3, List.drop_append_of_le_length]
  rw [h3] at hk
  simp at hk
  omega

theorem mergeOrder_tail_left {cmp : α → α → Int} {x : α} {X Y : List α}
    (h : MergeOrder cmp (x :: X) Y) (hX : 1 ≤ X.length) : MergeOrder cmp X Y := by
  have := mergeOrder_drop_left 1 h (by simp; omega)
  simpa using this

/-- In a merge the key of the second run never exceeds the whole first run. -/
theorem mergeOrder_gallop_lt {cmp : α → α → Int} (h : TotalPreorder cmp) {X : List α} {y : α}
    {Y : List α} (ho : MergeOrder cmp X (y :: Y)) {k : Nat} (hk : k ≤ X.length)
    (hle : ∀ x ∈ X.take k, cmp x y ≤ 0) : k < X.length := by
  obtain ⟨_, _, X0, xl, h3, h4⟩ := ho
  by_contra hcon
  have hk' : k = X.length := by omega
  have hxl : xl ∈ X.take k := by
    rw [hk', List.take_length, h3]; simp
  have h1 := hle xl hxl
  have h2 := h4 y (List.mem_cons_self _ _)
  exact (h.not_lt_iff y xl).2 h1 h2

theorem mergeLo_read {P Q tmp : List α} {v : MergeLo α} {D : List α} {x : α} {X : List α}
    {y : α} {Y : List α} (hst : MergeLoState P Q tmp v D (x :: X) (y :: Y)) :
    load v.mem v.cursor2 = some y ∧ load tmp v.cursor1 = some x := by
  obtain ⟨G, U, h1, h2, h3, h4, h5, h6, h7, h8⟩ := hst
  constructor
  · exact load_eq (A := P ++ (D ++ G)) (B := Y ++ Q) (by simp [h1]) (by
      simp only [List.length_append, h2, h6, h5]; omega)
  · exact load_eq (A := U) (B := X) h3 h4

theorem mergeLo_take_y {P Q tmp : List α} {v : MergeLo α} {D X : List α} {y : α} {Y : List α}
    (hst : MergeLoState P Q tmp v D X (y :: Y)) (hX : 1 ≤ X.length) :
    ∃ mem, ASSIGN v.mem v.dest v.mem v.cursor2 = some mem ∧
      MergeLoState P Q tmp { v with mem := mem, dest := v.dest + 1, cursor2 := v.cursor2 + 1,
                                    len2 := v.len2 - 1 } (D ++ [y]) X Y := by
  obtain ⟨G, U, h1, h2, h3, h4, h5, h6, h7, h8⟩ := hst
  obtain ⟨g, G1, rfl⟩ : ∃ g G1, G = g :: G1 := by
    cases G with
    | nil => simp at h2; omega
    | cons g G1 => exact ⟨g, G1, rfl⟩
  refine ⟨_, ASSIGN_eq (A := P ++ D) (x := g) (B := G1 ++ (y :: Y ++ Q))
    (U := P ++ (D ++ g :: G1)) (y := y) (V := Y ++ Q) (by simp [h1]) (by simp [h5])
    (by simp [h1]) (by simp only [List.length_append, h2, h6, h5]; omega), ?_⟩
  refine ⟨G1 ++ [y], U, by simp, by simp at h2 ⊢; omega, h3, h4, by simp [h5]; omega,
    by simp [h6]; omega, h7, by simp [h8]⟩

theorem mergeLo_take_x {P Q tmp : List α} {v : MergeLo α} {D : List α} {x : α} {X Y : List α}
    (hst : MergeLoState P Q tmp v D (x :: X) Y) :
    ∃ mem, ASSIGN v.mem v.dest tmp v.cursor1 = some mem ∧
      MergeLoState P Q tmp { v with mem := mem, dest := v.dest + 1, cursor1 := v.cursor1 + 1,
                                    len1 := v.len1 - 1 } (D ++ [x]) X Y := by
  obtain ⟨G, U, h1, h2, h3, h4, h5, h6, h7, h8⟩ := hst
  obtain ⟨g, G1, rfl⟩ : ∃ g G1, G = g :: G1 := by
    cases G with
    | nil => simp at h2
    | cons g G1 => exact ⟨g, G1, rfl⟩
  refine ⟨_, ASSIGN_eq (A := P ++ D) (x := g) (B := G1 ++ (Y ++ Q))
    (U := U) (y := x) (V := X) (by simp [h1]) (by simp [h5]) h3 h4, ?_⟩
  refine ⟨G1, U ++ [x], by simp, by simp at h2 ⊢; omega, by simp [h3], by simp [h4],
    by simp [h5]; omega, by simp [h6, List.length_cons]; omega, by simp [h7], h8⟩

theorem append_take_drop (k : Nat) (G R : List α) :
    G ++ R = G.take k ++ (G.drop k ++ R) := by
  rw [← List.append_assoc, List.take_append_drop]

theorem mergeLo_take_xs {P Q tmp : List α} {v : MergeLo α} {D X Y : List α} (k : Nat)
    (hst : MergeLoState P Q tmp v D X Y) (hk : k ≤ X.length) :
    ∃ mem, memcpy v.mem v.dest tmp v.cursor1 k = some mem ∧
      MergeLoState P Q tmp { v with mem := mem, dest := v.dest + k, cursor1 := v.cursor1 + k,
                                    len1 := v.len1 - k } (D ++ X.take k) (X.drop k) Y := by
  obtain ⟨G, U, h1, h2, h3, h4, h5, h6, h7, h8⟩ := hst
  refine ⟨_, memcpy_eq (A := P ++ D) (M := G.take k) (B := G.drop k ++ (Y ++ Q))
    (U := U) (W := X.take k) (V := X.drop k)
    (by rw [h1, ← append_take_drop k G]; simp) (by simp [h5])
    (by simp; omega) (by simp [h3]) h4 (by simp; omega), ?_⟩
  refine ⟨G.drop k, U ++ X.take k, by simp, by simp; omega, by simp [h3], by simp [h4]; omega,
    by simp [h5]; omega, by simp [h6]; omega, by simp [h7], h8⟩

theorem drop_append_take (G Y : List α) (k : Nat) (hk : k ≤ Y.length) :
    (G ++ Y).drop k = (G ++ Y.take k).drop k ++ Y.drop k := by
  conv => lhs; rw [← List.take_append_drop k Y, ← List.append_assoc]
  rw [List.drop_append_of_le_length]
  simp; omega

theorem mergeLo_take_ys {P Q tmp : List α} {v : MergeLo α} {D X Y : List α} (k : Nat)
    (hst : MergeLoState P Q tmp v D X Y) (hk : k ≤ Y.length) :
    ∃ mem, memmove v.mem v.dest v.cursor2 k = some mem ∧
      MergeLoState P Q tmp { v with mem := mem, dest := v.dest + k, cursor2 := v.cursor2 + k,
                                    len2 := v.len2 - k } (D ++ Y.take k) X (Y.drop k) := by
  obtain ⟨G, U, h1, h2, h3, h4, h5, h6, h7, h8⟩ := hst
  refine ⟨_, memmove_eq (A := P ++ D) (M := (G ++ Y).take k) (B := (G ++ Y).drop k ++ Q)
    (U := P ++ (D ++ G)) (W := Y.take k) (V := Y.drop k ++ Q)
    (by rw [h1]; simp only [List.append_assoc]
        rw [← List.append_assoc ((G ++ Y).take k), List.take_append_drop]
        simp)
    (by simp [h5]) (by simp; omega)
    (by rw [h1, ← append_take_drop k Y]; simp)
    (by simp only [List.length_append, h2, h6, h5]; omega) (by simp; omega), ?_⟩
  refine ⟨(G ++ Y.take k).drop k, U, ?_, by simp; omega, h3, h4, by simp [h5]; omega,
    by simp [h6]; omega, h7, by simp [h8]⟩
  simp only [List.append_assoc]
  rw [drop_append_take G Y k hk]
  simp

theorem mergeLo_compare (cmp : α → α → Int) {P Q tmp : List α} {v : MergeLo α} {D : List α}
    {x : α} {X : List α} {y : α} {Y : List α}
    (hst : MergeLoState P Q tmp v D (x :: X) (y :: Y)) :
    gtk_tim_sort_compare cmp v.mem v.cursor2 tmp v.cursor1 = some (cmp y x) := by
  obtain ⟨h1, h2⟩ := mergeLo_read hst
  simp only [gtk_tim_sort_compare, h1, h2]

theorem merge_lo_linear_spec (cmp : α → α → Int) (P Q tmp : List α)
    (fuel : Nat) :
    ∀ (v : MergeLo α) (c1 c2 : Nat) (D X Y : List α), MergeLoState P Q tmp v D X Y →
      MergeOrder cmp X Y → 2 ≤ X.length → 1 ≤ Y.length → X.length + Y.length ≤ fuel →
      ∃ b v' D' X' Y', merge_lo_linear cmp tmp fuel v c1 c2 = some (b, v') ∧
        MergeLoState P Q tmp v' D' X' Y' ∧ MergeOrder cmp X' Y' ∧
        D' ++ naive_merge cmp X' Y' = D ++ naive_merge cmp X Y ∧
        X'.length + Y'.length < X.length + Y.length ∧
        (b = true → (X'.length = 1 ∧ 1 ≤ Y'.length) ∨ (Y'.length = 0 ∧ 2 ≤ X'.length)) ∧
        (b = false → 2 ≤ X'.length ∧ 1 ≤ Y'.length) ∧ v'.min_gallop = v.min_gallop := by
  induction fuel with
  | zero => intro v c1 c2 D X Y _ _ hX hY hf; omega
  | succ fuel ih =>
    intro v c1 c2 D X Y hst ho hX hY hf
    obtain ⟨x, X1, rfl⟩ : ∃ x X1, X = x :: X1 := by
      cases X with
      | nil => simp at hX
      | cons x X1 => exact ⟨x, X1, rfl⟩
    obtain ⟨y, Y1, rfl⟩ : ∃ y Y1, Y = y :: Y1 := by
      cases Y with
      | nil => simp at hY
      | cons y Y1 => exact ⟨y, Y1, rfl⟩
    simp only [List.length_cons] at hX hY hf
    have hl1 : v.len1 = X1.length + 1 := by
      obtain ⟨G, U, h1, h2, h3, h4, h5, h6, h7, h8⟩ := hst; simpa using h7
    have hl2 : v.len2 = Y1.length + 1 := by
      obtain ⟨G, U, h1, h2, h3, h4, h5, h6, h7, h8⟩ := hst; simpa using h8
    rw [merge_lo_linear, if_pos ⟨by omega, by omega⟩, mergeLo_compare cmp hst]
    simp only []
    by_cases hc : cmp y x < 0
    · rw [if_pos hc]
      obtain ⟨mem, hmem, hst1⟩ := mergeLo_take_y hst (by simp)
      rw [hmem]
      simp only []
      have ho1 := mergeOrder_tail_right ho
      have hmerge : (D ++ [y]) ++ naive_merge cmp (x :: X1) Y1
          = D ++ naive_merge cmp (x :: X1) (y :: Y1) := by
        rw [naive_merge_cons_lt cmp _ _ hc]; simp
      by_cases hz : v.len2 - 1 = 0
      · rw [if_pos hz]
        exact ⟨true, _, _, _, _, rfl, hst1, ho1, hmerge, by simp,
          fun _ => Or.inr ⟨by omega, by simp; omega⟩, fun hb => by simp at hb, rfl⟩
      · rw [if_neg hz]
        by_cases hg : c2 + 1 ≥ v.min_gallop
        · rw [if_pos hg]
          exact ⟨false, _, _, _, _, rfl, hst1, ho1, hmerge, by simp,
            fun hb => by simp at hb, fun _ => ⟨by simp; omega, by omega⟩, rfl⟩
        · rw [if_neg hg]
          obtain ⟨b, v', D', X', Y', e1, e2, e3, e4, e5, e6, e7, e8⟩ := ih _ 0 (c2 + 1) _ _ _
            hst1 ho1 (by simp; omega) (by omega) (by simp; omega)
          exact ⟨b, v', D', X', Y', e1, e2, e3, e4.trans hmerge, by simp at e5 ⊢; omega, e6, e7,
            e8⟩
    · rw [if_neg hc]
      obtain ⟨mem, hmem, hst1⟩ := mergeLo_take_x hst
      rw [hmem]
      simp only []
      have ho1 := mergeOrder_tail_left ho (by omega)
      have hmerge : (D ++ [x]) ++ naive_merge cmp X1 (y :: Y1)
          = D ++ naive_merge cmp (x :: X1) (y :: Y1) := by
        rw [naive_merge_cons_ge cmp _ _ hc]; simp
      by_cases hz : v.len1 - 1 = 1
      · rw [if_pos hz]
        exact ⟨true, _, _, _, _, rfl, hst1, ho1, hmerge, by simp,
          fun _ => Or.inl ⟨by omega, by simp⟩, fun hb => by simp at hb, rfl⟩
      · rw [if_neg hz]
        by_cases hg : c1 + 1 ≥ v.min_gallop
        · rw [if_pos hg]
          exact ⟨false, _, _, _, _, rfl, hst1, ho1, hmerge, by simp,
            fun hb => by simp at hb, fun _ => ⟨by omega, by simp⟩, rfl⟩
        · rw [if_neg hg]
          obtain ⟨b, v', D', X', Y', e1, e2, e3, e4, e5, e6, e7, e8⟩ := ih _ (c1 + 1) 0 _ _ _
            hst1 ho1 (by omega) (by simp) (by simp; omega)
          exact ⟨b, v', D', X', Y', e1, e2, e3, e4.trans hmerge, by simp at e5 ⊢; omega, e6, e7,
            e8⟩

theorem mergeLo_lens {P Q tmp : List α} {v : MergeLo α} {D X Y : List α}
    (hst : MergeLoState P Q tmp v D X Y) : v.len1 = X.length ∧ v.len2 = Y.length := by
  obtain ⟨G, U, h1, h2, h3, h4, h5, h6, h7, h8⟩ := hst
  exact ⟨h7, h8⟩

theorem mergeLo_set_min_gallop {P Q tmp : List α} {v : MergeLo α} {D X Y : List α}
    (hst : MergeLoState P Q tmp v D X Y) (g : Nat) :
    MergeLoState P Q tmp { v with min_gallop := g } D X Y := hst

theorem merge_lo_copy1_spec {P Q tmp : List α} {v : MergeLo α} {D X Y : List α} (k : Nat)
    (hst : MergeLoState P Q tmp v D X Y) (hk : k ≤ X.length) :
    ∃ v1, merge_lo_copy1 tmp v k = some v1 ∧
      MergeLoState P Q tmp v1 (D ++ X.take k) (X.drop k) Y ∧ v1.min_gallop = v.min_gallop := by
  unfold merge_lo_copy1
  by_cases hk0 : k ≠ 0
  · rw [if_pos hk0]
    obtain ⟨mem, hmem, hst1⟩ := mergeLo_take_xs k hst hk
    rw [hmem]
    exact ⟨_, rfl, hst1, rfl⟩
  · rw [if_neg hk0]
    have : k = 0 := by omega
    subst this
    exact ⟨v, rfl, by simpa using hst, rfl⟩

theorem merge_lo_copy2_spec {P Q tmp : List α} {v : MergeLo α} {D X Y : List α} (k : Nat)
    (hst : MergeLoState P Q tmp v D X Y) (hk : k ≤ Y.length) :
    ∃ v1, merge_lo_copy2 v k = some v1 ∧
      MergeLoState P Q tmp v1 (D ++ Y.take k) X (Y.drop k) ∧ v1.min_gallop = v.min_gallop := by
  unfold merge_lo_copy2
  by_cases hk0 : k ≠ 0
  · rw [if_pos hk0]
    obtain ⟨mem, hmem, hst1⟩ := mergeLo_take_ys k hst hk
    rw [hmem]
    exact ⟨_, rfl, hst1, rfl⟩
  · rw [if_neg hk0]
    have : k = 0 := by omega
    subst this
    exact ⟨v, rfl, by simpa using hst, rfl⟩

theorem mergeLo_gallop_right {cmp : α → α → Int} (h : TotalPreorder cmp) {P Q tmp : List α}
    {v : MergeLo α} {D X Y : List α} (key : α) (hst : MergeLoState P Q tmp v D X Y)
    (hX : 1 ≤ X.length) (hX64 : X.length < GSIZE_MOD) (hs : Sorted cmp X) :
    ∃ k, gallop_right cmp key tmp v.cursor1 v.len1 0 = some k ∧ k ≤ X.length ∧
      (∀ x ∈ X.take k, cmp x key ≤ 0) ∧ (∀ x ∈ X.drop k, cmp key x < 0) := by
  obtain ⟨G, U, h1, h2, h3, h4, h5, h6, h7, h8⟩ := hst
  rw [h7]
  exact gallop_right_spec h key (A := U) (S := X) (B := []) (by simp [h3]) h4 rfl (by omega)
    hX64 hs

theorem mergeLo_gallop_left {cmp : α → α → Int} (h : TotalPreorder cmp) {P Q tmp : List α}
    {v : MergeLo α} {D X Y : List α} (key : α) (hst : MergeLoState P Q tmp v D X Y)
    (hY : 1 ≤ Y.length) (hY64 : Y.length < GSIZE_MOD) (hs : Sorted cmp Y) :
    ∃ k, gallop_left cmp key v.mem v.cursor2 v.len2 0 = some k ∧ k ≤ Y.length ∧
      (∀ y ∈ Y.take k, cmp y key < 0) ∧ (∀ y ∈ Y.drop k, cmp key y ≤ 0) := by
  obtain ⟨G, U, h1, h2, h3, h4, h5, h6, h7, h8⟩ := hst
  rw [h8]
  exact gallop_left_spec h key (A := P ++ (D ++ G)) (S := Y) (B := Q) (by simp [h1])
    (by simp only [List.length_append, h2, h6, h5]; omega) rfl (by omega) hY64 hs

theorem merge_lo_gallop_spec {cmp : α → α → Int} (h : TotalPreorder cmp) (P Q tmp : List α)
    (fuel : Nat) :
    ∀ (v : MergeLo α) (D X Y : List α), MergeLoState P Q tmp v D X Y →
      MergeOrder cmp X Y → 2 ≤ X.length → 1 ≤ Y.length → X.length + Y.length ≤ fuel →
      X.length + Y.length < GSIZE_MOD →
      ∃ b v' D' X' Y', merge_lo_gallop cmp tmp fuel v = some (b, v') ∧
        MergeLoState P Q tmp v' D' X' Y' ∧ MergeOrder cmp X' Y' ∧
        D' ++ naive_merge cmp X' Y' = D ++ naive_merge cmp X Y ∧
        X'.length + Y'.length < X.length + Y.length ∧
        (b = true → (X'.length = 1 ∧ 1 ≤ Y'.length) ∨ (Y'.length = 0 ∧ 2 ≤ X'.length)) ∧
        (b = false → 2 ≤ X'.length ∧ 1 ≤ Y'.length) := by
  induction fuel with
  | zero => intro v D X Y _ _ hX hY hf; omega
  | succ fuel ih =>
    intro v D X Y hst ho hX hY hf h64
    obtain ⟨y, Y1, rfl⟩ : ∃ y Y1, Y = y :: Y1 := by
      cases Y with
      | nil => simp at hY
      | cons y Y1 => exact ⟨y, Y1, rfl⟩
    obtain ⟨hl1, hl2⟩ := mergeLo_lens hst
    simp only [List.length_cons] at hY hf hl2 h64
    have hX64 : X.length < GSIZE_MOD := by omega
    rw [merge_lo_gallop, if_pos ⟨by omega, by omega⟩]
    -- the key of the second run
    have hkey2 : load v.mem v.cursor2 = some y := by
      obtain ⟨x, X1, rfl⟩ : ∃ x X1, X = x :: X1 := by
        cases X with
        | nil => simp at hX
        | cons x X1 => exact ⟨x, X1, rfl⟩
      exact (mergeLo_read hst).1
    rw [hkey2]
    simp only []
    obtain ⟨k1, hk1, hk1le, hk1a, hk1b⟩ := mergeLo_gallop_right h y hst (by omega) hX64 ho.1
    rw [hk1]
    simp only []
    have hk1lt : k1 < X.length := mergeOrder_gallop_lt h ho hk1le hk1a
    obtain ⟨v1, hv1, hst1, hg1⟩ := merge_lo_copy1_spec k1 hst hk1le
    rw [hv1]
    simp only []
    have ho1 : MergeOrder cmp (X.drop k1) (y :: Y1) := mergeOrder_drop_left k1 ho hk1lt
    have hm1 : (D ++ X.take k1) ++ naive_merge cmp (X.drop k1) (y :: Y1)
        = D ++ naive_merge cmp X (y :: Y1) := by
      conv => rhs; rw [← List.take_append_drop k1 X]
      rw [naive_merge_take_left cmp _ _ _ _ (fun x hx => (h.not_lt_iff y x).2 (hk1a x hx))]
      simp
    obtain ⟨hl1', hl2'⟩ := mergeLo_lens hst1
    simp only [List.length_drop, List.length_cons] at hl1' hl2'
    by_cases hex1 : k1 ≠ 0 ∧ v1.len1 ≤ 1
    · rw [if_pos hex1]
      exact ⟨true, v1, _, _, _, rfl, hst1, ho1, hm1, by simp; omega,
        fun _ => Or.inl ⟨by simp; omega, by simp⟩, fun hb => by simp at hb⟩
    · rw [if_neg hex1]
      have hX2 : 2 ≤ (X.drop k1).length := by simp; omega
      obtain ⟨x', X2, hX'⟩ : ∃ x' X2, X.drop k1 = x' :: X2 := by
        cases hd : X.drop k1 with
        | nil => rw [hd] at hX2; simp at hX2
        | cons x' X2 => exact ⟨x', X2, rfl⟩
      have hX2len : X2.length + 1 = X.length - k1 := by
        have := congrArg List.length hX'
        simp only [List.length_drop, List.length_cons] at this
        omega
      rw [hX'] at hst1 ho1 hm1 hX2
      simp only [List.length_cons] at hX2
      have hyx' : cmp y x' < 0 := hk1b x' (by rw [hX']; simp)
      obtain ⟨mem2, hmem2, hst2⟩ := mergeLo_take_y hst1 (by simp)
      rw [hmem2]
      simp only []
      have ho2 := mergeOrder_tail_right ho1
      have hm2 : (D ++ X.take k1 ++ [y]) ++ naive_merge cmp (x' :: X2) Y1
          = D ++ naive_merge cmp X (y :: Y1) := by
        rw [← hm1, naive_merge_cons_lt cmp _ _ hyx']; simp
      by_cases hex2 : v1.len2 - 1 = 0
      · rw [if_pos hex2]
        exact ⟨true, _, _, _, _, rfl, hst2, ho2, hm2, by simp; omega,
          fun _ => Or.inr ⟨by omega, by simp; omega⟩, fun hb => by simp at hb⟩
      · rw [if_neg hex2]
        have hkey1 : load tmp v1.cursor1 = some x' := by
          obtain ⟨G, U, h1, h2, h3, h4, h5, h6, h7, h8⟩ := hst1
          exact load_eq (A := U) (B := X2) h3 h4
        rw [hkey1]
        simp only []
        obtain ⟨k2, hk2, hk2le, hk2a, hk2b⟩ := mergeLo_gallop_left h x' hst2 (by omega)
          (by omega) ho2.2.1
        rw [hk2]
        simp only []
        obtain ⟨v3, hv3, hst3, hg3⟩ := merge_lo_copy2_spec k2 hst2 hk2le
        rw [hv3]
        simp only []
        have ho3 : MergeOrder cmp (x' :: X2) (Y1.drop k2) := mergeOrder_drop_right k2 ho2
        have hm3 : (D ++ X.take k1 ++ [y] ++ Y1.take k2) ++
            naive_merge cmp (x' :: X2) (Y1.drop k2) = D ++ naive_merge cmp X (y :: Y1) := by
          rw [← hm2]
          conv => rhs; rw [← List.take_append_drop k2 Y1]
          rw [naive_merge_take_right cmp _ _ _ _ hk2a]
          simp
        obtain ⟨hl1'', hl2''⟩ := mergeLo_lens hst3
        simp only [List.length_drop, List.length_cons] at hl1'' hl2''
        by_cases hex3 : k2 ≠ 0 ∧ v3.len2 = 0
        · rw [if_pos hex3]
          exact ⟨true, v3, _, _, _, rfl, hst3, ho3, hm3, by simp; omega,
            fun _ => Or.inr ⟨by simp; omega, by simp; omega⟩, fun hb => by simp at hb⟩
        · rw [if_neg hex3]
          have hY3 : 1 ≤ (Y1.drop k2).length := by simp; omega
          obtain ⟨y3, Y4, hY'⟩ : ∃ y3 Y4, Y1.drop k2 = y3 :: Y4 := by
            cases hd : Y1.drop k2 with
            | nil => rw [hd] at hY3; simp at hY3
            | cons y3 Y4 => exact ⟨y3, Y4, rfl⟩
          have hY4len : Y4.length + 1 = Y1.length - k2 := by
            have := congrArg List.length hY'
            simp only [List.length_drop, List.length_cons] at this
            omega
          rw [hY'] at hst3 ho3 hm3 hY3
          have hxy3 : ¬ cmp y3 x' < 0 := (h.not_lt_iff y3 x').2 (hk2b y3 (by rw [hY']; simp))
          obtain ⟨mem4, hmem4, hst4⟩ := mergeLo_take_x hst3
          rw [hmem4]
          simp only []
          have ho4 := mergeOrder_tail_left ho3 (by omega)
          have hm4 : (D ++ X.take k1 ++ [y] ++ Y1.take k2 ++ [x']) ++
              naive_merge cmp X2 (y3 :: Y4) = D ++ naive_merge cmp X (y :: Y1) := by
            rw [← hm3, naive_merge_cons_ge cmp _ _ hxy3]; simp
          have hlen4 : X2.length + (y3 :: Y4).length < X.length + (Y1.length + 1) := by
            simp only [List.length_cons]
            omega
          by_cases hex4 : v3.len1 - 1 = 1
          · rw [if_pos hex4]
            exact ⟨true, _, _, _, _, rfl, hst4, ho4, hm4, by simpa using hlen4,
              fun _ => Or.inl ⟨by omega, by simp⟩, fun hb => by simp at hb⟩
          · rw [if_neg hex4]
            have hst5 : MergeLoState P Q tmp
                (if v3.min_gallop > 0 then
                  { mem := mem4, cursor1 := v3.cursor1 + 1, cursor2 := v3.cursor2,
                    dest := v3.dest + 1, len1 := v3.len1 - 1, len2 := v3.len2,
                    min_gallop := v3.min_gallop - 1 }
                 else
                  { mem := mem4, cursor1 := v3.cursor1 + 1, cursor2 := v3.cursor2,
                    dest := v3.dest + 1, len1 := v3.len1 - 1, len2 := v3.len2,
                    min_gallop := v3.min_gallop })
                (D ++ X.take k1 ++ [y] ++ Y1.take k2 ++ [x']) X2 (y3 :: Y4) := by
              split
              · exact mergeLo_set_min_gallop hst4 _
              · exact hst4
            by_cases hcont : k1 ≥ MIN_GALLOP ∨ k2 ≥ MIN_GALLOP
            · rw [if_pos hcont]
              obtain ⟨b, v', D', X', Y', e1, e2, e3, e4, e5, e6, e7⟩ := ih _ _ _ _ hst5 ho4
                (by omega) (by simp) (by omega) (by omega)
              exact ⟨b, v', D', X', Y', e1, e2, e3, e4.trans hm4, by
                simp only [List.length_cons] at e5 hlen4 ⊢; omega, e6, e7⟩
            · rw [if_neg hcont]
              exact ⟨false, _, _, _, _, rfl, hst5, ho4, hm4, by simpa using hlen4,
                fun hb => by simp at hb, fun _ => ⟨by omega, by simp⟩⟩

theorem merge_lo_outer_spec {cmp : α → α → Int} (h : TotalPreorder cmp) (P Q tmp : List α)
    (fuel : Nat) :
    ∀ (v : MergeLo α) (D X Y : List α), MergeLoState P Q tmp v D X Y →
      MergeOrder cmp X Y → 2 ≤ X.length → 1 ≤ Y.length → X.length + Y.length ≤ fuel →
      X.length + Y.length < GSIZE_MOD →
      ∃ v' D' X' Y', merge_lo_outer cmp tmp fuel v = some v' ∧
        MergeLoState P Q tmp v' D' X' Y' ∧ MergeOrder cmp X' Y' ∧
        D' ++ naive_merge cmp X' Y' = D ++ naive_merge cmp X Y ∧
        ((X'.length = 1 ∧ 1 ≤ Y'.length) ∨ (Y'.length = 0 ∧ 2 ≤ X'.length)) := by
  induction fuel with
  | zero => intro v D X Y _ _ hX hY hf; omega
  | succ fuel ih =>
    intro v D X Y hst ho hX hY hf h64
    obtain ⟨hl1, hl2⟩ := mergeLo_lens hst
    rw [merge_lo_outer]
    obtain ⟨b, v1, D1, X1, Y1, e1, e2, e3, e4, e5, e6, e7, _⟩ := merge_lo_linear_spec cmp P Q tmp
      (v.len1 + v.len2) v 0 0 D X Y hst ho hX hY (by omega)
    rw [e1]
    cases b with
    | true =>
      simp only []
      exact ⟨v1, D1, X1, Y1, rfl, e2, e3, e4, e6 rfl⟩
    | false =>
      simp only []
      obtain ⟨hX1, hY1⟩ := e7 rfl
      obtain ⟨hl1', hl2'⟩ := mergeLo_lens e2
      obtain ⟨b2, v2, D2, X2, Y2, f1, f2, f3, f4, f5, f6, f7⟩ := merge_lo_gallop_spec h P Q tmp
        (v1.len1 + v1.len2) v1 D1 X1 Y1 e2 e3 hX1 hY1 (by omega) (by omega)
      rw [f1]
      cases b2 with
      | true =>
        simp only []
        exact ⟨v2, D2, X2, Y2, rfl, f2, f3, f4.trans e4, f6 rfl⟩
      | false =>
        simp only []
        obtain ⟨hX2, hY2⟩ := f7 rfl
        obtain ⟨v', D', X', Y', g1, g2, g3, g4, g5⟩ := ih _ D2 X2 Y2
          (mergeLo_set_min_gallop f2 (v2.min_gallop + 2)) f3 hX2 hY2 (by omega) (by omega)
        exact ⟨v', D', X', Y', g1, g2, g3, g4.trans (f4.trans e4), g5⟩

/-- The end of `merge_lo` when one element of the first run is left. -/
theorem mergeLo_finish_one {cmp : α → α → Int} {P Q tmp : List α} {v : MergeLo α}
    {D : List α} {x : α} {Y : List α} (hst : MergeLoState P Q tmp v D [x] Y)
    (ho : MergeOrder cmp [x] Y) :
    ∃ mem1 mem2, memmove v.mem v.dest v.cursor2 v.len2 = some mem1 ∧
      ASSIGN mem1 (v.dest + v.len2) tmp v.cursor1 = some mem2 ∧
      mem2 = P ++ ((D ++ naive_merge cmp [x] Y) ++ Q) := by
  obtain ⟨hl1, hl2⟩ := mergeLo_lens hst
  obtain ⟨mem1, hmem1, hst1⟩ := mergeLo_take_ys v.len2 hst (by omega)
  obtain ⟨mem2, hmem2, hst2⟩ := mergeLo_take_x (by
    rw [hl2, List.drop_length, List.take_length] at hst1; exact hst1)
  refine ⟨mem1, mem2, hmem1, by rw [hl2]; exact hmem2, ?_⟩
  obtain ⟨G, U, h1, h2, h3, h4, h5, h6, h7, h8⟩ := hst2
  have hG : G = [] := List.eq_nil_of_length_eq_zero (by simpa using h2)
  subst hG
  obtain ⟨_, _, X0, xl, hx, hlt⟩ := ho
  have hxl : xl = x := by
    have := congrArg List.getLast? hx
    simpa using this.symm
  subst hxl
  rw [naive_merge_singleton_left _ _ hlt]
  simpa using h1

/-- The end of `merge_lo` when the second run is used up. -/
theorem mergeLo_finish_rest (cmp : α → α → Int) {P Q tmp : List α} {v : MergeLo α}
    {D X : List α} (hst : MergeLoState P Q tmp v D X []) :
    ∃ mem1, memcpy v.mem v.dest tmp v.cursor1 v.len1 = some mem1 ∧
      mem1 = P ++ ((D ++ naive_merge cmp X []) ++ Q) := by
  obtain ⟨hl1, hl2⟩ := mergeLo_lens hst
  obtain ⟨mem1, hmem1, hst1⟩ := mergeLo_take_xs v.len1 hst (by omega)
  refine ⟨mem1, hmem1, ?_⟩
  rw [hl1, List.drop_length, List.take_length] at hst1
  obtain ⟨G, U, h1, h2, h3, h4, h5, h6, h7, h8⟩ := hst1
  have hG : G = [] := List.eq_nil_of_length_eq_zero (by simpa using h2)
  subst hG
  rw [naive_merge_nil_right]
  simpa using h1

theorem ensure_capacity_mem (self : GtkTimSort α) (c : Nat) :
    (gtk_tim_sort_ensure_capacity self c).mem = self.mem := by
  unfold gtk_tim_sort_ensure_capacity
  split <;> rfl

theorem ensure_capacity_min_gallop (self : GtkTimSort α) (c : Nat) :
    (gtk_tim_sort_ensure_capacity self c).min_gallop = self.min_gallop := by
  unfold gtk_tim_sort_ensure_capacity
  split <;> rfl

theorem ensure_capacity_frame (self : GtkTimSort α) (c : Nat) :
    MergeFrame self (gtk_tim_sort_ensure_capacity self c) := by
  unfold gtk_tim_sort_ensure_capacity MergeFrame
  split <;> simp

/-- The function `merge_lo` on two adjacent sorted runs `X` and `Y` that meet its
documented precondition: the merged range holds the element-wise merge. -/
theorem merge_lo_spec {cmp : α → α → Int} (h : TotalPreorder cmp) (self : GtkTimSort α)
    {P X Y Q : List α} {base1 len1 base2 len2 : Nat} (hm : self.mem = P ++ (X ++ (Y ++ Q)))
    (hP : P.length = base1) (hX : X.length = len1) (hb : base1 + len1 = base2)
    (hY : Y.length = len2) (ho : MergeOrder cmp X Y)
    (hfirst : ∀ x y, X.head? = some x → Y.head? = some y → cmp y x < 0)
    (hY1 : 1 ≤ Y.length) (h64 : X.length + Y.length < GSIZE_MOD) :
    ∃ self', merge_lo cmp self base1 len1 base2 len2 = some self' ∧
      self'.mem = P ++ (naive_merge cmp X Y ++ Q) ∧ MergeFrame self self' := by
  obtain ⟨x0, X1, rfl⟩ : ∃ x0 X1, X = x0 :: X1 := by
    obtain ⟨_, _, X0, xl, hx, _⟩ := ho
    cases X with
    | nil => simp at hx
    | cons x X1 => exact ⟨x, X1, rfl⟩
  obtain ⟨y0, Y1, rfl⟩ : ∃ y0 Y1, Y = y0 :: Y1 := by
    cases Y with
    | nil => simp at hY1
    | cons y Y1 => exact ⟨y, Y1, rfl⟩
  have hlt0 : cmp y0 x0 < 0 := hfirst x0 y0 rfl rfl
  simp only [List.length_cons] at hX hY h64
  have hframe := ensure_capacity_frame self len1
  unfold merge_lo
  simp only []
  rw [if_pos ⟨by omega, by omega, hb⟩, ensure_capacity_mem,
    memcpy_tmp_eq (A := P) (W := x0 :: X1) (B := y0 :: Y1 ++ Q) (by simp [hm]) hP
      (by simp; omega)]
  simp only []
  rw [ASSIGN_eq (A := P) (x := x0) (B := X1 ++ (y0 :: Y1 ++ Q)) (U := P ++ x0 :: X1) (y := y0)
    (V := Y1 ++ Q) (by simp [hm]) hP (by simp [hm]) (by simp; omega)]
  simp only []
  have hst0 : MergeLoState P Q (x0 :: X1)
      { mem := P ++ y0 :: (X1 ++ (y0 :: Y1 ++ Q)), cursor1 := 0, cursor2 := base2 + 1,
        dest := base1 + 1, len1 := len1, len2 := len2 - 1,
        min_gallop := (gtk_tim_sort_ensure_capacity self len1).min_gallop }
      [y0] (x0 :: X1) Y1 :=
    ⟨X1 ++ [y0], [], by simp, by simp, by simp, rfl, by simp; omega, by simp; omega,
      by simp; omega, by simp; omega⟩
  have hm0 : [y0] ++ naive_merge cmp (x0 :: X1) Y1 = naive_merge cmp (x0 :: X1) (y0 :: Y1) := by
    rw [naive_merge_cons_lt cmp _ _ hlt0]; rfl
  have ho0 := mergeOrder_tail_right ho
  by_cases h2 : len2 - 1 = 0
  · rw [if_pos h2]
    have hY1nil : Y1 = [] := List.eq_nil_of_length_eq_zero (by omega)
    subst hY1nil
    obtain ⟨mem1, e1, e2⟩ := mergeLo_finish_rest cmp hst0
    simp only [] at e1
    rw [e1]
    exact ⟨_, rfl, by rw [e2, ← hm0], hframe⟩
  · rw [if_neg h2]
    by_cases h1 : len1 = 1
    · rw [if_pos h1]
      have hX1nil : X1 = [] := List.eq_nil_of_length_eq_zero (by omega)
      subst hX1nil
      obtain ⟨mem1, mem2, e1, e2, e3⟩ := mergeLo_finish_one hst0 ho0
      simp only [] at e1 e2
      rw [e1]
      simp only []
      rw [e2]
      exact ⟨_, rfl, by rw [e3, ← hm0], hframe⟩
    · rw [if_neg h1]
      obtain ⟨v, D, X', Y', f1, f2, f3, f4, f5⟩ := merge_lo_outer_spec h P Q (x0 :: X1)
        (len1 + (len2 - 1)) _ [y0] (x0 :: X1) Y1 hst0 ho0 (by simp; omega) (by omega)
        (by simp; omega) (by simp; omega)
      rw [f1]
      simp only []
      obtain ⟨hl1, hl2⟩ := mergeLo_lens f2
      rcases f5 with ⟨g1, g2⟩ | ⟨g1, g2⟩
      · rw [if_pos (by omega), if_pos (by omega)]
        obtain ⟨x, rfl⟩ : ∃ x, X' = [x] := by
          match X', g1 with
          | [x], _ => exact ⟨x, rfl⟩
        obtain ⟨mem1, mem2, e1, e2, e3⟩ := mergeLo_finish_one f2 f3
        rw [e1]
        simp only []
        rw [e2]
        exact ⟨_, rfl, by simp only []; rw [e3, f4, hm0], hframe⟩
      · rw [if_neg (by omega), if_neg (by omega), if_pos ⟨by omega, by omega⟩]
        have hY'nil : Y' = [] := List.eq_nil_of_length_eq_zero g1
        subst hY'nil
        obtain ⟨mem1, e1, e2⟩ := mergeLo_finish_rest cmp f2
        rw [e1]
        exact ⟨_, rfl, by simp only []; rw [e2, f4, hm0], hframe⟩

/-! ## Merging from the high end -/

theorem naive_merge_concat_right {cmp : α → α → Int} (h : TotalPreorder cmp) (z : α) :
    ∀ (a b : List α), (∀ x ∈ a, cmp x z ≤ 0) →
      naive_merge cmp a (b ++ [z]) = naive_merge cmp a b ++ [z] := by
  intro a
  induction a with
  | nil => intro b _; simp [naive_merge_nil_left]
  | cons x xs ihx =>
    intro b
    induction b with
    | nil =>
      intro ha
      have hxz : ¬ cmp z x < 0 := (h.not_lt_iff z x).2 (ha x (List.mem_cons_self _ _))
      rw [List.nil_append, naive_merge_cons_ge cmp _ _ hxz, naive_merge_nil_right]
      have := ihx [] (fun x hx => ha x (List.mem_cons_of_mem _ hx))
      simp only [List.nil_append, naive_merge_nil_right] at this
      rw [this]; rfl
    | cons y ys ihy =>
      intro ha
      rw [List.cons_append, naive_merge_cons_cons, naive_merge_cons_cons]
      split
      · rw [ihy ha]; rfl
      · have := ihx (y :: ys) (fun x hx => ha x (List.mem_cons_of_mem _ hx))
        rw [List.cons_append] at this
        rw [this]; rfl

theorem naive_merge_concat_left (cmp : α → α → Int) (z : α) :
    ∀ (a b : List α), (∀ y ∈ b, cmp y z < 0) →
      naive_merge cmp (a ++ [z]) b = naive_merge cmp a b ++ [z] := by
  intro a
  induction a with
  | nil =>
    intro b hb
    rw [List.nil_append, naive_merge_nil_left]
    exact naive_merge_singleton_left z b hb
  | cons x xs ihx =>
    intro b
    induction b with
    | nil => intro _; simp [naive_merge_nil_right]
    | cons y ys ihy =>
      intro hb
      rw [List.cons_append, naive_merge_cons_cons, naive_merge_cons_cons]
      split
      · have := ihy (fun y hy => hb y (List.mem_cons_of_mem _ hy))
        rw [List.cons_append] at this
        rw [this]; rfl
      · rw [ihx (y :: ys) hb]; rfl

theorem naive_merge_append_right {cmp : α → α → Int} (h : TotalPreorder cmp) (a : List α) :
    ∀ (q b : List α), (∀ z ∈ q, ∀ x ∈ a, cmp x z ≤ 0) →
      naive_merge cmp a (b ++ q) = naive_merge cmp a b ++ q := by
  intro q
  induction q with
  | nil => intro b _; simp
  | cons z q ih =>
    intro b hq
    have e : b ++ z :: q = (b ++ [z]) ++ q := by simp
    rw [e, ih (b ++ [z]) (fun w hw => hq w (List.mem_cons_of_mem _ hw)),
      naive_merge_concat_right h z a b (hq z (List.mem_cons_self _ _))]
    simp

theorem naive_merge_append_left (cmp : α → α → Int) (b : List α) :
    ∀ (q a : List α), (∀ z ∈ q, ∀ y ∈ b, cmp y z < 0) →
      naive_merge cmp (a ++ q) b = naive_merge cmp a b ++ q := by
  intro q
  induction q with
  | nil => intro a _; simp
  | cons z q ih =>
    intro a hq
    have e : a ++ z :: q = (a ++ [z]) ++ q := by simp
    rw [e, ih (a ++ [z]) (fun w hw => hq w (List.mem_cons_of_mem _ hw)),
      naive_merge_concat_left cmp z a b (hq z (List.mem_cons_self _ _))]
    simp

theorem mergeHi_lens {P Q tmp : List α} {v : MergeHi α} {D X Y : List α}
    (hst : MergeHiState P Q tmp v D X Y) : v.len1 = X.length ∧ v.len2 = Y.length := by
  obtain ⟨G, V, h1, h2, h3, h4, h5, h6, h7, h8⟩ := hst
  exact ⟨h7, h8⟩

theorem mergeHi_set_min_gallop {P Q tmp : List α} {v : MergeHi α} {D X Y : List α}
    (hst : MergeHiState P Q tmp v D X Y) (g : Nat) :
    MergeHiState P Q tmp { v with min_gallop := g } D X Y := hst

theorem mergeHi_read {P Q tmp : List α} {v : MergeHi α} {D X : List α} {x : α}
    {Y : List α} {y : α} (hst : MergeHiState P Q tmp v D (X ++ [x]) (Y ++ [y])) :
    loadI tmp v.cursor2 = some y ∧ loadI v.mem v.cursor1 = some x := by
  obtain ⟨G, V, h1, h2, h3, h4, h5, h6, h7, h8⟩ := hst
  simp only [List.length_append, List.length_cons, List.length_nil] at h2 h4 h5 h6 h7 h8
  have e2 : v.cursor2 = ((Y.length : Nat) : Int) := by omega
  have e1 : v.cursor1 = ((P.length + X.length : Nat) : Int) := by omega
  rw [e1, e2, loadI_ofNat, loadI_ofNat]
  constructor
  · exact load_eq (A := Y) (B := V) (by simp [h3]) rfl
  · exact load_eq (A := P ++ X) (B := G ++ (D ++ Q)) (by simp [h1]) (by simp)

theorem mergeHi_compare (cmp : α → α → Int) {P Q tmp : List α} {v : MergeHi α} {D X : List α}
    {x : α} {Y : List α} {y : α} (hst : MergeHiState P Q tmp v D (X ++ [x]) (Y ++ [y])) :
    gtk_tim_sort_compareI cmp tmp v.cursor2 v.mem v.cursor1 = some (cmp y x) := by
  obtain ⟨h1, h2⟩ := mergeHi_read hst
  simp only [gtk_tim_sort_compareI, h1, h2]

theorem exists_concat_of_length_pos {l : List α} (hl : 1 ≤ l.length) :
    ∃ l0 z, l = l0 ++ [z] := by
  rcases List.eq_nil_or_concat l with e | ⟨l0, z, e⟩
  · subst e; simp at hl
  · exact ⟨l0, z, by simpa using e⟩

theorem mergeHi_take_x {P Q tmp : List α} {v : MergeHi α} {D X : List α} {x : α} {Y : List α}
    (hst : MergeHiState P Q tmp v D (X ++ [x]) Y) (hY : 1 ≤ Y.length) :
    ∃ mem, ASSIGNI v.mem v.dest v.mem v.cursor1 = some mem ∧
      MergeHiState P Q tmp { v with mem := mem, dest := v.dest - 1, cursor1 := v.cursor1 - 1,
                                    len1 := v.len1 - 1 } (x :: D) X Y := by
  obtain ⟨G, V, h1, h2, h3, h4, h5, h6, h7, h8⟩ := hst
  obtain ⟨G0, g, rfl⟩ := exists_concat_of_length_pos (l := G) (by omega)
  simp only [List.length_append, List.length_cons, List.length_nil] at h2 h4 h5 h6 h7 h8
  have e1 : v.cursor1 = ((P.length + X.length : Nat) : Int) := by omega
  have ed : v.dest = ((P.length + (X.length + 1) + G0.length : Nat) : Int) := by omega
  rw [e1, ed, ASSIGNI_ofNat]
  refine ⟨_, ASSIGN_eq (A := P ++ (X ++ ([x] ++ G0))) (x := g) (B := D ++ Q)
    (U := P ++ X) (y := x) (V := G0 ++ [g] ++ (D ++ Q)) (by simp [h1]) (by simp; omega)
    (by simp [h1]) (by simp), ?_⟩
  refine ⟨[x] ++ G0, V, by simp, by simp; omega, h3, by simp, h5, ?_,
    by simp [h7], h8⟩
  simp only [ed]
  omega

theorem mergeHi_take_y {P Q tmp : List α} {v : MergeHi α} {D X Y : List α} {y : α}
    (hst : MergeHiState P Q tmp v D X (Y ++ [y])) :
    ∃ mem, ASSIGNI v.mem v.dest tmp v.cursor2 = some mem ∧
      MergeHiState P Q tmp { v with mem := mem, dest := v.dest - 1, cursor2 := v.cursor2 - 1,
                                    len2 := v.len2 - 1 } (y :: D) X Y := by
  obtain ⟨G, V, h1, h2, h3, h4, h5, h6, h7, h8⟩ := hst
  simp only [List.length_append, List.length_cons, List.length_nil] at h2 h4 h5 h6 h7 h8
  obtain ⟨G0, g, rfl⟩ := exists_concat_of_length_pos (l := G) (by omega)
  simp only [List.length_append, List.length_cons, List.length_nil] at h2
  have e2 : v.cursor2 = ((Y.length : Nat) : Int) := by omega
  have ed : v.dest = ((P.length + X.length + G0.length : Nat) : Int) := by omega
  rw [e2, ed, ASSIGNI_ofNat]
  refine ⟨_, ASSIGN_eq (A := P ++ (X ++ G0)) (x := g) (B := D ++ Q)
    (U := Y) (y := y) (V := V) (by simp [h1]) (by simp; omega) (by simp [h3]) rfl, ?_⟩
  refine ⟨G0, [y] ++ V, by simp, by omega, by simp [h3], h4, by simp, ?_,
    h7, by simp [h8]⟩
  simp only [ed]
  omega

theorem take_append_drop_len (X G : List α) (n : Nat) (hG : G.length = n) :
    X ++ G = (X ++ G).take n ++ (X ++ G).drop n ∧ ((X ++ G).take n).length = n ∧
      ((X ++ G).drop n).length = X.length := by
  refine ⟨(List.take_append_drop _ _).symm, ?_, ?_⟩
  · simp; omega
  · simp; omega

theorem merge_hi_move1_spec {P Q tmp : List α} {v : MergeHi α} {D X Y : List α} (k : Nat)
    (hst : MergeHiState P Q tmp v D X Y) (hk : k ≤ X.length) :
    ∃ v1, merge_hi_move1 v (v.len1 - k) = some v1 ∧
      MergeHiState P Q tmp v1 (X.drop k ++ D) (X.take k) Y ∧ v1.min_gallop = v.min_gallop := by
  obtain ⟨G, V, h1, h2, h3, h4, h5, h6, h7, h8⟩ := hst
  unfold merge_hi_move1
  by_cases hc : v.len1 - k ≠ 0
  · rw [if_pos hc]
    simp only []
    have es : v.cursor1 - ((v.len1 - k : Nat) : Int) + 1 = ((P.length + k : Nat) : Int) := by
      omega
    have ed : v.dest - ((v.len1 - k : Nat) : Int) + 1
        = ((P.length + k + Y.length : Nat) : Int) := by omega
    rw [es, ed, memmoveI_ofNat]
    obtain ⟨e1, e2, e3⟩ := take_append_drop_len (X.drop k) G Y.length h2
    rw [memmove_eq (A := P ++ (X.take k ++ (X.drop k ++ G).take Y.length))
      (M := (X.drop k ++ G).drop Y.length) (B := D ++ Q) (U := P ++ X.take k) (W := X.drop k)
      (V := G ++ (D ++ Q))
      (by rw [h1]
          simp only [List.append_assoc]
          rw [← List.append_assoc ((X.drop k ++ G).take Y.length), ← e1]
          simp only [List.append_assoc]
          rw [← List.append_assoc (X.take k), List.take_append_drop])
      (by simp only [List.length_append, e2]; simp; omega)
      (by rw [e3]; simp; omega)
      (by rw [h1, append_take_drop k X]; simp)
      (by simp; omega) (by simp; omega)]
    refine ⟨_, rfl, ⟨(X.drop k ++ G).take Y.length, V, by simp, e2, h3, ?_, h5, ?_, ?_, h8⟩, rfl⟩
    · simp only [List.length_take]; omega
    · simp only [List.length_take]; omega
    · simp only [List.length_take]; omega
  · rw [if_neg hc]
    have hk' : k = X.length := by omega
    subst hk'
    refine ⟨v, rfl, ⟨G, V, by simpa using h1, h2, h3, by simpa using h4, h5, by simpa using h6,
      by simpa using h7, h8⟩, rfl⟩

theorem merge_hi_move2_spec {P Q tmp : List α} {v : MergeHi α} {D X Y : List α} (k : Nat)
    (hst : MergeHiState P Q tmp v D X Y) (hk : k ≤ Y.length) :
    ∃ v1, merge_hi_move2 tmp v (v.len2 - k) = some v1 ∧
      MergeHiState P Q tmp v1 (Y.drop k ++ D) X (Y.take k) ∧ v1.min_gallop = v.min_gallop := by
  obtain ⟨G, V, h1, h2, h3, h4, h5, h6, h7, h8⟩ := hst
  unfold merge_hi_move2
  by_cases hc : v.len2 - k ≠ 0
  · rw [if_pos hc]
    simp only []
    have es : v.cursor2 - ((v.len2 - k : Nat) : Int) + 1 = ((k : Nat) : Int) := by omega
    have ed : v.dest - ((v.len2 - k : Nat) : Int) + 1
        = ((P.length + X.length + k : Nat) : Int) := by omega
    rw [es, ed, memcpyI_ofNat]
    rw [memcpy_eq (A := P ++ (X ++ G.take k)) (M := G.drop k) (B := D ++ Q) (U := Y.take k)
      (W := Y.drop k) (V := V)
      (by rw [h1, append_take_drop k G]; simp)
      (by simp; omega) (by simp; omega)
      (by rw [h3, append_take_drop k Y])
      (by simp; omega) (by simp; omega)]
    refine ⟨_, rfl, ⟨G.take k, Y.drop k ++ V, by simp, by simp; omega, ?_, h4, ?_, ?_, h7, ?_⟩,
      rfl⟩
    · rw [h3, append_take_drop k Y]
    · simp only [List.length_take]; omega
    · simp only [List.length_take]; omega
    · simp only [List.length_take]; omega
  · rw [if_neg hc]
    have hk' : k = Y.length := by omega
    subst hk'
    refine ⟨v, rfl, ⟨G, V, by simpa using h1, by simpa using h2, by simpa using h3, h4,
      by simpa using h5, by simpa using h6, h7, by simpa using h8⟩, rfl⟩

theorem mergeHi_gallop_right {cmp : α → α → Int} (h : TotalPreorder cmp) {P Q tmp : List α}
    {v : MergeHi α} {D X Y : List α} (key : α) (hst : MergeHiState P Q tmp v D X Y)
    (hX : 1 ≤ X.length) (hX64 : X.length < GSIZE_MOD) (hs : Sorted cmp X) :
    ∃ k, gallop_right cmp key v.mem P.length v.len1 (v.len1 - 1) = some k ∧ k ≤ X.length ∧
      (∀ x ∈ X.take k, cmp x key ≤ 0) ∧ (∀ x ∈ X.drop k, cmp key x < 0) := by
  obtain ⟨G, V, h1, h2, h3, h4, h5, h6, h7, h8⟩ := hst
  rw [h7]
  exact gallop_right_spec h key (A := P) (S := X) (B := G ++ (D ++ Q)) h1 rfl rfl (by omega)
    hX64 hs

theorem mergeHi_gallop_left {cmp : α → α → Int} (h : TotalPreorder cmp) {P Q tmp : List α}
    {v : MergeHi α} {D X Y : List α} (key : α) (hst : MergeHiState P Q tmp v D X Y)
    (hY : 1 ≤ Y.length) (hY64 : Y.length < GSIZE_MOD) (hs : Sorted cmp Y) :
    ∃ k, gallop_left cmp key tmp 0 v.len2 (v.len2 - 1) = some k ∧ k ≤ Y.length ∧
      (∀ y ∈ Y.take k, cmp y key < 0) ∧ (∀ y ∈ Y.drop k, cmp key y ≤ 0) := by
  obtain ⟨G, V, h1, h2, h3, h4, h5, h6, h7, h8⟩ := hst
  rw [h8]
  exact gallop_left_spec h key (A := []) (S := Y) (B := V) (by simp [h3]) rfl rfl (by omega)
    hY64 hs

theorem sorted_le_last {cmp : α → α → Int} (h : TotalPreorder cmp) {L : List α} {z : α}
    (hs : Sorted cmp (L ++ [z])) : ∀ w ∈ L ++ [z], cmp w z ≤ 0 := by
  intro w hw
  rcases List.mem_append.1 hw with hw | hw
  · exact hs.le_of_append hw (List.mem_singleton_self z)
  · rw [List.mem_singleton.1 hw, h.cmp_self]

theorem mergeOrderHi_take_left {cmp : α → α → Int} {X Y : List α} (k : Nat)
    (h : MergeOrderHi cmp X Y) : MergeOrderHi cmp (X.take k) Y := by
  obtain ⟨h1, h2, y0, Y0, h3, h4⟩ := h
  have hs : Sorted cmp (X.take k ++ X.drop k) := by rw [List.take_append_drop]; exact h1
  exact ⟨hs.of_append_left, h2, y0, Y0, h3, fun x hx => h4 x (List.mem_of_mem_take hx)⟩

theorem mergeOrderHi_take_right {cmp : α → α → Int} {X Y : List α} (k : Nat) (hk : 1 ≤ k)
    (h : MergeOrderHi cmp X Y) : MergeOrderHi cmp X (Y.take k) := by
  obtain ⟨h1, h2, y0, Y0, h3, h4⟩ := h
  have hs : Sorted cmp (Y.take k ++ Y.drop k) := by rw [List.take_append_drop]; exact h2
  obtain ⟨j, rfl⟩ : ∃ j, k = j + 1 := ⟨k - 1, by omega⟩
  exact ⟨h1, hs.of_append_left, y0, Y0.take j, by rw [h3]; rfl, h4⟩

theorem mergeOrderHi_init_left {cmp : α → α → Int} {X : List α} {x : α} {Y : List α}
    (h : MergeOrderHi cmp (X ++ [x]) Y) : MergeOrderHi cmp X Y := by
  have := mergeOrderHi_take_left X.length h
  simpa using this

theorem mergeOrderHi_init_right {cmp : α → α → Int} {X Y : List α} {y : α}
    (h : MergeOrderHi cmp X (Y ++ [y])) (hY : 1 ≤ Y.length) : MergeOrderHi cmp X Y := by
  have := mergeOrderHi_take_right Y.length hY h
  simpa using this

/-- In `merge_hi` the key of the first run exceeds some element of the second. -/
theorem mergeOrderHi_gallop_pos {cmp : α → α → Int} (h : TotalPreorder cmp) {X : List α}
    {x : α} {Y : List α} (ho : MergeOrderHi cmp (X ++ [x]) Y) {k : Nat}
    (hge : ∀ y ∈ Y.drop k, cmp x y ≤ 0) : 1 ≤ k := by
  obtain ⟨_, _, y0, Y0, h3, h4⟩ := ho
  by_contra hcon
  have hk : k = 0 := by omega
  subst hk
  have h1 := hge y0 (by rw [h3]; simp)
  have h2 := h4 x (by simp)
  exact (h.not_lt_iff y0 x).2 h1 h2

theorem merge_hi_linear_spec {cmp : α → α → Int} (h : TotalPreorder cmp) (P Q tmp : List α)
    (fuel : Nat) :
    ∀ (v : MergeHi α) (c1 c2 : Nat) (D X Y : List α), MergeHiState P Q tmp v D X Y →
      MergeOrderHi cmp X Y → 1 ≤ X.length → 2 ≤ Y.length → X.length + Y.length ≤ fuel →
      ∃ b v' D' X' Y', merge_hi_linear cmp tmp fuel v c1 c2 = some (b, v') ∧
        MergeHiState P Q tmp v' D' X' Y' ∧ MergeOrderHi cmp X' Y' ∧
        naive_merge cmp X' Y' ++ D' = naive_merge cmp X Y ++ D ∧
        X'.length + Y'.length < X.length + Y.length ∧
        (b = true → (Y'.length = 1 ∧ 1 ≤ X'.length) ∨ (X'.length = 0 ∧ 2 ≤ Y'.length)) ∧
        (b = false → 1 ≤ X'.length ∧ 2 ≤ Y'.length) ∧ v'.min_gallop = v.min_gallop := by
  induction fuel with
  | zero => intro v c1 c2 D X Y _ _ hX hY hf; omega
  | succ fuel ih =>
    intro v c1 c2 D X Y hst ho hX hY hf
    obtain ⟨X0, x, rfl⟩ := exists_concat_of_length_pos hX
    obtain ⟨Y0, y, rfl⟩ := exists_concat_of_length_pos (l := Y) (by omega)
    simp only [List.length_append, List.length_cons, List.length_nil] at hX hY hf
    obtain ⟨hl1, hl2⟩ := mergeHi_lens hst
    simp only [List.length_append, List.length_cons, List.length_nil] at hl1 hl2
    rw [merge_hi_linear, if_pos ⟨by omega, by omega⟩, mergeHi_compare cmp hst]
    simp only []
    by_cases hc : cmp y x < 0
    · rw [if_pos hc]
      obtain ⟨mem, hmem, hst1⟩ := mergeHi_take_x hst (by simp)
      rw [hmem]
      simp only []
      have ho1 := mergeOrderHi_init_left ho
      have hmerge : naive_merge cmp X0 (Y0 ++ [y]) ++ (x :: D)
          = naive_merge cmp (X0 ++ [x]) (Y0 ++ [y]) ++ D := by
        rw [naive_merge_concat_left cmp x X0 (Y0 ++ [y]) (fun w hw =>
          h.lt_of_le_of_lt (sorted_le_last h ho.2.1 w hw) hc)]
        simp
      by_cases hz : v.len1 - 1 = 0
      · rw [if_pos hz]
        exact ⟨true, _, _, _, _, rfl, hst1, ho1, hmerge, by simp,
          fun _ => Or.inr ⟨by omega, by simp; omega⟩, fun hb => by simp at hb, rfl⟩
      · rw [if_neg hz]
        split
        · obtain ⟨b, v', D', X', Y', e1, e2, e3, e4, e5, e6, e7, e8⟩ := ih _ (c1 + 1) 0 _ _ _
            hst1 ho1 (by omega) (by simp; omega) (by simp; omega)
          exact ⟨b, v', D', X', Y', e1, e2, e3, e4.trans hmerge, by simp at e5 ⊢; omega, e6, e7,
            e8⟩
        · exact ⟨false, _, _, _, _, rfl, hst1, ho1, hmerge, by simp,
            fun hb => by simp at hb, fun _ => ⟨by omega, by simp; omega⟩, rfl⟩
    · rw [if_neg hc]
      obtain ⟨mem, hmem, hst1⟩ := mergeHi_take_y hst
      rw [hmem]
      simp only []
      have ho1 := mergeOrderHi_init_right ho (by omega)
      have hmerge : naive_merge cmp (X0 ++ [x]) Y0 ++ (y :: D)
          = naive_merge cmp (X0 ++ [x]) (Y0 ++ [y]) ++ D := by
        rw [naive_merge_concat_right h y (X0 ++ [x]) Y0 (fun w hw =>
          h.trans _ _ _ (sorted_le_last h ho.1 w hw) ((h.not_lt_iff y x).1 hc))]
        simp
      by_cases hz : v.len2 - 1 = 1
      · rw [if_pos hz]
        exact ⟨true, _, _, _, _, rfl, hst1, ho1, hmerge, by simp,
          fun _ => Or.inl ⟨by omega, by simp⟩, fun hb => by simp at hb, rfl⟩
      · rw [if_neg hz]
        split
        · obtain ⟨b, v', D', X', Y', e1, e2, e3, e4, e5, e6, e7, e8⟩ := ih _ 0 (c2 + 1) _ _ _
            hst1 ho1 (by simp) (by omega) (by simp; omega)
          exact ⟨b, v', D', X', Y', e1, e2, e3, e4.trans hmerge, by simp at e5 ⊢; omega, e6, e7,
            e8⟩
        · exact ⟨false, _, _, _, _, rfl, hst1, ho1, hmerge, by simp,
            fun hb => by simp at hb, fun _ => ⟨by simp, by omega⟩, rfl⟩

theorem merge_hi_gallop_spec {cmp : α → α → Int} (h : TotalPreorder cmp) (P Q tmp : List α)
    (fuel : Nat) :
    ∀ (v : MergeHi α) (D X Y : List α), MergeHiState P Q tmp v D X Y →
      MergeOrderHi cmp X Y → 1 ≤ X.length → 2 ≤ Y.length → X.length + Y.length ≤ fuel →
      X.length + Y.length < GSIZE_MOD →
      ∃ b v' D' X' Y', merge_hi_gallop cmp tmp P.length fuel v = some (b, v') ∧
        MergeHiState P Q tmp v' D' X' Y' ∧ MergeOrderHi cmp X' Y' ∧
        naive_merge cmp X' Y' ++ D' = naive_merge cmp X Y ++ D ∧
        X'.length + Y'.length < X.length + Y.length ∧
        (b = true → (Y'.length = 1 ∧ 1 ≤ X'.length) ∨ (X'.length = 0 ∧ 2 ≤ Y'.length)) ∧
        (b = false → 1 ≤ X'.length ∧ 2 ≤ Y'.length) := by
  induction fuel with
  | zero => intro v D X Y _ _ hX hY hf; omega
  | succ fuel ih =>
    intro v D X Y hst ho hX hY hf h64
    obtain ⟨Y0, y, rfl⟩ := exists_concat_of_length_pos (l := Y) (by omega)
    obtain ⟨hl1, hl2⟩ := mergeHi_lens hst
    simp only [List.length_append, List.length_cons, List.length_nil] at hY hf hl2 h64
    rw [merge_hi_gallop, if_pos ⟨by omega, by omega⟩]
    have hkey2 : loadI tmp v.cursor2 = some y := by
      obtain ⟨X0, x, rfl⟩ := exists_concat_of_length_pos hX
      exact (mergeHi_read hst).1
    rw [hkey2]
    simp only []
    obtain ⟨k1, hk1, hk1le, hk1a, hk1b⟩ := mergeHi_gallop_right h y hst hX (by omega) ho.1
    rw [hk1]
    simp only []
    obtain ⟨v1, hv1, hst1, hg1⟩ := merge_hi_move1_spec k1 hst hk1le
    rw [hv1]
    simp only []
    have ho1 : MergeOrderHi cmp (X.take k1) (Y0 ++ [y]) := mergeOrderHi_take_left k1 ho
    have hm1 : naive_merge cmp (X.take k1) (Y0 ++ [y]) ++ (X.drop k1 ++ D)
        = naive_merge cmp X (Y0 ++ [y]) ++ D := by
      conv => rhs; rw [← List.take_append_drop k1 X]
      rw [naive_merge_append_left cmp (Y0 ++ [y]) (X.drop k1) (X.take k1) (fun z hz w hw =>
        h.lt_of_le_of_lt (sorted_le_last h ho.2.1 w hw) (hk1b z hz))]
      simp
    obtain ⟨hl1', hl2'⟩ := mergeHi_lens hst1
    simp only [List.length_take, List.length_append, List.length_cons, List.length_nil]
      at hl1' hl2'
    have hk1len : (X.take k1).length = k1 := by simp; omega
    by_cases hex1 : v.len1 - k1 ≠ 0 ∧ v1.len1 = 0
    · rw [if_pos hex1]
      exact ⟨true, v1, _, _, _, rfl, hst1, ho1, hm1, by simp; omega,
        fun _ => Or.inr ⟨by omega, by simp; omega⟩, fun hb => by simp at hb⟩
    · rw [if_neg hex1]
      have hk1pos : 1 ≤ k1 := by omega
      obtain ⟨mem2, hmem2, hst2⟩ := mergeHi_take_y hst1
      rw [hmem2]
      simp only []
      have ho2 := mergeOrderHi_init_right ho1 (by omega)
      have hm2 : naive_merge cmp (X.take k1) Y0 ++ (y :: (X.drop k1 ++ D))
          = naive_merge cmp X (Y0 ++ [y]) ++ D := by
        rw [← hm1, naive_merge_concat_right h y (X.take k1) Y0 hk1a]
        simp
      by_cases hex2 : v1.len2 - 1 = 1
      · rw [if_pos hex2]
        exact ⟨true, _, _, _, _, rfl, hst2, ho2, hm2, by simp; omega,
          fun _ => Or.inl ⟨by omega, by omega⟩, fun hb => by simp at hb⟩
      · rw [if_neg hex2]
        obtain ⟨X1, x1, hX1⟩ := exists_concat_of_length_pos (l := X.take k1) (by omega)
        have hX1len : X1.length + 1 = k1 := by
          have := congrArg List.length hX1
          simp only [List.length_append, List.length_cons, List.length_nil] at this
          omega
        rw [hX1] at hst1 hst2 ho1 ho2 hm1 hm2
        have hkey1 : loadI mem2 (v1.cursor1) = some x1 := by
          obtain ⟨Y00, y', hY00⟩ := exists_concat_of_length_pos (l := Y0) (by omega)
          rw [hY00] at hst2
          exact (mergeHi_read hst2).2
        rw [hkey1]
        simp only []
        obtain ⟨k2, hk2, hk2le, hk2a, hk2b⟩ := mergeHi_gallop_left h x1 hst2 (by omega)
          (by omega) ho2.2.1
        rw [hk2]
        simp only []
        have hk2pos : 1 ≤ k2 := mergeOrderHi_gallop_pos h ho2 hk2b
        obtain ⟨v3, hv3, hst3, hg3⟩ := merge_hi_move2_spec k2 hst2 hk2le
        rw [hv3]
        simp only []
        have ho3 : MergeOrderHi cmp (X1 ++ [x1]) (Y0.take k2) :=
          mergeOrderHi_take_right k2 hk2pos ho2
        have hm3 : naive_merge cmp (X1 ++ [x1]) (Y0.take k2) ++
            (Y0.drop k2 ++ (y :: (X.drop k1 ++ D))) = naive_merge cmp X (Y0 ++ [y]) ++ D := by
          rw [← hm2]
          conv => rhs; rw [← List.take_append_drop k2 Y0]
          rw [naive_merge_append_right h (X1 ++ [x1]) (Y0.drop k2) (Y0.take k2) (fun z hz w hw =>
            h.trans _ _ _ (sorted_le_last h ho2.1 w hw) (hk2b z hz))]
          simp
        obtain ⟨hl1'', hl2''⟩ := mergeHi_lens hst3
        simp only [List.length_take, List.length_append, List.length_cons, List.length_nil]
          at hl1'' hl2''
        have hk2len : (Y0.take k2).length = k2 := by simp; omega
        by_cases hex3 : v1.len2 - 1 - k2 ≠ 0 ∧ v3.len2 ≤ 1
        · rw [if_pos hex3]
          exact ⟨true, v3, _, _, _, rfl, hst3, ho3, hm3, by simp; omega,
            fun _ => Or.inl ⟨by omega, by simp⟩, fun hb => by simp at hb⟩
        · rw [if_neg hex3]
          have hk2two : 2 ≤ k2 := by omega
          obtain ⟨mem4, hmem4, hst4⟩ := mergeHi_take_x hst3 (by omega)
          rw [hmem4]
          simp only []
          have ho4 := mergeOrderHi_init_left ho3
          have hm4 : naive_merge cmp X1 (Y0.take k2) ++
              (x1 :: (Y0.drop k2 ++ (y :: (X.drop k1 ++ D))))
              = naive_merge cmp X (Y0 ++ [y]) ++ D := by
            rw [← hm3, naive_merge_concat_left cmp x1 X1 (Y0.take k2) hk2a]
            simp
          have hlen4 : X1.length + (Y0.take k2).length < X.length + (Y0.length + 1) := by
            omega
          by_cases hex4 : v3.len1 - 1 = 0
          · rw [if_pos hex4]
            exact ⟨true, _, _, _, _, rfl, hst4, ho4, hm4, by simpa using hlen4,
              fun _ => Or.inr ⟨by omega, by omega⟩, fun hb => by simp at hb⟩
          · rw [if_neg hex4]
            have hst5 : MergeHiState P Q tmp
                (if v3.min_gallop > 0 then
                  { mem := mem4, cursor1 := v3.cursor1 - 1, cursor2 := v3.cursor2,
                    dest := v3.dest - 1, len1 := v3.len1 - 1, len2 := v3.len2,
                    min_gallop := v3.min_gallop - 1 }
                 else
                  { mem := mem4, cursor1 := v3.cursor1 - 1, cursor2 := v3.cursor2,
                    dest := v3.dest - 1, len1 := v3.len1 - 1, len2 := v3.len2,
                    min_gallop := v3.min_gallop })
                (x1 :: (Y0.drop k2 ++ (y :: (X.drop k1 ++ D)))) X1 (Y0.take k2) := by
              split
              · exact mergeHi_set_min_gallop hst4 _
              · exact hst4
            split
            · obtain ⟨b, v', D', X', Y', e1, e2, e3, e4, e5, e6, e7⟩ := ih _ _ _ _ hst5 ho4
                (by omega) (by omega) (by omega) (by omega)
              exact ⟨b, v', D', X', Y', e1, e2, e3, e4.trans hm4, by
                simp only [List.length_append, List.length_cons, List.length_nil] at e5 ⊢
                omega, e6, e7⟩
            · exact ⟨false, _, _, _, _, rfl, hst5, ho4, hm4, by simpa using hlen4,
                fun hb => by simp at hb, fun _ => ⟨by omega, by omega⟩⟩

theorem merge_hi_outer_spec {cmp : α → α → Int} (h : TotalPreorder cmp) (P Q tmp : List α)
    (fuel : Nat) :
    ∀ (v : MergeHi α) (D X Y : List α), MergeHiState P Q tmp v D X Y →
      MergeOrderHi cmp X Y → 1 ≤ X.length → 2 ≤ Y.length → X.length + Y.length ≤ fuel →
      X.length + Y.length < GSIZE_MOD →
      ∃ v' D' X' Y', merge_hi_outer cmp tmp P.length fuel v = some v' ∧
        MergeHiState P Q tmp v' D' X' Y' ∧ MergeOrderHi cmp X' Y' ∧
        naive_merge cmp X' Y' ++ D' = naive_merge cmp X Y ++ D ∧
        ((Y'.length = 1 ∧ 1 ≤ X'.length) ∨ (X'.length = 0 ∧ 2 ≤ Y'.length)) := by
  induction fuel with
  | zero => intro v D X Y _ _ hX hY hf; omega
  | succ fuel ih =>
    intro v D X Y hst ho hX hY hf h64
    obtain ⟨hl1, hl2⟩ := mergeHi_lens hst
    rw [merge_hi_outer]
    obtain ⟨b, v1, D1, X1, Y1, e1, e2, e3, e4, e5, e6, e7, _⟩ := merge_hi_linear_spec h P Q tmp
      (v.len1 + v.len2) v 0 0 D X Y hst ho hX hY (by omega)
    rw [e1]
    cases b with
    | true =>
      simp only []
      exact ⟨v1, D1, X1, Y1, rfl, e2, e3, e4, e6 rfl⟩
    | false =>
      simp only []
      obtain ⟨hX1, hY1⟩ := e7 rfl
      obtain ⟨hl1', hl2'⟩ := mergeHi_lens e2
      obtain ⟨b2, v2, D2, X2, Y2, f1, f2, f3, f4, f5, f6, f7⟩ := merge_hi_gallop_spec h P Q tmp
        (v1.len1 + v1.len2) v1 D1 X1 Y1 e2 e3 hX1 hY1 (by omega) (by omega)
      rw [f1]
      cases b2 with
      | true =>
        simp only []
        exact ⟨v2, D2, X2, Y2, rfl, f2, f3, f4.trans e4, f6 rfl⟩
      | false =>
        simp only []
        obtain ⟨hX2, hY2⟩ := f7 rfl
        obtain ⟨v', D', X', Y', g1, g2, g3, g4, g5⟩ := ih _ D2 X2 Y2
          (mergeHi_set_min_gallop f2 (v2.min_gallop + 2)) f3 hX2 hY2 (by omega) (by omega)
        exact ⟨v', D', X', Y', g1, g2, g3, g4.trans (f4.trans e4), g5⟩

/-- The end of `merge_hi` when one element of the second run is left. -/
theorem mergeHi_finish_one {cmp : α → α → Int} {P Q tmp : List α} {v : MergeHi α}
    {D X : List α} {y : α} (hst : MergeHiState P Q tmp v D X [y])
    (ho : MergeOrderHi cmp X [y]) (hX : 1 ≤ X.length) :
    ∃ mem1 mem2, memmoveI v.mem (v.dest - (v.len1 : Int) + 1) (v.cursor1 - (v.len1 : Int) + 1)
        v.len1 = some mem1 ∧
      ASSIGNI mem1 (v.dest - (v.len1 : Int)) tmp v.cursor2 = some mem2 ∧
      mem2 = P ++ ((naive_merge cmp X [y] ++ D) ++ Q) := by
  obtain ⟨G, V, h1, h2, h3, h4, h5, h6, h7, h8⟩ := hst
  obtain ⟨g, rfl⟩ : ∃ g, G = [g] := by
    match G, h2 with
    | [g], _ => exact ⟨g, rfl⟩
  simp only [List.length_cons, List.length_nil] at h5 h6 h8
  have es : v.cursor1 - (v.len1 : Int) + 1 = ((P.length : Nat) : Int) := by omega
  have ed : v.dest - (v.len1 : Int) + 1 = ((P.length + 1 : Nat) : Int) := by omega
  have ed2 : v.dest - (v.len1 : Int) = ((P.length : Nat) : Int) := by omega
  have ec : v.cursor2 = ((0 : Nat) : Int) := by omega
  obtain ⟨x0, X1, rfl⟩ : ∃ x0 X1, X = x0 :: X1 := by
    cases X with
    | nil => simp at hX
    | cons x X1 => exact ⟨x, X1, rfl⟩
  simp only [List.length_cons] at h4 h6 h7
  refine ⟨(P ++ [x0]) ++ ((x0 :: X1) ++ (D ++ Q)), P ++ y :: (x0 :: X1 ++ (D ++ Q)), ?_, ?_, ?_⟩
  · rw [es, ed, memmoveI_ofNat]
    exact memmove_eq (A := P ++ [x0]) (M := X1 ++ [g]) (B := D ++ Q) (U := P)
      (W := x0 :: X1) (V := [g] ++ (D ++ Q)) (by simp [h1]) (by simp) (by simp; omega)
      (by simp [h1]) rfl (by simp; omega)
  · rw [ed2, ec, ASSIGNI_ofNat]
    exact ASSIGN_eq (A := P) (x := x0) (B := x0 :: X1 ++ (D ++ Q)) (U := []) (y := y) (V := V)
      (by simp) rfl (by simp [h3]) rfl
  · obtain ⟨_, _, y0, Y0, hy, hlt⟩ := ho
    obtain ⟨rfl, rfl⟩ := List.cons.inj hy
    have := naive_merge_take_right cmp x0 X1 [y] [] (by
      intro w hw
      rw [List.mem_singleton.1 hw]
      exact hlt x0 (by simp))
    simp only [List.append_nil, naive_merge_nil_right] at this
    rw [this]
    simp

/-- The end of `merge_hi` when the first run is used up. -/
theorem mergeHi_finish_rest (cmp : α → α → Int) {P Q tmp : List α} {v : MergeHi α}
    {D Y : List α} (hst : MergeHiState P Q tmp v D [] Y) :
    ∃ mem1, memcpyI v.mem (v.dest - ((v.len2 : Int) - 1)) tmp 0 v.len2 = some mem1 ∧
      mem1 = P ++ ((naive_merge cmp [] Y ++ D) ++ Q) := by
  obtain ⟨G, V, h1, h2, h3, h4, h5, h6, h7, h8⟩ := hst
  simp only [List.length_nil, Nat.add_zero] at h4 h6
  have ed : v.dest - ((v.len2 : Int) - 1) = ((P.length : Nat) : Int) := by omega
  have e0 : (0 : Int) = ((0 : Nat) : Int) := rfl
  refine ⟨_, ?_, rfl⟩
  rw [ed, e0, memcpyI_ofNat, naive_merge_nil_left]
  have e : memcpy v.mem P.length tmp 0 v.len2 = some (P ++ (Y ++ (D ++ Q))) :=
    memcpy_eq (A := P) (M := G) (B := D ++ Q) (U := []) (W := Y) (V := V)
      (by simp [h1]) rfl (by omega) (by simp [h3]) rfl h8.symm
  rw [e]
  simp

/-- The function `merge_hi` on two adjacent sorted runs `X` and `Y` that meet its
documented precondition: the merged range holds the element-wise merge. -/
theorem merge_hi_spec {cmp : α → α → Int} (h : TotalPreorder cmp) (self : GtkTimSort α)
    {P X Y Q : List α} {base1 len1 base2 len2 : Nat} (hm : self.mem = P ++ (X ++ (Y ++ Q)))
    (hP : P.length = base1) (hX : X.length = len1) (hb : base1 + len1 = base2)
    (hY : Y.length = len2) (ho : MergeOrder cmp X Y)
    (hfirst : ∀ x y, X.head? = some x → Y.head? = some y → cmp y x < 0)
    (hY1 : 1 ≤ Y.length) (h64 : X.length + Y.length < GSIZE_MOD) :
    ∃ self', merge_hi cmp self base1 len1 base2 len2 = some self' ∧
      self'.mem = P ++ (naive_merge cmp X Y ++ Q) ∧ MergeFrame self self' := by
  obtain ⟨hsX, hsY, X0, xl, rfl, hxl⟩ := ho
  obtain ⟨Y0, yl, rfl⟩ := exists_concat_of_length_pos hY1
  simp only [List.length_append, List.length_cons, List.length_nil] at hX hY h64
  have hframe := ensure_capacity_frame self len2
  have hoHi : MergeOrderHi cmp X0 (Y0 ++ [yl]) := by
    obtain ⟨y0, Y1, hy⟩ : ∃ y0 Y1, Y0 ++ [yl] = y0 :: Y1 := by
      cases hY0 : Y0 ++ [yl] with
      | nil => simp at hY0
      | cons y0 Y1 => exact ⟨y0, Y1, rfl⟩
    refine ⟨hsX.of_append_left, hsY, y0, Y1, hy, ?_⟩
    intro x hx
    cases X0 with
    | nil => simp at hx
    | cons x0 X1 =>
      have h0 : cmp y0 x0 < 0 := hfirst x0 y0 rfl (by rw [hy]; rfl)
      rcases List.mem_cons.1 hx with rfl | hx
      · exact h0
      · exact h.lt_of_lt_of_le h0 ((List.pairwise_cons.1 hsX.of_append_left).1 x hx)
  have hm0 : naive_merge cmp X0 (Y0 ++ [yl]) ++ [xl]
      = naive_merge cmp (X0 ++ [xl]) (Y0 ++ [yl]) :=
    (naive_merge_concat_left cmp xl X0 (Y0 ++ [yl]) hxl).symm
  unfold merge_hi
  simp only []
  rw [if_pos ⟨by omega, by omega, hb⟩, ensure_capacity_mem,
    memcpy_tmp_eq (A := P ++ (X0 ++ [xl])) (W := Y0 ++ [yl]) (B := Q) (by simp [hm])
      (by simp; omega) (by simp; omega)]
  simp only []
  have ec1 : (base1 : Int) + ((len1 : Int) - 1) = ((P.length + X0.length : Nat) : Int) := by
    omega
  have edd : (base2 : Int) + ((len2 : Int) - 1)
      = ((P.length + (X0.length + 1) + Y0.length : Nat) : Int) := by omega
  rw [ec1, edd, ASSIGNI_ofNat]
  rw [ASSIGN_eq (A := P ++ (X0 ++ ([xl] ++ Y0))) (x := yl) (B := Q) (U := P ++ X0) (y := xl)
    (V := Y0 ++ [yl] ++ Q) (by simp [hm]) (by simp; omega) (by simp [hm]) (by simp)]
  simp only []
  have hst0 : MergeHiState P Q (Y0 ++ [yl])
      { mem := P ++ (X0 ++ ([xl] ++ Y0)) ++ xl :: Q,
        cursor1 := ((P.length + X0.length : Nat) : Int) - 1, cursor2 := (len2 : Int) - 1,
        dest := ((P.length + (X0.length + 1) + Y0.length : Nat) : Int) - 1,
        len1 := len1 - 1, len2 := len2,
        min_gallop := (gtk_tim_sort_ensure_capacity self len2).min_gallop }
      [xl] X0 (Y0 ++ [yl]) :=
    ⟨[xl] ++ Y0, [], by simp, by simp, by simp, rfl, by simp; omega,
      by simp only [List.length_append, List.length_cons, List.length_nil]; omega,
      by simp; omega, by simp; omega⟩
  by_cases h1 : len1 - 1 = 0
  · rw [if_pos h1]
    have hX0nil : X0 = [] := List.eq_nil_of_length_eq_zero (by omega)
    subst hX0nil
    obtain ⟨mem1, e1, e2⟩ := mergeHi_finish_rest cmp hst0
    simp only [] at e1
    rw [e1]
    exact ⟨_, rfl, by rw [e2, ← hm0], hframe⟩
  · rw [if_neg h1]
    by_cases h2 : len2 = 1
    · rw [if_pos h2]
      have hY0nil : Y0 = [] := List.eq_nil_of_length_eq_zero (by omega)
      subst hY0nil
      obtain ⟨mem1, mem2, e1, e2, e3⟩ := mergeHi_finish_one hst0 hoHi (by omega)
      simp only [] at e1 e2
      rw [e1]
      simp only []
      rw [e2]
      exact ⟨_, rfl, by rw [e3, ← hm0]; simp, hframe⟩
    · rw [if_neg h2]
      have hbase : base1 = P.length := hP.symm
      rw [hbase]
      obtain ⟨v, D, X', Y', f1, f2, f3, f4, f5⟩ := merge_hi_outer_spec h P Q (Y0 ++ [yl])
        (len1 - 1 + len2) _ [xl] X0 (Y0 ++ [yl]) hst0 hoHi (by omega) (by simp; omega)
        (by simp; omega) (by simp; omega)
      rw [f1]
      simp only []
      obtain ⟨hl1, hl2⟩ := mergeHi_lens f2
      rcases f5 with ⟨g1, g2⟩ | ⟨g1, g2⟩
      · rw [if_pos (by omega), if_pos (by omega)]
        obtain ⟨y, rfl⟩ : ∃ y, Y' = [y] := by
          match Y', g1 with
          | [y], _ => exact ⟨y, rfl⟩
        obtain ⟨mem1, mem2, e1, e2, e3⟩ := mergeHi_finish_one f2 f3 g2
        rw [e1]
        simp only []
        rw [e2]
        exact ⟨_, rfl, by simp only []; rw [e3, f4, hm0], hframe⟩
      · rw [if_neg (by omega), if_neg (by omega), if_pos ⟨by omega, by omega⟩]
        have hX'nil : X' = [] := List.eq_nil_of_length_eq_zero g1
        subst hX'nil
        obtain ⟨mem1, e1, e2⟩ := mergeHi_finish_rest cmp f2
        rw [e1]
        exact ⟨_, rfl, by simp only []; rw [e2, f4, hm0], hframe⟩

/-! ## The run stack -/

theorem runs_of_length (segs : List (List α)) : ∀ b, (runs_of b segs).length = segs.length := by
  induction segs with
  | nil => intro b; rfl
  | cons s ss ih => intro b; simp [runs_of, ih]

theorem runs_of_append (p q : List (List α)) : ∀ b,
    runs_of b (p ++ q) = runs_of b p ++ runs_of (b + p.flatten.length) q := by
  induction p with
  | nil => intro b; simp [runs_of]
  | cons s ss ih => intro b; simp [runs_of, ih, Nat.add_assoc]

theorem segs_length_le (segs : List (List α)) (h : ∀ s ∈ segs, s ≠ []) :
    segs.length ≤ segs.flatten.length := by
  induction segs with
  | nil => simp
  | cons s ss ih =>
    have h1 : 0 < s.length := List.length_pos.2 (h s (List.mem_cons_self _ _))
    have h2 := ih (fun t ht => h t (List.mem_cons_of_mem _ ht))
    simp only [List.flatten_cons, List.length_append, List.length_cons]
    omega

theorem runs_of_pair (pre post : List (List α)) (A B : List α) :
    runs_of 0 (pre ++ A :: B :: post) = runs_of 0 pre ++
      ({ base := pre.flatten.length, len := A.length } ::
        { base := pre.flatten.length + A.length, len := B.length } ::
        runs_of (pre.flatten.length + A.length + B.length) post) := by
  rw [runs_of_append]
  simp [runs_of]

theorem runs_of_one (pre post : List (List α)) (C : List α) :
    runs_of 0 (pre ++ C :: post) = runs_of 0 pre ++
      ({ base := pre.flatten.length, len := C.length } ::
        runs_of (pre.flatten.length + C.length) post) := by
  rw [runs_of_append]
  simp [runs_of]

theorem runs_getElem_fst (pre post : List (List α)) (A B : List α) :
    (runs_of 0 (pre ++ A :: B :: post))[pre.length]? =
      some { base := pre.flatten.length, len := A.length } := by
  rw [runs_of_pair, List.getElem?_append_right (by rw [runs_of_length]), runs_of_length]
  simp

theorem runs_getElem_snd (pre post : List (List α)) (A B : List α) :
    (runs_of 0 (pre ++ A :: B :: post))[pre.length + 1]? =
      some { base := pre.flatten.length + A.length, len := B.length } := by
  rw [runs_of_pair, List.getElem?_append_right (by rw [runs_of_length]; omega), runs_of_length]
  simp

theorem runs_pending (self : GtkTimSort α) (segs : List (List α))
    (hrun : self.run = runs_of 0 segs) : self.pending_runs = segs.length := by
  rw [GtkTimSort.pending_runs, hrun, runs_of_length]

/-- The code of `merge_at` from `done` on replaces two stack entries by one. -/
theorem merge_at_done_eq (self : GtkTimSort α) (pre post : List (List α)) (A B C : List α)
    (hrun : self.run = runs_of 0 (pre ++ A :: B :: post)) (hpost : post.length ≤ 1)
    (hC : C.length = A.length + B.length) (h64 : pre.length + 2 + post.length < GSIZE_MOD) :
    merge_at_done self pre.length = some { self with run := runs_of 0 (pre ++ C :: post) } := by
  have hl := runs_of_length pre 0
  have hp := runs_pending self _ hrun
  simp only [GSIZE_MOD] at h64
  unfold merge_at_done
  rw [hrun, runs_getElem_fst, runs_getElem_snd]
  simp only []
  match post, hpost with
  | [], _ =>
    simp only [List.length_append, List.length_cons, List.length_nil] at hp
    rw [if_neg (by rw [hp]; simp only [GSIZE_MOD]; omega)]
    rw [runs_of_pair, runs_of_one]
    simp [runs_of, List.set_append, hl, hC]
  | [D], _ =>
    simp only [List.length_append, List.length_cons, List.length_nil] at hp
    rw [if_pos (by rw [hp]; simp only [GSIZE_MOD]; omega)]
    rw [runs_of_pair, runs_of_one]
    simp [runs_of, List.set_append, hl, hC]
    rw [List.getElem_append_right (by rw [hl]; omega)]
    simp [hl, Nat.add_assoc]

/-- The two stack entries a partial merge rewrites. -/
theorem runs_set_two (pre post : List (List α)) (A B A' B' : List α)
    (hlen : A'.length + B'.length = A.length + B.length) :
    ((runs_of 0 (pre ++ A :: B :: post)).set pre.length
        { base := pre.flatten.length, len := A'.length }).set (pre.length + 1)
        { base := pre.flatten.length + A'.length, len := B'.length } =
      runs_of 0 (pre ++ A' :: B' :: post) := by
  have hl := runs_of_length pre 0
  rw [runs_of_pair, runs_of_pair]
  simp [List.set_append, hl]
  rw [Nat.add_assoc, Nat.add_assoc, hlen]

/-! ## Inversions -/

theorem inversions_append (cmp : α → α → Int) (l r : List α) :
    inversions cmp (l ++ r) = inversions cmp l + inversions cmp r + cross_inversions cmp l r := by
  induction l with
  | nil => simp [inversions, cross_inversions]
  | cons x xs ih =>
    show (xs ++ r).countP _ + inversions cmp (xs ++ r) =
      (xs.countP _ + inversions cmp xs) + inversions cmp r +
        (r.countP _ + cross_inversions cmp xs r)
    rw [ih, List.countP_append]
    omega

theorem cross_perm_left (cmp : α → α → Int) {l l' : List α} (r : List α) (h : l.Perm l') :
    cross_inversions cmp l r = cross_inversions cmp l' r :=
  (h.map _).sum_eq

theorem cross_perm_right (cmp : α → α → Int) (l : List α) {r r' : List α} (h : r.Perm r') :
    cross_inversions cmp l r = cross_inversions cmp l r' := by
  unfold cross_inversions
  congr 1
  apply List.map_congr_left
  intro x _
  exact h.countP_eq _

theorem cross_append_right (cmp : α → α → Int) (l r q : List α) :
    cross_inversions cmp l (r ++ q) = cross_inversions cmp l r + cross_inversions cmp l q := by
  induction l with
  | nil => simp [cross_inversions]
  | cons x xs ih =>
    show (r ++ q).countP _ + cross_inversions cmp xs (r ++ q) =
      (r.countP _ + cross_inversions cmp xs r) + (q.countP _ + cross_inversions cmp xs q)
    rw [ih, List.countP_append]
    omega

theorem inversions_sorted {cmp : α → α → Int} (h : TotalPreorder cmp) {l : List α}
    (hs : Sorted cmp l) : inversions cmp l = 0 := by
  induction l with
  | nil => rfl
  | cons x xs ih =>
    have hx := List.pairwise_cons.1 hs
    simp only [inversions, ih hx.2, Nat.add_zero]
    rw [List.countP_eq_zero]
    intro y hy
    simpa using (h.not_lt_iff y x).2 (hx.1 y hy)

theorem inversions_perm_mid (cmp : α → α → Int) (P Q : List α) {M N : List α}
    (h : M.Perm N) :
    inversions cmp (P ++ (M ++ Q)) + inversions cmp N =
      inversions cmp (P ++ (N ++ Q)) + inversions cmp M := by
  simp only [inversions_append, cross_append_right]
  rw [cross_perm_right cmp P h, cross_perm_left cmp Q h]
  omega

/-- What the merge of two runs that meet the precondition of the merge functions
does to the memory: a stable rearrangement, changed exactly on the merged range,
with fewer inversions. -/
theorem merge_result {cmp : α → α → Int} (h : TotalPreorder cmp) (P Q : List α)
    {X Y X0 Y1 : List α} {xl y0 : α} (hX : X = X0 ++ [xl]) (hY : Y = y0 :: Y1)
    (hsX : Sorted cmp X) (hsY : Sorted cmp Y) (hfirst : ∀ x ∈ X, cmp y0 x < 0)
    (hlast : ∀ y ∈ Y, cmp y xl < 0) :
    Stable cmp (P ++ (X ++ (Y ++ Q))) (P ++ (naive_merge cmp X Y ++ Q)) ∧
      Changed cmp P.length (X.length + Y.length) (P ++ (X ++ (Y ++ Q)))
        (P ++ (naive_merge cmp X Y ++ Q)) ∧
      inversions cmp (P ++ (naive_merge cmp X Y ++ Q)) <
        inversions cmp (P ++ (X ++ (Y ++ Q))) := by
  have e : P ++ (X ++ (Y ++ Q)) = P ++ ((X ++ Y) ++ Q) := by simp
  obtain ⟨x0, X1, hX1⟩ : ∃ x0 X1, X = x0 :: X1 := by
    cases X with
    | nil => simp at hX
    | cons x X1 => exact ⟨x, X1, rfl⟩
  obtain ⟨Y0, yl, hY0⟩ : ∃ Y0 yl, Y = Y0 ++ [yl] := by
    rcases List.eq_nil_or_concat Y with e | ⟨r, z, e⟩
    · rw [e] at hY; simp at hY
    · exact ⟨r, z, by simpa using e⟩
  have hlt : cmp y0 x0 < 0 := hfirst x0 (by rw [hX1]; simp)
  refine ⟨?_, ?_, ?_⟩
  · rw [e]
    exact stable_append (naive_merge_stable h X Y hsX) P Q
  · have hN1 : naive_merge cmp X Y = y0 :: naive_merge cmp X Y1 := by
      rw [hX1, hY, naive_merge_cons_lt cmp _ _ hlt]
    have hN2 : naive_merge cmp X Y = naive_merge cmp X0 Y ++ [xl] := by
      rw [hX]
      exact naive_merge_concat_left cmp xl X0 Y hlast
    have hM1 : X ++ Y = x0 :: (X1 ++ Y) := by rw [hX1]; rfl
    have hM2 : X ++ Y = (X ++ Y0) ++ [yl] := by rw [hY0]; simp
    have := changed_of_decomp cmp e rfl hM1 hN1 hM2 hN2
      (by rw [naive_merge_length]; simp) hlt (hlast yl (by rw [hY0]; simp))
    simpa using this
  · have h1 := inversions_perm_mid cmp P Q (naive_merge_perm cmp X Y)
    rw [inversions_sorted h (naive_merge_sorted h X Y hsX hsY)] at h1
    have h2 : 1 ≤ inversions cmp (X ++ Y) := by
      rw [inversions_append, hX1, hY]
      simp only [cross_inversions, List.map_cons, List.sum_cons, List.countP_cons, hlt,
        decide_True, if_true]
      omega
    rw [e]
    omega

theorem sorted_append_of {cmp : α → α → Int} {L R : List α} (hL : Sorted cmp L)
    (hR : Sorted cmp R) (hLR : ∀ a ∈ L, ∀ b ∈ R, cmp a b ≤ 0) : Sorted cmp (L ++ R) :=
  List.pairwise_append.2 ⟨hL, hR, hLR⟩

/-- The merged range stays sorted between what precedes it in the first run and
what follows it in the second run. -/
theorem sorted_mid {cmp : α → α → Int} (h : TotalPreorder cmp) {L X Y R : List α} {b0 xl : α}
    (hLX : Sorted cmp (L ++ X)) (hYR : Sorted cmp (Y ++ R)) (hL : ∀ a ∈ L, cmp a b0 ≤ 0)
    (hb0 : ∀ y ∈ Y ++ R, cmp b0 y ≤ 0) (hxl : ∀ x ∈ X, cmp x xl ≤ 0)
    (hR : ∀ w ∈ R, cmp xl w ≤ 0) : Sorted cmp (L ++ (naive_merge cmp X Y ++ R)) := by
  have hsX : Sorted cmp X := hLX.of_append_right
  have hsY : Sorted cmp Y := hYR.of_append_left
  refine sorted_append_of hLX.of_append_left
    (sorted_append_of (naive_merge_sorted h X Y hsX hsY) hYR.of_append_right ?_) ?_
  · intro z hz w hw
    rcases (mem_naive_merge cmp X Y z).1 hz with hz | hz
    · exact h.trans _ _ _ (hxl z hz) (hR w hw)
    · exact hYR.le_of_append hz hw
  · intro a ha z hz
    rcases List.mem_append.1 hz with hz | hz
    · rcases (mem_naive_merge cmp X Y z).1 hz with hz | hz
      · exact hLX.le_of_append ha hz
      · exact h.trans _ _ _ (hL a ha) (hb0 z (List.mem_append_left _ hz))
    · exact h.trans _ _ _ (hL a ha) (hb0 z (List.mem_append_right _ hz))

/-! ## Merging two runs of the stack -/

theorem layout_mem {cmp : α → α → Int} {self : GtkTimSort α} {pre post : List (List α)}
    {A B tail : List α} (hL : Layout cmp self (pre ++ A :: B :: post) tail) :
    self.mem = pre.flatten ++ (A ++ (B ++ (post.flatten ++ tail))) := by
  rw [hL.1]
  simp

theorem sorted_head_le {cmp : α → α → Int} (h : TotalPreorder cmp) {b0 : α} {B1 : List α}
    (hs : Sorted cmp (b0 :: B1)) : ∀ b ∈ b0 :: B1, cmp b0 b ≤ 0 := by
  intro b hb
  rcases List.mem_cons.1 hb with hb | hb
  · rw [hb, h.cmp_self]
  · exact (List.pairwise_cons.1 hs).1 b hb

theorem layout_merge_one {cmp : α → α → Int} {self self' : GtkTimSort α}
    {pre post : List (List α)} {A B tail : List α}
    (hL : Layout cmp self (pre ++ A :: B :: post) tail) (hpar : SameParams self self')
    (C : List α) (hmem : self'.mem = pre.flatten ++ (C ++ (post.flatten ++ tail)))
    (hrun : self'.run = runs_of 0 (pre ++ C :: post)) (hlen : C.length = A.length + B.length)
    (hC : Sorted cmp C) : Layout cmp self' (pre ++ C :: post) tail := by
  obtain ⟨h1, h2, h3, h4, h5⟩ := hL
  obtain ⟨p1, p2, _⟩ := hpar
  refine ⟨by rw [hmem]; simp, hrun, ?_, by rw [p2, h4], ?_⟩
  · rw [p1, h3]
    simp only [List.flatten_append, List.flatten_cons, List.length_append, hlen]
    omega
  · intro s hs
    rcases List.mem_append.1 hs with hs | hs
    · exact h5 s (List.mem_append_left _ hs)
    · rcases List.mem_cons.1 hs with hs | hs
      · subst hs
        have hA := (h5 A (by simp)).1
        have : 0 < A.length := List.length_pos.2 hA
        exact ⟨List.ne_nil_of_length_pos (by omega), hC⟩
      · exact h5 s (by simp [hs])

theorem layout_merge_two {cmp : α → α → Int} {self self' : GtkTimSort α}
    {pre post : List (List α)} {A B tail : List α}
    (hL : Layout cmp self (pre ++ A :: B :: post) tail) (hpar : SameParams self self')
    (C D : List α) (hmem : self'.mem = pre.flatten ++ (C ++ (D ++ (post.flatten ++ tail))))
    (hrun : self'.run = runs_of 0 (pre ++ C :: D :: post))
    (hlen : C.length + D.length = A.length + B.length)
    (hC : C ≠ [] ∧ Sorted cmp C) (hD : D ≠ [] ∧ Sorted cmp D) :
    Layout cmp self' (pre ++ C :: D :: post) tail := by
  obtain ⟨h1, h2, h3, h4, h5⟩ := hL
  obtain ⟨p1, p2, _⟩ := hpar
  refine ⟨by rw [hmem]; simp, hrun, ?_, by rw [p2, h4], ?_⟩
  · rw [p1, h3]
    simp only [List.flatten_append, List.flatten_cons, List.length_append]
    omega
  · intro s hs
    rcases List.mem_append.1 hs with hs | hs
    · exact h5 s (List.mem_append_left _ hs)
    · rcases List.mem_cons.1 hs with hs | hs
      · subst hs
        exact hC
      · rcases List.mem_cons.1 hs with hs | hs
        · subst hs
          exact hD
        · exact h5 s (by simp [hs])

theorem merge_at_mem {cmp : α → α → Int} (h : TotalPreorder cmp) {self self1 : GtkTimSort α}
    {pre post : List (List α)} {A B tail : List α}
    (hL : Layout cmp self (pre ++ A :: B :: post) tail)
    {L X Y R X0 Y1 : List α} {xl y0 : α} (hA : A = L ++ X) (hB : B = Y ++ R)
    (hX : X = X0 ++ [xl]) (hY : Y = y0 :: Y1) (hfirst : ∀ x ∈ X, cmp y0 x < 0)
    (hlast : ∀ y ∈ Y, cmp y xl < 0)
    (hmem1 : self1.mem =
      (pre.flatten ++ L) ++ (naive_merge cmp X Y ++ (R ++ (post.flatten ++ tail)))) :
    Stable cmp self.mem self1.mem ∧
      Changed cmp (pre.flatten.length + L.length) (X.length + Y.length) self.mem self1.mem ∧
      inversions cmp self1.mem < inversions cmp self.mem := by
  have hsA := (hL.2.2.2.2 A (by simp)).2
  have hsB := (hL.2.2.2.2 B (by simp)).2
  rw [hA] at hsA
  rw [hB] at hsB
  have hm : self.mem =
      (pre.flatten ++ L) ++ (X ++ (Y ++ (R ++ (post.flatten ++ tail)))) := by
    rw [layout_mem hL, hA, hB]
    simp
  obtain ⟨s1, s2, s3⟩ := merge_result h (pre.flatten ++ L) (R ++ (post.flatten ++ tail)) hX hY
    hsA.of_append_right hsB.of_append_left hfirst hlast
  rw [List.length_append] at s2
  rw [hm, hmem1]
  exact ⟨s1, s2, s3⟩

theorem merge_frame_refl (self : GtkTimSort α) : MergeFrame self self :=
  ⟨rfl, rfl, rfl, rfl, rfl, rfl⟩

theorem sameParams_run {self self1 : GtkTimSort α} (hf : MergeFrame self self1)
    (R : List GtkTimSortRun) : SameParams self { self1 with run := R } :=
  ⟨hf.2.1, hf.2.2.1, hf.2.2.2.1, hf.2.2.2.2.1, hf.2.2.2.2.2⟩

theorem countP_drop_part (p : α → Bool) (l : List α) (k : Nat)
    (h1 : ∀ a ∈ l.take k, p a = false) (h2 : ∀ x ∈ l.drop k, p x = true) :
    l.countP p = l.length - k := by
  conv_lhs => rw [← List.take_append_drop k l]
  rw [List.countP_append, List.countP_eq_zero.2 (fun a ha => by simp [h1 a ha]),
    List.countP_eq_length.2 h2, List.length_drop]
  omega

theorem countP_take_part (p : α → Bool) (l : List α) (k : Nat) (hk : k ≤ l.length)
    (h1 : ∀ a ∈ l.take k, p a = true) (h2 : ∀ x ∈ l.drop k, p x = false) :
    l.countP p = k := by
  conv_lhs => rw [← List.take_append_drop k l]
  rw [List.countP_append, List.countP_eq_length.2 h1,
    List.countP_eq_zero.2 (fun a ha => by simp [h2 a ha]), List.length_take]
  omega

/-- The contract of `merge_at` on a sorter made of sorted runs, with what it leaves
in the place of the two runs `A` and `B`.  With `b0` the first element of `B` and `xl`
the last element of `A`, the elements of `A` greater than `b0` and the elements of `B`
smaller than `xl` are the trimmed runs.  When the shorter trimmed run has at most
`max_merge_size` elements, the two runs are replaced by their stable merge.
Otherwise, when the trimmed first run is not the longer one, the last `max_merge_size`
elements of `A` are merged into `B`; and when it is the longer one, the first
`max_merge_size` elements of `B` are merged into `A`. -/
theorem merge_at_spec_full {cmp : α → α → Int} (h : TotalPreorder cmp) (self : GtkTimSort α)
    (oc : Option GtkTimSortChange) {pre post : List (List α)} {A B tail : List α}
    (hL : Layout cmp self (pre ++ A :: B :: post) tail) (hpost : post.length ≤ 1)
    (h64 : self.mem.length < GSIZE_MOD) (hmax : 1 ≤ self.max_merge_size)
    (b0 xl : α) (hbh : B.head? = some b0) (hal : A.getLast? = some xl) :
    ∃ self' oc', merge_at cmp self pre.length oc = some (self', oc') ∧
      SameParams self self' ∧ Stable cmp self.mem self'.mem ∧
      Reported cmp oc oc' self.mem self'.mem ∧
      ((¬ self.max_merge_size < min (A.countP (fun a => decide (cmp b0 a < 0)))
            (B.countP (fun y => decide (cmp y xl < 0))) ∧
          ∃ C, Layout cmp self' (pre ++ C :: post) tail ∧
            inversions cmp self'.mem ≤ inversions cmp self.mem ∧ Stable cmp (A ++ B) C) ∨
        (self.max_merge_size < A.countP (fun a => decide (cmp b0 a < 0)) ∧
          A.countP (fun a => decide (cmp b0 a < 0)) ≤ B.countP (fun y => decide (cmp y xl < 0)) ∧
          Layout cmp self' (pre ++ A.take (A.length - self.max_merge_size) ::
            naive_merge cmp (A.drop (A.length - self.max_merge_size)) B :: post) tail ∧
          inversions cmp self'.mem < inversions cmp self.mem) ∨
        (self.max_merge_size < B.countP (fun y => decide (cmp y xl < 0)) ∧
          B.countP (fun y => decide (cmp y xl < 0)) < A.countP (fun a => decide (cmp b0 a < 0)) ∧
          Layout cmp self' (pre ++ naive_merge cmp A (B.take self.max_merge_size) ::
            B.drop self.max_merge_size :: post) tail ∧
          inversions cmp self'.mem < inversions cmp self.mem)) := by
  have hm := layout_mem hL
  have hL0 := hL
  obtain ⟨hmem, hrun, hbase, hsize, hsegs⟩ := hL
  have hA := hsegs A (by simp)
  have hB := hsegs B (by simp)
  obtain ⟨B1, hB1⟩ : ∃ B1, B = b0 :: B1 := by
    cases B with
    | nil => simp at hbh
    | cons b B1 =>
      simp only [List.head?_cons, Option.some.injEq] at hbh
      exact ⟨B1, by rw [hbh]⟩
  have hAlen : 0 < A.length := List.length_pos.2 hA.1
  have hBlen : 0 < B.length := List.length_pos.2 hB.1
  have hlenm : self.mem.length =
      pre.flatten.length + (A.length + (B.length + (post.flatten.length + tail.length))) := by
    rw [hm]
    simp only [List.length_append]
  have hpl : pre.length + 2 + post.length < GSIZE_MOD := by
    have h1 := segs_length_le pre (fun s hs => (hsegs s (List.mem_append_left _ hs)).1)
    have h2 := segs_length_le post (fun s hs => (hsegs s (by simp [hs])).1)
    omega
  have hp := runs_pending self _ hrun
  simp only [List.length_append, List.length_cons] at hp
  have hpar0 : SameParams self self := ⟨rfl, rfl, rfl, rfl, rfl⟩
  have hsAB : ∀ a ∈ A, cmp a b0 ≤ 0 → ∀ b ∈ B, cmp a b ≤ 0 := by
    intro a _ hab b hb
    rw [hB1] at hb
    exact h.trans _ _ _ hab (sorted_head_le h (hB1 ▸ hB.2) b hb)
  unfold merge_at
  rw [hrun, runs_getElem_fst, runs_getElem_snd]
  simp only []
  rw [if_pos (by
    refine ⟨by omega, ?_, ⟨hAlen, hBlen⟩, trivial⟩
    rw [hp]
    simp only [GSIZE_MOD] at hpl ⊢
    omega)]
  rw [load_eq (A := pre.flatten ++ A) (x := b0) (B := B1 ++ (post.flatten ++ tail))
    (by rw [hm, hB1]; simp) (by simp)]
  simp only []
  obtain ⟨k, ek, hkle, hk1, hk2⟩ := gallop_right_spec h b0 (A := pre.flatten) (S := A)
    (B := B ++ (post.flatten ++ tail)) hm rfl rfl hAlen (by omega) hA.2
  rw [ek]
  simp only []
  have hT1 : A.countP (fun a => decide (cmp b0 a < 0)) = A.length - k :=
    countP_drop_part _ A k
      (fun a ha => by
        have h1 := hk1 a ha
        have h2 := (h.swap b0 a).1
        simp only [decide_eq_false_iff_not]
        intro c
        have := h2 c
        omega)
      (fun x hx => by simpa using hk2 x hx)
  by_cases hx : A.length - k = 0
  · rw [if_pos hx, merge_at_done_eq self pre post A B (A ++ B) hrun hpost (by simp) hpl]
    simp only []
    have hsorted : Sorted cmp (A ++ B) := by
      refine sorted_append_of hA.2 hB.2 (fun a ha b hb => hsAB a ha (hk1 a ?_) b hb)
      rw [List.take_of_length_le (by omega)]
      exact ha
    refine ⟨_, _, rfl, hpar0, stable_refl cmp _, Or.inl ⟨rfl, rfl⟩,
      Or.inl ⟨by rw [hT1, hx]; simp, A ++ B, ?_, Nat.le_refl _, stable_refl cmp _⟩⟩
    exact layout_merge_one hL0 (sameParams_run (merge_frame_refl self) _) (A ++ B)
      (by rw [hm]; simp) rfl (by simp) hsorted
  · rw [if_neg hx]
    obtain ⟨X0, xl', hX⟩ := exists_concat_of_length_pos (l := A.drop k) (by simp; omega)
    have hAsplit : A = A.take k ++ A.drop k := (List.take_append_drop k A).symm
    have hxx : xl = xl' := by
      have e := hal
      rw [hAsplit, hX, ← List.append_assoc, List.getLast?_append] at e
      simpa using e.symm
    subst hxx
    have hX0len : X0.length + 1 = A.length - k := by
      have := congrArg List.length hX
      simp at this
      omega
    have hm2 : self.mem =
        (pre.flatten ++ (A.take k ++ X0)) ++ xl :: (B ++ (post.flatten ++ tail)) := by
      rw [hm]
      nth_rewrite 1 [hAsplit]
      rw [hX]
      simp
    rw [load_eq hm2 (by simp; omega)]
    simp only []
    have hm3 : self.mem = (pre.flatten ++ A) ++ (B ++ (post.flatten ++ tail)) := by
      rw [hm]
      simp
    obtain ⟨k2, ek2, hk2le, hY, hB2⟩ := gallop_left_spec h xl hm3 (List.length_append _ _) rfl
      (show B.length - 1 < B.length by omega) (by omega) hB.2
    rw [ek2]
    simp only []
    have hT2 : B.countP (fun y => decide (cmp y xl < 0)) = k2 :=
      countP_take_part _ B k2 hk2le
        (fun y hy => by simpa using hY y hy)
        (fun w hw => by
          have h1 := hB2 w hw
          simp only [decide_eq_false_iff_not]
          intro c
          have := (h.swap w xl).1 c
          omega)
    have hk2pos : k2 ≠ 0 := by
      intro e
      subst e
      have h1 := hB2 b0 (by rw [hB1]; simp)
      have h2 := hk2 xl (by rw [hX]; simp)
      exact (h.not_lt_iff b0 xl).2 h1 h2
    rw [if_neg hk2pos]
    obtain ⟨j, rfl⟩ : ∃ j, k2 = j + 1 := ⟨k2 - 1, by omega⟩
    have hYeq : B.take (j + 1) = b0 :: B1.take j := by rw [hB1]; rfl
    have hBsplit : B = B.take (j + 1) ++ B.drop (j + 1) := (List.take_append_drop _ B).symm
    have hYlen : (B.take (j + 1)).length = j + 1 := by simp; omega
    have hXlen : (A.drop k).length = A.length - k := by simp
    have hA1len : (A.take k).length = k := by simp; omega
    have hsA2 : Sorted cmp (A.take k ++ A.drop k) := by
      rw [List.take_append_drop]
      exact hA.2
    have hsB2 : Sorted cmp (B.take (j + 1) ++ B.drop (j + 1)) := by
      rw [List.take_append_drop]
      exact hB.2
    have hb0 : ∀ y ∈ B, cmp b0 y ≤ 0 := by
      intro y hy
      rw [hB1] at hy
      exact sorted_head_le h (hB1 ▸ hB.2) y hy
    have hxl : ∀ x ∈ A.drop k, cmp x xl ≤ 0 := by
      intro x hx
      rw [hX] at hx
      exact sorted_le_last h (hX ▸ hsA2.of_append_right) x hx
    have hhead : ∀ (Y : List α), Y.head? = some b0 → ∀ (X : List α), (∀ x ∈ X, x ∈ A.drop k) →
        ∀ x y, X.head? = some x → Y.head? = some y → cmp y x < 0 := by
      intro Y hY0 X hXs x y hx hy
      rw [hY0] at hy
      obtain rfl := Option.some.inj hy
      exact hk2 x (hXs x (List.mem_of_mem_head? hx))
    by_cases hle : A.length - k ≤ j + 1
    · rw [if_pos hle]
      by_cases hcap : A.length - k > self.max_merge_size
      · rw [if_pos hcap]
        obtain ⟨L, Xb, Xb0, hsplit, hXb, hLlen, hXblen, hXbsub⟩ : ∃ L Xb Xb0 : List α,
            A = L ++ Xb ∧ Xb = Xb0 ++ [xl] ∧ L.length = A.length - self.max_merge_size ∧
              Xb.length = self.max_merge_size ∧ ∀ x ∈ Xb, x ∈ A.drop k := by
          refine ⟨A.take k ++ (A.drop k).take (A.length - k - self.max_merge_size),
            (A.drop k).drop (A.length - k - self.max_merge_size),
            X0.drop (A.length - k - self.max_merge_size), ?_, ?_, ?_, ?_,
            fun x hx => List.mem_of_mem_drop hx⟩
          · rw [List.append_assoc, List.take_append_drop, List.take_append_drop]
          · rw [hX, List.drop_append_of_le_length (by omega)]
          · simp only [List.length_append, List.length_take, List.length_drop]
            omega
          · simp only [List.length_drop]
            omega
        have hsL : Sorted cmp (L ++ Xb) := hsplit ▸ hA.2
        have hm4 : self.mem = (pre.flatten ++ L) ++
            (Xb ++ (B.take (j + 1) ++ (B.drop (j + 1) ++ (post.flatten ++ tail)))) := by
          rw [hm]
          conv_lhs => rw [hsplit, hBsplit]
          simp only [List.append_assoc]
        obtain ⟨self1, e1, e2, e3⟩ := merge_lo_spec h self hm4
          (show _ = pre.flatten.length + (A.length - self.max_merge_size) by
            rw [List.length_append, hLlen])
          hXblen (show _ = pre.flatten.length + A.length by omega) hYlen
          ⟨hsL.of_append_right, hsB2.of_append_left, _, xl, hXb, hY⟩
          (hhead _ (by rw [hYeq]; rfl) _ hXbsub) (by omega) (by omega)
        rw [e1]
        simp only []
        rw [if_pos (by omega)]
        obtain ⟨hst, hch, hinv⟩ := merge_at_mem h hL0 hsplit hBsplit hXb hYeq
          (fun x hx => hk2 x (hXbsub x hx)) hY e2
        obtain ⟨D, hD⟩ : ∃ D, D = naive_merge cmp Xb (B.take (j + 1)) ++ B.drop (j + 1) :=
          ⟨_, rfl⟩
        have hDlen : D.length = B.length + self.max_merge_size := by
          rw [hD, List.length_append, naive_merge_length, hXblen, hYlen, List.length_drop]
          omega
        have hS := runs_set_two pre post A B L D (by rw [hLlen, hDlen]; omega)
        rw [hLlen, hDlen] at hS
        have hLeq : L = A.take (A.length - self.max_merge_size) := by
          rw [← hLlen]
          conv_rhs => rw [hsplit]
          rw [List.take_left]
        have hXbeq : Xb = A.drop (A.length - self.max_merge_size) := by
          rw [← hLlen]
          conv_rhs => rw [hsplit]
          rw [List.drop_left]
        have hDeq : D = naive_merge cmp (A.drop (A.length - self.max_merge_size)) B := by
          rw [hD, ← hXbeq]
          conv_rhs => rw [hBsplit]
          rw [naive_merge_append_right h Xb (B.drop (j + 1)) (B.take (j + 1))
            (fun z hz x hx => h.trans _ _ _ (hxl x (hXbsub x hx)) (hB2 z hz))]
        refine ⟨_, _, rfl, sameParams_run e3 _, hst, Or.inr ⟨_, _, hch, ?_⟩,
          Or.inr (Or.inl ⟨by rw [hT1]; omega, by rw [hT1, hT2]; omega, ?_, hinv⟩)⟩
        · rw [hLlen, hXblen, hYlen]
        · rw [← hLeq, ← hDeq]
          refine layout_merge_two hL0 (sameParams_run e3 _) L D ?_ ?_ ?_
            ⟨?_, hsL.of_append_left⟩ ⟨?_, ?_⟩
          · show self1.mem = _
            rw [e2, hD]
            simp only [List.append_assoc]
          · show (self1.run.set _ _).set _ _ = _
            rw [e3.1, hrun, Nat.add_sub_assoc (by omega)]
            exact hS
          · rw [hLlen, hDlen]
            omega
          · exact List.ne_nil_of_length_pos (by rw [hLlen]; omega)
          · exact List.ne_nil_of_length_pos (by rw [hDlen]; omega)
          · rw [hD]
            exact sorted_mid h (L := []) hsL.of_append_right hsB2 (fun a ha => by simp at ha)
              (fun y hy => hb0 y (by rw [hBsplit]; exact hy))
              (fun x hx => hxl x (hXbsub x hx)) hB2
      · rw [if_neg hcap]
        have hm4 : self.mem = (pre.flatten ++ A.take k) ++
            (A.drop k ++ (B.take (j + 1) ++ (B.drop (j + 1) ++ (post.flatten ++ tail)))) := by
          rw [hm]
          conv_lhs => rw [hAsplit, hBsplit]
          simp only [List.append_assoc]
        obtain ⟨self1, e1, e2, e3⟩ := merge_lo_spec h self hm4
          (show _ = pre.flatten.length + k by rw [List.length_append, hA1len])
          hXlen (show _ = pre.flatten.length + A.length by omega) hYlen
          ⟨hsA2.of_append_right, hsB2.of_append_left, _, xl, hX, hY⟩
          (hhead _ (by rw [hYeq]; rfl) _ (fun x hx => hx))
          (by omega) (by omega)
        rw [e1]
        simp only []
        have hClen : (A.take k ++ (naive_merge cmp (A.drop k) (B.take (j + 1)) ++
            B.drop (j + 1))).length = A.length + B.length := by
          simp only [List.length_append, naive_merge_length, hXlen, hYlen, hA1len,
            List.length_drop]
          omega
        rw [merge_at_done_eq self1 pre post A B _ (e3.1.trans hrun) hpost hClen hpl]
        simp only []
        obtain ⟨hst, hch, hinv⟩ := merge_at_mem h hL0 hAsplit hBsplit hX hYeq hk2 hY e2
        have hseg : Stable cmp (A ++ B) (A.take k ++
            (naive_merge cmp (A.drop k) (B.take (j + 1)) ++ B.drop (j + 1))) := by
          have := stable_append (naive_merge_stable h (A.drop k) (B.take (j + 1))
            hsA2.of_append_right) (A.take k) (B.drop (j + 1))
          have e : A ++ B = A.take k ++ ((A.drop k ++ B.take (j + 1)) ++ B.drop (j + 1)) := by
            conv_lhs => rw [hAsplit, hBsplit]
            simp only [List.append_assoc]
          rw [e]
          exact this
        refine ⟨_, _, rfl, sameParams_run e3 _, hst, Or.inr ⟨_, _, hch, ?_⟩,
          Or.inl ⟨by rw [hT1, hT2]; omega, _,
            layout_merge_one hL0 (sameParams_run e3 _) _ ?_ rfl hClen ?_,
            Nat.le_of_lt hinv, hseg⟩⟩
        · rw [hA1len, hXlen, hYlen]
        · show self1.mem = _
          rw [e2]
          simp only [List.append_assoc]
        · exact sorted_mid h hsA2 hsB2 hk1 (fun y hy => hb0 y (by rw [hBsplit]; exact hy)) hxl hB2
    · rw [if_neg hle]
      by_cases hcap : j + 1 > self.max_merge_size
      · rw [if_pos hcap]
        obtain ⟨Ya, Ya1, R, hBs, hYa, hYalen, hRlen, hYasub⟩ : ∃ Ya Ya1 R : List α,
            B = Ya ++ R ∧ Ya = b0 :: Ya1 ∧ Ya.length = self.max_merge_size ∧
              R.length = B.length - self.max_merge_size ∧ ∀ y ∈ Ya, y ∈ B.take (j + 1) := by
          obtain ⟨m, hmm⟩ : ∃ m, self.max_merge_size = m + 1 :=
            ⟨self.max_merge_size - 1, by omega⟩
          refine ⟨B.take self.max_merge_size, B1.take m, B.drop self.max_merge_size,
            (List.take_append_drop _ B).symm, by rw [hB1, hmm]; rfl, ?_, List.length_drop _ _, ?_⟩
          · rw [List.length_take]
            omega
          · intro y hy
            have e : B.take self.max_merge_size = (B.take (j + 1)).take self.max_merge_size := by
              rw [List.take_take, Nat.min_eq_left (by omega)]
            rw [e] at hy
            exact List.mem_of_mem_take hy
        have hsB3 : Sorted cmp (Ya ++ R) := hBs ▸ hB.2
        have hm4 : self.mem = (pre.flatten ++ A.take k) ++
            (A.drop k ++ (Ya ++ (R ++ (post.flatten ++ tail)))) := by
          rw [hm]
          conv_lhs => rw [hAsplit, hBs]
          simp only [List.append_assoc]
        obtain ⟨self1, e1, e2, e3⟩ := merge_hi_spec h self hm4
          (show _ = pre.flatten.length + k by rw [List.length_append, hA1len])
          hXlen (show _ = pre.flatten.length + A.length by omega) hYalen
          ⟨hsA2.of_append_right, hsB3.of_append_left, _, xl, hX, fun y hy => hY y (hYasub y hy)⟩
          (hhead _ (by rw [hYa]; rfl) _ (fun x hx => hx)) (by omega) (by omega)
        rw [e1]
        simp only []
        rw [if_pos (by omega)]
        obtain ⟨hst, hch, hinv⟩ := merge_at_mem h hL0 hAsplit hBs hX hYa hk2
          (fun y hy => hY y (hYasub y hy)) e2
        obtain ⟨C, hC⟩ : ∃ C, C = A.take k ++ naive_merge cmp (A.drop k) Ya := ⟨_, rfl⟩
        have hClen : C.length = A.length + self.max_merge_size := by
          rw [hC, List.length_append, naive_merge_length, hXlen, hYalen, hA1len]
          omega
        have hS := runs_set_two pre post A B C R (by rw [hClen, hRlen]; omega)
        rw [hClen, hRlen] at hS
        have hsC : Sorted cmp C := by
          have := sorted_mid h (R := []) hsA2 (by simpa using hsB3.of_append_left) hk1
            (fun y hy => hb0 y (by
              rw [hBs]
              exact List.mem_append_left _ (by simpa using hy))) hxl (fun w hw => by simp at hw)
          rw [hC]
          simpa using this
        have hYaeq : Ya = B.take self.max_merge_size := by
          rw [← hYalen]
          conv_rhs => rw [hBs]
          rw [List.take_left]
        have hReq : R = B.drop self.max_merge_size := by
          rw [← hYalen]
          conv_rhs => rw [hBs]
          rw [List.drop_left]
        have hCeq : C = naive_merge cmp A (B.take self.max_merge_size) := by
          rw [hC, ← hYaeq, hYa]
          conv_rhs => rw [hAsplit]
          rw [naive_merge_take_left cmp (A.take k) (A.drop k) b0 Ya1
            (fun x hx c => by
              have h1 := hk1 x hx
              have := (h.swap b0 x).1 c
              omega)]
        refine ⟨_, _, rfl, sameParams_run e3 _, hst, Or.inr ⟨_, _, hch, ?_⟩,
          Or.inr (Or.inr ⟨by rw [hT2]; omega, by rw [hT1, hT2]; omega, ?_, hinv⟩)⟩
        · rw [hA1len, hXlen, hYalen]
        · rw [← hCeq, ← hReq]
          refine layout_merge_two hL0 (sameParams_run e3 _) C R ?_ ?_ ?_
            ⟨?_, hsC⟩ ⟨?_, hsB3.of_append_right⟩
          · show self1.mem = _
            rw [e2, hC]
            simp only [List.append_assoc]
          · show (self1.run.set _ _).set _ _ = _
            rw [e3.1, hrun, Nat.add_assoc]
            exact hS
          · rw [hClen, hRlen]
            omega
          · exact List.ne_nil_of_length_pos (by rw [hClen]; omega)
          · exact List.ne_nil_of_length_pos (by rw [hRlen]; omega)
      · rw [if_neg hcap]
        have hm4 : self.mem = (pre.flatten ++ A.take k) ++
            (A.drop k ++ (B.take (j + 1) ++ (B.drop (j + 1) ++ (post.flatten ++ tail)))) := by
          rw [hm]
          conv_lhs => rw [hAsplit, hBsplit]
          simp only [List.append_assoc]
        obtain ⟨self1, e1, e2, e3⟩ := merge_hi_spec h self hm4
          (show _ = pre.flatten.length + k by rw [List.length_append, hA1len])
          hXlen (show _ = pre.flatten.length + A.length by omega) hYlen
          ⟨hsA2.of_append_right, hsB2.of_append_left, _, xl, hX, hY⟩
          (hhead _ (by rw [hYeq]; rfl) _ (fun x hx => hx))
          (by omega) (by omega)
        rw [e1]
        simp only []
        have hClen : (A.take k ++ (naive_merge cmp (A.drop k) (B.take (j + 1)) ++
            B.drop (j + 1))).length = A.length + B.length := by
          simp only [List.length_append, naive_merge_length, hXlen, hYlen, hA1len,
            List.length_drop]
          omega
        rw [merge_at_done_eq self1 pre post A B _ (e3.1.trans hrun) hpost hClen hpl]
        simp only []
        obtain ⟨hst, hch, hinv⟩ := merge_at_mem h hL0 hAsplit hBsplit hX hYeq hk2 hY e2
        have hseg : Stable cmp (A ++ B) (A.take k ++
            (naive_merge cmp (A.drop k) (B.take (j + 1)) ++ B.drop (j + 1))) := by
          have := stable_append (naive_merge_stable h (A.drop k) (B.take (j + 1))
            hsA2.of_append_right) (A.take k) (B.drop (j + 1))
          have e : A ++ B = A.take k ++ ((A.drop k ++ B.take (j + 1)) ++ B.drop (j + 1)) := by
            conv_lhs => rw [hAsplit, hBsplit]
            simp only [List.append_assoc]
          rw [e]
          exact this
        refine ⟨_, _, rfl, sameParams_run e3 _, hst, Or.inr ⟨_, _, hch, ?_⟩,
          Or.inl ⟨by rw [hT1, hT2]; omega, _,
            layout_merge_one hL0 (sameParams_run e3 _) _ ?_ rfl hClen ?_,
            Nat.le_of_lt hinv, hseg⟩⟩
        · rw [hA1len, hXlen, hYlen]
        · show self1.mem = _
          rw [e2]
          simp only [List.append_assoc]
        · exact sorted_mid h hsA2 hsB2 hk1 (fun y hy => hb0 y (by rw [hBsplit]; exact hy)) hxl hB2

/-- The contract of `merge_at` on a sorter made of sorted runs: it returns, and
either the two runs are replaced by their stable merge, or, when one of them is longer
than the cap, by two sorted runs with strictly fewer inversions. -/
theorem merge_at_spec_cap {cmp : α → α → Int} (h : TotalPreorder cmp) (self : GtkTimSort α)
    (oc : Option GtkTimSortChange) {pre post : List (List α)} {A B tail : List α}
    (hL : Layout cmp self (pre ++ A :: B :: post) tail) (hpost : post.length ≤ 1)
    (h64 : self.mem.length < GSIZE_MOD) (hmax : 1 ≤ self.max_merge_size) :
    ∃ self' oc', merge_at cmp self pre.length oc = some (self', oc') ∧
      SameParams self self' ∧ Stable cmp self.mem self'.mem ∧
      Reported cmp oc oc' self.mem self'.mem ∧
      ((∃ C, Layout cmp self' (pre ++ C :: post) tail ∧
          inversions cmp self'.mem ≤ inversions cmp self.mem ∧ Stable cmp (A ++ B) C) ∨
        (∃ C D, Layout cmp self' (pre ++ C :: D :: post) tail ∧
          inversions cmp self'.mem < inversions cmp self.mem ∧
          (self.max_merge_size < A.length ∨ self.max_merge_size < B.length))) := by
  have hA := hL.2.2.2.2 A (by simp)
  have hB := hL.2.2.2.2 B (by simp)
  obtain ⟨b0, hb0⟩ : ∃ b0, B.head? = some b0 := by
    cases B with
    | nil => exact absurd rfl hB.1
    | cons b _ => exact ⟨b, rfl⟩
  obtain ⟨xl, hxl⟩ : ∃ xl, A.getLast? = some xl := by
    rcases List.eq_nil_or_concat A with e | ⟨l, z, e⟩
    · exact absurd e hA.1
    · exact ⟨z, by rw [e]; simp⟩
  obtain ⟨self', oc', e, h1, h2, h3, hc⟩ :=
    merge_at_spec_full h self oc hL hpost h64 hmax b0 xl hb0 hxl
  have hT1 := List.countP_le_length (fun a => decide (cmp b0 a < 0)) (l := A)
  have hT2 := List.countP_le_length (fun y => decide (cmp y xl < 0)) (l := B)
  refine ⟨self', oc', e, h1, h2, h3, ?_⟩
  rcases hc with ⟨_, hc⟩ | ⟨c1, _, hL', hi⟩ | ⟨c1, _, hL', hi⟩
  · exact Or.inl hc
  · exact Or.inr ⟨_, _, hL', hi, Or.inl (by omega)⟩
  · exact Or.inr ⟨_, _, hL', hi, Or.inr (by omega)⟩

theorem merge_at_spec {cmp : α → α → Int} (h : TotalPreorder cmp) (self : GtkTimSort α)
    (oc : Option GtkTimSortChange) {pre post : List (List α)} {A B tail : List α}
    (hL : Layout cmp self (pre ++ A :: B :: post) tail) (hpost : post.length ≤ 1)
    (h64 : self.mem.length < GSIZE_MOD) (hmax : 1 ≤ self.max_merge_size) :
    ∃ self' oc', merge_at cmp self pre.length oc = some (self', oc') ∧
      SameParams self self' ∧ Stable cmp self.mem self'.mem ∧
      Reported cmp oc oc' self.mem self'.mem ∧
      ((∃ C, Layout cmp self' (pre ++ C :: post) tail ∧
          inversions cmp self'.mem ≤ inversions cmp self.mem) ∨
        (∃ C D, Layout cmp self' (pre ++ C :: D :: post) tail ∧
          inversions cmp self'.mem < inversions cmp self.mem)) := by
  obtain ⟨self', oc', e, h1, h2, h3, h4⟩ := merge_at_spec_cap h self oc hL hpost h64 hmax
  refine ⟨self', oc', e, h1, h2, h3, ?_⟩
  rcases h4 with ⟨C, c1, c2, _⟩ | ⟨C, D, c1, c2, _⟩
  · exact Or.inl ⟨C, c1, c2⟩
  · exact Or.inr ⟨C, D, c1, c2⟩

/-! ## Collapsing the run stack -/

theorem merge_at_outcome {cmp : α → α → Int} (h : TotalPreorder cmp) (self : GtkTimSort α)
    (oc : Option GtkTimSortChange) {pre post : List (List α)} {A B tail : List α}
    (hL : Layout cmp self (pre ++ A :: B :: post) tail) (hpost : post.length ≤ 1)
    (h64 : self.mem.length < GSIZE_MOD) (hmax : 1 ≤ self.max_merge_size) :
    ∃ self' oc', merge_at cmp self pre.length oc = some (self', oc') ∧
      StepOutcome cmp self self' oc oc' := by
  obtain ⟨self', oc', e, hpar, hst, hrep, hcase⟩ := merge_at_spec h self oc hL hpost h64 hmax
  have hp := runs_pending self _ hL.2.1
  refine ⟨self', oc', e, hst, hrep, ?_, hpar.2.2.1, hpar.2.2.2.2, hpar.2.2.2.1,
    Or.inr ⟨hpar.2.1, ?_⟩⟩
  · rcases hcase with ⟨C, hC, _⟩ | ⟨C, D, hC, _⟩
    · exact ⟨_, _, hC⟩
    · exact ⟨_, _, hC⟩
  · rcases hcase with ⟨C, hC, hi⟩ | ⟨C, D, hC, hi⟩
    · have hp' := runs_pending self' _ hC.2.1
      simp only [List.length_append, List.length_cons] at hp hp'
      omega
    · have hp' := runs_pending self' _ hC.2.1
      simp only [List.length_append, List.length_cons] at hp hp'
      omega

theorem run_len_some (self : GtkTimSort α) (segs : List (List α))
    (hrun : self.run = runs_of 0 segs) {i : Nat} (hi : i < segs.length) :
    ∃ l, run_len self i = some l := by
  have hl : i < self.run.length := by rw [hrun, runs_of_length]; exact hi
  unfold run_len
  rw [List.getElem?_eq_getElem hl]
  exact ⟨_, rfl⟩

theorem segs_split_two (segs : List (List α)) (hl : 2 ≤ segs.length) :
    ∃ pre A B, segs = pre ++ A :: B :: [] ∧ pre.length = segs.length - 2 := by
  refine ⟨segs.take (segs.length - 2), (segs.drop (segs.length - 2)).headD [],
    ((segs.drop (segs.length - 2)).drop 1).headD [], ?_, by simp⟩
  have e := (List.take_append_drop (segs.length - 2) segs).symm
  have hd : (segs.drop (segs.length - 2)).length = 2 := by simp; omega
  match hq : segs.drop (segs.length - 2), hd with
  | [a, b], _ =>
    rw [hq] at e
    simpa using e

theorem segs_split_three (segs : List (List α)) (hl : 3 ≤ segs.length) :
    ∃ pre A B D, segs = pre ++ A :: B :: [D] ∧ pre.length = segs.length - 3 := by
  refine ⟨segs.take (segs.length - 3), (segs.drop (segs.length - 3)).headD [],
    ((segs.drop (segs.length - 3)).drop 1).headD [],
    ((segs.drop (segs.length - 3)).drop 2).headD [], ?_, by simp⟩
  have e := (List.take_append_drop (segs.length - 3) segs).symm
  have hd : (segs.drop (segs.length - 3)).length = 3 := by simp; omega
  match hq : segs.drop (segs.length - 3), hd with
  | [a, b, c], _ =>
    rw [hq] at e
    simpa using e

/-- A merge at one of the two stack indices `merge_collapse` and
`merge_force_collapse` choose. -/
theorem merge_at_top {cmp : α → α → Int} (h : TotalPreorder cmp) (self : GtkTimSort α)
    (oc : Option GtkTimSortChange) {segs : List (List α)} {tail : List α}
    (hL : Layout cmp self segs tail) (h64 : self.mem.length < GSIZE_MOD)
    (hmax : 1 ≤ self.max_merge_size) (n : Nat)
    (hn : (2 ≤ segs.length ∧ n = segs.length - 2) ∨ (3 ≤ segs.length ∧ n = segs.length - 3)) :
    ∃ self' oc', merge_at cmp self n oc = some (self', oc') ∧
      StepOutcome cmp self self' oc oc' := by
  rcases hn with ⟨hl, hn⟩ | ⟨hl, hn⟩
  · obtain ⟨pre, A, B, e, hp⟩ := segs_split_two segs hl
    rw [e] at hL
    rw [hn, ← hp]
    exact merge_at_outcome h self oc hL (by simp) h64 hmax
  · obtain ⟨pre, A, B, D, e, hp⟩ := segs_split_three segs hl
    rw [e] at hL
    rw [hn, ← hp]
    exact merge_at_outcome h self oc hL (by simp) h64 hmax

theorem merge_collapse_spec {cmp : α → α → Int} (h : TotalPreorder cmp) (self : GtkTimSort α)
    (oc : Option GtkTimSortChange) {segs : List (List α)} {tail : List α}
    (hL : Layout cmp self segs tail) (h64 : self.mem.length < GSIZE_MOD)
    (hmax : 1 ≤ self.max_merge_size) :
    (merge_collapse cmp self oc = some (false, self, oc)) ∨
      (2 ≤ self.pending_runs ∧ ∃ self' oc', merge_collapse cmp self oc = some (true, self', oc') ∧
        StepOutcome cmp self self' oc oc') := by
  have hp := runs_pending self _ hL.2.1
  unfold merge_collapse
  by_cases h1 : self.pending_runs ≤ 1
  · rw [if_pos h1]
    exact Or.inl rfl
  · rw [if_neg h1]
    simp only []
    obtain ⟨b, hb⟩ := run_len_some self segs hL.2.1 (show self.pending_runs - 2 < segs.length by omega)
    obtain ⟨c, hc⟩ := run_len_some self segs hL.2.1
      (show self.pending_runs - 2 + 1 < segs.length by omega)
    obtain ⟨a, ha⟩ := run_len_some self segs hL.2.1
      (show self.pending_runs - 2 - 1 < segs.length by omega)
    obtain ⟨d, hd⟩ := run_len_some self segs hL.2.1
      (show self.pending_runs - 2 - 2 < segs.length by omega)
    obtain ⟨s2, oc2, e2, ho2⟩ := merge_at_top h self oc hL h64 hmax (self.pending_runs - 2)
      (Or.inl ⟨by omega, by omega⟩)
    have top3 : 0 < self.pending_runs - 2 → ∃ s3 oc3,
        merge_at cmp self (self.pending_runs - 2 - 1) oc = some (s3, oc3) ∧
          StepOutcome cmp self s3 oc oc3 := fun h0 =>
      merge_at_top h self oc hL h64 hmax _ (Or.inr ⟨by omega, by omega⟩)
    simp only [merge_collapse_cond1, merge_collapse_cond2, ha, hb, hc, hd]
    by_cases hn0 : self.pending_runs - 2 > 0
    · obtain ⟨s3, oc3, e3, ho3⟩ := top3 hn0
      simp only [hn0, if_true]
      by_cases hv1 : a ≤ b + c
      · simp only [hv1, decide_True]
        by_cases hac : a < c
        · simp only [hac, if_true, e3]
          exact Or.inr ⟨by omega, _, _, rfl, ho3⟩
        · simp only [hac, if_false, e2]
          exact Or.inr ⟨by omega, _, _, rfl, ho2⟩
      · simp only [hv1, decide_False]
        by_cases hn1 : self.pending_runs - 2 > 1
        · simp only [hn1, if_true]
          by_cases hv2 : d ≤ b + a
          · simp only [hv2, decide_True]
            by_cases hac : a < c
            · simp only [hac, if_true, e3]
              exact Or.inr ⟨by omega, _, _, rfl, ho3⟩
            · simp only [hac, if_false, e2]
              exact Or.inr ⟨by omega, _, _, rfl, ho2⟩
          · simp only [hv2, decide_False]
            by_cases hbc : b > c
            · simp only [hbc, if_true]
              exact Or.inl trivial
            · simp only [hbc, if_false, e2]
              exact Or.inr ⟨by omega, _, _, rfl, ho2⟩
        · rw [if_neg hn1]
          simp only []
          by_cases hbc : b > c
          · simp only [hbc, if_true]
            exact Or.inl trivial
          · simp only [hbc, if_false, e2]
            exact Or.inr ⟨by omega, _, _, rfl, ho2⟩
    · simp only [hn0, if_false]
      rw [if_neg (show ¬ self.pending_runs - 2 > 1 by omega)]
      simp only []
      by_cases hbc : b > c
      · simp only [hbc, if_true]
        exact Or.inl trivial
      · simp only [hbc, if_false, e2]
        exact Or.inr ⟨by omega, _, _, rfl, ho2⟩

theorem merge_force_collapse_spec {cmp : α → α → Int} (h : TotalPreorder cmp)
    (self : GtkTimSort α) (oc : Option GtkTimSortChange) {segs : List (List α)} {tail : List α}
    (hL : Layout cmp self segs tail) (h64 : self.mem.length < GSIZE_MOD)
    (hmax : 1 ≤ self.max_merge_size) :
    (self.pending_runs ≤ 1 ∧ merge_force_collapse cmp self oc = some (false, self, oc)) ∨
      (2 ≤ self.pending_runs ∧ ∃ self' oc',
        merge_force_collapse cmp self oc = some (true, self', oc') ∧
          StepOutcome cmp self self' oc oc') := by
  have hp := runs_pending self _ hL.2.1
  unfold merge_force_collapse
  by_cases h1 : self.pending_runs ≤ 1
  · rw [if_pos h1]
    exact Or.inl ⟨h1, rfl⟩
  · rw [if_neg h1]
    simp only []
    obtain ⟨c, hc⟩ := run_len_some self segs hL.2.1
      (show self.pending_runs - 2 + 1 < segs.length by omega)
    obtain ⟨a, ha⟩ := run_len_some self segs hL.2.1
      (show self.pending_runs - 2 - 1 < segs.length by omega)
    obtain ⟨s2, oc2, e2, ho2⟩ := merge_at_top h self oc hL h64 hmax (self.pending_runs - 2)
      (Or.inl ⟨by omega, by omega⟩)
    simp only [ha, hc]
    by_cases hn0 : self.pending_runs - 2 > 0
    · obtain ⟨s3, oc3, e3, ho3⟩ := merge_at_top h self oc hL h64 hmax
        (self.pending_runs - 2 - 1) (Or.inr ⟨by omega, by omega⟩)
      simp only [hn0, if_true]
      by_cases hac : a < c
      · simp only [hac, decide_True, if_true, e3]
        exact Or.inr ⟨by omega, _, _, rfl, ho3⟩
      · simp only [hac, decide_False, Bool.false_eq_true, if_false, e2]
        exact Or.inr ⟨by omega, _, _, rfl, ho2⟩
    · simp only [hn0, if_false, Bool.false_eq_true, e2]
      exact Or.inr ⟨by omega, _, _, rfl, ho2⟩

/-! ## Appending a run -/

theorem set_change_idem (oc : Option GtkTimSortChange) (b : Option Nat) (l : Nat)
    (b' : Option Nat) (l' : Nat) :
    gtk_tim_sort_set_change (gtk_tim_sort_set_change oc b l) b' l' =
      gtk_tim_sort_set_change oc b' l' := by
  cases oc <;> rfl

theorem union_change_none (oc : Option GtkTimSortChange) (lo hi : Nat) :
    union_change (gtk_tim_sort_set_change oc none 0) lo hi =
      gtk_tim_sort_set_change oc (some lo) (hi - lo) := by
  cases oc <;> rfl

theorem union_change_some (oc : Option GtkTimSortChange) (b l lo hi : Nat) (hl : l ≠ 0) :
    union_change (gtk_tim_sort_set_change oc (some b) l) lo hi =
      gtk_tim_sort_set_change oc (some (min lo b)) (max hi (b + l) - min lo b) := by
  cases oc with
  | none => rfl
  | some c => simp [union_change, gtk_tim_sort_set_change, hl]

theorem self_with_mem (self : GtkTimSort α) {m : List α} (hm : self.mem = m) :
    { self with mem := m } = self := by
  subst hm
  rfl

/-- What `merge_append` does on a sorter whose unconsumed part is `tail`: nothing
when `tail` is empty, and otherwise it sorts a non-empty prefix of `tail` stably and
pushes it as a run. -/
theorem merge_append_spec {cmp : α → α → Int} (h : TotalPreorder cmp) (self : GtkTimSort α)
    (oc : Option GtkTimSortChange) (A0 tail : List α) (hm : self.mem = A0 ++ tail)
    (hA : A0.length = self.base) (ht : tail.length = self.size) :
    (self.size = 0 ∧
        merge_append cmp self oc = some (false, self, gtk_tim_sort_set_change oc none 0)) ∨
      (0 < self.size ∧ ∃ seg rest oc',
        merge_append cmp self oc = some (true,
          { self with
            mem := A0 ++ (seg ++ rest)
            run := self.run ++ [{ base := self.base, len := seg.length }]
            base := self.base + seg.length
            size := self.size - seg.length }, oc') ∧
        seg ≠ [] ∧ Sorted cmp seg ∧ seg.length + rest.length = tail.length ∧
        Stable cmp tail (seg ++ rest) ∧ Reported cmp oc oc' self.mem (A0 ++ (seg ++ rest)) ∧
        (Sorted cmp tail → self.min_run ≤ tail.length →
          seg = tail ∧ rest = [] ∧ oc' = gtk_tim_sort_set_change oc none 0)) := by
  obtain ⟨run, rest0, run', oc1, e1, htail, hsr, hst, h1, h2, hcase⟩ :=
    prepare_run_spec h self oc A0 tail hm hA ht
  have hlen : tail.length = run.length + rest0.length := by rw [htail, List.length_append]
  have hrl : run'.length = run.length := stable_length_eq hst
  unfold merge_append
  rw [e1]
  simp only []
  by_cases hr0 : run.length = 0
  · rw [if_pos hr0]
    have hs0 : self.size = 0 := by
      by_contra hc
      by_cases hs1 : self.size ≤ 1
      · have := h1 hs1
        rw [this] at hlen
        simp at hlen
        omega
      · have := h2 (by omega)
        omega
    have hrest : rest0 = [] := h1 (by omega)
    rcases hcase with ⟨hr, ho, _⟩ | ⟨hr, _⟩
    · refine Or.inl ⟨hs0, ?_⟩
      rw [self_with_mem self (by rw [hm, htail, hr]), ho]
    · omega
  · rw [if_neg hr0]
    have hrep1 : Reported cmp oc oc1 self.mem (A0 ++ (run' ++ rest0)) ∧
        (∀ c, oc1 = some c → c.base = none → c.len = 0) := by
      rcases hcase with ⟨hr, ho, _⟩ | ⟨hr, hd, hrev, ho, _⟩
      · refine ⟨Or.inl ⟨by rw [hm, htail, hr], ho⟩, ?_⟩
        intro c hc _
        rw [ho] at hc
        cases oc with
        | none => simp [gtk_tim_sort_set_change] at hc
        | some c0 =>
          simp only [gtk_tim_sort_set_change, Option.some.injEq] at hc
          rw [← hc]
      · refine ⟨Or.inr ⟨self.base, run.length, ?_, ho⟩, ?_⟩
        · have := changed_lift (reverse_changed rest0 hr hd) A0 []
          simp only [List.append_nil, Nat.add_zero] at this
          rw [hm, htail, hrev, ← hA]
          exact this
        · intro c hc hb
          rw [ho] at hc
          cases oc with
          | none => simp [gtk_tim_sort_set_change] at hc
          | some c0 =>
            simp only [gtk_tim_sort_set_change, Option.some.injEq] at hc
            rw [← hc] at hb
            simp at hb
    obtain ⟨hrep1, hic⟩ := hrep1
    have hspos : 0 < self.size := by omega
    have hsorted : Sorted cmp tail → run = tail ∧ run' = tail ∧ rest0 = [] ∧
        oc1 = gtk_tim_sort_set_change oc none 0 := by
      intro hs
      rw [htail] at hs
      rcases hcase with ⟨hr, ho, hmax⟩ | ⟨hr, hd, _⟩
      · have hrest : rest0 = [] := by
          cases hq : rest0 with
          | nil => rfl
          | cons y t =>
            obtain ⟨z, init, hz, hlt⟩ := hmax y t hq
            have hle : cmp z y ≤ 0 := hs.le_of_append (by rw [hz]; simp) (by rw [hq]; simp)
            exact absurd hlt ((h.not_lt_iff y z).2 hle)
        rw [hrest, List.append_nil] at htail
        exact ⟨htail.symm, by rw [hr, htail], hrest, ho⟩
      · exfalso
        match run, hr, hd, hs with
        | x :: y :: r, _, hd, hs =>
          have hlt : cmp y x < 0 := (List.pairwise_cons.1 hd).1 y (by simp)
          have hle : cmp x y ≤ 0 := (List.pairwise_cons.1 hs.of_append_left).1 y (by simp)
          exact absurd hlt ((h.not_lt_iff y x).2 hle)
    by_cases hmr : run.length < self.min_run
    · rw [if_pos hmr]
      have hf1 : run.length ≤ min self.size self.min_run := by omega
      have hf2 : min self.size self.min_run ≤ self.size := Nat.min_le_left _ _
      have hm2 : A0 ++ (run' ++ rest0) = A0 ++ (run' ++
          (rest0.take (min self.size self.min_run - run.length) ++
            rest0.drop (min self.size self.min_run - run.length))) := by
        rw [List.take_append_drop]
      obtain ⟨seg, oc2, e2, hsl, hss, hsst, hcase2⟩ := binary_sort_spec h oc1 hm2 hA hrl.symm
        (show 0 < run.length by omega)
        (show min self.size self.min_run = _ by rw [List.length_take, hrl]; omega) hsr hic
      rw [e2]
      simp only [gtk_tim_sort_push_run]
      rw [if_pos hf2]
      refine Or.inr ⟨hspos, seg, rest0.drop (min self.size self.min_run - run.length), oc2,
        by rw [hsl], List.ne_nil_of_length_pos (by omega), hss, ?_, ?_, ?_, ?_⟩
      · rw [hsl, List.length_drop]
        omega
      · have s1 : Stable cmp (run ++ rest0) (run' ++ rest0) := by
          simpa using stable_append hst [] rest0
        have s2 : Stable cmp (run' ++ rest0)
            (seg ++ rest0.drop (min self.size self.min_run - run.length)) := by
          have := stable_append hsst [] (rest0.drop (min self.size self.min_run - run.length))
          simpa using this
        rw [htail]
        exact stable_trans s1 s2
      · have hmid : (run' ++ rest0.take (min self.size self.min_run - run.length)) ++
            rest0.drop (min self.size self.min_run - run.length) = run' ++ rest0 := by
          rw [List.append_assoc, List.take_append_drop]
        rcases hcase2 with ⟨hseg, ho2⟩ | ⟨lo, len, hch, ho2⟩
        · rw [hseg, hmid, ho2]
          exact hrep1
        · have hc2 := changed_lift hch A0 (rest0.drop (min self.size self.min_run - run.length))
          rw [hmid] at hc2
          rcases hrep1 with ⟨hmm, ho⟩ | ⟨lo1, len1, hch1, ho⟩
          · refine Or.inr ⟨A0.length + lo, len, by rw [← hmm]; exact hc2, ?_⟩
            rw [ho2, ho, union_change_none, hA]
            congr 1
            omega
          · refine Or.inr ⟨_, _, changed_trans h hch1 hc2, ?_⟩
            rw [ho2, ho, union_change_some _ _ _ _ _ (by have := hch1.1; omega), hA,
              Nat.min_comm, Nat.max_comm]
      · intro hs hmin
        have := (hsorted hs).1
        rw [this] at hmr
        omega
    · rw [if_neg hmr]
      simp only [gtk_tim_sort_push_run]
      rw [if_pos (by omega)]
      refine Or.inr ⟨hspos, run', rest0, oc1, by rw [hrl], List.ne_nil_of_length_pos (by omega),
        hsr, by omega, ?_, hrep1, ?_⟩
      · rw [htail]
        exact stable_append hst [] rest0
      · intro hs _
        obtain ⟨_, g2, g3, g4⟩ := hsorted hs
        exact ⟨g2, g3, g4⟩

/-! ## One step -/

theorem gtk_tim_sort_step_eq (cmp : α → α → Int) (self : GtkTimSort α)
    (oc : Option GtkTimSortChange) : gtk_tim_sort_step cmp self oc = step cmp self oc := by
  unfold gtk_tim_sort_step gtk_tim_sort_step_4 gtk_tim_sort_step_8 gtk_tim_sort_step_16
    gtk_tim_sort_step_default
  split <;> rfl

theorem reported_of_set_change {cmp : α → α → Int} {oc oc' : Option GtkTimSortChange}
    {b : Option Nat} {l : Nat} {m m' : List α}
    (hr : Reported cmp (gtk_tim_sort_set_change oc b l) oc' m m') : Reported cmp oc oc' m m' := by
  rcases hr with ⟨h1, h2⟩ | ⟨lo, len, h1, h2⟩
  · exact Or.inl ⟨h1, by rw [h2, set_change_idem]⟩
  · exact Or.inr ⟨lo, len, h1, by rw [h2, set_change_idem]⟩

/-- What `step` does on a sorter made of sorted runs and a tail: it returns `FALSE`
and leaves the sorter alone when the tail is empty and at most one run is pending,
and otherwise it returns `TRUE` after a merge or after pushing a new run. -/
theorem step_spec {cmp : α → α → Int} (h : TotalPreorder cmp) (self : GtkTimSort α)
    (oc : Option GtkTimSortChange) {segs : List (List α)} {tail : List α}
    (hL : Layout cmp self segs tail) (h64 : self.mem.length < GSIZE_MOD)
    (hmax : 1 ≤ self.max_merge_size) :
    (self.size = 0 ∧ self.pending_runs ≤ 1 ∧
        step cmp self oc = some (false, self, gtk_tim_sort_set_change oc none 0)) ∨
      ((0 < self.size ∨ 2 ≤ self.pending_runs) ∧ ∃ self' oc',
        step cmp self oc = some (true, self', oc') ∧ StepOutcome cmp self self' oc oc') := by
  unfold step
  rcases merge_collapse_spec h self oc hL h64 hmax with e | ⟨hp2, s', oc', e, ho⟩
  · rw [e]
    simp only []
    rcases merge_append_spec h self oc segs.flatten tail hL.1 hL.2.2.1.symm hL.2.2.2.1.symm with
      ⟨hs0, e⟩ | ⟨hpos, seg, rest, oc', e, hne, hss, hlen, hst, hrep, _⟩
    · rw [e]
      simp only []
      rcases merge_force_collapse_spec h self (gtk_tim_sort_set_change oc none 0) hL h64 hmax with
        ⟨hp1, e⟩ | ⟨hp2, s', oc', e, ho⟩
      · rw [e]
        exact Or.inl ⟨hs0, hp1, rfl⟩
      · rw [e]
        exact Or.inr ⟨Or.inr hp2, s', oc', rfl, ho.1, reported_of_set_change ho.2.1, ho.2.2⟩
    · rw [e]
      refine Or.inr ⟨Or.inl hpos, _, _, rfl, ?_, hrep, ⟨segs ++ [seg], rest, ?_⟩, rfl, rfl, rfl,
        Or.inl ?_⟩
      · show Stable cmp self.mem (segs.flatten ++ (seg ++ rest))
        rw [hL.1]
        have := stable_append hst segs.flatten []
        simpa using this
      · obtain ⟨l1, l2, l3, l4, l5⟩ := hL
        refine ⟨?_, ?_, ?_, ?_, ?_⟩
        · show segs.flatten ++ (seg ++ rest) = _
          simp
        · show self.run ++ [_] = _
          rw [runs_of_append, l2, l3]
          simp [runs_of]
        · show self.base + seg.length = _
          rw [l3]
          simp
        · show self.size - seg.length = _
          omega
        · intro s hs
          rcases List.mem_append.1 hs with hs | hs
          · exact l5 s hs
          · rw [List.mem_singleton.1 hs]
            exact ⟨hne, hss⟩
      · show self.size - seg.length < self.size
        have : 0 < seg.length := List.length_pos.2 hne
        omega
  · rw [e]
    exact Or.inr ⟨Or.inr hp2, s', oc', rfl, ho⟩

/-! ## Resumable states -/

/-- One call of `gtk_tim_sort_step` on a resumable sorter: it returns, leaves the
sorter resumable, reports what it changed, returns `FALSE` exactly when the tail
is empty and at most one run is pending, and makes progress when it returns
`TRUE`. -/
theorem step_resumable {cmp : α → α → Int} (h : TotalPreorder cmp) {input : List α}
    {self : GtkTimSort α} (hR : Resumable cmp input self) (oc : Option GtkTimSortChange) :
    ∃ b self' oc', gtk_tim_sort_step cmp self oc = some (b, self', oc') ∧
      Resumable cmp input self' ∧ Reported cmp oc oc' self.mem self'.mem ∧
      (b = false ↔ self.size = 0 ∧ self.pending_runs ≤ 1) ∧
      (b = false → self' = self) ∧
      (b = true → self'.size < self.size ∨ (self'.size = self.size ∧
        inversions cmp self'.mem + self'.pending_runs <
          inversions cmp self.mem + self.pending_runs)) := by
  obtain ⟨⟨segs, tail, hL⟩, hst, hmax, h64⟩ := hR
  have hlen : self.mem.length < GSIZE_MOD := by
    rw [stable_length_eq hst]
    exact h64
  rw [gtk_tim_sort_step_eq]
  rcases step_spec h self oc hL hlen hmax with ⟨h1, h2, e⟩ | ⟨h1, s', oc', e, ho⟩
  · exact ⟨false, self, _, e, ⟨⟨segs, tail, hL⟩, hst, hmax, h64⟩, Or.inl ⟨rfl, rfl⟩,
      ⟨fun _ => ⟨h1, h2⟩, fun _ => rfl⟩, fun _ => rfl, fun hc => by simp at hc⟩
  · obtain ⟨o1, o2, o3, o4, o5, o6, o7⟩ := ho
    exact ⟨true, s', oc', e, ⟨o3, stable_trans hst o1, by rw [o4]; exact hmax, h64⟩, o2,
      ⟨fun hc => by simp at hc, fun hc => by omega⟩, fun hc => by simp at hc, fun _ => o7⟩

theorem resumable_init (cmp : α → α → Int) (base : List α) (size element_size : Nat)
    (hlen : base.length = size) (h64 : size < GSIZE_MOD) :
    Resumable cmp base (gtk_tim_sort_init base size element_size) := by
  refine ⟨⟨[], base, ?_⟩, stable_refl cmp base, ?_, by rw [hlen]; exact h64⟩
  · exact ⟨rfl, rfl, rfl, hlen.symm, fun s hs => by simp at hs⟩
  · show 1 ≤ G_MAXSIZE
    unfold G_MAXSIZE
    omega

theorem resumable_set_max {cmp : α → α → Int} {input : List α} {s : GtkTimSort α}
    (hR : Resumable cmp input s) (m : Nat) :
    Resumable cmp input (gtk_tim_sort_set_max_merge_size s m) := by
  obtain ⟨⟨segs, tail, hL⟩, hst, hmax, h64⟩ := hR
  refine ⟨⟨segs, tail, hL⟩, hst, ?_, h64⟩
  show 1 ≤ (if m = 0 then G_MAXSIZE else m)
  split
  · unfold G_MAXSIZE
    omega
  · omega

/-- Every state of the sorter that calls of `gtk_tim_sort_step` lead to is
resumable. -/
theorem reachable_resumable {cmp : α → α → Int} (h : TotalPreorder cmp) {base : List α}
    {size element_size : Nat} (hlen : base.length = size) (h64 : size < GSIZE_MOD)
    {s : GtkTimSort α} (hr : Reachable cmp base size element_size s) :
    Resumable cmp base s := by
  induction hr with
  | init => exact resumable_init cmp base size element_size hlen h64
  | set_max s m _ ih => exact resumable_set_max ih m
  | step s s' oc oc' b _ e ih =>
    obtain ⟨b2, s2, oc2, e2, hR, _⟩ := step_resumable h ih oc
    rw [e] at e2
    simp only [Option.some.injEq, Prod.mk.injEq] at e2
    obtain ⟨_, rfl, _⟩ := e2
    exact hR

/-! ## Running to completion -/

theorem loop_terminates {cmp : α → α → Int} (h : TotalPreorder cmp) {input : List α} :
    ∀ (n k : Nat) (s : GtkTimSort α), Resumable cmp input s → s.size = n →
      inversions cmp s.mem + s.pending_runs = k →
      ∃ fuel s', gtk_tim_sort_loop cmp fuel s = some s' := by
  intro n
  refine Nat.strong_induction_on n ?_
  intro n ihn k
  refine Nat.strong_induction_on k ?_
  intro k ihk s hR hn hk
  obtain ⟨b, s', oc', e, hR', _, _, _, hdec⟩ := step_resumable h hR none
  cases b with
  | false => exact ⟨1, s', by simp only [gtk_tim_sort_loop, e]⟩
  | true =>
    rcases hdec rfl with hlt | ⟨heq, hlt⟩
    · obtain ⟨fuel, s'', e'⟩ := ihn s'.size (by omega) _ s' hR' rfl rfl
      exact ⟨fuel + 1, s'', by simp only [gtk_tim_sort_loop, e, e']⟩
    · obtain ⟨fuel, s'', e'⟩ := ihk _ (by omega) s' hR' (by omega) rfl
      exact ⟨fuel + 1, s'', by simp only [gtk_tim_sort_loop, e, e']⟩

theorem loop_result {cmp : α → α → Int} (h : TotalPreorder cmp) {input : List α} :
    ∀ (fuel : Nat) (s s' : GtkTimSort α), Resumable cmp input s →
      gtk_tim_sort_loop cmp fuel s = some s' →
      Resumable cmp input s' ∧ s'.size = 0 ∧ s'.pending_runs ≤ 1 := by
  intro fuel
  induction fuel with
  | zero =>
    intro s s' _ e
    simp [gtk_tim_sort_loop] at e
  | succ f ih =>
    intro s s' hR e
    obtain ⟨b, s1, oc1, e1, hR1, _, hiff, hsame, _⟩ := step_resumable h hR none
    cases b with
    | false =>
      simp only [gtk_tim_sort_loop, e1, Option.some.injEq] at e
      subst e
      have := hsame rfl
      subst this
      exact ⟨hR, hiff.1 rfl⟩
    | true =>
      simp only [gtk_tim_sort_loop, e1] at e
      exact ih s1 s' hR1 e

theorem terminal_sorted {cmp : α → α → Int} {input : List α} {s : GtkTimSort α}
    (hR : Resumable cmp input s) (h0 : s.size = 0) (h1 : s.pending_runs ≤ 1) :
    Sorted cmp s.mem := by
  obtain ⟨⟨segs, tail, hL⟩, _⟩ := hR
  have hp := runs_pending s _ hL.2.1
  have ht : tail = [] := List.eq_nil_of_length_eq_zero (by rw [← hL.2.2.2.1]; exact h0)
  rw [hL.1, ht]
  match segs, hL, hp with
  | [], _, _ => simp [Sorted]
  | [a], hL, _ => simpa using (hL.2.2.2.2 a (by simp)).2
  | _ :: _ :: _, _, hp =>
    simp at hp
    omega

theorem sorted_index {cmp : α → α → Int} {l : List α} (hs : Sorted cmp l) :
    ∀ (i j : Nat) (x y : α), i < j → l[i]? = some x → l[j]? = some y → cmp x y ≤ 0 := by
  induction l with
  | nil =>
    intro i j x y _ hx
    simp at hx
  | cons a l ih =>
    intro i j x y hij hx hy
    have hc := List.pairwise_cons.1 hs
    obtain ⟨j', rfl⟩ : ∃ j', j = j' + 1 := ⟨j - 1, by omega⟩
    rw [List.getElem?_cons_succ] at hy
    cases i with
    | zero =>
      simp only [List.getElem?_cons_zero, Option.some.injEq] at hx
      subst hx
      exact hc.1 y (List.getElem?_mem hy)
    | succ i' =>
      rw [List.getElem?_cons_succ] at hx
      exact ih hc.2 i' j' x y (by omega) hx hy

/-- The comparison of integers by their difference is a total preorder. -/
theorem int_cmp_total : TotalPreorder int_cmp :=
  ⟨fun x y => by unfold int_cmp; omega, fun x y z => by unfold int_cmp; omega⟩

/-- The loop of `gtk_tim_sort` from a resumable state: it ends, and the array it
leaves is sorted and is a stable rearrangement of the input. -/
theorem loop_spec {cmp : α → α → Int} (h : TotalPreorder cmp) {input : List α}
    {s : GtkTimSort α} (hR : Resumable cmp input s) :
    (∃ fuel s', gtk_tim_sort_loop cmp fuel s = some s') ∧
      ∀ fuel s', gtk_tim_sort_loop cmp fuel s = some s' →
        Sorted cmp s'.mem ∧ Stable cmp input s'.mem := by
  refine ⟨loop_terminates h _ _ s hR rfl rfl, fun fuel s' e => ?_⟩
  obtain ⟨hR', h0, h1⟩ := loop_result h fuel s s' hR e
  exact ⟨terminal_sorted hR' h0 h1, hR'.2.1⟩

theorem gtk_tim_sort_spec {cmp : α → α → Int} (h : TotalPreorder cmp) (base : List α)
    (size element_size : Nat) (hlen : base.length = size) (h64 : size < GSIZE_MOD) :
    (∃ fuel out, gtk_tim_sort cmp fuel base size element_size = some out) ∧
      ∀ fuel out, gtk_tim_sort cmp fuel base size element_size = some out →
        Sorted cmp out ∧ Stable cmp base out := by
  obtain ⟨⟨fuel, s', e⟩, hall⟩ := loop_spec h (resumable_init cmp base size element_size hlen h64)
  refine ⟨⟨fuel, s'.mem, by simp only [gtk_tim_sort, e]⟩, fun fuel out e => ?_⟩
  unfold gtk_tim_sort at e
  cases hq : gtk_tim_sort_loop cmp fuel (gtk_tim_sort_init base size element_size) with
  | none => simp [hq] at e
  | some s =>
    simp only [hq, Option.some.injEq] at e
    rw [← e]
    exact hall fuel s hq

/-! ## The minimum run length -/

theorem or_and_one_le (r n : Nat) (hr : r ≤ 1) : r ||| (n &&& 1) ≤ 1 := by
  have h1 : n &&& 1 = n % 2 := Nat.and_one_is_mod n
  rw [h1]
  have h2 : n % 2 < 2 := Nat.mod_lt _ (by omega)
  interval_cases r <;> interval_cases (n % 2) <;> decide

theorem compute_min_run_loop_le : ∀ (fuel n r : Nat), r ≤ 1 →
    compute_min_run_loop fuel n r ≤ n + r := by
  intro fuel
  induction fuel with
  | zero =>
    intro n r _
    exact Nat.le_refl _
  | succ f ih =>
    intro n r hr
    unfold compute_min_run_loop
    split
    · rename_i hn
      have h1 := ih (n >>> 1) (r ||| (n &&& 1)) (or_and_one_le r n hr)
      have h2 := or_and_one_le r n hr
      have h3 : n >>> 1 = n / 2 := by rw [Nat.shiftRight_eq_div_pow]
      simp only [MIN_MERGE] at hn
      omega
    · exact Nat.le_refl _

theorem compute_min_run_le (n : Nat) : compute_min_run n ≤ n :=
  compute_min_run_loop_le n n 0 (by omega)

/-! ## The layout of the run stack -/

theorem run_slice_eq (P s T : List α) (r : GtkTimSortRun) (hb : r.base = P.length)
    (hl : r.len = s.length) : run_slice (P ++ (s ++ T)) r = s := by
  unfold run_slice
  rw [hb, hl, List.drop_left, List.take_left]

theorem runs_of_facts (cmp : α → α → Int) (segs : List (List α)) :
    ∀ (b : Nat) (P T : List α), P.length = b → (∀ s ∈ segs, s ≠ [] ∧ Sorted cmp s) →
      (∀ r, (runs_of b segs)[0]? = some r → r.base = b) ∧
      (∀ i r r', (runs_of b segs)[i]? = some r → (runs_of b segs)[i + 1]? = some r' →
        r.base + r.len = r'.base) ∧
      (∀ r, (runs_of b segs).getLast? = some r → r.base + r.len = b + segs.flatten.length) ∧
      (((runs_of b segs).map (fun r => r.len)).sum = segs.flatten.length) ∧
      (∀ r ∈ runs_of b segs,
        0 < r.len ∧ Sorted cmp (run_slice (P ++ (segs.flatten ++ T)) r)) := by
  induction segs with
  | nil =>
    intro b P T _ _
    simp [runs_of]
  | cons s ss ih =>
    intro b P T hP hs
    have hs1 := hs s (List.mem_cons_self _ _)
    obtain ⟨i1, i2, i3, i4, i5⟩ := ih (b + s.length) (P ++ s) T (by simp [hP])
      (fun t ht => hs t (List.mem_cons_of_mem _ ht))
    refine ⟨?_, ?_, ?_, ?_, ?_⟩
    · intro r hr
      simp only [runs_of, List.getElem?_cons_zero, Option.some.injEq] at hr
      rw [← hr]
    · intro i r r' hr hr'
      cases i with
      | zero =>
        simp only [runs_of, List.getElem?_cons_zero, Option.some.injEq, Nat.zero_add,
          List.getElem?_cons_succ] at hr hr'
        rw [← hr, i1 r' hr']
      | succ i' =>
        simp only [runs_of, List.getElem?_cons_succ] at hr hr'
        exact i2 i' r r' hr hr'
    · intro r hr
      cases hq : runs_of (b + s.length) ss with
      | nil =>
        have hss : ss = [] := by
          cases ss with
          | nil => rfl
          | cons t ts => simp [runs_of] at hq
        simp only [runs_of, hq, List.getLast?_singleton, Option.some.injEq] at hr
        rw [← hr, hss]
        simp
      | cons r0 rs =>
        have hl : (runs_of b (s :: ss)).getLast? = (runs_of (b + s.length) ss).getLast? := by
          simp only [runs_of, hq]
          rw [List.getLast?_cons_cons]
        rw [hl] at hr
        have := i3 r hr
        simp only [List.flatten_cons, List.length_append]
        omega
    · simp only [runs_of, List.map_cons, List.sum_cons, i4, List.flatten_cons,
        List.length_append]
    · intro r hr
      simp only [runs_of, List.mem_cons] at hr
      rcases hr with hr | hr
      · subst hr
        refine ⟨List.length_pos.2 hs1.1, ?_⟩
        have e : P ++ ((s :: ss).flatten ++ T) = P ++ (s ++ (ss.flatten ++ T)) := by simp
        rw [e, run_slice_eq P s _ _ hP.symm rfl]
        exact hs1.2
      · have := i5 r hr
        have e : P ++ ((s :: ss).flatten ++ T) = (P ++ s) ++ (ss.flatten ++ T) := by simp
        rw [e]
        exact this

/-! ## The reported range -/

theorem reported_some {cmp : α → α → Int} {oc oc' : Option GtkTimSortChange} {m m' : List α}
    (hr : Reported cmp oc oc' m m') {c : GtkTimSortChange} (hc : oc' = some c) :
    (c.base = none ∧ c.len = 0 ∧ m' = m) ∨ ∃ lo, c.base = some lo ∧ Changed cmp lo c.len m m' := by
  rcases hr with ⟨h1, h2⟩ | ⟨lo, len, h1, h2⟩
  · rw [h2] at hc
    cases oc with
    | none => simp [gtk_tim_sort_set_change] at hc
    | some c0 =>
      simp only [gtk_tim_sort_set_change, Option.some.injEq] at hc
      rw [← hc]
      exact Or.inl ⟨rfl, rfl, h1⟩
  · rw [h2] at hc
    cases oc with
    | none => simp [gtk_tim_sort_set_change] at hc
    | some c0 =>
      simp only [gtk_tim_sort_set_change, Option.some.injEq] at hc
      rw [← hc]
      exact Or.inr ⟨lo, rfl, h1⟩

theorem changed_bound {cmp : α → α → Int} {lo len : Nat} {m m' : List α}
    (hc : Changed cmp lo len m m') : lo + len ≤ m.length := by
  obtain ⟨hpos, _, _, ⟨z, z0, _, hz0, _⟩⟩ := hc
  have : lo + len - 1 < m.length := by
    by_contra hcon
    rw [List.getElem?_eq_none (by omega)] at hz0
    exact absurd hz0 (by simp)
  omega

/-- A changed range lies inside every range outside of which the memory is the
same. -/
theorem changed_smallest {cmp : α → α → Int} (h : TotalPreorder cmp) {lo len : Nat}
    {m m' : List α} (hc : Changed cmp lo len m m') {a n : Nat} (ha : AgreeOutside a n m m') :
    a ≤ lo ∧ lo + len ≤ a + n := by
  obtain ⟨h1, h2⟩ := changed_ne h hc
  have hpos := hc.1
  constructor
  · by_contra hcon
    exact h1 (ha.2 lo (Or.inl (by omega)))
  · by_contra hcon
    exact h2 (ha.2 (lo + len - 1) (Or.inr (by omega)))

theorem step_deterministic {cmp : α → α → Int} {s : GtkTimSort α}
    {oc : Option GtkTimSortChange} {r1 r2 : Bool × GtkTimSort α × Option GtkTimSortChange}
    (e1 : gtk_tim_sort_step cmp s oc = some r1) (e2 : gtk_tim_sort_step cmp s oc = some r2) :
    r1 = r2 := by
  rw [e1] at e2
  exact Option.some.inj e2

/-! ## The contract of the sort -/

/-- C1: Sortedness.  For an array `base` of `size` elements (a `gsize`) and a
comparison function that is a total preorder, `gtk_tim_sort` (init, then
`gtk_tim_sort_step` until it returns `FALSE`) returns, and the array it leaves is
non-decreasing: `compare (a[j], a[i]) >= 0` for all `i < j`. -/
theorem gtk_tim_sort_sorted {cmp : α → α → Int} (h : TotalPreorder cmp) (base : List α)
    (size element_size : Nat) (hlen : base.length = size) (h64 : size < GSIZE_MOD) :
    (∃ fuel out, gtk_tim_sort cmp fuel base size element_size = some out) ∧
      ∀ fuel out, gtk_tim_sort cmp fuel base size element_size = some out →
        ∀ (i j : Nat) (x y : α), i < j → out[i]? = some x → out[j]? = some y →
          0 ≤ cmp y x := by
  obtain ⟨hex, hall⟩ := gtk_tim_sort_spec h base size element_size hlen h64
  refine ⟨hex, fun fuel out e i j x y hij hx hy => ?_⟩
  exact (h.nonneg_iff y x).2 (sorted_index (hall fuel out e).1 i j x y hij hx hy)

theorem gtk_tim_sort_sorted_witness :
    TotalPreorder int_cmp ∧ ([3, 1, 2] : List Int).length = 3 ∧ 3 < GSIZE_MOD ∧
      ((∃ fuel out, gtk_tim_sort int_cmp fuel [3, 1, 2] 3 4 = some out) ∧
        ∀ fuel out, gtk_tim_sort int_cmp fuel [3, 1, 2] 3 4 = some out →
          ∀ (i j : Nat) (x y : Int), i < j → out[i]? = some x → out[j]? = some y →
            0 ≤ int_cmp y x) :=
  ⟨int_cmp_total, rfl, by decide,
    gtk_tim_sort_sorted int_cmp_total [3, 1, 2] 3 4 rfl (by decide)⟩

/-- C2: Permutation.  For every input array and every comparison function that is
a total preorder, `gtk_tim_sort` returns and the array it leaves is a permutation
of the input array. -/
theorem gtk_tim_sort_perm {cmp : α → α → Int} (h : TotalPreorder cmp) (base : List α)
    (size element_size : Nat) (hlen : base.length = size) (h64 : size < GSIZE_MOD) :
    (∃ fuel out, gtk_tim_sort cmp fuel base size element_size = some out) ∧
      ∀ fuel out, gtk_tim_sort cmp fuel base size element_size = some out →
        out.Perm base := by
  obtain ⟨hex, hall⟩ := gtk_tim_sort_spec h base size element_size hlen h64
  exact ⟨hex, fun fuel out e => (hall fuel out e).2.1.symm⟩

theorem gtk_tim_sort_perm_witness :
    TotalPreorder int_cmp ∧ ([2, 2, 1] : List Int).length = 3 ∧ 3 < GSIZE_MOD ∧
      ((∃ fuel out, gtk_tim_sort int_cmp fuel [2, 2, 1] 3 8 = some out) ∧
        ∀ fuel out, gtk_tim_sort int_cmp fuel [2, 2, 1] 3 8 = some out →
          out.Perm [2, 2, 1]) :=
  ⟨int_cmp_total, rfl, by decide,
    gtk_tim_sort_perm int_cmp_total [2, 2, 1] 3 8 rfl (by decide)⟩

/-- C3: Stability.  For every input array and every comparison function that is a
total preorder, `gtk_tim_sort` returns and, for every record `k`, the records that
compare equal to `k` appear in the output in the order they have in the input. -/
theorem gtk_tim_sort_stable {cmp : α → α → Int} (h : TotalPreorder cmp) (base : List α)
    (size element_size : Nat) (hlen : base.length = size) (h64 : size < GSIZE_MOD) :
    (∃ fuel out, gtk_tim_sort cmp fuel base size element_size = some out) ∧
      ∀ fuel out, gtk_tim_sort cmp fuel base size element_size = some out →
        ∀ k, equal_to cmp k out = equal_to cmp k base := by
  obtain ⟨hex, hall⟩ := gtk_tim_sort_spec h base size element_size hlen h64
  exact ⟨hex, fun fuel out e => (hall fuel out e).2.2⟩

/-- The comparison of tagged integers by the difference of their keys. -/
theorem key_cmp_total : TotalPreorder key_cmp :=
  ⟨fun x y => by unfold key_cmp; omega, fun x y z => by unfold key_cmp; omega⟩

theorem gtk_tim_sort_stable_witness :
    TotalPreorder key_cmp ∧ ([(2, 0), (1, 1), (2, 2), (1, 3)] : List (Int × Nat)).length = 4 ∧
      4 < GSIZE_MOD ∧
      ((∃ fuel out, gtk_tim_sort key_cmp fuel [(2, 0), (1, 1), (2, 2), (1, 3)] 4 16 = some out) ∧
        ∀ fuel out, gtk_tim_sort key_cmp fuel [(2, 0), (1, 1), (2, 2), (1, 3)] 4 16 = some out →
          ∀ k, equal_to key_cmp k out = equal_to key_cmp k [(2, 0), (1, 1), (2, 2), (1, 3)]) :=
  ⟨key_cmp_total, rfl, by decide,
    gtk_tim_sort_stable key_cmp_total [(2, 0), (1, 1), (2, 2), (1, 3)] 4 16 rfl (by decide)⟩

/-- C4: Termination.  For every array, every comparison function that is a total
preorder and every value passed to `gtk_tim_sort_set_max_merge_size` (`0` selects
the unbounded default), the calls of `gtk_tim_sort_step` on the freshly initialised
sorter return `FALSE` after finitely many calls; so does the loop of
`gtk_tim_sort`. -/
theorem gtk_tim_sort_terminates {cmp : α → α → Int} (h : TotalPreorder cmp) (base : List α)
    (size element_size : Nat) (hlen : base.length = size) (h64 : size < GSIZE_MOD) :
    (∀ m, ∃ fuel s, gtk_tim_sort_loop cmp fuel
        (gtk_tim_sort_set_max_merge_size (gtk_tim_sort_init base size element_size) m) =
          some s) ∧
      ∃ fuel out, gtk_tim_sort cmp fuel base size element_size = some out :=
  ⟨fun m => (loop_spec h (resumable_set_max
      (resumable_init cmp base size element_size hlen h64) m)).1,
    (gtk_tim_sort_spec h base size element_size hlen h64).1⟩

theorem gtk_tim_sort_terminates_witness :
    TotalPreorder int_cmp ∧ ([5, 4, 3, 2, 1] : List Int).length = 5 ∧ 5 < GSIZE_MOD ∧
      ((∀ m, ∃ fuel s, gtk_tim_sort_loop int_cmp fuel
          (gtk_tim_sort_set_max_merge_size (gtk_tim_sort_init [5, 4, 3, 2, 1] 5 4) m) =
            some s) ∧
        ∃ fuel out, gtk_tim_sort int_cmp fuel [5, 4, 3, 2, 1] 5 4 = some out) :=
  ⟨int_cmp_total, rfl, by decide,
    gtk_tim_sort_terminates int_cmp_total [5, 4, 3, 2, 1] 5 4 rfl (by decide)⟩

/-- C5: Bounded-merge equivalence.  For every input array, comparison function that
is a total preorder and cap `m` on the merges (`0` selects the default), driving
`gtk_tim_sort_step` to completion with the cap `m` and with the unbounded default
both end, and they leave the same array. -/
theorem max_merge_size_same_result {cmp : α → α → Int} (h : TotalPreorder cmp)
    (base : List α) (size element_size : Nat) (hlen : base.length = size)
    (h64 : size < GSIZE_MOD) (m : Nat) :
    (∃ fuel s, gtk_tim_sort_loop cmp fuel
        (gtk_tim_sort_set_max_merge_size (gtk_tim_sort_init base size element_size) m) =
          some s) ∧
      (∃ fuel s, gtk_tim_sort_loop cmp fuel (gtk_tim_sort_init base size element_size) =
        some s) ∧
      ∀ fuel fuel' s s', gtk_tim_sort_loop cmp fuel
          (gtk_tim_sort_set_max_merge_size (gtk_tim_sort_init base size element_size) m) =
            some s →
        gtk_tim_sort_loop cmp fuel' (gtk_tim_sort_init base size element_size) = some s' →
        s.mem = s'.mem := by
  have h0 := resumable_init cmp base size element_size hlen h64
  obtain ⟨e1, a1⟩ := loop_spec h (resumable_set_max h0 m)
  obtain ⟨e2, a2⟩ := loop_spec h h0
  refine ⟨e1, e2, fun fuel fuel' s s' hs hs' => ?_⟩
  obtain ⟨b1, b2⟩ := a1 fuel s hs
  obtain ⟨c1, c2⟩ := a2 fuel' s' hs'
  exact sorted_stable_unique h b1 c1 b2 c2

theorem max_merge_size_same_result_witness :
    TotalPreorder int_cmp ∧ ([4, 5, 6, 1, 2, 3] : List Int).length = 6 ∧ 6 < GSIZE_MOD ∧
      ((∃ fuel s, gtk_tim_sort_loop int_cmp fuel
          (gtk_tim_sort_set_max_merge_size (gtk_tim_sort_init [4, 5, 6, 1, 2, 3] 6 4) 1) =
            some s) ∧
        (∃ fuel s, gtk_tim_sort_loop int_cmp fuel (gtk_tim_sort_init [4, 5, 6, 1, 2, 3] 6 4) =
          some s) ∧
        ∀ fuel fuel' s s', gtk_tim_sort_loop int_cmp fuel
            (gtk_tim_sort_set_max_merge_size (gtk_tim_sort_init [4, 5, 6, 1, 2, 3] 6 4) 1) =
              some s →
          gtk_tim_sort_loop int_cmp fuel' (gtk_tim_sort_init [4, 5, 6, 1, 2, 3] 6 4) =
            some s' →
          s.mem = s'.mem) :=
  ⟨int_cmp_total, rfl, by decide,
    max_merge_size_same_result int_cmp_total [4, 5, 6, 1, 2, 3] 6 4 rfl (by decide) 1⟩

/-! ## The contract of one step -/

theorem terminal_run_stack {cmp : α → α → Int} {input : List α} {s : GtkTimSort α}
    (hR : Resumable cmp input s) (h0 : s.size = 0) (h1 : s.pending_runs ≤ 1) :
    (0 < input.length → s.run = [{ base := 0, len := input.length }]) ∧
      (input.length = 0 → s.run = []) := by
  obtain ⟨⟨segs, tail, hL⟩, hst, _⟩ := hR
  have hp := runs_pending s _ hL.2.1
  have ht : tail = [] := List.eq_nil_of_length_eq_zero (by rw [← hL.2.2.2.1]; exact h0)
  have hlen := stable_length_eq hst
  rw [hL.1, ht] at hlen
  match segs, hL, hp, hlen with
  | [], hL, _, hlen =>
    simp only [List.flatten_nil, List.append_nil, List.length_nil] at hlen
    exact ⟨fun hpos => by omega, fun _ => hL.2.1⟩
  | [a], hL, _, hlen =>
    simp only [List.flatten_cons, List.flatten_nil, List.append_nil] at hlen
    have ha : 0 < a.length := List.length_pos.2 (hL.2.2.2.2 a (by simp)).1
    refine ⟨fun _ => ?_, fun h0 => by omega⟩
    rw [hL.2.1, ← hlen]
    rfl
  | _ :: _ :: _, _, hp, _ =>
    simp at hp
    omega

/-- C6, counterexample: on the empty array (`N = 0`) the freshly initialised sorter
is a reachable state in which `gtk_tim_sort_step` returns `FALSE`, and its run
stack holds no run at all, so not exactly one run of length `N`. -/
theorem step_false_on_empty_stack :
    Reachable int_cmp [] 0 4 (gtk_tim_sort_init [] 0 4) ∧
      gtk_tim_sort_step int_cmp (gtk_tim_sort_init [] 0 4) none =
        some (false, gtk_tim_sort_init [] 0 4, none) ∧
      ¬ ∃ r, (gtk_tim_sort_init ([] : List Int) 0 4).run = [r] ∧ r.len = 0 ∧
        (gtk_tim_sort_init ([] : List Int) 0 4).size = 0 :=
  ⟨Reachable.init, by decide, by
    rintro ⟨r, hr, _⟩
    simp [gtk_tim_sort_init] at hr⟩

/-- C6, amended: in every state reachable from `gtk_tim_sort_init` by calls of
`gtk_tim_sort_step`, the call returns `FALSE` if and only if the unconsumed tail is
empty and at most one run is pending; the run stack then holds exactly one run, of
length `N` from the start of the array, when `N >= 1`, and no run when `N = 0`.
So for `N >= 1` it returns `FALSE` if and only if the stack holds exactly one run
of length `N` and the tail is empty. -/
theorem step_false_iff_terminal {cmp : α → α → Int} (h : TotalPreorder cmp) (base : List α)
    (size element_size : Nat) (hlen : base.length = size) (h64 : size < GSIZE_MOD)
    {s : GtkTimSort α} (hr : Reachable cmp base size element_size s)
    (oc : Option GtkTimSortChange) :
    ∃ b s' oc', gtk_tim_sort_step cmp s oc = some (b, s', oc') ∧
      (b = false ↔ s.size = 0 ∧ s.pending_runs ≤ 1) ∧
      (b = false → (0 < size → s.run = [{ base := 0, len := size }]) ∧
        (size = 0 → s.run = [])) ∧
      (0 < size → (b = false ↔ s.run = [{ base := 0, len := size }] ∧ s.size = 0)) := by
  have hR := reachable_resumable h hlen h64 hr
  obtain ⟨b, s', oc', e, _, _, hiff, _, _⟩ := step_resumable h hR oc
  have hterm : s.size = 0 ∧ s.pending_runs ≤ 1 →
      (0 < size → s.run = [{ base := 0, len := size }]) ∧ (size = 0 → s.run = []) := by
    intro ht
    have := terminal_run_stack hR ht.1 ht.2
    rw [hlen] at this
    exact this
  refine ⟨b, s', oc', e, hiff, fun hb => hterm (hiff.1 hb), fun hpos => ?_⟩
  constructor
  · intro hb
    exact ⟨(hterm (hiff.1 hb)).1 hpos, (hiff.1 hb).1⟩
  · rintro ⟨hrun, hs0⟩
    exact hiff.2 ⟨hs0, by simp [GtkTimSort.pending_runs, hrun]⟩

theorem step_false_iff_terminal_witness :
    TotalPreorder int_cmp ∧ ([3, 1, 2] : List Int).length = 3 ∧ 3 < GSIZE_MOD ∧
      Reachable int_cmp [3, 1, 2] 3 4
        { (gtk_tim_sort_init ([1, 2, 3] : List Int) 3 4) with
          run := [{ base := 0, len := 3 }], base := 3, size := 0 } ∧
      ∃ b s' oc', gtk_tim_sort_step int_cmp
          { (gtk_tim_sort_init ([1, 2, 3] : List Int) 3 4) with
            run := [{ base := 0, len := 3 }], base := 3, size := 0 } none = some (b, s', oc') ∧
        (b = false ↔ (0 : Nat) = 0 ∧ 1 ≤ 1) ∧
        (b = false → (0 < 3 → [({ base := 0, len := 3 } : GtkTimSortRun)] =
            [{ base := 0, len := 3 }]) ∧
          (3 = 0 → [({ base := 0, len := 3 } : GtkTimSortRun)] = [])) ∧
        (0 < 3 → (b = false ↔ [({ base := 0, len := 3 } : GtkTimSortRun)] =
          [{ base := 0, len := 3 }] ∧ (0 : Nat) = 0)) :=
  ⟨int_cmp_total, rfl, by decide,
    Reachable.step _ _ none none true Reachable.init (by decide),
    step_false_iff_terminal int_cmp_total [3, 1, 2] 3 4 rfl (by decide)
      (Reachable.step _ _ none none true Reachable.init (by decide)) none⟩

/-- C7: Resumability invariant.  After any number of calls of `gtk_tim_sort_step`
(and of `gtk_tim_sort_set_max_merge_size`) on a freshly initialised sorter, with a
comparison function that is a total preorder: the first pending run starts at the
start of the array, `run[i].base + run[i].len = run[i+1].base`, the last run ends
at `self->base` (which is the start of the array when no run is pending), every
pending run is non-empty and non-decreasing, the run lengths and `self->size` add
up to `N`, and the array is a permutation of the input. -/
theorem reachable_run_stack {cmp : α → α → Int} (h : TotalPreorder cmp) (base : List α)
    (size element_size : Nat) (hlen : base.length = size) (h64 : size < GSIZE_MOD)
    {s : GtkTimSort α} (hr : Reachable cmp base size element_size s) :
    (∀ r, s.run[0]? = some r → r.base = 0) ∧
      (∀ i r r', s.run[i]? = some r → s.run[i + 1]? = some r' → r.base + r.len = r'.base) ∧
      (∀ r, s.run.getLast? = some r → r.base + r.len = s.base) ∧
      (s.run = [] → s.base = 0) ∧
      (∀ r ∈ s.run, 0 < r.len ∧ Sorted cmp (run_slice s.mem r)) ∧
      (s.run.map (fun r => r.len)).sum + s.size = size ∧
      s.base + s.size = size ∧ s.mem.length = size ∧ s.mem.Perm base := by
  obtain ⟨⟨segs, tail, hL⟩, hst, _⟩ := reachable_resumable h hlen h64 hr
  obtain ⟨l1, l2, l3, l4, l5⟩ := hL
  obtain ⟨f1, f2, f3, f4, f5⟩ := runs_of_facts cmp segs 0 [] tail rfl l5
  have hml : s.mem.length = size := by rw [stable_length_eq hst, hlen]
  have hsum : segs.flatten.length + tail.length = size := by
    rw [← hml, l1, List.length_append]
  rw [l2]
  refine ⟨f1, f2, ?_, ?_, ?_, ?_, ?_, hml, hst.1.symm⟩
  · intro r hr
    rw [f3 r hr, l3]
    omega
  · intro hnil
    cases segs with
    | nil => rw [l3]; rfl
    | cons a t => simp [runs_of] at hnil
  · intro r hr
    have := f5 r hr
    rw [List.nil_append, ← l1] at this
    exact this
  · rw [f4, l4]
    exact hsum
  · rw [l3, l4]
    exact hsum

theorem reachable_run_stack_witness :
    TotalPreorder int_cmp ∧ ([3, 1, 2] : List Int).length = 3 ∧ 3 < GSIZE_MOD ∧
      Reachable int_cmp [3, 1, 2] 3 4
        { (gtk_tim_sort_init ([1, 2, 3] : List Int) 3 4) with
          run := [{ base := 0, len := 3 }], base := 3, size := 0 } ∧
      ((∀ r, [({ base := 0, len := 3 } : GtkTimSortRun)][0]? = some r → r.base = 0) ∧
        (∀ i r r', [({ base := 0, len := 3 } : GtkTimSortRun)][i]? = some r →
          [({ base := 0, len := 3 } : GtkTimSortRun)][i + 1]? = some r' →
            r.base + r.len = r'.base) ∧
        (∀ r, [({ base := 0, len := 3 } : GtkTimSortRun)].getLast? = some r →
          r.base + r.len = 3) ∧
        ([({ base := 0, len := 3 } : GtkTimSortRun)] = [] → 3 = 0) ∧
        (∀ r ∈ [({ base := 0, len := 3 } : GtkTimSortRun)],
          0 < r.len ∧ Sorted int_cmp (run_slice [1, 2, 3] r)) ∧
        ([({ base := 0, len := 3 } : GtkTimSortRun)].map (fun r => r.len)).sum + 0 = 3 ∧
        3 + 0 = 3 ∧ ([1, 2, 3] : List Int).length = 3 ∧
        ([1, 2, 3] : List Int).Perm [3, 1, 2]) :=
  ⟨int_cmp_total, rfl, by decide,
    Reachable.step _ _ none none true Reachable.init (by decide),
    reachable_run_stack int_cmp_total [3, 1, 2] 3 4 rfl (by decide)
      (s := { (gtk_tim_sort_init ([1, 2, 3] : List Int) 3 4) with
        run := [{ base := 0, len := 3 }], base := 3, size := 0 })
      (Reachable.step _ _ none none true Reachable.init (by decide))⟩

/-- C8: Changed-range soundness.  For every call of `gtk_tim_sort_step` on a
reachable state that reports a change `(base, len)` in `out_change`: every array
element outside `[base, base + len)` has the value it had before the call, and
when the reported range is empty, `(NULL, 0)`, the array is unchanged. -/
theorem step_change_sound {cmp : α → α → Int} (h : TotalPreorder cmp) (base : List α)
    (size element_size : Nat) (hlen : base.length = size) (h64 : size < GSIZE_MOD)
    {s : GtkTimSort α} (hr : Reachable cmp base size element_size s)
    (oc : Option GtkTimSortChange) (b : Bool) (s' : GtkTimSort α) (c : GtkTimSortChange)
    (e : gtk_tim_sort_step cmp s oc = some (b, s', some c)) :
    s'.mem.length = s.mem.length ∧
      (∀ lo, c.base = some lo → ∀ i, i < lo ∨ lo + c.len ≤ i → s'.mem[i]? = s.mem[i]?) ∧
      (c.base = none → c.len = 0 ∧ s'.mem = s.mem) ∧
      (c.len = 0 → c.base = none ∧ s'.mem = s.mem) := by
  have hR := reachable_resumable h hlen h64 hr
  obtain ⟨b2, s2, oc2, e2, _, hrep, _⟩ := step_resumable h hR oc
  have := step_deterministic e e2
  simp only [Prod.mk.injEq] at this
  obtain ⟨_, rfl, rfl⟩ := this
  rcases reported_some hrep rfl with ⟨h1, h2, h3⟩ | ⟨lo, h1, h2⟩
  · refine ⟨by rw [h3], fun lo hlo => ?_, fun _ => ⟨h2, h3⟩, fun _ => ⟨h1, h3⟩⟩
    rw [h1] at hlo
    exact absurd hlo (by simp)
  · have hpos := h2.1
    refine ⟨h2.2.1.1, fun lo' hlo i hi => ?_, fun hn => ?_, fun h0 => by omega⟩
    · rw [h1] at hlo
      obtain rfl := Option.some.inj hlo
      exact h2.2.1.2 i hi
    · rw [h1] at hn
      exact absurd hn (by simp)

theorem step_change_sound_witness :
    TotalPreorder int_cmp ∧ ([3, 1, 2] : List Int).length = 3 ∧ 3 < GSIZE_MOD ∧
      Reachable int_cmp [3, 1, 2] 3 4 (gtk_tim_sort_init [3, 1, 2] 3 4) ∧
      gtk_tim_sort_step int_cmp (gtk_tim_sort_init [3, 1, 2] 3 4)
          (some { base := none, len := 0 }) =
        some (true, { (gtk_tim_sort_init ([1, 2, 3] : List Int) 3 4) with
          run := [{ base := 0, len := 3 }], base := 3, size := 0 },
          some { base := some 0, len := 3 }) ∧
      (([1, 2, 3] : List Int).length = ([3, 1, 2] : List Int).length ∧
        (∀ lo, some 0 = some lo → ∀ i, i < lo ∨ lo + 3 ≤ i →
          ([1, 2, 3] : List Int)[i]? = ([3, 1, 2] : List Int)[i]?) ∧
        ((some 0 : Option Nat) = none → 3 = 0 ∧ ([1, 2, 3] : List Int) = [3, 1, 2]) ∧
        (3 = 0 → (some 0 : Option Nat) = none ∧ ([1, 2, 3] : List Int) = [3, 1, 2])) :=
  ⟨int_cmp_total, rfl, by decide, Reachable.init, by decide,
    step_change_sound int_cmp_total [3, 1, 2] 3 4 rfl (by decide) Reachable.init
      (some { base := none, len := 0 }) true
      { (gtk_tim_sort_init ([1, 2, 3] : List Int) 3 4) with
        run := [{ base := 0, len := 3 }], base := 3, size := 0 }
      { base := some 0, len := 3 } (by decide)⟩

/-- C9: Changed-range minimality.  For every call of `gtk_tim_sort_step` on a
reachable state that returns `TRUE` (comparison function a total preorder), the
range left in `out_change` is the smallest one that holds every change: it is
`(NULL, 0)` exactly when the call left the array unchanged, and otherwise the
elements outside it are unchanged, its first and its last element differ from the
values they held before the call, and it lies inside every range outside of which
the array is unchanged. -/
theorem step_change_minimal {cmp : α → α → Int} (h : TotalPreorder cmp) (base : List α)
    (size element_size : Nat) (hlen : base.length = size) (h64 : size < GSIZE_MOD)
    {s : GtkTimSort α} (hr : Reachable cmp base size element_size s)
    (oc : Option GtkTimSortChange) (s' : GtkTimSort α) (c : GtkTimSortChange)
    (e : gtk_tim_sort_step cmp s oc = some (true, s', some c)) :
    (c.base = none ↔ s'.mem = s.mem) ∧ (c.base = none → c.len = 0) ∧
      ∀ lo, c.base = some lo →
        0 < c.len ∧ lo + c.len ≤ s.mem.length ∧
        (∀ i, i < lo ∨ lo + c.len ≤ i → s'.mem[i]? = s.mem[i]?) ∧
        s'.mem[lo]? ≠ s.mem[lo]? ∧ s'.mem[lo + c.len - 1]? ≠ s.mem[lo + c.len - 1]? ∧
        ∀ a n, AgreeOutside a n s.mem s'.mem → a ≤ lo ∧ lo + c.len ≤ a + n := by
  have hR := reachable_resumable h hlen h64 hr
  obtain ⟨b2, s2, oc2, e2, _, hrep, _⟩ := step_resumable h hR oc
  have := step_deterministic e e2
  simp only [Prod.mk.injEq] at this
  obtain ⟨_, rfl, rfl⟩ := this
  rcases reported_some hrep rfl with ⟨h1, h2, h3⟩ | ⟨lo, h1, h2⟩
  · refine ⟨⟨fun _ => h3, fun _ => h1⟩, fun _ => h2, fun lo hlo => ?_⟩
    rw [h1] at hlo
    exact absurd hlo (by simp)
  · obtain ⟨n1, n2⟩ := changed_ne h h2
    refine ⟨⟨fun hn => ?_, fun hm => ?_⟩, fun hn => ?_, fun lo' hlo => ?_⟩
    · rw [h1] at hn
      exact absurd hn (by simp)
    · rw [hm] at n1
      exact absurd rfl n1
    · rw [h1] at hn
      exact absurd hn (by simp)
    · rw [h1] at hlo
      obtain rfl := Option.some.inj hlo
      exact ⟨h2.1, changed_bound h2, h2.2.1.2, n1, n2, fun a n ha => changed_smallest h h2 ha⟩

theorem step_change_minimal_witness :
    TotalPreorder int_cmp ∧ ([1, 3, 2] : List Int).length = 3 ∧ 3 < GSIZE_MOD ∧
      Reachable int_cmp [1, 3, 2] 3 4 (gtk_tim_sort_init [1, 3, 2] 3 4) ∧
      gtk_tim_sort_step int_cmp (gtk_tim_sort_init [1, 3, 2] 3 4)
          (some { base := none, len := 0 }) =
        some (true, { (gtk_tim_sort_init ([1, 2, 3] : List Int) 3 4) with
          run := [{ base := 0, len := 3 }], base := 3, size := 0 },
          some { base := some 1, len := 2 }) ∧
      (((some 1 : Option Nat) = none ↔ ([1, 2, 3] : List Int) = [1, 3, 2]) ∧
        ((some 1 : Option Nat) = none → 2 = 0) ∧
        ∀ lo, some 1 = some lo →
          0 < 2 ∧ lo + 2 ≤ ([1, 3, 2] : List Int).length ∧
          (∀ i, i < lo ∨ lo + 2 ≤ i → ([1, 2, 3] : List Int)[i]? = ([1, 3, 2] : List Int)[i]?) ∧
          ([1, 2, 3] : List Int)[lo]? ≠ ([1, 3, 2] : List Int)[lo]? ∧
          ([1, 2, 3] : List Int)[lo + 2 - 1]? ≠ ([1, 3, 2] : List Int)[lo + 2 - 1]? ∧
          ∀ a n, AgreeOutside a n ([1, 3, 2] : List Int) [1, 2, 3] → a ≤ lo ∧ lo + 2 ≤ a + n) :=
  ⟨int_cmp_total, rfl, by decide, Reachable.init, by decide,
    step_change_minimal int_cmp_total [1, 3, 2] 3 4 rfl (by decide) Reachable.init
      (some { base := none, len := 0 })
      { (gtk_tim_sort_init ([1, 2, 3] : List Int) 3 4) with
        run := [{ base := 0, len := 3 }], base := 3, size := 0 }
      { base := some 1, len := 2 } (by decide)⟩

/-- C10: Idempotence on sorted input.  For every non-empty array that is already
non-decreasing under the comparison function (a total preorder), whatever the cap
on merges: the first call of `gtk_tim_sort_step` returns `TRUE`, reports the empty
range `(NULL, 0)`, leaves the array as it is and pushes one run of length `N`; the
next call returns `FALSE` and leaves the sorter as it is.  So only run detection
is performed, no merge and no move of an element. -/
theorem sorted_input_steps {cmp : α → α → Int} (h : TotalPreorder cmp) (base : List α)
    (size element_size : Nat) (hlen : base.length = size) (h64 : size < GSIZE_MOD)
    (hpos : 0 < size) (hs : Sorted cmp base) (m : Nat) (oc oc2 : Option GtkTimSortChange) :
    gtk_tim_sort_step cmp
        (gtk_tim_sort_set_max_merge_size (gtk_tim_sort_init base size element_size) m) oc =
      some (true,
        { gtk_tim_sort_set_max_merge_size (gtk_tim_sort_init base size element_size) m with
          run := [{ base := 0, len := size }], base := size, size := 0 },
        gtk_tim_sort_set_change oc none 0) ∧
    gtk_tim_sort_step cmp
        { gtk_tim_sort_set_max_merge_size (gtk_tim_sort_init base size element_size) m with
          run := [{ base := 0, len := size }], base := size, size := 0 } oc2 =
      some (false,
        { gtk_tim_sort_set_max_merge_size (gtk_tim_sort_init base size element_size) m with
          run := [{ base := 0, len := size }], base := size, size := 0 },
        gtk_tim_sort_set_change oc2 none 0) := by
  subst hlen
  have hR0 := resumable_set_max (resumable_init cmp base base.length element_size rfl h64) m
  obtain ⟨_, _, hmax, _⟩ := hR0
  constructor
  · rw [gtk_tim_sort_step_eq]
    unfold step
    have e1 : merge_collapse cmp
        (gtk_tim_sort_set_max_merge_size (gtk_tim_sort_init base base.length element_size) m) oc =
        some (false,
          gtk_tim_sort_set_max_merge_size (gtk_tim_sort_init base base.length element_size) m,
          oc) := by
      unfold merge_collapse
      exact if_pos (Nat.zero_le 1)
    rw [e1]
    simp only []
    rcases merge_append_spec h
      (gtk_tim_sort_set_max_merge_size (gtk_tim_sort_init base base.length element_size) m) oc
      [] base rfl rfl rfl with ⟨h0, _⟩ | ⟨_, seg, rest, oc', e, _, _, _, _, _, hsorted⟩
    · exact absurd h0 (Nat.pos_iff_ne_zero.1 hpos)
    · obtain ⟨rfl, rfl, rfl⟩ := hsorted hs (compute_min_run_le base.length)
      rw [e]
      simp [gtk_tim_sort_set_max_merge_size, gtk_tim_sort_init]
  · have hL : Layout cmp
        { gtk_tim_sort_set_max_merge_size (gtk_tim_sort_init base base.length element_size) m with
          run := [{ base := 0, len := base.length }], base := base.length, size := 0 }
        [base] [] := by
      refine ⟨by simp [gtk_tim_sort_set_max_merge_size, gtk_tim_sort_init], rfl, by simp, rfl,
        fun s hs' => ?_⟩
      rw [List.mem_singleton.1 hs']
      exact ⟨List.ne_nil_of_length_pos hpos, hs⟩
    rw [gtk_tim_sort_step_eq]
    rcases step_spec h _ oc2 hL h64 hmax with ⟨_, _, e⟩ | ⟨hcon, _⟩
    · exact e
    · rcases hcon with hcon | hcon
      · exact absurd hcon (by simp)
      · exact absurd hcon (by simp [GtkTimSort.pending_runs])

theorem sorted_input_steps_witness :
    TotalPreorder int_cmp ∧ ([1, 2, 2, 3] : List Int).length = 4 ∧ 4 < GSIZE_MOD ∧ 0 < 4 ∧
      Sorted int_cmp [1, 2, 2, 3] ∧
      (gtk_tim_sort_step int_cmp
          (gtk_tim_sort_set_max_merge_size (gtk_tim_sort_init [1, 2, 2, 3] 4 4) 1)
          (some { base := some 7, len := 9 }) =
        some (true,
          { gtk_tim_sort_set_max_merge_size (gtk_tim_sort_init ([1, 2, 2, 3] : List Int) 4 4) 1
            with run := [{ base := 0, len := 4 }], base := 4, size := 0 },
          gtk_tim_sort_set_change (some { base := some 7, len := 9 }) none 0) ∧
      gtk_tim_sort_step int_cmp
          { gtk_tim_sort_set_max_merge_size (gtk_tim_sort_init ([1, 2, 2, 3] : List Int) 4 4) 1
            with run := [{ base := 0, len := 4 }], base := 4, size := 0 } none =
        some (false,
          { gtk_tim_sort_set_max_merge_size (gtk_tim_sort_init ([1, 2, 2, 3] : List Int) 4 4) 1
            with run := [{ base := 0, len := 4 }], base := 4, size := 0 },
          gtk_tim_sort_set_change none none 0)) :=
  ⟨int_cmp_total, rfl, by decide, by decide, by unfold Sorted; decide,
    sorted_input_steps int_cmp_total [1, 2, 2, 3] 4 4 rfl (by decide) (by decide)
      (by unfold Sorted; decide) 1 (some { base := some 7, len := 9 }) none⟩

/-! ## The shape of one step -/

theorem run_len_lt (self : GtkTimSort α) {i : Nat} (hi : i < self.pending_runs) :
    ∃ l, run_len self i = some l := by
  unfold run_len
  rw [List.getElem?_eq_getElem hi]
  exact ⟨_, rfl⟩

theorem map_true_eq (x : Option (GtkTimSort α × Option GtkTimSortChange)) :
    (match x with
      | none => none
      | some (s1, o1) => some (true, s1, o1)) = x.map (fun r => (true, r.1, r.2)) := by
  cases x with
  | none => rfl
  | some r =>
    cases r
    rfl

/-- The results of `merge_collapse`: `FALSE` with nothing changed, or what
`merge_at` does at the last or the last but one pair of runs. -/
theorem merge_collapse_cases (cmp : α → α → Int) (self : GtkTimSort α)
    (oc : Option GtkTimSortChange) :
    merge_collapse cmp self oc = some (false, self, oc) ∨
      (2 ≤ self.pending_runs ∧ ∃ n, (n = self.pending_runs - 2 ∨
          (3 ≤ self.pending_runs ∧ n = self.pending_runs - 3)) ∧
        merge_collapse cmp self oc =
          (merge_at cmp self n oc).map (fun r => (true, r.1, r.2))) := by
  unfold merge_collapse
  by_cases h1 : self.pending_runs ≤ 1
  · rw [if_pos h1]
    exact Or.inl rfl
  · rw [if_neg h1]
    simp only []
    obtain ⟨b, hb⟩ := run_len_lt self (show self.pending_runs - 2 < self.pending_runs by omega)
    obtain ⟨c, hc⟩ := run_len_lt self (show self.pending_runs - 2 + 1 < self.pending_runs by omega)
    obtain ⟨a, ha⟩ := run_len_lt self (show self.pending_runs - 2 - 1 < self.pending_runs by omega)
    obtain ⟨d, hd⟩ := run_len_lt self (show self.pending_runs - 2 - 2 < self.pending_runs by omega)
    have top2 : 2 ≤ self.pending_runs ∧ ∃ n, (n = self.pending_runs - 2 ∨
          (3 ≤ self.pending_runs ∧ n = self.pending_runs - 3)) ∧
        (match merge_at cmp self (self.pending_runs - 2) oc with
          | none => none
          | some (s1, o1) => some (true, s1, o1)) =
          (merge_at cmp self n oc).map (fun r => (true, r.1, r.2)) :=
      ⟨by omega, _, Or.inl rfl, map_true_eq _⟩
    have top3 : 0 < self.pending_runs - 2 → 2 ≤ self.pending_runs ∧ ∃ n,
        (n = self.pending_runs - 2 ∨ (3 ≤ self.pending_runs ∧ n = self.pending_runs - 3)) ∧
        (match merge_at cmp self (self.pending_runs - 2 - 1) oc with
          | none => none
          | some (s1, o1) => some (true, s1, o1)) =
          (merge_at cmp self n oc).map (fun r => (true, r.1, r.2)) := fun h0 =>
      ⟨by omega, _, Or.inr ⟨by omega, by omega⟩, map_true_eq _⟩
    simp only [merge_collapse_cond1, merge_collapse_cond2, ha, hb, hc, hd]
    by_cases hn0 : self.pending_runs - 2 > 0
    · simp only [hn0, if_true]
      by_cases hv1 : a ≤ b + c
      · simp only [hv1, decide_True]
        by_cases hac : a < c
        · simp only [hac, if_true]
          exact Or.inr (top3 hn0)
        · simp only [hac, if_false]
          exact Or.inr top2
      · simp only [hv1, decide_False]
        by_cases hn1 : self.pending_runs - 2 > 1
        · simp only [hn1, if_true]
          by_cases hv2 : d ≤ b + a
          · simp only [hv2, decide_True]
            by_cases hac : a < c
            · simp only [hac, if_true]
              exact Or.inr (top3 hn0)
            · simp only [hac, if_false]
              exact Or.inr top2
          · simp only [hv2, decide_False]
            by_cases hbc : b > c
            · simp only [hbc, if_true]
              exact Or.inl trivial
            · simp only [hbc, if_false]
              exact Or.inr top2
        · rw [if_neg hn1]
          simp only []
          by_cases hbc : b > c
          · simp only [hbc, if_true]
            exact Or.inl trivial
          · simp only [hbc, if_false]
            exact Or.inr top2
    · simp only [hn0, if_false]
      rw [if_neg (show ¬ self.pending_runs - 2 > 1 by omega)]
      simp only []
      by_cases hbc : b > c
      · simp only [hbc, if_true]
        exact Or.inl trivial
      · simp only [hbc, if_false]
        exact Or.inr top2

/-- The results of `merge_force_collapse`. -/
theorem merge_force_collapse_cases (cmp : α → α → Int) (self : GtkTimSort α)
    (oc : Option GtkTimSortChange) :
    (self.pending_runs ≤ 1 ∧ merge_force_collapse cmp self oc = some (false, self, oc)) ∨
      (2 ≤ self.pending_runs ∧ ∃ n, (n = self.pending_runs - 2 ∨
          (3 ≤ self.pending_runs ∧ n = self.pending_runs - 3)) ∧
        merge_force_collapse cmp self oc =
          (merge_at cmp self n oc).map (fun r => (true, r.1, r.2))) := by
  unfold merge_force_collapse
  by_cases h1 : self.pending_runs ≤ 1
  · rw [if_pos h1]
    exact Or.inl ⟨h1, rfl⟩
  · rw [if_neg h1]
    simp only []
    obtain ⟨c, hc⟩ := run_len_lt self (show self.pending_runs - 2 + 1 < self.pending_runs by omega)
    obtain ⟨a, ha⟩ := run_len_lt self (show self.pending_runs - 2 - 1 < self.pending_runs by omega)
    simp only [ha, hc]
    by_cases hn0 : self.pending_runs - 2 > 0
    · simp only [hn0, if_true]
      by_cases hac : a < c
      · simp only [hac, decide_True, if_true]
        exact Or.inr ⟨by omega, _, Or.inr ⟨by omega, by omega⟩, map_true_eq _⟩
      · simp only [hac, decide_False, Bool.false_eq_true, if_false]
        exact Or.inr ⟨by omega, _, Or.inl rfl, map_true_eq _⟩
    · simp only [hn0, if_false, Bool.false_eq_true]
      exact Or.inr ⟨by omega, _, Or.inl rfl, map_true_eq _⟩

theorem prepare_run_desc_ge (cmp : α → α → Int) (mem : List α) (size : Nat) :
    ∀ (fuel run_hi cur next r : Nat),
      prepare_run_desc cmp mem size fuel run_hi cur next = some r → run_hi ≤ r := by
  intro fuel
  induction fuel with
  | zero =>
    intro run_hi cur next r e
    simp [prepare_run_desc] at e
  | succ f ih =>
    intro run_hi cur next r e
    unfold prepare_run_desc at e
    split at e
    · split at e
      · exact absurd e (by simp)
      · split at e
        · have := ih _ _ _ _ e
          omega
        · simp only [Option.some.injEq] at e
          omega
    · simp only [Option.some.injEq] at e
      omega

theorem prepare_run_asc_ge (cmp : α → α → Int) (mem : List α) (size : Nat) :
    ∀ (fuel run_hi cur next r : Nat),
      prepare_run_asc cmp mem size fuel run_hi cur next = some r → run_hi ≤ r := by
  intro fuel
  induction fuel with
  | zero =>
    intro run_hi cur next r e
    simp [prepare_run_asc] at e
  | succ f ih =>
    intro run_hi cur next r e
    unfold prepare_run_asc at e
    split at e
    · split at e
      · exact absurd e (by simp)
      · split at e
        · have := ih _ _ _ _ e
          omega
        · simp only [Option.some.injEq] at e
          omega
    · simp only [Option.some.injEq] at e
      omega

/-- The run length `prepare_run` returns is the size of the tail when that is at
most one, and at least two otherwise. -/
theorem prepare_run_cases {cmp : α → α → Int} {self : GtkTimSort α}
    {oc oc1 : Option GtkTimSortChange} {r : Nat} {mem : List α}
    (e : prepare_run cmp self oc = some (r, mem, oc1)) :
    (self.size ≤ 1 ∧ r = self.size ∧ mem = self.mem ∧
        oc1 = gtk_tim_sort_set_change oc none 0) ∨ (2 ≤ self.size ∧ 2 ≤ r) := by
  unfold prepare_run at e
  simp only [] at e
  split at e
  · rename_i hs
    simp only [Option.some.injEq, Prod.mk.injEq] at e
    exact Or.inl ⟨hs, e.1.symm, e.2.1.symm, e.2.2.symm⟩
  · rename_i hs
    refine Or.inr ⟨by omega, ?_⟩
    split at e
    · exact absurd e (by simp)
    · split at e
      · split at e
        · exact absurd e (by simp)
        · rename_i r1 h1
          have := prepare_run_desc_ge cmp _ _ _ _ _ _ _ h1
          split at e
          · exact absurd e (by simp)
          · simp only [Option.some.injEq, Prod.mk.injEq] at e
            omega
      · split at e
        · exact absurd e (by simp)
        · rename_i r1 h1
          have := prepare_run_asc_ge cmp _ _ _ _ _ _ _ h1
          simp only [Option.some.injEq, Prod.mk.injEq] at e
          omega

theorem merge_append_false {cmp : α → α → Int} {self s2 : GtkTimSort α}
    {oc oc2 : Option GtkTimSortChange}
    (e : merge_append cmp self oc = some (false, s2, oc2)) :
    self.size = 0 ∧ s2 = self ∧ oc2 = gtk_tim_sort_set_change oc none 0 := by
  unfold merge_append at e
  cases hp : prepare_run cmp self oc with
  | none => simp [hp] at e
  | some q =>
    obtain ⟨r, mem, oc1⟩ := q
    simp only [hp] at e
    split at e
    · rename_i hr
      simp only [Option.some.injEq, Prod.mk.injEq, true_and] at e
      rcases prepare_run_cases hp with ⟨h1, h2, h3, h4⟩ | ⟨_, h2⟩
      · refine ⟨by omega, ?_, by rw [← e.2, h4]⟩
        rw [← e.1, h3]
      · omega
    · split at e
      · split at e
        · exact absurd e (by simp)
        · split at e
          · exact absurd e (by simp)
          · simp at e
      · split at e
        · exact absurd e (by simp)
        · simp at e

theorem merge_append_zero (cmp : α → α → Int) (self : GtkTimSort α)
    (oc : Option GtkTimSortChange) (h0 : self.size = 0) :
    merge_append cmp self oc = some (false, self, gtk_tim_sort_set_change oc none 0) := by
  unfold merge_append prepare_run
  simp only []
  rw [if_pos (show self.size ≤ 1 by omega)]
  simp only []
  rw [if_pos h0]

/-- A call of `step` that returns `FALSE` found an empty tail and at most one
pending run, and changed nothing. -/
theorem step_false_inv {cmp : α → α → Int} {self s' : GtkTimSort α}
    {oc oc' : Option GtkTimSortChange} (e : step cmp self oc = some (false, s', oc')) :
    s' = self ∧ self.size = 0 ∧ self.pending_runs ≤ 1 ∧
      oc' = gtk_tim_sort_set_change oc none 0 := by
  unfold step at e
  rcases merge_collapse_cases cmp self oc with h1 | ⟨_, n, _, h1⟩
  · rw [h1] at e
    simp only [] at e
    cases ha : merge_append cmp self oc with
    | none => simp [ha] at e
    | some q =>
      obtain ⟨b, s2, oc2⟩ := q
      cases b with
      | true => simp [ha] at e
      | false =>
        obtain ⟨a1, a2, a3⟩ := merge_append_false ha
        subst a2 a3
        simp only [ha] at e
        rcases merge_force_collapse_cases cmp s2 (gtk_tim_sort_set_change oc none 0) with
          ⟨hp, h2⟩ | ⟨_, n, _, h2⟩
        · rw [h2] at e
          simp only [Option.some.injEq, Prod.mk.injEq, true_and] at e
          exact ⟨e.1.symm, a1, hp, e.2.symm⟩
        · rw [h2] at e
          cases hm : merge_at cmp s2 n (gtk_tim_sort_set_change oc none 0) with
          | none => simp [hm] at e
          | some r => simp [hm] at e
  · rw [h1] at e
    cases hm : merge_at cmp self n oc with
    | none => simp [hm] at e
    | some r => simp [hm] at e

/-- With an empty tail and at most one pending run, `step` returns `FALSE` and
changes nothing. -/
theorem step_terminal (cmp : α → α → Int) (self : GtkTimSort α) (oc : Option GtkTimSortChange)
    (h0 : self.size = 0) (h1 : self.pending_runs ≤ 1) :
    step cmp self oc = some (false, self, gtk_tim_sort_set_change oc none 0) := by
  unfold step
  have e1 : merge_collapse cmp self oc = some (false, self, oc) := by
    unfold merge_collapse
    rw [if_pos h1]
  have e3 : merge_force_collapse cmp self (gtk_tim_sort_set_change oc none 0) =
      some (false, self, gtk_tim_sort_set_change oc none 0) := by
    unfold merge_force_collapse
    rw [if_pos h1]
  rw [e1]
  simp only []
  rw [merge_append_zero cmp self oc h0]
  simp only []
  rw [e3]

/-! ## The progress loop -/

theorem get_progress_loop_step (self : GtkTimSort α) (fuel i last p len : Nat)
    (h1 : i < DEPTH + 1) (h2 : i < self.pending_runs) (h3 : run_len self i = some len) :
    get_progress_loop self (fuel + 1) i last p =
      get_progress_loop self fuel (i + 1) (min last len)
        ((p + ((DEPTH + 1 - i) * max last len) % GSIZE_MOD) % GSIZE_MOD) := by
  rw [get_progress_loop, if_pos ⟨h1, h2⟩, h3]

theorem get_progress_loop_exit (self : GtkTimSort α) (fuel i last p : Nat)
    (h : ¬ (i < DEPTH + 1 ∧ i < self.pending_runs)) :
    get_progress_loop self (fuel + 1) i last p = some (i, last, p) := by
  rw [get_progress_loop, if_neg h]

theorem get_progress_eq (self : GtkTimSort α)
    (h : 4 * (self.run.map (fun r => r.len)).sum < GSIZE_MOD) :
    gtk_tim_sort_get_progress self = some (progress_of (self.run.map (fun r => r.len))) := by
  simp only [GSIZE_MOD] at h
  unfold gtk_tim_sort_get_progress
  match hr : self.run, h with
  | [], _ =>
    rw [if_pos (by simp [GtkTimSort.pending_runs, hr])]
    rfl
  | [r0], h =>
    simp only [List.map_cons, List.map_nil, List.sum_cons, List.sum_nil] at h
    have hp : self.pending_runs = 1 := by simp [GtkTimSort.pending_runs, hr]
    have e0 : run_len self 0 = some r0.len := by simp [run_len, hr]
    rw [if_neg (by omega), e0]
    simp only []
    rw [show DEPTH + 1 = 4 + 1 from rfl,
      get_progress_loop_exit self 4 1 _ _ (by omega)]
    simp only [DEPTH, GSIZE_MOD, List.map_cons, List.map_nil, progress_of,
      (by decide : (1 : Nat) < 4 + 1), if_true, Option.some.injEq]
    omega
  | [r0, r1], h =>
    simp only [List.map_cons, List.map_nil, List.sum_cons, List.sum_nil] at h
    have hp : self.pending_runs = 2 := by simp [GtkTimSort.pending_runs, hr]
    have e0 : run_len self 0 = some r0.len := by simp [run_len, hr]
    have e1 : run_len self 1 = some r1.len := by simp [run_len, hr]
    rw [if_neg (by omega), e0]
    simp only []
    rw [show DEPTH + 1 = 4 + 1 from rfl,
      get_progress_loop_step self 4 1 _ _ _ (by decide) (by omega) e1,
      get_progress_loop_exit self 3 2 _ _ (by omega)]
    simp only [DEPTH, GSIZE_MOD, List.map_cons, List.map_nil, progress_of,
      (by decide : (2 : Nat) < 4 + 1), if_true, Option.some.injEq]
    omega
  | [r0, r1, r2], h =>
    simp only [List.map_cons, List.map_nil, List.sum_cons, List.sum_nil] at h
    have hp : self.pending_runs = 3 := by simp [GtkTimSort.pending_runs, hr]
    have e0 : run_len self 0 = some r0.len := by simp [run_len, hr]
    have e1 : run_len self 1 = some r1.len := by simp [run_len, hr]
    have e2 : run_len self 2 = some r2.len := by simp [run_len, hr]
    rw [if_neg (by omega), e0]
    simp only []
    rw [show DEPTH + 1 = 4 + 1 from rfl,
      get_progress_loop_step self 4 1 _ _ _ (by decide) (by omega) e1,
      get_progress_loop_step self 3 2 _ _ _ (by decide) (by omega) e2,
      get_progress_loop_exit self 2 3 _ _ (by omega)]
    simp only [DEPTH, GSIZE_MOD, List.map_cons, List.map_nil, progress_of,
      (by decide : (3 : Nat) < 4 + 1), if_true, Option.some.injEq]
    omega
  | [r0, r1, r2, r3], h =>
    simp only [List.map_cons, List.map_nil, List.sum_cons, List.sum_nil] at h
    have hp : self.pending_runs = 4 := by simp [GtkTimSort.pending_runs, hr]
    have e0 : run_len self 0 = some r0.len := by simp [run_len, hr]
    have e1 : run_len self 1 = some r1.len := by simp [run_len, hr]
    have e2 : run_len self 2 = some r2.len := by simp [run_len, hr]
    have e3 : run_len self 3 = some r3.len := by simp [run_len, hr]
    rw [if_neg (by omega), e0]
    simp only []
    rw [show DEPTH + 1 = 4 + 1 from rfl,
      get_progress_loop_step self 4 1 _ _ _ (by decide) (by omega) e1,
      get_progress_loop_step self 3 2 _ _ _ (by decide) (by omega) e2,
      get_progress_loop_step self 2 3 _ _ _ (by decide) (by omega) e3,
      get_progress_loop_exit self 1 4 _ _ (by omega)]
    simp only [DEPTH, GSIZE_MOD, List.map_cons, List.map_nil, progress_of,
      (by decide : (4 : Nat) < 4 + 1), if_true, Option.some.injEq]
    omega
  | r0 :: r1 :: r2 :: r3 :: r4 :: rs, h =>
    simp only [List.map_cons, List.sum_cons] at h
    have hp : self.pending_runs = rs.length + 5 := by
      simp [GtkTimSort.pending_runs, hr]
    have e0 : run_len self 0 = some r0.len := by simp [run_len, hr]
    have e1 : run_len self 1 = some r1.len := by simp [run_len, hr]
    have e2 : run_len self 2 = some r2.len := by simp [run_len, hr]
    have e3 : run_len self 3 = some r3.len := by simp [run_len, hr]
    have e4 : run_len self 4 = some r4.len := by simp [run_len, hr]
    rw [if_neg (by omega), e0]
    simp only []
    rw [show DEPTH + 1 = 4 + 1 from rfl,
      get_progress_loop_step self 4 1 _ _ _ (by decide) (by omega) e1,
      get_progress_loop_step self 3 2 _ _ _ (by decide) (by omega) e2,
      get_progress_loop_step self 2 3 _ _ _ (by decide) (by omega) e3,
      get_progress_loop_step self 1 4 _ _ _ (by decide) (by omega) e4,
      get_progress_loop_exit self 0 5 _ _ (by simp [DEPTH])]
    simp only [DEPTH, GSIZE_MOD, List.map_cons, progress_of, Nat.lt_irrefl, if_false,
      Option.some.injEq]
    omega

/-! ## The closed form of the progress estimate -/

theorem runs_of_lens (segs : List (List α)) :
    ∀ b, (runs_of b segs).map (fun r => r.len) = segs.map List.length := by
  induction segs with
  | nil => intro b; rfl
  | cons s ss ih =>
    intro b
    simp only [runs_of, List.map_cons, ih]

theorem progress_of_le_sum (L : List Nat) : progress_of L ≤ L.sum := by
  match L with
  | [] => simp only [progress_of, List.sum_cons, List.sum_nil, List.cons_append, List.nil_append]; omega
  | [a] => simp only [progress_of, List.sum_cons, List.sum_nil, List.cons_append, List.nil_append]; omega
  | [a, b] => simp only [progress_of, List.sum_cons, List.sum_nil, List.cons_append, List.nil_append]; omega
  | [a, b, c] => simp only [progress_of, List.sum_cons, List.sum_nil, List.cons_append, List.nil_append]; omega
  | [a, b, c, d] => simp only [progress_of, List.sum_cons, List.sum_nil, List.cons_append, List.nil_append]; omega
  | a :: b :: c :: d :: e :: rs => simp only [progress_of, List.sum_cons, List.sum_nil, List.cons_append, List.nil_append]; omega

theorem progress_of_lt_sum (L : List Nat) (h2 : 2 ≤ L.length) (hpos : ∀ x ∈ L, 0 < x) :
    progress_of L < L.sum := by
  match L, h2, hpos with
  | [a, b], _, hpos =>
    have ha := hpos a (by simp)
    have hb := hpos b (by simp)
    simp only [progress_of, List.sum_cons, List.sum_nil, List.cons_append, List.nil_append]; omega
  | [a, b, c], _, hpos =>
    have ha := hpos a (by simp)
    have hb := hpos b (by simp)
    simp only [progress_of, List.sum_cons, List.sum_nil, List.cons_append, List.nil_append]; omega
  | [a, b, c, d], _, hpos =>
    have ha := hpos a (by simp)
    have hb := hpos b (by simp)
    simp only [progress_of, List.sum_cons, List.sum_nil, List.cons_append, List.nil_append]; omega
  | a :: b :: c :: d :: e :: rs, _, hpos =>
    have ha := hpos a (by simp)
    have hb := hpos b (by simp)
    simp only [progress_of, List.sum_cons, List.sum_nil, List.cons_append, List.nil_append]; omega

theorem progress_of_push (L : List Nat) (r : Nat) : progress_of L ≤ progress_of (L ++ [r]) := by
  match L with
  | [] => simp only [progress_of, List.sum_cons, List.sum_nil, List.cons_append, List.nil_append]; omega
  | [a] => simp only [progress_of, List.sum_cons, List.sum_nil, List.cons_append, List.nil_append]; omega
  | [a, b] => simp only [progress_of, List.sum_cons, List.sum_nil, List.cons_append, List.nil_append]; omega
  | [a, b, c] => simp only [progress_of, List.sum_cons, List.sum_nil, List.cons_append, List.nil_append]; omega
  | [a, b, c, d] => simp only [progress_of, List.sum_cons, List.sum_nil, List.cons_append, List.nil_append]; omega
  | a :: b :: c :: d :: e :: rs => simp only [progress_of, List.sum_cons, List.sum_nil, List.cons_append, List.nil_append]; omega

theorem progress_of_merge_nil_c (p0 p1 a b : Nat) :
    progress_of [p0, p1, a, b] ≤ progress_of [p0, p1, a + b] := by
  simp only [progress_of]
  generalize min p0 p1 = m
  generalize max p0 p1 = n
  omega

theorem progress_of_merge_nil_d (p0 p1 p2 a b : Nat) :
    progress_of [p0, p1, p2, a, b] ≤ progress_of [p0, p1, p2, a + b] := by
  simp only [progress_of]
  generalize min (min p0 p1) p2 = m
  generalize max (min p0 p1) p2 = n
  generalize max p0 p1 = n2
  omega

theorem progress_of_merge_nil_e (p0 p1 p2 p3 a b : Nat) :
    progress_of [p0, p1, p2, p3, a, b] ≤ progress_of [p0, p1, p2, p3, a + b] := by
  simp only [progress_of]
  generalize min (min (min p0 p1) p2) p3 = m
  generalize max (min (min p0 p1) p2) p3 = n
  generalize max (min p0 p1) p2 = n2
  generalize max p0 p1 = n3
  omega

theorem progress_of_merge_nil (pre : List Nat) (a b : Nat) :
    progress_of (pre ++ [a, b]) ≤ progress_of (pre ++ [a + b]) := by
  match pre with
  | [] => simp only [progress_of, List.sum_cons, List.sum_nil, List.cons_append, List.nil_append]; omega
  | [p0] => simp only [progress_of, List.sum_cons, List.sum_nil, List.cons_append, List.nil_append]; omega
  | [p0, p1] => exact progress_of_merge_nil_c p0 p1 a b
  | [p0, p1, p2] => exact progress_of_merge_nil_d p0 p1 p2 a b
  | [p0, p1, p2, p3] => exact progress_of_merge_nil_e p0 p1 p2 p3 a b
  | p0 :: p1 :: p2 :: p3 :: p4 :: ps => simp only [progress_of, List.sum_cons, List.sum_nil, List.cons_append, List.nil_append]; omega

theorem progress_of_merge_one_a (a b q : Nat) :
    progress_of [a, b, q] ≤ progress_of [a + b, q] := by
  simp only [progress_of]; omega

theorem progress_of_merge_one_b (p0 a b q : Nat) :
    progress_of [p0, a, b, q] ≤ progress_of [p0, a + b, q] := by
  simp only [progress_of]; omega

theorem progress_of_merge_one_c (p0 p1 a b q : Nat) :
    progress_of [p0, p1, a, b, q] ≤ progress_of [p0, p1, a + b, q] := by
  simp only [progress_of]
  generalize min p0 p1 = m
  generalize max p0 p1 = n
  omega

theorem progress_of_merge_one_d (p0 p1 p2 a b q : Nat) :
    progress_of [p0, p1, p2, a, b, q] ≤ progress_of [p0, p1, p2, a + b, q] := by
  simp only [progress_of]
  generalize min (min p0 p1) p2 = m
  generalize max (min p0 p1) p2 = n
  generalize max p0 p1 = n2
  omega

theorem progress_of_merge_one_e (p0 p1 p2 p3 a b q : Nat) :
    progress_of [p0, p1, p2, p3, a, b, q] ≤ progress_of [p0, p1, p2, p3, a + b, q] := by
  simp only [progress_of]
  generalize min (min (min p0 p1) p2) p3 = m
  generalize max (min (min p0 p1) p2) p3 = n
  generalize max (min p0 p1) p2 = n2
  generalize max p0 p1 = n3
  omega

theorem progress_of_merge (pre post : List Nat) (a b : Nat) (hpost : post.length ≤ 1) :
    progress_of (pre ++ a :: b :: post) ≤ progress_of (pre ++ (a + b) :: post) := by
  match post, hpost with
  | [], _ => exact progress_of_merge_nil pre a b
  | [q], _ =>
    match pre with
    | [] => exact progress_of_merge_one_a a b q
    | [p0] => exact progress_of_merge_one_b p0 a b q
    | [p0, p1] => exact progress_of_merge_one_c p0 p1 a b q
    | [p0, p1, p2] => exact progress_of_merge_one_d p0 p1 p2 a b q
    | [p0, p1, p2, p3] => exact progress_of_merge_one_e p0 p1 p2 p3 a b q
    | p0 :: p1 :: p2 :: p3 :: p4 :: ps => simp only [progress_of, List.sum_cons, List.sum_nil, List.cons_append, List.nil_append]; omega

/-! ## The shape of the run stack after a call -/

/-- What a merge at one of the two stack indices `merge_collapse` and
`merge_force_collapse` choose does to the runs: two neighbours `A` and `B` are
replaced by their stable merge, or, when one of them is longer than the cap, by two
runs that cover the same elements. -/
theorem merge_at_top_shape {cmp : α → α → Int} (h : TotalPreorder cmp) (self : GtkTimSort α)
    (oc : Option GtkTimSortChange) {segs : List (List α)} {tail : List α}
    (hL : Layout cmp self segs tail) (h64 : self.mem.length < GSIZE_MOD)
    (hmax : 1 ≤ self.max_merge_size) (n : Nat)
    (hn : (2 ≤ segs.length ∧ n = segs.length - 2) ∨ (3 ≤ segs.length ∧ n = segs.length - 3)) :
    ∃ self' oc', merge_at cmp self n oc = some (self', oc') ∧
      ∃ pre A B post, segs = pre ++ A :: B :: post ∧ post.length ≤ 1 ∧
        ((∃ C, Layout cmp self' (pre ++ C :: post) tail ∧ Stable cmp (A ++ B) C) ∨
          (∃ C D, Layout cmp self' (pre ++ C :: D :: post) tail ∧
            C.length + D.length = A.length + B.length ∧
            (self.max_merge_size < A.length ∨ self.max_merge_size < B.length))) := by
  have key : ∀ (pre post : List (List α)) (A B : List α), segs = pre ++ A :: B :: post →
      post.length ≤ 1 → n = pre.length →
      ∃ self' oc', merge_at cmp self n oc = some (self', oc') ∧
      ∃ pre A B post, segs = pre ++ A :: B :: post ∧ post.length ≤ 1 ∧
        ((∃ C, Layout cmp self' (pre ++ C :: post) tail ∧ Stable cmp (A ++ B) C) ∨
          (∃ C D, Layout cmp self' (pre ++ C :: D :: post) tail ∧
            C.length + D.length = A.length + B.length ∧
            (self.max_merge_size < A.length ∨ self.max_merge_size < B.length))) := by
    intro pre post A B e hpost hn
    rw [e] at hL
    obtain ⟨self', oc', e1, _, hst, _, hc⟩ := merge_at_spec_cap h self oc hL hpost h64 hmax
    rw [hn]
    refine ⟨self', oc', e1, pre, A, B, post, e, hpost, ?_⟩
    rcases hc with ⟨C, hL', _, hs⟩ | ⟨C, D, hL', _, hcap⟩
    · exact Or.inl ⟨C, hL', hs⟩
    · refine Or.inr ⟨C, D, hL', ?_, hcap⟩
      have hlen := stable_length_eq hst
      rw [hL.1, hL'.1] at hlen
      simp only [List.length_append, List.flatten_append, List.flatten_cons] at hlen
      omega
  rcases hn with ⟨hl, hn⟩ | ⟨hl, hn⟩
  · obtain ⟨pre, A, B, e, hp⟩ := segs_split_two segs hl
    exact key pre [] A B e (by simp) (by rw [hn, hp])
  · obtain ⟨pre, A, B, D, e, hp⟩ := segs_split_three segs hl
    exact key pre [D] A B e (by simp) (by rw [hn, hp])

/-- The three things a call of `step` can do to a sorter made of the runs `segs` and
of `tail`: nothing, when it returns `FALSE`; push a run cut from the tail; or merge
two neighbouring runs, completely or up to the cap. -/
theorem step_shape {cmp : α → α → Int} (h : TotalPreorder cmp) (self : GtkTimSort α)
    (oc : Option GtkTimSortChange) {segs : List (List α)} {tail : List α}
    (hL : Layout cmp self segs tail) (h64 : self.mem.length < GSIZE_MOD)
    (hmax : 1 ≤ self.max_merge_size) :
    ∃ b self' oc', step cmp self oc = some (b, self', oc') ∧
      ((b = false ∧ self' = self) ∨
        (b = true ∧ ∃ seg rest, seg.length + rest.length = tail.length ∧
          Layout cmp self' (segs ++ [seg]) rest) ∨
        (b = true ∧ ∃ pre A B post, segs = pre ++ A :: B :: post ∧ post.length ≤ 1 ∧
          ((∃ C, Layout cmp self' (pre ++ C :: post) tail ∧ Stable cmp (A ++ B) C) ∨
            (∃ C D, Layout cmp self' (pre ++ C :: D :: post) tail ∧
              C.length + D.length = A.length + B.length ∧
              (self.max_merge_size < A.length ∨ self.max_merge_size < B.length))))) := by
  have hp := runs_pending self _ hL.2.1
  unfold step
  rcases merge_collapse_cases cmp self oc with e | ⟨hp2, n, hn, e⟩
  · rw [e]
    simp only []
    rcases merge_append_spec h self oc segs.flatten tail hL.1 hL.2.2.1.symm hL.2.2.2.1.symm with
      ⟨hs0, e⟩ | ⟨hpos, seg, rest, oc', e, hne, hss, hlen, hst, hrep, _⟩
    · rw [e]
      simp only []
      rcases merge_force_collapse_cases cmp self (gtk_tim_sort_set_change oc none 0) with
        ⟨hp1, e⟩ | ⟨hp2, n, hn, e⟩
      · rw [e]
        exact ⟨false, self, _, rfl, Or.inl ⟨rfl, rfl⟩⟩
      · obtain ⟨s', oc', e', hsh⟩ := merge_at_top_shape h self (gtk_tim_sort_set_change oc none 0)
          hL h64 hmax n (by omega)
        rw [e, e']
        exact ⟨true, s', oc', rfl, Or.inr (Or.inr ⟨rfl, hsh⟩)⟩
    · rw [e]
      refine ⟨true, _, _, rfl, Or.inr (Or.inl ⟨rfl, seg, rest, hlen, ?_⟩)⟩
      obtain ⟨l1, l2, l3, l4, l5⟩ := hL
      refine ⟨?_, ?_, ?_, ?_, ?_⟩
      · show segs.flatten ++ (seg ++ rest) = _
        simp
      · show self.run ++ [_] = _
        rw [runs_of_append, l2, l3]
        simp [runs_of]
      · show self.base + seg.length = _
        rw [l3]
        simp
      · show self.size - seg.length = _
        omega
      · intro s hs
        rcases List.mem_append.1 hs with hs | hs
        · exact l5 s hs
        · rw [List.mem_singleton.1 hs]
          exact ⟨hne, hss⟩
  · obtain ⟨s', oc', e', hsh⟩ := merge_at_top_shape h self oc hL h64 hmax n (by omega)
    rw [e, e']
    exact ⟨true, s', oc', rfl, Or.inr (Or.inr ⟨rfl, hsh⟩)⟩

/-! ## Saved runs -/

theorem runs_from_lens (rs : List Nat) :
    ∀ b, (runs_from b rs).map (fun r => r.len) = rs := by
  induction rs with
  | nil => intro b; rfl
  | cons r rs ih =>
    intro b
    simp only [runs_from, List.map_cons, ih]

theorem runs_from_lengths (segs : List (List α)) :
    ∀ b, runs_from b (segs.map List.length) = runs_of b segs := by
  induction segs with
  | nil => intro b; rfl
  | cons s ss ih =>
    intro b
    simp only [List.map_cons, runs_from, runs_of, ih]

theorem runs_from_getElem (rs : List Nat) :
    ∀ (b j r : Nat), rs[j]? = some r →
      (runs_from b rs)[j]? = some { base := b + (rs.take j).sum, len := r } := by
  induction rs with
  | nil => intro b j r e; simp at e
  | cons r0 rs ih =>
    intro b j r e
    cases j with
    | zero =>
      simp only [List.getElem?_cons_zero, Option.some.injEq] at e
      simp [runs_from, e]
    | succ j =>
      simp only [List.getElem?_cons_succ] at e
      simp only [runs_from, List.getElem?_cons_succ, List.take_succ_cons, List.sum_cons]
      rw [ih (b + r0) j r e, Nat.add_assoc]

/-! ## Progress of a resumable sorter -/

theorem layout_lens {cmp : α → α → Int} {self : GtkTimSort α} {segs : List (List α)}
    {tail : List α} (hL : Layout cmp self segs tail) :
    self.run.map (fun r => r.len) = segs.map List.length ∧
      (segs.map List.length).sum + tail.length = self.mem.length ∧
      (∀ x ∈ segs.map List.length, 0 < x) ∧ self.pending_runs = segs.length := by
  obtain ⟨l1, l2, l3, l4, l5⟩ := hL
  refine ⟨by rw [l2, runs_of_lens], ?_, ?_, runs_pending self _ l2⟩
  · rw [l1, List.length_append, List.length_flatten]
  · intro x hx
    obtain ⟨s, hs, rfl⟩ := List.mem_map.1 hx
    exact List.length_pos.2 (l5 s hs).1

theorem layout_progress {cmp : α → α → Int} {self : GtkTimSort α} {segs : List (List α)}
    {tail : List α} (hL : Layout cmp self segs tail) (h64 : 4 * self.mem.length < GSIZE_MOD) :
    gtk_tim_sort_get_progress self = some (progress_of (segs.map List.length)) := by
  obtain ⟨e1, e2, _, _⟩ := layout_lens hL
  rw [← e1]
  apply get_progress_eq
  rw [e1]
  omega

theorem resumable_progress {cmp : α → α → Int} {input : List α} {s : GtkTimSort α}
    (hR : Resumable cmp input s) (h64 : 4 * input.length < GSIZE_MOD) :
    ∃ p, gtk_tim_sort_get_progress s = some p ∧ p ≤ input.length ∧
      (s.pending_runs = 0 → p = 0) ∧
      (p = input.length ↔ s.size = 0 ∧ s.pending_runs ≤ 1) := by
  obtain ⟨⟨segs, tail, hL⟩, hst, _, _⟩ := hR
  have hlen := stable_length_eq hst
  obtain ⟨e1, e2, e3, e4⟩ := layout_lens hL
  have hsz : s.size = tail.length := hL.2.2.2.1
  refine ⟨_, layout_progress hL (by omega), ?_, ?_, ?_⟩
  · have := progress_of_le_sum (segs.map List.length)
    omega
  · intro h0
    rw [e4] at h0
    rw [List.length_eq_zero.1 h0]
    rfl
  · rw [e4, hsz]
    match segs, e2, e3 with
    | [], e2, _ =>
      simp only [List.map_nil, List.sum_nil, progress_of, List.length_nil] at e2 ⊢
      omega
    | [A], e2, _ =>
      simp only [List.map_cons, List.map_nil, List.sum_cons, List.sum_nil, progress_of,
        List.length_cons, List.length_nil] at e2 ⊢
      omega
    | A :: B :: rest, e2, e3 =>
      have hlt := progress_of_lt_sum ((A :: B :: rest).map List.length) (by simp) e3
      simp only [List.length_cons]
      omega

/-! ## Calls after completion -/

/-- C11: Stepping after completion.  If a call of `gtk_tim_sort_step` has returned
`FALSE`, then it left the sorter as it found it, and every further call, whatever
`out_change` it is given, returns `FALSE` again and leaves every field of the sorter
unchanged: the array, the run stack, `base`, `size` and the tunables. -/
theorem step_after_completion (cmp : α → α → Int) (self s' : GtkTimSort α)
    (oc oc' oc2 : Option GtkTimSortChange)
    (e : gtk_tim_sort_step cmp self oc = some (false, s', oc')) :
    s' = self ∧
      gtk_tim_sort_step cmp s' oc2 = some (false, s', gtk_tim_sort_set_change oc2 none 0) := by
  rw [gtk_tim_sort_step_eq] at e
  obtain ⟨rfl, h0, h1, _⟩ := step_false_inv e
  refine ⟨rfl, ?_⟩
  rw [gtk_tim_sort_step_eq]
  exact step_terminal cmp s' oc2 h0 h1

theorem step_after_completion_witness :
    gtk_tim_sort_step int_cmp
        { gtk_tim_sort_init [1, 2, 3] 3 4 with
          run := [{ base := 0, len := 3 }], base := 3, size := 0 } none =
      some (false,
        { gtk_tim_sort_init [1, 2, 3] 3 4 with
          run := [{ base := 0, len := 3 }], base := 3, size := 0 }, none) ∧
    ({ gtk_tim_sort_init [1, 2, 3] 3 4 with
          run := [{ base := 0, len := 3 }], base := 3, size := 0 } =
        ({ gtk_tim_sort_init [1, 2, 3] 3 4 with
          run := [{ base := 0, len := 3 }], base := 3, size := 0 } : GtkTimSort Int) ∧
      gtk_tim_sort_step int_cmp
          { gtk_tim_sort_init [1, 2, 3] 3 4 with
            run := [{ base := 0, len := 3 }], base := 3, size := 0 }
          (some { base := some 1, len := 2 }) =
        some (false,
          { gtk_tim_sort_init [1, 2, 3] 3 4 with
            run := [{ base := 0, len := 3 }], base := 3, size := 0 },
          gtk_tim_sort_set_change (some { base := some 1, len := 2 }) none 0)) :=
  ⟨by decide, step_after_completion int_cmp _ _ none none (some { base := some 1, len := 2 })
    (by decide)⟩

/-! ## Properties of the progress estimate -/

/-- C13, as stated, fails for the empty array: the freshly initialised sorter of
no elements reports the progress `0`, which is the number of elements, although no
run is pending. -/
theorem progress_full_without_run :
    Reachable int_cmp [] 0 4 (gtk_tim_sort_init [] 0 4) ∧
      gtk_tim_sort_get_progress (gtk_tim_sort_init ([] : List Int) 0 4) = some 0 ∧
      (gtk_tim_sort_init ([] : List Int) 0 4).pending_runs = 0 :=
  ⟨Reachable.init, rfl, rfl⟩

/-- C13 (amended): for every state reachable from `gtk_tim_sort_init` on `size`
elements, with `4 * size` below `2 ^ 64`, `gtk_tim_sort_get_progress` returns a value
that is at most `size`, that is `0` when no run is pending, and that equals `size`
if and only if the unconsumed tail is empty and at most one run is pending; when
`size` is positive this is the case if and only if the run stack holds exactly one
run, which starts at the first element and has length `size`. -/
theorem progress_full_iff_done {cmp : α → α → Int} (h : TotalPreorder cmp) (base : List α)
    (size element_size : Nat) (hlen : base.length = size) (h64 : 4 * size < GSIZE_MOD)
    (s : GtkTimSort α) (hr : Reachable cmp base size element_size s) :
    ∃ p, gtk_tim_sort_get_progress s = some p ∧ p ≤ size ∧
      (s.pending_runs = 0 → p = 0) ∧
      (p = size ↔ s.size = 0 ∧ s.pending_runs ≤ 1) ∧
      (0 < size → (p = size ↔ s.run = [{ base := 0, len := size }])) := by
  have hR := reachable_resumable h hlen (by omega) hr
  obtain ⟨p, e, h1, h2, h3⟩ := resumable_progress hR (by rw [hlen]; exact h64)
  rw [hlen] at h1 h3
  refine ⟨p, e, h1, h2, h3, fun hpos => ⟨fun hp => ?_, fun hrun => ?_⟩⟩
  · obtain ⟨t0, t1⟩ := h3.1 hp
    have := (terminal_run_stack hR t0 t1).1 (by omega)
    rw [hlen] at this
    exact this
  · have e2 : gtk_tim_sort_get_progress s = some size := by
      have := get_progress_eq s (by rw [hrun]; simpa using h64)
      rw [this, hrun]
      simp [progress_of]
    rw [e] at e2
    exact Option.some.inj e2

theorem progress_full_iff_done_witness :
    TotalPreorder int_cmp ∧ ([2, 1] : List Int).length = 2 ∧ 4 * 2 < GSIZE_MOD ∧
      Reachable int_cmp [2, 1] 2 4 (gtk_tim_sort_init [2, 1] 2 4) ∧
      ∃ p, gtk_tim_sort_get_progress (gtk_tim_sort_init ([2, 1] : List Int) 2 4) = some p ∧
        p ≤ 2 ∧ ((gtk_tim_sort_init ([2, 1] : List Int) 2 4).pending_runs = 0 → p = 0) ∧
        (p = 2 ↔ (gtk_tim_sort_init ([2, 1] : List Int) 2 4).size = 0 ∧
          (gtk_tim_sort_init ([2, 1] : List Int) 2 4).pending_runs ≤ 1) ∧
        (0 < 2 → (p = 2 ↔
          (gtk_tim_sort_init ([2, 1] : List Int) 2 4).run = [{ base := 0, len := 2 }])) :=
  ⟨int_cmp_total, rfl, by decide, Reachable.init,
    progress_full_iff_done int_cmp_total [2, 1] 2 4 rfl (by decide) _ Reachable.init⟩

/-- C14, as stated, fails when merges are capped: on `two_runs_input` with
`max_merge_size` set to 1, the two calls that push the runs of 20 and of 12 elements
lead to a state with the progress 29, and the next call, a partial merge that moves
one element from the first run to the second, lowers it to 28. -/
theorem progress_drops_on_partial_merge :
    ∃ s s' : GtkTimSort Int, Reachable int_cmp two_runs_input 32 4 s ∧
      gtk_tim_sort_step int_cmp s none = some (true, s', none) ∧
      gtk_tim_sort_get_progress s = some 29 ∧ gtk_tim_sort_get_progress s' = some 28 :=
  ⟨{ gtk_tim_sort_set_max_merge_size (gtk_tim_sort_init two_runs_input 32 4) 1 with
      run := [{ base := 0, len := 20 }, { base := 20, len := 12 }], base := 32, size := 0 },
    { gtk_tim_sort_set_max_merge_size (gtk_tim_sort_init
        [0, 1, 2, 3, 4, 5, 6, 7, 8, 9, 10, 11, 12, 13, 14, 15, 16, 17, 100,
          50, 51, 52, 53, 54, 55, 56, 57, 58, 59, 60, 61, 101] 32 4) 1 with
      min_run := 16, tmp_length := 2,
      run := [{ base := 0, len := 19 }, { base := 19, len := 13 }], base := 32, size := 0 },
    Reachable.step
      { gtk_tim_sort_set_max_merge_size (gtk_tim_sort_init two_runs_input 32 4) 1 with
        run := [{ base := 0, len := 20 }], base := 20, size := 12 } _ none none true
      (Reachable.step _ _ none none true (Reachable.set_max _ 1 Reachable.init) (by decide))
      (by decide),
    by decide, by decide, by decide⟩

/-! ## Saving and restoring the runs -/

theorem get_runs_eq (self : GtkTimSort α) :
    gtk_tim_sort_get_runs self = self.run.map (fun r => r.len) ++ [0] := rfl

/-- C17: `gtk_tim_sort_set_runs` is only accepted at the beginning.  When the sorter
has a pending run already, the call returns the sorter as it was: the run stack,
`base`, `size` and every other field are unchanged. -/
theorem set_runs_rejected (self : GtkTimSort α) (runs : List Nat)
    (h : self.pending_runs ≠ 0) : gtk_tim_sort_set_runs self runs = some self := by
  unfold gtk_tim_sort_set_runs
  rw [if_neg h]

theorem set_runs_rejected_witness :
    ({ gtk_tim_sort_init ([1, 2, 3] : List Int) 3 4 with
        run := [{ base := 0, len := 2 }], base := 2, size := 1 }).pending_runs ≠ 0 ∧
      gtk_tim_sort_set_runs
          { gtk_tim_sort_init ([1, 2, 3] : List Int) 3 4 with
            run := [{ base := 0, len := 2 }], base := 2, size := 1 } [1, 0] =
        some { gtk_tim_sort_init ([1, 2, 3] : List Int) 3 4 with
          run := [{ base := 0, len := 2 }], base := 2, size := 1 } :=
  ⟨by decide, set_runs_rejected _ [1, 0] (by decide)⟩

/-- C18: Configuration of `max_merge_size`.  After `gtk_tim_sort_init` the cap on
merges is `G_MAXSIZE`; `gtk_tim_sort_set_max_merge_size` given `0` sets it to
`G_MAXSIZE` and given a positive `m` sets it to `m`; in both cases every other field
of the sorter, the array included, is what it was. -/
theorem max_merge_size_configuration (base : List α) (size element_size : Nat)
    (self : GtkTimSort α) (m : Nat) (hm : 0 < m) :
    (gtk_tim_sort_init base size element_size).max_merge_size = G_MAXSIZE ∧
      gtk_tim_sort_set_max_merge_size self 0 = { self with max_merge_size := G_MAXSIZE } ∧
      gtk_tim_sort_set_max_merge_size self m = { self with max_merge_size := m } := by
  refine ⟨rfl, rfl, ?_⟩
  unfold gtk_tim_sort_set_max_merge_size
  simp only []
  rw [if_neg (by omega)]

theorem max_merge_size_configuration_witness :
    0 < 1024 ∧ (gtk_tim_sort_init ([2, 1] : List Int) 2 4).max_merge_size = G_MAXSIZE ∧
      gtk_tim_sort_set_max_merge_size (gtk_tim_sort_init ([2, 1] : List Int) 2 4) 0 =
        { gtk_tim_sort_init ([2, 1] : List Int) 2 4 with max_merge_size := G_MAXSIZE } ∧
      gtk_tim_sort_set_max_merge_size (gtk_tim_sort_init ([2, 1] : List Int) 2 4) 1024 =
        { gtk_tim_sort_init ([2, 1] : List Int) 2 4 with max_merge_size := 1024 } :=
  ⟨by decide, max_merge_size_configuration [2, 1] 2 4 _ 1024 (by decide)⟩

/-! ## A worked example -/

/-- C19: for the input `[5,3,1,4,1,5,9,2,6]` with the comparison of integers and
`min_run` set to 4, the first call of `gtk_tim_sort_step` merges nothing
(`merge_collapse` returns `FALSE`) and pushes the run `[1,3,4,5]` of length 4, the
second call pushes a second run of length 4, again without a merge, so that a run of
length at least 4 is on the stack before the first merge, which the third call
performs; stepping until `FALSE` is returned leaves `[1,1,2,3,4,5,5,6,9]`. -/
theorem scenario_min_run_four :
    merge_collapse int_cmp
        { gtk_tim_sort_init [5, 3, 1, 4, 1, 5, 9, 2, 6] 9 4 with min_run := 4 } none =
      some (false, { gtk_tim_sort_init [5, 3, 1, 4, 1, 5, 9, 2, 6] 9 4 with min_run := 4 },
        none) ∧
    gtk_tim_sort_step int_cmp
        { gtk_tim_sort_init [5, 3, 1, 4, 1, 5, 9, 2, 6] 9 4 with min_run := 4 } none =
      some (true,
        { gtk_tim_sort_init [1, 3, 4, 5, 1, 5, 9, 2, 6] 9 4 with
          min_run := 4, run := [{ base := 0, len := 4 }], base := 4, size := 5 }, none) ∧
    gtk_tim_sort_step int_cmp
        { gtk_tim_sort_init [1, 3, 4, 5, 1, 5, 9, 2, 6] 9 4 with
          min_run := 4, run := [{ base := 0, len := 4 }], base := 4, size := 5 } none =
      some (true,
        { gtk_tim_sort_init [1, 3, 4, 5, 1, 2, 5, 9, 6] 9 4 with
          min_run := 4, run := [{ base := 0, len := 4 }, { base := 4, len := 4 }],
          base := 8, size := 1 }, none) ∧
    (gtk_tim_sort_step int_cmp
        { gtk_tim_sort_init [1, 3, 4, 5, 1, 2, 5, 9, 6] 9 4 with
          min_run := 4, run := [{ base := 0, len := 4 }, { base := 4, len := 4 }],
          base := 8, size := 1 } none).map (fun r => (r.1, r.2.1.mem, r.2.1.run)) =
      some (true, [1, 1, 2, 3, 4, 5, 5, 9, 6], [{ base := 0, len := 8 }]) ∧
    (gtk_tim_sort_loop int_cmp 6
        { gtk_tim_sort_init [5, 3, 1, 4, 1, 5, 9, 2, 6] 9 4 with min_run := 4 }).map
        (fun s => s.mem) = some [1, 1, 2, 3, 4, 5, 5, 6, 9] := by
  refine ⟨?_, ?_, ?_, ?_, ?_⟩ <;> decide

/-! ## Merging two runs -/

theorem sorted_evens : Sorted int_cmp evens :=
  List.pairwise_map.2 ((List.pairwise_lt_range 100).imp (fun hab => by
    unfold int_cmp
    omega))

theorem sorted_odds : Sorted int_cmp odds :=
  List.pairwise_map.2 ((List.pairwise_lt_range 100).imp (fun hab => by
    unfold int_cmp
    omega))

theorem evens_length : evens.length = 100 := by
  unfold evens
  rw [List.length_map, List.length_range]

theorem odds_length : odds.length = 100 := by
  unfold odds
  rw [List.length_map, List.length_range]

theorem evens_odds_merge :
    naive_merge int_cmp evens odds = (List.range 200).map (fun (i : Nat) => (i : Int)) := by
  set_option maxRecDepth 100000 in decide

/-- C20: The merge equals the element-wise stable merge.  For a sorter made of
sorted runs laid out one after the other, a comparison function that is a total
preorder, the unlimited `max_merge_size` and any value of `min_gallop`, `merge_at`
on two neighbouring runs `A` and `B`, of which `A` is the last but one or the last
but two of the stack, returns and leaves in their range exactly `naive_merge cmp A B`,
the element-wise merge that takes ties from `A`; nothing else of the array changes
and the merged range is the run that replaces the two. -/
theorem merge_at_naive_merge {cmp : α → α → Int} (h : TotalPreorder cmp) (self : GtkTimSort α)
    (oc : Option GtkTimSortChange) (pre post : List (List α)) (A B tail : List α)
    (hL : Layout cmp self (pre ++ A :: B :: post) tail) (hpost : post.length ≤ 1)
    (h64 : self.mem.length < GSIZE_MOD) (hmax : self.max_merge_size = G_MAXSIZE) :
    ∃ self' oc', merge_at cmp self pre.length oc = some (self', oc') ∧
      self'.mem = pre.flatten ++ (naive_merge cmp A B ++ (post.flatten ++ tail)) ∧
      Layout cmp self' (pre ++ naive_merge cmp A B :: post) tail := by
  obtain ⟨self', oc', e, _, _, _, hc⟩ := merge_at_spec_cap h self oc hL hpost h64
    (by rw [hmax]; unfold G_MAXSIZE; omega)
  obtain ⟨_, e2, _, _⟩ := layout_lens hL
  simp only [List.map_append, List.sum_append, List.map_cons, List.sum_cons] at e2
  rcases hc with ⟨C, hL', _, hs⟩ | ⟨C, D, _, _, hcap⟩
  · have hA : Sorted cmp A := (hL.2.2.2.2 A (by simp)).2
    have hB : Sorted cmp B := (hL.2.2.2.2 B (by simp)).2
    have hC : Sorted cmp C := (hL'.2.2.2.2 C (by simp)).2
    have hCe : C = naive_merge cmp A B :=
      sorted_stable_unique h hC (naive_merge_sorted h A B hA hB) hs
        (naive_merge_stable h A B hA)
    rw [hCe] at hL'
    refine ⟨self', oc', e, ?_, hL'⟩
    rw [hL'.1]
    simp
  · rw [hmax] at hcap
    unfold GSIZE_MOD at h64
    unfold G_MAXSIZE at hcap
    omega

theorem merge_at_naive_merge_witness :
    TotalPreorder int_cmp ∧
      Layout int_cmp
        ({ gtk_tim_sort_init (evens ++ odds) 200 4 with
          run := [{ base := 0, len := 100 }, { base := 100, len := 100 }],
          base := 200, size := 0 } : GtkTimSort Int) ([] ++ evens :: odds :: []) [] ∧
      naive_merge int_cmp evens odds = (List.range 200).map (fun (i : Nat) => (i : Int)) ∧
      ∃ self' oc', merge_at int_cmp
          ({ gtk_tim_sort_init (evens ++ odds) 200 4 with
            run := [{ base := 0, len := 100 }, { base := 100, len := 100 }],
            base := 200, size := 0 } : GtkTimSort Int) ([] : List (List Int)).length none =
            some (self', oc') ∧
        self'.mem = ([] : List (List Int)).flatten ++
          (naive_merge int_cmp evens odds ++ (([] : List (List Int)).flatten ++ [])) ∧
        Layout int_cmp self' ([] ++ naive_merge int_cmp evens odds :: []) [] :=
  have hL : Layout int_cmp
      ({ gtk_tim_sort_init (evens ++ odds) 200 4 with
        run := [{ base := 0, len := 100 }, { base := 100, len := 100 }],
        base := 200, size := 0 } : GtkTimSort Int) ([] ++ evens :: odds :: []) [] :=
    ⟨by simp [gtk_tim_sort_init], by simp [runs_of, evens_length, odds_length],
      by simp [evens_length, odds_length], rfl,
      fun s hs => by
        rcases List.mem_cons.1 hs with rfl | hs
        · exact ⟨List.ne_nil_of_length_pos (by rw [evens_length]; decide), sorted_evens⟩
        · rcases List.mem_cons.1 hs with rfl | hs
          · exact ⟨List.ne_nil_of_length_pos (by rw [odds_length]; decide), sorted_odds⟩
          · simp at hs⟩
  ⟨int_cmp_total, hL, evens_odds_merge,
    merge_at_naive_merge int_cmp_total _ none [] [] evens odds [] hL (by decide)
      (by simp [gtk_tim_sort_init, GSIZE_MOD, evens_length, odds_length]) rfl⟩

/-! ## Galloping with an arbitrary comparison function -/

theorem gallop_search_loop_safe (cmp : α → α → Int) (key : α) (buf : List α) (base len : Nat)
    (right : Int → Bool)
    (hR : ∀ i, i < len → ∃ c, compare_key cmp key buf (base + i) = some c) (fuel : Nat) :
    ∀ (last ofs : Nat), ofs < fuel + last → last ≤ ofs → ofs ≤ len →
      ∃ k, gallop_search_loop cmp key buf base right fuel last ofs = some k ∧ last ≤ k ∧
        k ≤ ofs := by
  induction fuel with
  | zero => intro last ofs hf hle _; omega
  | succ fuel ih =>
    intro last ofs hf hle hlen
    rw [gallop_search_loop]
    by_cases hlt : last < ofs
    · rw [if_pos hlt]
      simp only [Nat.shiftRight_eq_div_pow, pow_one, and_add_xor_shift]
      obtain ⟨c, hc⟩ := hR ((last + ofs) / 2) (by omega)
      rw [hc]
      simp only
      by_cases hr : right c = true
      · rw [if_pos hr]
        obtain ⟨k, e, h1, h2⟩ := ih ((last + ofs) / 2 + 1) ofs (by omega) (by omega) hlen
        exact ⟨k, e, by omega, h2⟩
      · rw [if_neg hr]
        obtain ⟨k, e, h1, h2⟩ := ih last ((last + ofs) / 2) (by omega) (by omega) (by omega)
        exact ⟨k, e, h1, by omega⟩
    · rw [if_neg hlt]
      exact ⟨ofs, rfl, hle, Nat.le_refl _⟩

/-- The function `gallop_left` with any comparison function: it reads inside the
range only and returns an offset that is at most `len`. -/
theorem gallop_left_safe (cmp : α → α → Int) (key : α) {buf A S B : List α}
    {base len hint : Nat} (hb : buf = A ++ (S ++ B)) (hA : A.length = base)
    (hS : S.length = len) (hhint : hint < len) (hlen : len < GSIZE_MOD) :
    ∃ k, gallop_left cmp key buf base len hint = some k ∧ k ≤ len := by
  let R : Nat → Bool := fun i => if hi : i < S.length then decide (cmp key S[i] > 0) else false
  have hR : ∀ i (hi : i < S.length), R i = (fun c => decide (c > 0)) (cmp key S[i]) := by
    intro i hi; simp only [R, dif_pos hi]
  have hcomp : ∀ i, i < len → ∃ c, compare_key cmp key buf (base + i) = some c := by
    intro i hi
    have hi' : i < S.length := by omega
    exact ⟨_, compare_key_seg cmp key hb (by omega) hi'⟩
  unfold gallop_left
  rw [if_pos ⟨by omega, hhint⟩]
  have hhintS : hint < S.length := by omega
  rw [compare_key_seg cmp key hb (by omega) hhintS]
  simp only
  by_cases hc : cmp key S[hint] > 0
  · rw [if_pos hc]
    obtain ⟨last, ofs, e1, e2, e3, e4, e5⟩ := gallop_bounds_up cmp key (fun c => decide (c > 0))
      (fun c => decide (c > 0)) R hb hA hS hhint hlen (fun _ => rfl) hR
      (by rw [hR hint hhintS]; simpa using hc)
    rw [e1]
    simp only
    rw [if_pos ⟨e2, e3⟩]
    obtain ⟨k, f1, f2, f3⟩ := gallop_search_loop_safe cmp key buf base len
      (fun c => decide (c > 0)) hcomp
      ((if ofs > len - hint then len - hint else ofs) + hint - (last + (hint + 1)) + 1)
      (last + (hint + 1)) ((if ofs > len - hint then len - hint else ofs) + hint) (by omega)
      e2 e3
    exact ⟨k, f1, by omega⟩
  · rw [if_neg hc]
    obtain ⟨last, ofs, e1, e2, e3, e4, e5⟩ := gallop_bounds_down cmp key (fun c => decide (c > 0))
      (fun c => decide (c ≤ 0)) R hb hA hS hhint hlen
      (fun c => by by_cases hc0 : 0 < c <;> simp [hc0]; omega) hR
      (by rw [hR hint hhintS]; simpa using hc)
    rw [e1]
    simp only
    rw [if_pos ⟨e2, e3⟩]
    obtain ⟨k, f1, f2, f3⟩ := gallop_search_loop_safe cmp key buf base len
      (fun c => decide (c > 0)) hcomp
      (hint - last - (hint + 1 - (if ofs > hint + 1 then hint + 1 else ofs)) + 1)
      (hint + 1 - (if ofs > hint + 1 then hint + 1 else ofs)) (hint - last) (by omega)
      e2 e3
    exact ⟨k, f1, by omega⟩

/-- The function `gallop_right` with any comparison function: it reads inside the
range only and returns an offset that is at most `len`. -/
theorem gallop_right_safe (cmp : α → α → Int) (key : α) {buf A S B : List α}
    {base len hint : Nat} (hb : buf = A ++ (S ++ B)) (hA : A.length = base)
    (hS : S.length = len) (hhint : hint < len) (hlen : len < GSIZE_MOD) :
    ∃ k, gallop_right cmp key buf base len hint = some k ∧ k ≤ len := by
  let R : Nat → Bool := fun i => if hi : i < S.length then decide (cmp key S[i] ≥ 0) else false
  have hR : ∀ i (hi : i < S.length), R i = (fun c => decide (c ≥ 0)) (cmp key S[i]) := by
    intro i hi; simp only [R, dif_pos hi]
  have hcomp : ∀ i, i < len → ∃ c, compare_key cmp key buf (base + i) = some c := by
    intro i hi
    have hi' : i < S.length := by omega
    exact ⟨_, compare_key_seg cmp key hb (by omega) hi'⟩
  unfold gallop_right
  rw [if_pos ⟨by omega, hhint⟩]
  have hhintS : hint < S.length := by omega
  rw [compare_key_seg cmp key hb (by omega) hhintS]
  simp only
  by_cases hc : cmp key S[hint] < 0
  · rw [if_pos hc]
    obtain ⟨last, ofs, e1, e2, e3, e4, e5⟩ := gallop_bounds_down cmp key (fun c => decide (c ≥ 0))
      (fun c => decide (c < 0)) R hb hA hS hhint hlen
      (fun c => by by_cases hc0 : 0 ≤ c <;> simp [hc0]; omega) hR
      (by rw [hR hint hhintS]; simpa using hc)
    rw [e1]
    simp only
    rw [if_pos ⟨e2, e3⟩]
    obtain ⟨k, f1, f2, f3⟩ := gallop_search_loop_safe cmp key buf base len
      (fun c => decide (c ≥ 0)) hcomp
      (hint - last - (hint + 1 - (if ofs > hint + 1 then hint + 1 else ofs)) + 1)
      (hint + 1 - (if ofs > hint + 1 then hint + 1 else ofs)) (hint - last) (by omega)
      e2 e3
    exact ⟨k, f1, by omega⟩
  · rw [if_neg hc]
    obtain ⟨last, ofs, e1, e2, e3, e4, e5⟩ := gallop_bounds_up cmp key (fun c => decide (c ≥ 0))
      (fun c => decide (c ≥ 0)) R hb hA hS hhint hlen (fun _ => rfl) hR
      (by rw [hR hint hhintS]; simpa using hc)
    rw [e1]
    simp only
    rw [if_pos ⟨e2, e3⟩]
    obtain ⟨k, f1, f2, f3⟩ := gallop_search_loop_safe cmp key buf base len
      (fun c => decide (c ≥ 0)) hcomp
      ((if ofs > len - hint then len - hint else ofs) + hint - (last + (hint + 1)) + 1)
      (last + (hint + 1)) ((if ofs > len - hint then len - hint else ofs) + hint) (by omega)
      e2 e3
    exact ⟨k, f1, by omega⟩

/-! ## Merging from the low end with an arbitrary comparison function -/

theorem perm_move_y (D X Y : List α) (y : α) :
    ((D ++ [y]) ++ (X ++ Y)).Perm (D ++ (X ++ y :: Y)) := by
  rw [List.append_assoc]
  have h1 : (y :: (X ++ Y)).Perm (X ++ y :: Y) := List.perm_middle.symm
  exact List.Perm.append_left D h1

theorem perm_move_ys (D X Y : List α) (k : Nat) :
    ((D ++ Y.take k) ++ (X ++ Y.drop k)).Perm (D ++ (X ++ Y)) := by
  rw [List.append_assoc]
  refine List.Perm.append_left D ?_
  rw [← List.append_assoc]
  have h1 : (Y.take k ++ X ++ Y.drop k).Perm (X ++ Y.take k ++ Y.drop k) :=
    List.Perm.append_right _ List.perm_append_comm
  rw [List.append_assoc X, List.take_append_drop] at h1
  exact h1

theorem eq_move_xs (D X Y : List α) (k : Nat) :
    (D ++ X.take k) ++ (X.drop k ++ Y) = D ++ (X ++ Y) := by
  rw [List.append_assoc, ← List.append_assoc (X.take k), List.take_append_drop]

theorem merge_lo_linear_safe (cmp : α → α → Int) (P Q tmp : List α) (fuel : Nat) :
    ∀ (v : MergeLo α) (c1 c2 : Nat) (D X Y : List α), MergeLoState P Q tmp v D X Y →
      2 ≤ X.length → 1 ≤ Y.length → X.length + Y.length ≤ fuel →
      ∃ b v' D' X' Y', merge_lo_linear cmp tmp fuel v c1 c2 = some (b, v') ∧
        MergeLoState P Q tmp v' D' X' Y' ∧ (D' ++ (X' ++ Y')).Perm (D ++ (X ++ Y)) ∧
        X'.length + Y'.length < X.length + Y.length ∧
        (b = true → (X'.length = 1 ∧ 1 ≤ Y'.length) ∨ (Y'.length = 0 ∧ 2 ≤ X'.length)) ∧
        (b = false → 2 ≤ X'.length ∧ 1 ≤ Y'.length) := by
  induction fuel with
  | zero => intro v c1 c2 D X Y _ hX hY hf; omega
  | succ fuel ih =>
    intro v c1 c2 D X Y hst hX hY hf
    obtain ⟨x, X1, rfl⟩ : ∃ x X1, X = x :: X1 := by
      cases X with
      | nil => simp at hX
      | cons x X1 => exact ⟨x, X1, rfl⟩
    obtain ⟨y, Y1, rfl⟩ : ∃ y Y1, Y = y :: Y1 := by
      cases Y with
      | nil => simp at hY
      | cons y Y1 => exact ⟨y, Y1, rfl⟩
    simp only [List.length_cons] at hX hY hf
    obtain ⟨hl1, hl2⟩ := mergeLo_lens hst
    simp only [List.length_cons] at hl1 hl2
    rw [merge_lo_linear, if_pos ⟨by omega, by omega⟩, mergeLo_compare cmp hst]
    simp only []
    by_cases hc : cmp y x < 0
    · rw [if_pos hc]
      obtain ⟨mem, hmem, hst1⟩ := mergeLo_take_y hst (by simp)
      rw [hmem]
      simp only []
      have hp := perm_move_y D (x :: X1) Y1 y
      by_cases hz : v.len2 - 1 = 0
      · rw [if_pos hz]
        exact ⟨true, _, _, _, _, rfl, hst1, hp, by simp,
          fun _ => Or.inr ⟨by omega, by simp; omega⟩, fun hb => by simp at hb⟩
      · rw [if_neg hz]
        by_cases hg : c2 + 1 ≥ v.min_gallop
        · rw [if_pos hg]
          exact ⟨false, _, _, _, _, rfl, hst1, hp, by simp,
            fun hb => by simp at hb, fun _ => ⟨by simp; omega, by omega⟩⟩
        · rw [if_neg hg]
          obtain ⟨b, v', D', X', Y', e1, e2, e4, e5, e6, e7⟩ := ih _ 0 (c2 + 1) _ _ _
            hst1 (by simp; omega) (by omega) (by simp; omega)
          exact ⟨b, v', D', X', Y', e1, e2, e4.trans hp, by simp at e5 ⊢; omega, e6, e7⟩
    · rw [if_neg hc]
      obtain ⟨mem, hmem, hst1⟩ := mergeLo_take_x hst
      rw [hmem]
      simp only []
      have hp : ((D ++ [x]) ++ (X1 ++ y :: Y1)).Perm (D ++ (x :: X1 ++ y :: Y1)) := by
        simp
      by_cases hz : v.len1 - 1 = 1
      · rw [if_pos hz]
        exact ⟨true, _, _, _, _, rfl, hst1, hp, by simp,
          fun _ => Or.inl ⟨by omega, by simp⟩, fun hb => by simp at hb⟩
      · rw [if_neg hz]
        by_cases hg : c1 + 1 ≥ v.min_gallop
        · rw [if_pos hg]
          exact ⟨false, _, _, _, _, rfl, hst1, hp, by simp,
            fun hb => by simp at hb, fun _ => ⟨by omega, by simp⟩⟩
        · rw [if_neg hg]
          obtain ⟨b, v', D', X', Y', e1, e2, e4, e5, e6, e7⟩ := ih _ (c1 + 1) 0 _ _ _
            hst1 (by omega) (by simp) (by simp; omega)
          exact ⟨b, v', D', X', Y', e1, e2, e4.trans hp, by simp at e5 ⊢; omega, e6, e7⟩

theorem mergeLo_gallop_right_safe (cmp : α → α → Int) {P Q tmp : List α}
    {v : MergeLo α} {D X Y : List α} (key : α) (hst : MergeLoState P Q tmp v D X Y)
    (hX : 1 ≤ X.length) (hX64 : X.length < GSIZE_MOD) :
    ∃ k, gallop_right cmp key tmp v.cursor1 v.len1 0 = some k ∧ k ≤ X.length := by
  obtain ⟨G, U, h1, h2, h3, h4, h5, h6, h7, h8⟩ := hst
  rw [h7]
  exact gallop_right_safe cmp key (A := U) (S := X) (B := []) (by simp [h3]) h4 rfl (by omega)
    hX64

theorem mergeLo_gallop_left_safe (cmp : α → α → Int) {P Q tmp : List α}
    {v : MergeLo α} {D X Y : List α} (key : α) (hst : MergeLoState P Q tmp v D X Y)
    (hY : 1 ≤ Y.length) (hY64 : Y.length < GSIZE_MOD) :
    ∃ k, gallop_left cmp key v.mem v.cursor2 v.len2 0 = some k ∧ k ≤ Y.length := by
  obtain ⟨G, U, h1, h2, h3, h4, h5, h6, h7, h8⟩ := hst
  rw [h8]
  exact gallop_left_safe cmp key (A := P ++ (D ++ G)) (S := Y) (B := Q) (by simp [h1])
    (by simp only [List.length_append, h2, h6, h5]; omega) rfl (by omega) hY64

theorem merge_lo_gallop_safe (cmp : α → α → Int) (P Q tmp : List α) (fuel : Nat) :
    ∀ (v : MergeLo α) (D X Y : List α), MergeLoState P Q tmp v D X Y →
      2 ≤ X.length → 1 ≤ Y.length → X.length + Y.length ≤ fuel →
      X.length + Y.length < GSIZE_MOD →
      ∃ b v' D' X' Y', merge_lo_gallop cmp tmp fuel v = some (b, v') ∧
        MergeLoState P Q tmp v' D' X' Y' ∧ (D' ++ (X' ++ Y')).Perm (D ++ (X ++ Y)) ∧
        X'.length + Y'.length < X.length + Y.length ∧
        (b = true → (X'.length ≤ 1 ∧ 1 ≤ Y'.length) ∨ (Y'.length = 0 ∧ 2 ≤ X'.length)) ∧
        (b = false → 2 ≤ X'.length ∧ 1 ≤ Y'.length) := by
  induction fuel with
  | zero => intro v D X Y _ hX hY hf; omega
  | succ fuel ih =>
    intro v D X Y hst hX hY hf h64
    obtain ⟨y, Y1, rfl⟩ : ∃ y Y1, Y = y :: Y1 := by
      cases Y with
      | nil => simp at hY
      | cons y Y1 => exact ⟨y, Y1, rfl⟩
    obtain ⟨hl1, hl2⟩ := mergeLo_lens hst
    simp only [List.length_cons] at hY hf hl2 h64
    have hX64 : X.length < GSIZE_MOD := by omega
    rw [merge_lo_gallop, if_pos ⟨by omega, by omega⟩]
    have hkey2 : load v.mem v.cursor2 = some y := by
      obtain ⟨x, X1, rfl⟩ : ∃ x X1, X = x :: X1 := by
        cases X with
        | nil => simp at hX
        | cons x X1 => exact ⟨x, X1, rfl⟩
      exact (mergeLo_read hst).1
    rw [hkey2]
    simp only []
    obtain ⟨k1, hk1, hk1le⟩ := mergeLo_gallop_right_safe cmp y hst (by omega) hX64
    rw [hk1]
    simp only []
    obtain ⟨v1, hv1, hst1, hg1⟩ := merge_lo_copy1_spec k1 hst hk1le
    rw [hv1]
    simp only []
    have hm1 : ((D ++ X.take k1) ++ (X.drop k1 ++ y :: Y1)).Perm (D ++ (X ++ y :: Y1)) := by
      rw [eq_move_xs]
    obtain ⟨hl1', hl2'⟩ := mergeLo_lens hst1
    simp only [List.length_drop, List.length_cons] at hl1' hl2'
    by_cases hex1 : k1 ≠ 0 ∧ v1.len1 ≤ 1
    · rw [if_pos hex1]
      exact ⟨true, v1, _, _, _, rfl, hst1, hm1, by simp; omega,
        fun _ => Or.inl ⟨by simp; omega, by simp⟩, fun hb => by simp at hb⟩
    · rw [if_neg hex1]
      have hX2 : 2 ≤ (X.drop k1).length := by simp; omega
      obtain ⟨x', X2, hX'⟩ : ∃ x' X2, X.drop k1 = x' :: X2 := by
        cases hd : X.drop k1 with
        | nil => rw [hd] at hX2; simp at hX2
        | cons x' X2 => exact ⟨x', X2, rfl⟩
      have hX2len : X2.length + 1 = X.length - k1 := by
        have := congrArg List.length hX'
        simp only [List.length_drop, List.length_cons] at this
        omega
      rw [hX'] at hst1 hm1 hX2
      simp only [List.length_cons] at hX2
      obtain ⟨mem2, hmem2, hst2⟩ := mergeLo_take_y hst1 (by simp)
      rw [hmem2]
      simp only []
      have hm2 : ((D ++ X.take k1 ++ [y]) ++ (x' :: X2 ++ Y1)).Perm (D ++ (X ++ y :: Y1)) :=
        (perm_move_y (D ++ X.take k1) (x' :: X2) Y1 y).trans hm1
      by_cases hex2 : v1.len2 - 1 = 0
      · rw [if_pos hex2]
        exact ⟨true, _, _, _, _, rfl, hst2, hm2, by simp; omega,
          fun _ => Or.inr ⟨by omega, by simp; omega⟩, fun hb => by simp at hb⟩
      · rw [if_neg hex2]
        have hkey1 : load tmp v1.cursor1 = some x' := by
          obtain ⟨G, U, h1, h2, h3, h4, h5, h6, h7, h8⟩ := hst1
          exact load_eq (A := U) (B := X2) h3 h4
        rw [hkey1]
        simp only []
        obtain ⟨k2, hk2, hk2le⟩ := mergeLo_gallop_left_safe cmp x' hst2 (by omega) (by omega)
        rw [hk2]
        simp only []
        obtain ⟨v3, hv3, hst3, hg3⟩ := merge_lo_copy2_spec k2 hst2 hk2le
        rw [hv3]
        simp only []
        have hm3 : ((D ++ X.take k1 ++ [y] ++ Y1.take k2) ++ (x' :: X2 ++ Y1.drop k2)).Perm
            (D ++ (X ++ y :: Y1)) :=
          (perm_move_ys (D ++ X.take k1 ++ [y]) (x' :: X2) Y1 k2).trans hm2
        obtain ⟨hl1'', hl2''⟩ := mergeLo_lens hst3
        simp only [List.length_drop, List.length_cons] at hl1'' hl2''
        by_cases hex3 : k2 ≠ 0 ∧ v3.len2 = 0
        · rw [if_pos hex3]
          exact ⟨true, v3, _, _, _, rfl, hst3, hm3, by simp; omega,
            fun _ => Or.inr ⟨by simp; omega, by simp; omega⟩, fun hb => by simp at hb⟩
        · rw [if_neg hex3]
          have hY3 : 1 ≤ (Y1.drop k2).length := by simp; omega
          obtain ⟨y3, Y4, hY'⟩ : ∃ y3 Y4, Y1.drop k2 = y3 :: Y4 := by
            cases hd : Y1.drop k2 with
            | nil => rw [hd] at hY3; simp at hY3
            | cons y3 Y4 => exact ⟨y3, Y4, rfl⟩
          have hY4len : Y4.length + 1 = Y1.length - k2 := by
            have := congrArg List.length hY'
            simp only [List.length_drop, List.length_cons] at this
            omega
          rw [hY'] at hst3 hm3 hY3
          obtain ⟨mem4, hmem4, hst4⟩ := mergeLo_take_x hst3
          rw [hmem4]
          simp only []
          have hm4 : ((D ++ X.take k1 ++ [y] ++ Y1.take k2 ++ [x']) ++ (X2 ++ y3 :: Y4)).Perm
              (D ++ (X ++ y :: Y1)) := by
            refine List.Perm.trans ?_ hm3
            simp
          have hlen4 : X2.length + (y3 :: Y4).length < X.length + (Y1.length + 1) := by
            simp only [List.length_cons]
            omega
          by_cases hex4 : v3.len1 - 1 = 1
          · rw [if_pos hex4]
            exact ⟨true, _, _, _, _, rfl, hst4, hm4, by simpa using hlen4,
              fun _ => Or.inl ⟨by omega, by simp⟩, fun hb => by simp at hb⟩
          · rw [if_neg hex4]
            have hst5 : MergeLoState P Q tmp
                (if v3.min_gallop > 0 then
                  { mem := mem4, cursor1 := v3.cursor1 + 1, cursor2 := v3.cursor2,
                    dest := v3.dest + 1, len1 := v3.len1 - 1, len2 := v3.len2,
                    min_gallop := v3.min_gallop - 1 }
                 else
                  { mem := mem4, cursor1 := v3.cursor1 + 1, cursor2 := v3.cursor2,
                    dest := v3.dest + 1, len1 := v3.len1 - 1, len2 := v3.len2,
                    min_gallop := v3.min_gallop })
                (D ++ X.take k1 ++ [y] ++ Y1.take k2 ++ [x']) X2 (y3 :: Y4) := by
              split
              · exact mergeLo_set_min_gallop hst4 _
              · exact hst4
            by_cases hcont : k1 ≥ MIN_GALLOP ∨ k2 ≥ MIN_GALLOP
            · rw [if_pos hcont]
              obtain ⟨b, v', D', X', Y', e1, e2, e4, e5, e6, e7⟩ := ih _ _ _ _ hst5
                (by omega) (by simp) (by omega) (by omega)
              exact ⟨b, v', D', X', Y', e1, e2, e4.trans hm4, by
                simp only [List.length_cons] at e5 hlen4 ⊢; omega, e6, e7⟩
            · rw [if_neg hcont]
              exact ⟨false, _, _, _, _, rfl, hst5, hm4, by simpa using hlen4,
                fun hb => by simp at hb, fun _ => ⟨by omega, by simp⟩⟩

theorem merge_lo_outer_safe (cmp : α → α → Int) (P Q tmp : List α) (fuel : Nat) :
    ∀ (v : MergeLo α) (D X Y : List α), MergeLoState P Q tmp v D X Y →
      2 ≤ X.length → 1 ≤ Y.length → X.length + Y.length ≤ fuel →
      X.length + Y.length < GSIZE_MOD →
      ∃ v' D' X' Y', merge_lo_outer cmp tmp fuel v = some v' ∧
        MergeLoState P Q tmp v' D' X' Y' ∧ (D' ++ (X' ++ Y')).Perm (D ++ (X ++ Y)) ∧
        ((X'.length ≤ 1 ∧ 1 ≤ Y'.length) ∨ (Y'.length = 0 ∧ 2 ≤ X'.length)) := by
  induction fuel with
  | zero => intro v D X Y _ hX hY hf; omega
  | succ fuel ih =>
    intro v D X Y hst hX hY hf h64
    obtain ⟨hl1, hl2⟩ := mergeLo_lens hst
    rw [merge_lo_outer]
    obtain ⟨b, v1, D1, X1, Y1, e1, e2, e4, e5, e6, e7⟩ := merge_lo_linear_safe cmp P Q tmp
      (v.len1 + v.len2) v 0 0 D X Y hst hX hY (by omega)
    rw [e1]
    cases b with
    | true =>
      simp only []
      refine ⟨v1, D1, X1, Y1, rfl, e2, e4, ?_⟩
      rcases e6 rfl with ⟨a, b⟩ | ⟨a, b⟩
      · exact Or.inl ⟨by omega, b⟩
      · exact Or.inr ⟨a, b⟩
    | false =>
      simp only []
      obtain ⟨hX1, hY1⟩ := e7 rfl
      obtain ⟨hl1', hl2'⟩ := mergeLo_lens e2
      obtain ⟨b2, v2, D2, X2, Y2, f1, f2, f4, f5, f6, f7⟩ := merge_lo_gallop_safe cmp P Q tmp
        (v1.len1 + v1.len2) v1 D1 X1 Y1 e2 hX1 hY1 (by omega) (by omega)
      rw [f1]
      cases b2 with
      | true =>
        simp only []
        exact ⟨v2, D2, X2, Y2, rfl, f2, f4.trans e4, f6 rfl⟩
      | false =>
        simp only []
        obtain ⟨hX2, hY2⟩ := f7 rfl
        obtain ⟨v', D', X', Y', g1, g2, g4, g5⟩ := ih _ D2 X2 Y2
          (mergeLo_set_min_gallop f2 (v2.min_gallop + 2)) hX2 hY2 (by omega) (by omega)
        exact ⟨v', D', X', Y', g1, g2, g4.trans (f4.trans e4), g5⟩

/-- The end of `merge_lo` when one element of the first run is left, for any
comparison function. -/
theorem mergeLo_finish_one_safe {P Q tmp : List α} {v : MergeLo α}
    {D : List α} {x : α} {Y : List α} (hst : MergeLoState P Q tmp v D [x] Y) :
    ∃ mem1 mem2, memmove v.mem v.dest v.cursor2 v.len2 = some mem1 ∧
      ASSIGN mem1 (v.dest + v.len2) tmp v.cursor1 = some mem2 ∧
      mem2 = P ++ ((D ++ (Y ++ [x])) ++ Q) := by
  obtain ⟨hl1, hl2⟩ := mergeLo_lens hst
  obtain ⟨mem1, hmem1, hst1⟩ := mergeLo_take_ys v.len2 hst (by omega)
  obtain ⟨mem2, hmem2, hst2⟩ := mergeLo_take_x (by
    rw [hl2, List.drop_length, List.take_length] at hst1; exact hst1)
  refine ⟨mem1, mem2, hmem1, by rw [hl2]; exact hmem2, ?_⟩
  obtain ⟨G, U, h1, h2, h3, h4, h5, h6, h7, h8⟩ := hst2
  have hG : G = [] := List.eq_nil_of_length_eq_zero (by simpa using h2)
  subst hG
  simpa using h1

/-- The state of `merge_lo` on the branch that reports a comparison function that
violates its contract: the first run is used up and what is left of the second
run is in place. -/
theorem mergeLo_finish_zero {P Q tmp : List α} {v : MergeLo α} {D Y : List α}
    (hst : MergeLoState P Q tmp v D [] Y) : v.mem = P ++ ((D ++ Y) ++ Q) := by
  obtain ⟨G, U, h1, h2, h3, h4, h5, h6, h7, h8⟩ := hst
  have hG : G = [] := List.eq_nil_of_length_eq_zero (by simpa using h2)
  subst hG
  simpa using h1

/-- The function `merge_lo` on two adjacent non-empty ranges `X` and `Y`, with any
comparison function: it returns, stays inside the two ranges and the scratch array,
and leaves a permutation of the two ranges in their place. -/
theorem merge_lo_safe (cmp : α → α → Int) (self : GtkTimSort α)
    {P X Y Q : List α} {base1 len1 base2 len2 : Nat} (hm : self.mem = P ++ (X ++ (Y ++ Q)))
    (hP : P.length = base1) (hX : X.length = len1) (hb : base1 + len1 = base2)
    (hY : Y.length = len2) (hX1 : 1 ≤ X.length) (hY1 : 1 ≤ Y.length)
    (h64 : X.length + Y.length < GSIZE_MOD) :
    ∃ self' M, merge_lo cmp self base1 len1 base2 len2 = some self' ∧
      self'.mem = P ++ (M ++ Q) ∧ M.Perm (X ++ Y) ∧ MergeFrame self self' := by
  obtain ⟨x0, X1, rfl⟩ : ∃ x0 X1, X = x0 :: X1 := by
    cases X with
    | nil => simp at hX1
    | cons x X1 => exact ⟨x, X1, rfl⟩
  obtain ⟨y0, Y1, rfl⟩ : ∃ y0 Y1, Y = y0 :: Y1 := by
    cases Y with
    | nil => simp at hY1
    | cons y Y1 => exact ⟨y, Y1, rfl⟩
  simp only [List.length_cons] at hX hY h64
  have hframe := ensure_capacity_frame self len1
  unfold merge_lo
  simp only []
  rw [if_pos ⟨by omega, by omega, hb⟩, ensure_capacity_mem,
    memcpy_tmp_eq (A := P) (W := x0 :: X1) (B := y0 :: Y1 ++ Q) (by simp [hm]) hP
      (by simp; omega)]
  simp only []
  rw [ASSIGN_eq (A := P) (x := x0) (B := X1 ++ (y0 :: Y1 ++ Q)) (U := P ++ x0 :: X1) (y := y0)
    (V := Y1 ++ Q) (by simp [hm]) hP (by simp [hm]) (by simp; omega)]
  simp only []
  have hst0 : MergeLoState P Q (x0 :: X1)
      { mem := P ++ y0 :: (X1 ++ (y0 :: Y1 ++ Q)), cursor1 := 0, cursor2 := base2 + 1,
        dest := base1 + 1, len1 := len1, len2 := len2 - 1,
        min_gallop := (gtk_tim_sort_ensure_capacity self len1).min_gallop }
      [y0] (x0 :: X1) Y1 :=
    ⟨X1 ++ [y0], [], by simp, by simp, by simp, rfl, by simp; omega, by simp; omega,
      by simp; omega, by simp; omega⟩
  have hp0 : ([y0] ++ (x0 :: X1 ++ Y1)).Perm (x0 :: X1 ++ y0 :: Y1) := by
    have h1 : (y0 :: (x0 :: X1 ++ Y1)).Perm (x0 :: X1 ++ y0 :: Y1) := List.perm_middle.symm
    exact h1
  by_cases h2 : len2 - 1 = 0
  · rw [if_pos h2]
    have hY1nil : Y1 = [] := List.eq_nil_of_length_eq_zero (by omega)
    subst hY1nil
    obtain ⟨mem1, e1, e2⟩ := mergeLo_finish_rest cmp hst0
    simp only [] at e1
    rw [e1]
    rw [naive_merge_nil_right] at e2
    exact ⟨_, _, rfl, e2, by simpa using hp0, hframe⟩
  · rw [if_neg h2]
    by_cases h1 : len1 = 1
    · rw [if_pos h1]
      have hX1nil : X1 = [] := List.eq_nil_of_length_eq_zero (by omega)
      subst hX1nil
      obtain ⟨mem1, mem2, e1, e2, e3⟩ := mergeLo_finish_one_safe hst0
      simp only [] at e1 e2
      rw [e1]
      simp only []
      rw [e2]
      refine ⟨_, _, rfl, e3, ?_, hframe⟩
      have : (([y0] ++ Y1) ++ [x0]).Perm ([x0] ++ ([y0] ++ Y1)) := List.perm_append_comm
      simpa using this
    · rw [if_neg h1]
      obtain ⟨v, D, X', Y', f1, f2, f4, f5⟩ := merge_lo_outer_safe cmp P Q (x0 :: X1)
        (len1 + (len2 - 1)) _ [y0] (x0 :: X1) Y1 hst0 (by simp; omega) (by omega)
        (by simp; omega) (by simp; omega)
      rw [f1]
      simp only []
      obtain ⟨hl1, hl2⟩ := mergeLo_lens f2
      have hfr : ∀ m : List α, MergeFrame self
          { gtk_tim_sort_ensure_capacity self len1 with
            min_gallop := if v.min_gallop < 1 then 1 else v.min_gallop, mem := m } := by
        intro m
        exact hframe
      rcases f5 with ⟨g1, g2⟩ | ⟨g1, g2⟩
      · by_cases hx1 : X'.length = 1
        · rw [if_pos (by omega), if_pos (by omega)]
          obtain ⟨x, rfl⟩ : ∃ x, X' = [x] := by
            match X', hx1 with
            | [x], _ => exact ⟨x, rfl⟩
          obtain ⟨mem1, mem2, e1, e2, e3⟩ := mergeLo_finish_one_safe f2
          rw [e1]
          simp only []
          rw [e2]
          refine ⟨_, _, rfl, e3, ?_, hfr _⟩
          refine List.Perm.trans ?_ (f4.trans hp0)
          refine List.Perm.append_left D ?_
          exact List.perm_append_comm
        · rw [if_neg (by omega), if_pos (by omega)]
          have hX'nil : X' = [] := List.eq_nil_of_length_eq_zero (by omega)
          subst hX'nil
          refine ⟨_, _, rfl, mergeLo_finish_zero f2, ?_, hfr _⟩
          exact List.Perm.trans (by simp) (f4.trans hp0)
      · rw [if_neg (by omega), if_neg (by omega), if_pos ⟨by omega, by omega⟩]
        have hY'nil : Y' = [] := List.eq_nil_of_length_eq_zero g1
        subst hY'nil
        obtain ⟨mem1, e1, e2⟩ := mergeLo_finish_rest cmp f2
        rw [e1]
        rw [naive_merge_nil_right] at e2
        refine ⟨_, _, rfl, e2, ?_, hfr _⟩
        exact List.Perm.trans (by simp) (f4.trans hp0)

/-! ## Merging from the high end with an arbitrary comparison function -/

theorem perm_hi_move (X1 X2 Y D : List α) :
    (X1 ++ (Y ++ (X2 ++ D))).Perm ((X1 ++ X2) ++ (Y ++ D)) := by
  rw [List.append_assoc]
  refine List.Perm.append_left X1 ?_
  rw [← List.append_assoc, ← List.append_assoc]
  exact List.Perm.append_right D List.perm_append_comm

theorem merge_hi_linear_safe (cmp : α → α → Int) (P Q tmp : List α) (fuel : Nat) :
    ∀ (v : MergeHi α) (c1 c2 : Nat) (D X Y : List α), MergeHiState P Q tmp v D X Y →
      1 ≤ X.length → 2 ≤ Y.length → X.length + Y.length ≤ fuel →
      ∃ b v' D' X' Y', merge_hi_linear cmp tmp fuel v c1 c2 = some (b, v') ∧
        MergeHiState P Q tmp v' D' X' Y' ∧ (X' ++ (Y' ++ D')).Perm (X ++ (Y ++ D)) ∧
        X'.length + Y'.length < X.length + Y.length ∧
        (b = true → (Y'.length = 1 ∧ 1 ≤ X'.length) ∨ (X'.length = 0 ∧ 2 ≤ Y'.length)) ∧
        (b = false → 1 ≤ X'.length ∧ 2 ≤ Y'.length) := by
  induction fuel with
  | zero => intro v c1 c2 D X Y _ hX hY hf; omega
  | succ fuel ih =>
    intro v c1 c2 D X Y hst hX hY hf
    obtain ⟨X0, x, rfl⟩ := exists_concat_of_length_pos hX
    obtain ⟨Y0, y, rfl⟩ := exists_concat_of_length_pos (l := Y) (by omega)
    simp only [List.length_append, List.length_cons, List.length_nil] at hX hY hf
    obtain ⟨hl1, hl2⟩ := mergeHi_lens hst
    simp only [List.length_append, List.length_cons, List.length_nil] at hl1 hl2
    rw [merge_hi_linear, if_pos ⟨by omega, by omega⟩, mergeHi_compare cmp hst]
    simp only []
    by_cases hc : cmp y x < 0
    · rw [if_pos hc]
      obtain ⟨mem, hmem, hst1⟩ := mergeHi_take_x hst (by simp)
      rw [hmem]
      simp only []
      have hp : (X0 ++ ((Y0 ++ [y]) ++ x :: D)).Perm ((X0 ++ [x]) ++ ((Y0 ++ [y]) ++ D)) :=
        perm_hi_move X0 [x] (Y0 ++ [y]) D
      by_cases hz : v.len1 - 1 = 0
      · rw [if_pos hz]
        exact ⟨true, _, _, _, _, rfl, hst1, hp, by simp,
          fun _ => Or.inr ⟨by omega, by simp; omega⟩, fun hb => by simp at hb⟩
      · rw [if_neg hz]
        split
        · obtain ⟨b, v', D', X', Y', e1, e2, e4, e5, e6, e7⟩ := ih _ (c1 + 1) 0 _ _ _
            hst1 (by omega) (by simp; omega) (by simp; omega)
          exact ⟨b, v', D', X', Y', e1, e2, e4.trans hp, by simp at e5 ⊢; omega, e6, e7⟩
        · exact ⟨false, _, _, _, _, rfl, hst1, hp, by simp,
            fun hb => by simp at hb, fun _ => ⟨by omega, by simp; omega⟩⟩
    · rw [if_neg hc]
      obtain ⟨mem, hmem, hst1⟩ := mergeHi_take_y hst
      rw [hmem]
      simp only []
      have hp : ((X0 ++ [x]) ++ (Y0 ++ y :: D)).Perm ((X0 ++ [x]) ++ ((Y0 ++ [y]) ++ D)) := by
        simp
      by_cases hz : v.len2 - 1 = 1
      · rw [if_pos hz]
        exact ⟨true, _, _, _, _, rfl, hst1, hp, by simp,
          fun _ => Or.inl ⟨by omega, by simp⟩, fun hb => by simp at hb⟩
      · rw [if_neg hz]
        split
        · obtain ⟨b, v', D', X', Y', e1, e2, e4, e5, e6, e7⟩ := ih _ 0 (c2 + 1) _ _ _
            hst1 (by simp) (by omega) (by simp; omega)
          exact ⟨b, v', D', X', Y', e1, e2, e4.trans hp, by simp at e5 ⊢; omega, e6, e7⟩
        · exact ⟨false, _, _, _, _, rfl, hst1, hp, by simp,
            fun hb => by simp at hb, fun _ => ⟨by simp, by omega⟩⟩

theorem mergeHi_gallop_right_safe (cmp : α → α → Int) {P Q tmp : List α}
    {v : MergeHi α} {D X Y : List α} (key : α) (hst : MergeHiState P Q tmp v D X Y)
    (hX : 1 ≤ X.length) (hX64 : X.length < GSIZE_MOD) :
    ∃ k, gallop_right cmp key v.mem P.length v.len1 (v.len1 - 1) = some k ∧ k ≤ X.length := by
  obtain ⟨G, V, h1, h2, h3, h4, h5, h6, h7, h8⟩ := hst
  rw [h7]
  exact gallop_right_safe cmp key (A := P) (S := X) (B := G ++ (D ++ Q)) h1 rfl rfl (by omega)
    hX64

theorem mergeHi_gallop_left_safe (cmp : α → α → Int) {P Q tmp : List α}
    {v : MergeHi α} {D X Y : List α} (key : α) (hst : MergeHiState P Q tmp v D X Y)
    (hY : 1 ≤ Y.length) (hY64 : Y.length < GSIZE_MOD) :
    ∃ k, gallop_left cmp key tmp 0 v.len2 (v.len2 - 1) = some k ∧ k ≤ Y.length := by
  obtain ⟨G, V, h1, h2, h3, h4, h5, h6, h7, h8⟩ := hst
  rw [h8]
  exact gallop_left_safe cmp key (A := []) (S := Y) (B := V) (by simp [h3]) rfl rfl (by omega)
    hY64

theorem merge_hi_gallop_safe (cmp : α → α → Int) (P Q tmp : List α) (fuel : Nat) :
    ∀ (v : MergeHi α) (D X Y : List α), MergeHiState P Q tmp v D X Y →
      1 ≤ X.length → 2 ≤ Y.length → X.length + Y.length ≤ fuel →
      X.length + Y.length < GSIZE_MOD →
      ∃ b v' D' X' Y', merge_hi_gallop cmp tmp P.length fuel v = some (b, v') ∧
        MergeHiState P Q tmp v' D' X' Y' ∧ (X' ++ (Y' ++ D')).Perm (X ++ (Y ++ D)) ∧
        X'.length + Y'.length < X.length + Y.length ∧
        (b = true → (Y'.length ≤ 1 ∧ 1 ≤ X'.length) ∨ (X'.length = 0 ∧ 2 ≤ Y'.length)) ∧
        (b = false → 1 ≤ X'.length ∧ 2 ≤ Y'.length) := by
  induction fuel with
  | zero => intro v D X Y _ hX hY hf; omega
  | succ fuel ih =>
    intro v D X Y hst hX hY hf h64
    obtain ⟨Y0, y, rfl⟩ := exists_concat_of_length_pos (l := Y) (by omega)
    obtain ⟨hl1, hl2⟩ := mergeHi_lens hst
    simp only [List.length_append, List.length_cons, List.length_nil] at hY hf hl2 h64
    rw [merge_hi_gallop, if_pos ⟨by omega, by omega⟩]
    have hkey2 : loadI tmp v.cursor2 = some y := by
      obtain ⟨X0, x, rfl⟩ := exists_concat_of_length_pos hX
      exact (mergeHi_read hst).1
    rw [hkey2]
    simp only []
    obtain ⟨k1, hk1, hk1le⟩ := mergeHi_gallop_right_safe cmp y hst hX (by omega)
    rw [hk1]
    simp only []
    obtain ⟨v1, hv1, hst1, hg1⟩ := merge_hi_move1_spec k1 hst hk1le
    rw [hv1]
    simp only []
    have hm1 : (X.take k1 ++ ((Y0 ++ [y]) ++ (X.drop k1 ++ D))).Perm
        (X ++ ((Y0 ++ [y]) ++ D)) := by
      have := perm_hi_move (X.take k1) (X.drop k1) (Y0 ++ [y]) D
      rw [List.take_append_drop] at this
      exact this
    obtain ⟨hl1', hl2'⟩ := mergeHi_lens hst1
    simp only [List.length_take, List.length_append, List.length_cons, List.length_nil]
      at hl1' hl2'
    have hk1len : (X.take k1).length = k1 := by simp; omega
    by_cases hex1 : v.len1 - k1 ≠ 0 ∧ v1.len1 = 0
    · rw [if_pos hex1]
      exact ⟨true, v1, _, _, _, rfl, hst1, hm1, by simp; omega,
        fun _ => Or.inr ⟨by omega, by simp; omega⟩, fun hb => by simp at hb⟩
    · rw [if_neg hex1]
      have hk1pos : 1 ≤ k1 := by omega
      obtain ⟨mem2, hmem2, hst2⟩ := mergeHi_take_y hst1
      rw [hmem2]
      simp only []
      have hm2 : (X.take k1 ++ (Y0 ++ (y :: (X.drop k1 ++ D)))).Perm
          (X ++ ((Y0 ++ [y]) ++ D)) := by
        refine List.Perm.trans ?_ hm1
        simp
      by_cases hex2 : v1.len2 - 1 = 1
      · rw [if_pos hex2]
        exact ⟨true, _, _, _, _, rfl, hst2, hm2, by simp; omega,
          fun _ => Or.inl ⟨by omega, by omega⟩, fun hb => by simp at hb⟩
      · rw [if_neg hex2]
        obtain ⟨X1, x1, hX1⟩ := exists_concat_of_length_pos (l := X.take k1) (by omega)
        have hX1len : X1.length + 1 = k1 := by
          have := congrArg List.length hX1
          simp only [List.length_append, List.length_cons, List.length_nil] at this
          omega
        rw [hX1] at hst1 hst2 hm1 hm2
        have hkey1 : loadI mem2 (v1.cursor1) = some x1 := by
          obtain ⟨Y00, y', hY00⟩ := exists_concat_of_length_pos (l := Y0) (by omega)
          rw [hY00] at hst2
          exact (mergeHi_read hst2).2
        rw [hkey1]
        simp only []
        obtain ⟨k2, hk2, hk2le⟩ := mergeHi_gallop_left_safe cmp x1 hst2 (by omega) (by omega)
        rw [hk2]
        simp only []
        obtain ⟨v3, hv3, hst3, hg3⟩ := merge_hi_move2_spec k2 hst2 hk2le
        rw [hv3]
        simp only []
        have hm3 : ((X1 ++ [x1]) ++ (Y0.take k2 ++ (Y0.drop k2 ++ (y :: (X.drop k1 ++ D))))).Perm
            (X ++ ((Y0 ++ [y]) ++ D)) := by
          refine List.Perm.trans ?_ hm2
          rw [← List.append_assoc (Y0.take k2), List.take_append_drop]
        obtain ⟨hl1'', hl2''⟩ := mergeHi_lens hst3
        simp only [List.length_take, List.length_append, List.length_cons, List.length_nil]
          at hl1'' hl2''
        have hk2len : (Y0.take k2).length = k2 := by simp; omega
        by_cases hex3 : v1.len2 - 1 - k2 ≠ 0 ∧ v3.len2 ≤ 1
        · rw [if_pos hex3]
          exact ⟨true, v3, _, _, _, rfl, hst3, hm3, by simp; omega,
            fun _ => Or.inl ⟨by omega, by simp⟩, fun hb => by simp at hb⟩
        · rw [if_neg hex3]
          have hk2two : 2 ≤ k2 := by omega
          obtain ⟨mem4, hmem4, hst4⟩ := mergeHi_take_x hst3 (by omega)
          rw [hmem4]
          simp only []
          have hm4 : (X1 ++ (Y0.take k2 ++
              (x1 :: (Y0.drop k2 ++ (y :: (X.drop k1 ++ D)))))).Perm
              (X ++ ((Y0 ++ [y]) ++ D)) := by
            refine List.Perm.trans ?_ hm3
            exact perm_hi_move X1 [x1] (Y0.take k2) _
          have hlen4 : X1.length + (Y0.take k2).length < X.length + (Y0.length + 1) := by
            omega
          by_cases hex4 : v3.len1 - 1 = 0
          · rw [if_pos hex4]
            exact ⟨true, _, _, _, _, rfl, hst4, hm4, by simpa using hlen4,
              fun _ => Or.inr ⟨by omega, by omega⟩, fun hb => by simp at hb⟩
          · rw [if_neg hex4]
            have hst5 : MergeHiState P Q tmp
                (if v3.min_gallop > 0 then
                  { mem := mem4, cursor1 := v3.cursor1 - 1, cursor2 := v3.cursor2,
                    dest := v3.dest - 1, len1 := v3.len1 - 1, len2 := v3.len2,
                    min_gallop := v3.min_gallop - 1 }
                 else
                  { mem := mem4, cursor1 := v3.cursor1 - 1, cursor2 := v3.cursor2,
                    dest := v3.dest - 1, len1 := v3.len1 - 1, len2 := v3.len2,
                    min_gallop := v3.min_gallop })
                (x1 :: (Y0.drop k2 ++ (y :: (X.drop k1 ++ D)))) X1 (Y0.take k2) := by
              split
              · exact mergeHi_set_min_gallop hst4 _
              · exact hst4
            split
            · obtain ⟨b, v', D', X', Y', e1, e2, e4, e5, e6, e7⟩ := ih _ _ _ _ hst5
                (by omega) (by omega) (by omega) (by omega)
              exact ⟨b, v', D', X', Y', e1, e2, e4.trans hm4, by
                simp only [List.length_append, List.length_cons, List.length_nil] at e5 ⊢
                omega, e6, e7⟩
            · exact ⟨false, _, _, _, _, rfl, hst5, hm4, by simpa using hlen4,
                fun hb => by simp at hb, fun _ => ⟨by omega, by omega⟩⟩

theorem merge_hi_outer_safe (cmp : α → α → Int) (P Q tmp : List α) (fuel : Nat) :
    ∀ (v : MergeHi α) (D X Y : List α), MergeHiState P Q tmp v D X Y →
      1 ≤ X.length → 2 ≤ Y.length → X.length + Y.length ≤ fuel →
      X.length + Y.length < GSIZE_MOD →
      ∃ v' D' X' Y', merge_hi_outer cmp tmp P.length fuel v = some v' ∧
        MergeHiState P Q tmp v' D' X' Y' ∧ (X' ++ (Y' ++ D')).Perm (X ++ (Y ++ D)) ∧
        ((Y'.length ≤ 1 ∧ 1 ≤ X'.length) ∨ (X'.length = 0 ∧ 2 ≤ Y'.length)) := by
  induction fuel with
  | zero => intro v D X Y _ hX hY hf; omega
  | succ fuel ih =>
    intro v D X Y hst hX hY hf h64
    obtain ⟨hl1, hl2⟩ := mergeHi_lens hst
    rw [merge_hi_outer]
    obtain ⟨b, v1, D1, X1, Y1, e1, e2, e4, e5, e6, e7⟩ := merge_hi_linear_safe cmp P Q tmp
      (v.len1 + v.len2) v 0 0 D X Y hst hX hY (by omega)
    rw [e1]
    cases b with
    | true =>
      simp only []
      refine ⟨v1, D1, X1, Y1, rfl, e2, e4, ?_⟩
      rcases e6 rfl with ⟨a, b⟩ | ⟨a, b⟩
      · exact Or.inl ⟨by omega, b⟩
      · exact Or.inr ⟨a, b⟩
    | false =>
      simp only []
      obtain ⟨hX1, hY1⟩ := e7 rfl
      obtain ⟨hl1', hl2'⟩ := mergeHi_lens e2
      obtain ⟨b2, v2, D2, X2, Y2, f1, f2, f4, f5, f6, f7⟩ := merge_hi_gallop_safe cmp P Q tmp
        (v1.len1 + v1.len2) v1 D1 X1 Y1 e2 hX1 hY1 (by omega) (by omega)
      rw [f1]
      cases b2 with
      | true =>
        simp only []
        exact ⟨v2, D2, X2, Y2, rfl, f2, f4.trans e4, f6 rfl⟩
      | false =>
        simp only []
        obtain ⟨hX2, hY2⟩ := f7 rfl
        obtain ⟨v', D', X', Y', g1, g2, g4, g5⟩ := ih _ D2 X2 Y2
          (mergeHi_set_min_gallop f2 (v2.min_gallop + 2)) hX2 hY2 (by omega) (by omega)
        exact ⟨v', D', X', Y', g1, g2, g4.trans (f4.trans e4), g5⟩

/-- The end of `merge_hi` when one element of the second run is left, for any
comparison function. -/
theorem mergeHi_finish_one_safe {P Q tmp : List α} {v : MergeHi α}
    {D X : List α} {y : α} (hst : MergeHiState P Q tmp v D X [y]) (hX : 1 ≤ X.length) :
    ∃ mem1 mem2, memmoveI v.mem (v.dest - (v.len1 : Int) + 1) (v.cursor1 - (v.len1 : Int) + 1)
        v.len1 = some mem1 ∧
      ASSIGNI mem1 (v.dest - (v.len1 : Int)) tmp v.cursor2 = some mem2 ∧
      mem2 = P ++ ((y :: X ++ D) ++ Q) := by
  obtain ⟨G, V, h1, h2, h3, h4, h5, h6, h7, h8⟩ := hst
  obtain ⟨g, rfl⟩ : ∃ g, G = [g] := by
    match G, h2 with
    | [g], _ => exact ⟨g, rfl⟩
  simp only [List.length_cons, List.length_nil] at h5 h6 h8
  have es : v.cursor1 - (v.len1 : Int) + 1 = ((P.length : Nat) : Int) := by omega
  have ed : v.dest - (v.len1 : Int) + 1 = ((P.length + 1 : Nat) : Int) := by omega
  have ed2 : v.dest - (v.len1 : Int) = ((P.length : Nat) : Int) := by omega
  have ec : v.cursor2 = ((0 : Nat) : Int) := by omega
  obtain ⟨x0, X1, rfl⟩ : ∃ x0 X1, X = x0 :: X1 := by
    cases X with
    | nil => simp at hX
    | cons x X1 => exact ⟨x, X1, rfl⟩
  simp only [List.length_cons] at h4 h6 h7
  refine ⟨(P ++ [x0]) ++ ((x0 :: X1) ++ (D ++ Q)), P ++ y :: (x0 :: X1 ++ (D ++ Q)), ?_, ?_, ?_⟩
  · rw [es, ed, memmoveI_ofNat]
    exact memmove_eq (A := P ++ [x0]) (M := X1 ++ [g]) (B := D ++ Q) (U := P)
      (W := x0 :: X1) (V := [g] ++ (D ++ Q)) (by simp [h1]) (by simp) (by simp; omega)
      (by simp [h1]) rfl (by simp; omega)
  · rw [ed2, ec, ASSIGNI_ofNat]
    exact ASSIGN_eq (A := P) (x := x0) (B := x0 :: X1 ++ (D ++ Q)) (U := []) (y := y) (V := V)
      (by simp) rfl (by simp [h3]) rfl
  · simp

/-- The state of `merge_hi` on the branch that reports a comparison function that
violates its contract: the second run is used up and what is left of the first run
is in place. -/
theorem mergeHi_finish_zero {P Q tmp : List α} {v : MergeHi α} {D X : List α}
    (hst : MergeHiState P Q tmp v D X []) : v.mem = P ++ ((X ++ D) ++ Q) := by
  obtain ⟨G, V, h1, h2, h3, h4, h5, h6, h7, h8⟩ := hst
  have hG : G = [] := List.eq_nil_of_length_eq_zero (by simpa using h2)
  subst hG
  simpa using h1

/-- The function `merge_hi` on two adjacent non-empty ranges `X` and `Y`, with any
comparison function: it returns, stays inside the two ranges and the scratch array,
and leaves a permutation of the two ranges in their place. -/
theorem merge_hi_safe (cmp : α → α → Int) (self : GtkTimSort α)
    {P X Y Q : List α} {base1 len1 base2 len2 : Nat} (hm : self.mem = P ++ (X ++ (Y ++ Q)))
    (hP : P.length = base1) (hX : X.length = len1) (hb : base1 + len1 = base2)
    (hY : Y.length = len2) (hX1 : 1 ≤ X.length) (hY1 : 1 ≤ Y.length)
    (h64 : X.length + Y.length < GSIZE_MOD) :
    ∃ self' M, merge_hi cmp self base1 len1 base2 len2 = some self' ∧
      self'.mem = P ++ (M ++ Q) ∧ M.Perm (X ++ Y) ∧ MergeFrame self self' := by
  obtain ⟨X0, xl, rfl⟩ := exists_concat_of_length_pos hX1
  obtain ⟨Y0, yl, rfl⟩ := exists_concat_of_length_pos hY1
  simp only [List.length_append, List.length_cons, List.length_nil] at hX hY h64
  have hframe := ensure_capacity_frame self len2
  have hp0 : (X0 ++ ((Y0 ++ [yl]) ++ [xl])).Perm ((X0 ++ [xl]) ++ (Y0 ++ [yl])) := by
    have := perm_hi_move X0 [xl] (Y0 ++ [yl]) []
    simpa using this
  unfold merge_hi
  simp only []
  rw [if_pos ⟨by omega, by omega, hb⟩, ensure_capacity_mem,
    memcpy_tmp_eq (A := P ++ (X0 ++ [xl])) (W := Y0 ++ [yl]) (B := Q) (by simp [hm])
      (by simp; omega) (by simp; omega)]
  simp only []
  have ec1 : (base1 : Int) + ((len1 : Int) - 1) = ((P.length + X0.length : Nat) : Int) := by
    omega
  have edd : (base2 : Int) + ((len2 : Int) - 1)
      = ((P.length + (X0.length + 1) + Y0.length : Nat) : Int) := by omega
  rw [ec1, edd, ASSIGNI_ofNat]
  rw [ASSIGN_eq (A := P ++ (X0 ++ ([xl] ++ Y0))) (x := yl) (B := Q) (U := P ++ X0) (y := xl)
    (V := Y0 ++ [yl] ++ Q) (by simp [hm]) (by simp; omega) (by simp [hm]) (by simp)]
  simp only []
  have hst0 : MergeHiState P Q (Y0 ++ [yl])
      { mem := P ++ (X0 ++ ([xl] ++ Y0)) ++ xl :: Q,
        cursor1 := ((P.length + X0.length : Nat) : Int) - 1, cursor2 := (len2 : Int) - 1,
        dest := ((P.length + (X0.length + 1) + Y0.length : Nat) : Int) - 1,
        len1 := len1 - 1, len2 := len2,
        min_gallop := (gtk_tim_sort_ensure_capacity self len2).min_gallop }
      [xl] X0 (Y0 ++ [yl]) :=
    ⟨[xl] ++ Y0, [], by simp, by simp, by simp, rfl, by simp; omega,
      by simp only [List.length_append, List.length_cons, List.length_nil]; omega,
      by simp; omega, by simp; omega⟩
  by_cases h1 : len1 - 1 = 0
  · rw [if_pos h1]
    have hX0nil : X0 = [] := List.eq_nil_of_length_eq_zero (by omega)
    subst hX0nil
    obtain ⟨mem1, e1, e2⟩ := mergeHi_finish_rest cmp hst0
    simp only [] at e1
    rw [e1]
    rw [naive_merge_nil_left] at e2
    exact ⟨_, _, rfl, e2, by simpa using hp0, hframe⟩
  · rw [if_neg h1]
    by_cases h2 : len2 = 1
    · rw [if_pos h2]
      have hY0nil : Y0 = [] := List.eq_nil_of_length_eq_zero (by omega)
      subst hY0nil
      obtain ⟨mem1, mem2, e1, e2, e3⟩ := mergeHi_finish_one_safe hst0 (by omega)
      simp only [] at e1 e2
      rw [e1]
      simp only []
      rw [e2]
      refine ⟨_, _, rfl, e3, ?_, hframe⟩
      have : ([yl] ++ (X0 ++ [xl])).Perm ((X0 ++ [xl]) ++ [yl]) := List.perm_append_comm
      simpa using this
    · rw [if_neg h2]
      have hbase : base1 = P.length := hP.symm
      rw [hbase]
      obtain ⟨v, D, X', Y', f1, f2, f4, f5⟩ := merge_hi_outer_safe cmp P Q (Y0 ++ [yl])
        (len1 - 1 + len2) _ [xl] X0 (Y0 ++ [yl]) hst0 (by omega) (by simp; omega)
        (by simp; omega) (by simp; omega)
      rw [f1]
      simp only []
      obtain ⟨hl1, hl2⟩ := mergeHi_lens f2
      have hfr : ∀ m : List α, MergeFrame self
          { gtk_tim_sort_ensure_capacity self len2 with
            min_gallop := if v.min_gallop < 1 then 1 else v.min_gallop, mem := m } := by
        intro m
        exact hframe
      rcases f5 with ⟨g1, g2⟩ | ⟨g1, g2⟩
      · by_cases hy1 : Y'.length = 1
        · rw [if_pos (by omega), if_pos (by omega)]
          obtain ⟨y, rfl⟩ : ∃ y, Y' = [y] := by
            match Y', hy1 with
            | [y], _ => exact ⟨y, rfl⟩
          obtain ⟨mem1, mem2, e1, e2, e3⟩ := mergeHi_finish_one_safe f2 g2
          rw [e1]
          simp only []
          rw [e2]
          refine ⟨_, _, rfl, e3, ?_, hfr _⟩
          refine List.Perm.trans ?_ (f4.trans hp0)
          have : (([y] ++ X') ++ D).Perm ((X' ++ [y]) ++ D) :=
            List.Perm.append_right D List.perm_append_comm
          simpa using this
        · rw [if_neg (by omega), if_pos (by omega)]
          have hY'nil : Y' = [] := List.eq_nil_of_length_eq_zero (by omega)
          subst hY'nil
          refine ⟨_, _, rfl, mergeHi_finish_zero f2, ?_, hfr _⟩
          exact List.Perm.trans (by simp) (f4.trans hp0)
      · rw [if_neg (by omega), if_neg (by omega), if_pos ⟨by omega, by omega⟩]
        have hX'nil : X' = [] := List.eq_nil_of_length_eq_zero g1
        subst hX'nil
        obtain ⟨mem1, e1, e2⟩ := mergeHi_finish_rest cmp f2
        rw [e1]
        rw [naive_merge_nil_left] at e2
        refine ⟨_, _, rfl, e2, ?_, hfr _⟩
        exact List.Perm.trans (by simp) (f4.trans hp0)

/-! ## Run detection and insertion sort with an arbitrary comparison function -/

theorem compare_in_range (cmp : α → α → Int) (abuf bbuf : List α) {a b : Nat}
    (ha : a < abuf.length) (hb : b < bbuf.length) :
    ∃ c, gtk_tim_sort_compare cmp abuf a bbuf b = some c := by
  simp only [gtk_tim_sort_compare, load, List.getElem?_eq_getElem ha,
    List.getElem?_eq_getElem hb]
  exact ⟨_, rfl⟩

theorem prepare_run_asc_safe (cmp : α → α → Int) (mem : List α) (base size : Nat)
    (hmem : base + size ≤ mem.length) (fuel : Nat) :
    ∀ (run_hi cur next : Nat), next = base + run_hi → cur + 1 = next → run_hi ≤ size →
      size + 1 ≤ fuel + run_hi →
      ∃ r, prepare_run_asc cmp mem size fuel run_hi cur next = some r ∧ run_hi ≤ r ∧
        r ≤ size := by
  induction fuel with
  | zero => intro run_hi cur next _ _ _ hf; omega
  | succ fuel ih =>
    intro run_hi cur next hn hc hle hf
    rw [prepare_run_asc]
    by_cases hlt : run_hi < size
    · rw [if_pos hlt]
      obtain ⟨c, e⟩ := compare_in_range cmp mem mem (a := next) (b := cur) (by omega) (by omega)
      rw [e]
      simp only
      split
      · obtain ⟨r, e1, e2, e3⟩ := ih (run_hi + 1) next (next + 1) (by omega) rfl (by omega)
          (by omega)
        exact ⟨r, e1, by omega, e3⟩
      · exact ⟨run_hi, rfl, Nat.le_refl _, hle⟩
    · rw [if_neg hlt]
      exact ⟨run_hi, rfl, Nat.le_refl _, hle⟩

theorem prepare_run_desc_safe (cmp : α → α → Int) (mem : List α) (base size : Nat)
    (hmem : base + size ≤ mem.length) (fuel : Nat) :
    ∀ (run_hi cur next : Nat), next = base + run_hi → cur + 1 = next → run_hi ≤ size →
      size + 1 ≤ fuel + run_hi →
      ∃ r, prepare_run_desc cmp mem size fuel run_hi cur next = some r ∧ run_hi ≤ r ∧
        r ≤ size := by
  induction fuel with
  | zero => intro run_hi cur next _ _ _ hf; omega
  | succ fuel ih =>
    intro run_hi cur next hn hc hle hf
    rw [prepare_run_desc]
    by_cases hlt : run_hi < size
    · rw [if_pos hlt]
      obtain ⟨c, e⟩ := compare_in_range cmp mem mem (a := next) (b := cur) (by omega) (by omega)
      rw [e]
      simp only
      split
      · obtain ⟨r, e1, e2, e3⟩ := ih (run_hi + 1) next (next + 1) (by omega) rfl (by omega)
          (by omega)
        exact ⟨r, e1, by omega, e3⟩
      · exact ⟨run_hi, rfl, Nat.le_refl _, hle⟩
    · rw [if_neg hlt]
      exact ⟨run_hi, rfl, Nat.le_refl _, hle⟩

/-- The function `prepare_run` with any comparison function: it returns a length
between 1 and `size` (0 when `size` is 0), reads inside the unconsumed part only and
leaves a permutation of it. -/
theorem prepare_run_safe (cmp : α → α → Int) (self : GtkTimSort α)
    (oc : Option GtkTimSortChange) (A tail : List α) (hm : self.mem = A ++ tail)
    (hA : A.length = self.base) (ht : tail.length = self.size) :
    ∃ r tail' oc', prepare_run cmp self oc = some (r, A ++ tail', oc') ∧
      tail'.Perm tail ∧ r ≤ self.size ∧ (0 < self.size → 0 < r) ∧
      (∀ c, oc' = some c → c.base = none → c.len = 0) := by
  have hset0 : ∀ c, gtk_tim_sort_set_change oc none 0 = some c → c.base = none → c.len = 0 := by
    intro c hc _
    cases oc with
    | none => simp [gtk_tim_sort_set_change] at hc
    | some o =>
      simp only [gtk_tim_sort_set_change, Option.some.injEq] at hc
      rw [← hc]
  unfold prepare_run
  by_cases hsz : self.size ≤ 1
  · simp only [hsz, if_true]
    exact ⟨self.size, tail, _, by rw [hm], List.Perm.refl _, Nat.le_refl _, fun h => h, hset0⟩
  · simp only [hsz, if_false]
    have hlen : self.mem.length = self.base + self.size := by
      rw [hm, List.length_append, hA, ht]
    obtain ⟨c, e⟩ := compare_in_range cmp self.mem self.mem (a := self.base + 1) (b := self.base)
      (by omega) (by omega)
    rw [e]
    simp only
    by_cases hc : c < 0
    · rw [if_pos hc]
      obtain ⟨r, e1, e2, e3⟩ := prepare_run_desc_safe cmp self.mem self.base self.size
        (by omega) self.size (1 + 1) (self.base + 1) (self.base + 1 + 1) (by omega) rfl
        (by omega) (by omega)
      rw [e1]
      simp only
      rw [reverse_range_eq (A := A) (S := tail.take r) (B := tail.drop r)
        (by rw [hm, List.take_append_drop]) hA (by rw [List.length_take]; omega) (by omega)]
      refine ⟨r, (tail.take r).reverse ++ tail.drop r, _, rfl, ?_, e3, fun _ => by omega, ?_⟩
      · have h1 : ((tail.take r).reverse ++ tail.drop r).Perm (tail.take r ++ tail.drop r) :=
          List.Perm.append_right _ (List.reverse_perm _)
        rw [List.take_append_drop] at h1
        exact h1
      · intro c hc hb
        cases oc with
        | none => simp [gtk_tim_sort_set_change] at hc
        | some o =>
          simp only [gtk_tim_sort_set_change, Option.some.injEq] at hc
          rw [← hc] at hb
          simp at hb
    · rw [if_neg hc]
      obtain ⟨r, e1, e2, e3⟩ := prepare_run_asc_safe cmp self.mem self.base self.size
        (by omega) self.size (1 + 1) (self.base + 1) (self.base + 1 + 1) (by omega) rfl
        (by omega) (by omega)
      rw [e1]
      simp only
      exact ⟨r, tail, _, by rw [hm], List.Perm.refl _, e3, fun _ => by omega, hset0⟩

theorem binary_sort_search_safe (cmp : α → α → Int) (mem : List α) (startp : Nat)
    (hsp : startp < mem.length) (fuel : Nat) :
    ∀ (leftp right : Nat), leftp + right ≤ startp → right + 1 ≤ fuel →
      ∃ lp, binary_sort_search cmp mem startp fuel leftp right = some lp ∧ leftp ≤ lp ∧
        lp ≤ leftp + right := by
  induction fuel with
  | zero => intro leftp right _ hf; omega
  | succ fuel ih =>
    intro leftp right hle hf
    rw [binary_sort_search]
    by_cases hpos : 0 < right
    · rw [if_pos hpos]
      simp only [Nat.shiftRight_eq_div_pow, pow_one]
      obtain ⟨c, e⟩ := compare_in_range cmp mem mem (a := startp) (b := leftp + right / 2) hsp
        (by omega)
      rw [e]
      simp only
      split
      · obtain ⟨lp, e1, e2, e3⟩ := ih leftp (right / 2) (by omega) (by omega)
        exact ⟨lp, e1, e2, by omega⟩
      · obtain ⟨lp, e1, e2, e3⟩ := ih (leftp + right / 2 + 1) (right - (right / 2 + 1))
          (by omega) (by omega)
        exact ⟨lp, e1, by omega, by omega⟩
    · rw [if_neg hpos]
      exact ⟨leftp, rfl, Nat.le_refl _, by omega⟩

theorem binary_sort_loop_safe (cmp : α → α → Int) (A B : List α) (a hi : Nat) (fuel : Nat) :
    ∀ (pre rest mem : List α) (start startp cmin cmax : Nat),
      mem = A ++ (pre ++ (rest ++ B)) → A.length = a → start = pre.length →
      hi = pre.length + rest.length → startp = a + start → rest.length + 1 ≤ fuel →
      (cmax > a → cmin < a + hi) →
      ∃ W cmin' cmax', binary_sort_loop cmp a hi fuel mem start startp cmin cmax =
          some (A ++ (W ++ B), cmin', cmax') ∧ W.Perm (pre ++ rest) ∧
        (cmax' > a → cmin' < a + hi) := by
  induction fuel with
  | zero => intro pre rest mem start startp cmin cmax _ _ _ _ _ hf; omega
  | succ fuel ih =>
    intro pre rest mem start startp cmin cmax hm hA hst hhi hsp hf hinv
    rw [binary_sort_loop]
    cases rest with
    | nil =>
      rw [if_neg (by simp at hhi; omega)]
      exact ⟨pre, cmin, cmax, by simp [hm], by simp, hinv⟩
    | cons y rest =>
      simp only [List.length_cons] at hhi hf
      rw [if_pos (by omega)]
      obtain ⟨lp, h1, h2, h3⟩ := binary_sort_search_safe cmp mem startp
        (by rw [hm]; simp; omega) (start + 1) a start (by omega) (by omega)
      rw [h1]
      simp only
      by_cases hn : startp - lp = 0
      · rw [if_pos hn]
        obtain ⟨W, cmin', cmax', e1, e2, e3⟩ := ih (pre ++ [y]) rest mem (start + 1)
          (startp + 1) cmin cmax (by simp [hm]) hA (by simp; omega) (by simp; omega)
          (by omega) (by omega) hinv
        exact ⟨W, cmin', cmax', e1, by simpa using e2, e3⟩
      · rw [if_neg hn]
        have hk : lp - a < pre.length := by omega
        generalize hL : pre.take (lp - a) = L
        generalize hR : pre.drop (lp - a) = R
        have hpre : pre = L ++ R := by rw [← hL, ← hR, List.take_append_drop]
        have hLlen : L.length = lp - a := by rw [← hL, List.length_take]; omega
        have hRne : R ≠ [] := by
          intro e
          have := congrArg List.length hpre
          rw [e] at this
          simp at this
          omega
        obtain ⟨r0, R1, rfl⟩ := List.exists_cons_of_ne_nil hRne
        subst hpre
        simp only [List.length_append, List.length_cons] at hst hhi hk
        rw [load_eq (A := A ++ (L ++ r0 :: R1)) (x := y) (B := rest ++ B) (by simp [hm])
          (by simp; omega)]
        simp only
        rw [memmove_eq (A := A ++ (L ++ [r0])) (M := R1 ++ [y]) (B := rest ++ B)
          (U := A ++ L) (W := r0 :: R1) (V := y :: (rest ++ B))
          (by simp [hm]) (by simp; omega) (by simp; omega) (by simp [hm]) (by simp; omega)
          (by simp; omega)]
        simp only
        rw [store_eq (A := A ++ L) (x := r0) (B := r0 :: R1 ++ (rest ++ B)) y (by simp)
          (by simp; omega)]
        simp only
        obtain ⟨W, cmin', cmax', e1, e2, e3⟩ := ih (L ++ y :: r0 :: R1) rest
          (A ++ L ++ y :: (r0 :: R1 ++ (rest ++ B))) (start + 1)
          (startp + 1) (min cmin lp) (max cmax (startp + 1)) (by simp) hA (by simp; omega)
          (by simp; omega) (by omega) (by omega) (by omega)
        refine ⟨W, cmin', cmax', e1, e2.trans ?_, e3⟩
        simp only [List.append_assoc, List.cons_append]
        refine List.Perm.append_left L ?_
        have : (y :: (r0 :: R1 ++ rest)).Perm ((r0 :: R1) ++ y :: rest) := List.perm_middle.symm
        simpa using this

/-- The function `binary_sort` with any comparison function: it returns, stays
inside the `hi` elements from `a` on and leaves a permutation of them. -/
theorem binary_sort_safe (cmp : α → α → Int) {mem A W B : List α} {a hi start : Nat}
    (ic : Option GtkTimSortChange) (hm : mem = A ++ (W ++ B)) (hA : A.length = a)
    (hW : W.length = hi) (hpos : 0 < start) (hst : start ≤ hi)
    (hic : ∀ c, ic = some c → c.base = none → c.len = 0) :
    ∃ W' oc', binary_sort cmp mem a hi start ic = some (A ++ (W' ++ B), oc') ∧
      W'.Perm W := by
  unfold binary_sort
  rw [if_pos hst, if_neg (by omega)]
  simp only
  obtain ⟨W', cmin', cmax', e1, e2, e3⟩ := binary_sort_loop_safe cmp A B a hi (hi + 1)
    (W.take start) (W.drop start) mem start (a + start) (a + hi) a
    (by rw [hm, ← List.append_assoc (W.take start), List.take_append_drop]) hA
    (by rw [List.length_take]; omega)
    (by rw [List.length_take, List.length_drop]; omega) rfl
    (by rw [List.length_drop]; omega) (by omega)
  rw [e1]
  rw [List.take_append_drop] at e2
  simp only
  by_cases hc : cmax' > a
  · rw [if_pos hc, if_pos (e3 hc)]
    cases ic with
    | none => exact ⟨W', _, rfl, e2⟩
    | some c =>
      simp only
      by_cases hl : c.len ≠ 0
      · rw [if_pos hl]
        cases hb : c.base with
        | none => exact absurd (hic c rfl hb) hl
        | some cb => exact ⟨W', _, rfl, e2⟩
      · rw [if_neg hl]
        exact ⟨W', _, rfl, e2⟩
  · rw [if_neg hc]
    exact ⟨W', _, rfl, e2⟩

/-! ## The run stack with an arbitrary comparison function -/

theorem sorted_const (l : List α) : Sorted (fun _ _ => (0 : Int)) l :=
  List.pairwise_of_forall (fun _ _ => Int.le_refl 0)

theorem arranged_one {self self' : GtkTimSort α} {pre post : List (List α)}
    {A B tail : List α} (hL : Arranged self (pre ++ A :: B :: post) tail)
    (hpar : SameParams self self') (C : List α)
    (hmem : self'.mem = pre.flatten ++ (C ++ (post.flatten ++ tail)))
    (hrun : self'.run = runs_of 0 (pre ++ C :: post)) (hlen : C.length = A.length + B.length) :
    Arranged self' (pre ++ C :: post) tail :=
  layout_merge_one hL hpar C hmem hrun hlen (sorted_const C)

theorem arranged_two {self self' : GtkTimSort α} {pre post : List (List α)}
    {A B tail : List α} (hL : Arranged self (pre ++ A :: B :: post) tail)
    (hpar : SameParams self self') (C D : List α)
    (hmem : self'.mem = pre.flatten ++ (C ++ (D ++ (post.flatten ++ tail))))
    (hrun : self'.run = runs_of 0 (pre ++ C :: D :: post))
    (hlen : C.length + D.length = A.length + B.length) (hC : C ≠ []) (hD : D ≠ []) :
    Arranged self' (pre ++ C :: D :: post) tail :=
  layout_merge_two hL hpar C D hmem hrun hlen ⟨hC, sorted_const C⟩ ⟨hD, sorted_const D⟩

theorem perm_mid (P Q M N : List α) (h : M.Perm N) : (P ++ (M ++ Q)).Perm (P ++ (N ++ Q)) :=
  List.Perm.append_left P (List.Perm.append_right Q h)

/-- The function `merge_at` with any comparison function, on a sorter made of runs
laid out one after the other: it returns, stays inside the two runs and replaces them
by one run or, when the merge is capped, by two runs, that hold a permutation of
their elements. -/
theorem merge_at_safe (cmp : α → α → Int) (self : GtkTimSort α)
    (oc : Option GtkTimSortChange) {pre post : List (List α)} {A B tail : List α}
    (hL : Arranged self (pre ++ A :: B :: post) tail) (hpost : post.length ≤ 1)
    (h64 : self.mem.length < GSIZE_MOD) (hmax : 1 ≤ self.max_merge_size) :
    ∃ self' oc', merge_at cmp self pre.length oc = some (self', oc') ∧
      SameParams self self' ∧ self'.mem.Perm self.mem ∧
      ((∃ C, Arranged self' (pre ++ C :: post) tail) ∨
        (∃ C D, Arranged self' (pre ++ C :: D :: post) tail)) := by
  have hm := layout_mem hL
  have hL0 := hL
  obtain ⟨hmem, hrun, hbase, hsize, hsegs⟩ := hL
  have hA := hsegs A (by simp)
  have hB := hsegs B (by simp)
  obtain ⟨b0, B1, hB1⟩ : ∃ b0 B1, B = b0 :: B1 := List.exists_cons_of_ne_nil hB.1
  have hAlen : 0 < A.length := List.length_pos.2 hA.1
  have hBlen : 0 < B.length := List.length_pos.2 hB.1
  have hlenm : self.mem.length =
      pre.flatten.length + (A.length + (B.length + (post.flatten.length + tail.length))) := by
    rw [hm]
    simp only [List.length_append]
  have hpl : pre.length + 2 + post.length < GSIZE_MOD := by
    have h1 := segs_length_le pre (fun s hs => (hsegs s (List.mem_append_left _ hs)).1)
    have h2 := segs_length_le post (fun s hs => (hsegs s (by simp [hs])).1)
    omega
  have hp := runs_pending self _ hrun
  simp only [List.length_append, List.length_cons] at hp
  have hpar0 : SameParams self self := ⟨rfl, rfl, rfl, rfl, rfl⟩
  have hdone : ∃ self' oc', (match merge_at_done self pre.length with
        | none => none
        | some self1 => some (self1, gtk_tim_sort_set_change oc none 0)) = some (self', oc') ∧
      SameParams self self' ∧ self'.mem.Perm self.mem ∧
      ((∃ C, Arranged self' (pre ++ C :: post) tail) ∨
        (∃ C D, Arranged self' (pre ++ C :: D :: post) tail)) := by
    rw [merge_at_done_eq self pre post A B (A ++ B) hrun hpost (by simp) hpl]
    exact ⟨_, _, rfl, hpar0, List.Perm.refl _, Or.inl ⟨A ++ B,
      arranged_one hL0 (sameParams_run (merge_frame_refl self) _) (A ++ B)
        (by rw [hm]; simp) rfl (by simp)⟩⟩
  unfold merge_at
  rw [hrun, runs_getElem_fst, runs_getElem_snd]
  simp only []
  rw [if_pos (by
    refine ⟨by omega, ?_, ⟨hAlen, hBlen⟩, trivial⟩
    rw [hp]
    simp only [GSIZE_MOD] at hpl ⊢
    omega)]
  rw [load_eq (A := pre.flatten ++ A) (x := b0) (B := B1 ++ (post.flatten ++ tail))
    (by rw [hm, hB1]; simp) (by simp)]
  simp only []
  obtain ⟨k, ek, hkle⟩ := gallop_right_safe cmp b0 (A := pre.flatten) (S := A)
    (B := B ++ (post.flatten ++ tail)) hm rfl rfl hAlen (by omega)
  rw [ek]
  simp only []
  by_cases hx : A.length - k = 0
  · rw [if_pos hx]
    exact hdone
  · rw [if_neg hx]
    obtain ⟨X0, xl, hX⟩ := exists_concat_of_length_pos (l := A.drop k) (by simp; omega)
    have hAsplit : A = A.take k ++ A.drop k := (List.take_append_drop k A).symm
    have hX0len : X0.length + 1 = A.length - k := by
      have := congrArg List.length hX
      simp at this
      omega
    have hm2 : self.mem =
        (pre.flatten ++ (A.take k ++ X0)) ++ xl :: (B ++ (post.flatten ++ tail)) := by
      rw [hm]
      nth_rewrite 1 [hAsplit]
      rw [hX]
      simp
    rw [load_eq hm2 (by simp; omega)]
    simp only []
    have hm3 : self.mem = (pre.flatten ++ A) ++ (B ++ (post.flatten ++ tail)) := by
      rw [hm]
      simp
    obtain ⟨k2, ek2, hk2le⟩ := gallop_left_safe cmp xl hm3 (List.length_append _ _) rfl
      (show B.length - 1 < B.length by omega) (by omega)
    rw [ek2]
    simp only []
    by_cases hk2z : k2 = 0
    · rw [if_pos hk2z]
      exact hdone
    · rw [if_neg hk2z]
      have hBsplit : B = B.take k2 ++ B.drop k2 := (List.take_append_drop _ B).symm
      have hYlen : (B.take k2).length = k2 := by simp; omega
      have hXlen : (A.drop k).length = A.length - k := by simp
      have hA1len : (A.take k).length = k := by simp; omega
      by_cases hle : A.length - k ≤ k2
      · rw [if_pos hle]
        by_cases hcap : A.length - k > self.max_merge_size
        · rw [if_pos hcap]
          obtain ⟨L, hLd⟩ : ∃ L, L = A.take (A.length - self.max_merge_size) := ⟨_, rfl⟩
          obtain ⟨Xb, hXb⟩ : ∃ Xb, Xb = A.drop (A.length - self.max_merge_size) := ⟨_, rfl⟩
          have hsplit : A = L ++ Xb := by rw [hLd, hXb, List.take_append_drop]
          have hLlen : L.length = A.length - self.max_merge_size := by
            rw [hLd, List.length_take]
            omega
          have hXblen : Xb.length = self.max_merge_size := by
            rw [hXb, List.length_drop]
            omega
          have hm4 : self.mem = (pre.flatten ++ L) ++
              (Xb ++ (B.take k2 ++ (B.drop k2 ++ (post.flatten ++ tail)))) := by
            rw [hm]
            conv_lhs => rw [hsplit, hBsplit]
            simp only [List.append_assoc]
          obtain ⟨self1, M, e1, e2, e3, e4⟩ := merge_lo_safe cmp self hm4
            (show _ = pre.flatten.length + (A.length - self.max_merge_size) by
              rw [List.length_append, hLlen])
            hXblen (show _ = pre.flatten.length + A.length by omega) hYlen
            (by omega) (by omega) (by omega)
          rw [e1]
          simp only []
          rw [if_pos (by omega)]
          have hMlen : M.length = self.max_merge_size + k2 := by
            rw [e3.length_eq, List.length_append, hXblen, hYlen]
          obtain ⟨D, hD⟩ : ∃ D, D = M ++ B.drop k2 := ⟨_, rfl⟩
          have hDlen : D.length = B.length + self.max_merge_size := by
            rw [hD, List.length_append, hMlen, List.length_drop]
            omega
          have hS := runs_set_two pre post A B L D (by rw [hLlen, hDlen]; omega)
          rw [hLlen, hDlen] at hS
          refine ⟨_, _, rfl, sameParams_run e4 _, ?_, Or.inr ⟨L, D,
            arranged_two hL0 (sameParams_run e4 _) L D ?_ ?_ ?_ ?_ ?_⟩⟩
          · show self1.mem.Perm self.mem
            rw [e2, hm4]
            have := perm_mid (pre.flatten ++ L) (B.drop k2 ++ (post.flatten ++ tail)) M
              (Xb ++ B.take k2) e3
            simpa using this
          · show self1.mem = _
            rw [e2, hD]
            simp only [List.append_assoc]
          · show (self1.run.set _ _).set _ _ = _
            rw [e4.1, hrun, Nat.add_sub_assoc (by omega)]
            exact hS
          · rw [hLlen, hDlen]
            omega
          · exact List.ne_nil_of_length_pos (by rw [hLlen]; omega)
          · exact List.ne_nil_of_length_pos (by rw [hDlen]; omega)
        · rw [if_neg hcap]
          have hm4 : self.mem = (pre.flatten ++ A.take k) ++
              (A.drop k ++ (B.take k2 ++ (B.drop k2 ++ (post.flatten ++ tail)))) := by
            rw [hm]
            conv_lhs => rw [hAsplit, hBsplit]
            simp only [List.append_assoc]
          obtain ⟨self1, M, e1, e2, e3, e4⟩ := merge_lo_safe cmp self hm4
            (show _ = pre.flatten.length + k by rw [List.length_append, hA1len])
            hXlen (show _ = pre.flatten.length + A.length by omega) hYlen
            (by omega) (by omega) (by omega)
          rw [e1]
          simp only []
          have hMlen : M.length = A.length - k + k2 := by
            rw [e3.length_eq, List.length_append, hXlen, hYlen]
          have hClen : (A.take k ++ (M ++ B.drop k2)).length = A.length + B.length := by
            simp only [List.length_append, hMlen, hA1len, List.length_drop]
            omega
          rw [merge_at_done_eq self1 pre post A B _ (e4.1.trans hrun) hpost hClen hpl]
          simp only []
          refine ⟨_, _, rfl, sameParams_run e4 _, ?_, Or.inl ⟨_,
            arranged_one hL0 (sameParams_run e4 _) _ ?_ rfl hClen⟩⟩
          · show self1.mem.Perm self.mem
            rw [e2, hm4]
            have := perm_mid (pre.flatten ++ A.take k) (B.drop k2 ++ (post.flatten ++ tail)) M
              (A.drop k ++ B.take k2) e3
            simpa using this
          · show self1.mem = _
            rw [e2]
            simp only [List.append_assoc]
      · rw [if_neg hle]
        by_cases hcap : k2 > self.max_merge_size
        · rw [if_pos hcap]
          obtain ⟨Ya, hYa⟩ : ∃ Ya, Ya = B.take self.max_merge_size := ⟨_, rfl⟩
          obtain ⟨R, hR⟩ : ∃ R, R = B.drop self.max_merge_size := ⟨_, rfl⟩
          have hBs : B = Ya ++ R := by rw [hYa, hR, List.take_append_drop]
          have hYalen : Ya.length = self.max_merge_size := by
            rw [hYa, List.length_take]
            omega
          have hRlen : R.length = B.length - self.max_merge_size := by
            rw [hR, List.length_drop]
          have hm4 : self.mem = (pre.flatten ++ A.take k) ++
              (A.drop k ++ (Ya ++ (R ++ (post.flatten ++ tail)))) := by
            rw [hm]
            conv_lhs => rw [hAsplit, hBs]
            simp only [List.append_assoc]
          obtain ⟨self1, M, e1, e2, e3, e4⟩ := merge_hi_safe cmp self hm4
            (show _ = pre.flatten.length + k by rw [List.length_append, hA1len])
            hXlen (show _ = pre.flatten.length + A.length by omega) hYalen
            (by omega) (by omega) (by omega)
          rw [e1]
          simp only []
          rw [if_pos (by omega)]
          have hMlen : M.length = A.length - k + self.max_merge_size := by
            rw [e3.length_eq, List.length_append, hXlen, hYalen]
          obtain ⟨C, hC⟩ : ∃ C, C = A.take k ++ M := ⟨_, rfl⟩
          have hClen : C.length = A.length + self.max_merge_size := by
            rw [hC, List.length_append, hMlen, hA1len]
            omega
          have hS := runs_set_two pre post A B C R (by rw [hClen, hRlen]; omega)
          rw [hClen, hRlen] at hS
          refine ⟨_, _, rfl, sameParams_run e4 _, ?_, Or.inr ⟨C, R,
            arranged_two hL0 (sameParams_run e4 _) C R ?_ ?_ ?_ ?_ ?_⟩⟩
          · show self1.mem.Perm self.mem
            rw [e2, hm4]
            have := perm_mid (pre.flatten ++ A.take k) (R ++ (post.flatten ++ tail)) M
              (A.drop k ++ Ya) e3
            simpa using this
          · show self1.mem = _
            rw [e2, hC]
            simp only [List.append_assoc]
          · show (self1.run.set _ _).set _ _ = _
            rw [e4.1, hrun, Nat.add_assoc]
            exact hS
          · rw [hClen, hRlen]
            omega
          · exact List.ne_nil_of_length_pos (by rw [hClen]; omega)
          · exact List.ne_nil_of_length_pos (by rw [hRlen]; omega)
        · rw [if_neg hcap]
          have hm4 : self.mem = (pre.flatten ++ A.take k) ++
              (A.drop k ++ (B.take k2 ++ (B.drop k2 ++ (post.flatten ++ tail)))) := by
            rw [hm]
            conv_lhs => rw [hAsplit, hBsplit]
            simp only [List.append_assoc]
          obtain ⟨self1, M, e1, e2, e3, e4⟩ := merge_hi_safe cmp self hm4
            (show _ = pre.flatten.length + k by rw [List.length_append, hA1len])
            hXlen (show _ = pre.flatten.length + A.length by omega) hYlen
            (by omega) (by omega) (by omega)
          rw [e1]
          simp only []
          have hMlen : M.length = A.length - k + k2 := by
            rw [e3.length_eq, List.length_append, hXlen, hYlen]
          have hClen : (A.take k ++ (M ++ B.drop k2)).length = A.length + B.length := by
            simp only [List.length_append, hMlen, hA1len, List.length_drop]
            omega
          rw [merge_at_done_eq self1 pre post A B _ (e4.1.trans hrun) hpost hClen hpl]
          simp only []
          refine ⟨_, _, rfl, sameParams_run e4 _, ?_, Or.inl ⟨_,
            arranged_one hL0 (sameParams_run e4 _) _ ?_ rfl hClen⟩⟩
          · show self1.mem.Perm self.mem
            rw [e2, hm4]
            have := perm_mid (pre.flatten ++ A.take k) (B.drop k2 ++ (post.flatten ++ tail)) M
              (A.drop k ++ B.take k2) e3
            simpa using this
          · show self1.mem = _
            rw [e2]
            simp only [List.append_assoc]

/-! ## One step with an arbitrary comparison function -/

theorem merge_at_top_safe (cmp : α → α → Int) (self : GtkTimSort α)
    (oc : Option GtkTimSortChange) {segs : List (List α)} {tail : List α}
    (hL : Arranged self segs tail) (h64 : self.mem.length < GSIZE_MOD)
    (hmax : 1 ≤ self.max_merge_size) (n : Nat)
    (hn : (2 ≤ segs.length ∧ n = segs.length - 2) ∨ (3 ≤ segs.length ∧ n = segs.length - 3)) :
    ∃ self' oc', merge_at cmp self n oc = some (self', oc') ∧
      SameParams self self' ∧ self'.mem.Perm self.mem ∧
      ∃ segs', Arranged self' segs' tail := by
  have key : ∀ (pre post : List (List α)) (A B : List α), segs = pre ++ A :: B :: post →
      post.length ≤ 1 → n = pre.length →
      ∃ self' oc', merge_at cmp self n oc = some (self', oc') ∧
        SameParams self self' ∧ self'.mem.Perm self.mem ∧
        ∃ segs', Arranged self' segs' tail := by
    intro pre post A B e hpost hn
    rw [e] at hL
    obtain ⟨self', oc', e1, e2, e3, e4⟩ := merge_at_safe cmp self oc hL hpost h64 hmax
    rw [hn]
    refine ⟨self', oc', e1, e2, e3, ?_⟩
    rcases e4 with ⟨C, hC⟩ | ⟨C, D, hC⟩
    · exact ⟨_, hC⟩
    · exact ⟨_, hC⟩
  rcases hn with ⟨hl, hn⟩ | ⟨hl, hn⟩
  · obtain ⟨pre, A, B, e, hp⟩ := segs_split_two segs hl
    exact key pre [] A B e (by simp) (by rw [hn, hp])
  · obtain ⟨pre, A, B, D, e, hp⟩ := segs_split_three segs hl
    exact key pre [D] A B e (by simp) (by rw [hn, hp])

theorem arranged_push {self : GtkTimSort α} {segs : List (List α)} {tail : List α}
    (hL : Arranged self segs tail) (seg rest : List α) (hne : seg ≠ [])
    (hlen : seg.length + rest.length = tail.length) :
    Arranged
      { self with
        mem := segs.flatten ++ (seg ++ rest)
        run := self.run ++ [{ base := self.base, len := seg.length }]
        base := self.base + seg.length
        size := self.size - seg.length } (segs ++ [seg]) rest := by
  obtain ⟨l1, l2, l3, l4, l5⟩ := hL
  refine ⟨?_, ?_, ?_, ?_, ?_⟩
  · show segs.flatten ++ (seg ++ rest) = _
    simp
  · show self.run ++ [_] = _
    rw [runs_of_append, l2, l3]
    simp [runs_of]
  · show self.base + seg.length = _
    rw [l3]
    simp
  · show self.size - seg.length = _
    omega
  · intro s hs
    rcases List.mem_append.1 hs with hs | hs
    · exact l5 s hs
    · rw [List.mem_singleton.1 hs]
      exact ⟨hne, sorted_const seg⟩

/-- The function `merge_append` with any comparison function: it returns `FALSE`
and changes nothing when the tail is empty, and otherwise cuts a run from a
permutation of the tail and pushes it. -/
theorem merge_append_safe (cmp : α → α → Int) (self : GtkTimSort α)
    (oc : Option GtkTimSortChange) {segs : List (List α)} {tail : List α}
    (hL : Arranged self segs tail) :
    (self.size = 0 ∧
        merge_append cmp self oc = some (false, self, gtk_tim_sort_set_change oc none 0)) ∨
      (0 < self.size ∧ ∃ self' oc' seg rest,
        merge_append cmp self oc = some (true, self', oc') ∧
        self'.mem.Perm self.mem ∧ Arranged self' (segs ++ [seg]) rest ∧
        self'.max_merge_size = self.max_merge_size) := by
  by_cases h0 : self.size = 0
  · exact Or.inl ⟨h0, merge_append_zero cmp self oc h0⟩
  · refine Or.inr ⟨by omega, ?_⟩
    have hm := hL.1
    have hA : segs.flatten.length = self.base := hL.2.2.1.symm
    have ht : tail.length = self.size := hL.2.2.2.1.symm
    obtain ⟨r, tail', oc', e1, e2, e3, e4, e5⟩ := prepare_run_safe cmp self oc segs.flatten tail
      hm hA ht
    have hr := e4 (by omega)
    have htl : tail'.length = tail.length := e2.length_eq
    have hperm : ∀ (W : List α) (n : Nat), W.Perm (tail'.take n) →
        (segs.flatten ++ (W ++ tail'.drop n)).Perm self.mem := by
      intro W n hW
      rw [hm]
      refine List.Perm.append_left _ ?_
      have h1 : (W ++ tail'.drop n).Perm (tail'.take n ++ tail'.drop n) :=
        List.Perm.append_right _ hW
      rw [List.take_append_drop] at h1
      exact h1.trans e2
    unfold merge_append
    rw [e1]
    simp only []
    rw [if_neg (by omega)]
    by_cases hmin : r < self.min_run
    · rw [if_pos hmin]
      have hforce : min self.size self.min_run ≤ tail'.length := by omega
      have hsplit : segs.flatten ++ tail' = segs.flatten ++
          (tail'.take (min self.size self.min_run) ++
            tail'.drop (min self.size self.min_run)) := by
        rw [List.take_append_drop]
      have htake : (tail'.take (min self.size self.min_run)).length =
          min self.size self.min_run := by
        rw [List.length_take]
        omega
      have hstart : r ≤ min self.size self.min_run := by omega
      obtain ⟨W', oc2, f1, f2⟩ := binary_sort_safe cmp oc' hsplit hA htake hr hstart e5
      rw [f1]
      simp only []
      unfold gtk_tim_sort_push_run
      rw [if_pos (by show min self.size self.min_run ≤ self.size; omega)]
      have hWlen : W'.length = min self.size self.min_run := by
        rw [f2.length_eq, List.length_take]
        omega
      have hA' := arranged_push hL W' (tail'.drop (min self.size self.min_run))
        (List.ne_nil_of_length_pos (by omega)) (by rw [List.length_drop]; omega)
      rw [hWlen] at hA'
      exact ⟨_, _, W', _, rfl, hperm W' _ f2, hA', rfl⟩
    · rw [if_neg hmin]
      unfold gtk_tim_sort_push_run
      rw [if_pos (by show r ≤ self.size; omega)]
      have hWlen : (tail'.take r).length = r := by
        rw [List.length_take]
        omega
      have hA' := arranged_push hL (tail'.take r) (tail'.drop r)
        (List.ne_nil_of_length_pos (by omega)) (by rw [List.length_drop]; omega)
      rw [hWlen, List.take_append_drop] at hA'
      exact ⟨_, _, tail'.take r, _, rfl, by
        have := hperm (tail'.take r) r (List.Perm.refl _)
        rw [List.take_append_drop] at this
        exact this, hA', rfl⟩

/-- One call of `step` with any comparison function, on a sorter made of runs laid
out one after the other: it returns, and leaves a sorter of the same kind whose
memory is a permutation of what it was. -/
theorem step_safe (cmp : α → α → Int) (self : GtkTimSort α)
    (oc : Option GtkTimSortChange) {segs : List (List α)} {tail : List α}
    (hL : Arranged self segs tail) (h64 : self.mem.length < GSIZE_MOD)
    (hmax : 1 ≤ self.max_merge_size) :
    ∃ b self' oc', step cmp self oc = some (b, self', oc') ∧ self'.mem.Perm self.mem ∧
      (∃ segs' tail', Arranged self' segs' tail') ∧
      self'.max_merge_size = self.max_merge_size := by
  have hp := runs_pending self _ hL.2.1
  unfold step
  rcases merge_collapse_cases cmp self oc with e | ⟨hp2, n, hn, e⟩
  · rw [e]
    simp only []
    rcases merge_append_safe cmp self oc hL with ⟨hs0, e⟩ | ⟨hpos, s', oc', seg, rest, e, h1, h2, h3⟩
    · rw [e]
      simp only []
      rcases merge_force_collapse_cases cmp self (gtk_tim_sort_set_change oc none 0) with
        ⟨hp1, e⟩ | ⟨hp2, n, hn, e⟩
      · rw [e]
        exact ⟨false, self, _, rfl, List.Perm.refl _, ⟨segs, tail, hL⟩, rfl⟩
      · obtain ⟨s', oc', e', h1, h2, segs', h3⟩ := merge_at_top_safe cmp self
          (gtk_tim_sort_set_change oc none 0) hL h64 hmax n (by omega)
        rw [e, e']
        exact ⟨true, s', oc', rfl, h2, ⟨segs', tail, h3⟩, h1.2.2.1⟩
    · rw [e]
      exact ⟨true, s', oc', rfl, h1, ⟨_, _, h2⟩, h3⟩
  · obtain ⟨s', oc', e', h1, h2, segs', h3⟩ := merge_at_top_safe cmp self oc hL h64 hmax n
      (by omega)
    rw [e, e']
    exact ⟨true, s', oc', rfl, h2, ⟨segs', tail, h3⟩, h1.2.2.1⟩

theorem memorySafe_init (base : List α) (size element_size : Nat)
    (hlen : base.length = size) (h64 : size < GSIZE_MOD) :
    MemorySafe base (gtk_tim_sort_init base size element_size) := by
  refine ⟨⟨[], base, ?_⟩, List.Perm.refl _, ?_, by rw [hlen]; exact h64⟩
  · exact ⟨rfl, rfl, rfl, hlen.symm, fun s hs => by simp at hs⟩
  · show 1 ≤ G_MAXSIZE
    unfold G_MAXSIZE
    omega

theorem memorySafe_set_max {input : List α} {s : GtkTimSort α}
    (hR : MemorySafe input s) (m : Nat) :
    MemorySafe input (gtk_tim_sort_set_max_merge_size s m) := by
  obtain ⟨⟨segs, tail, hL⟩, hst, hmax, h64⟩ := hR
  refine ⟨⟨segs, tail, hL⟩, hst, ?_, h64⟩
  show 1 ≤ (if m = 0 then G_MAXSIZE else m)
  split
  · unfold G_MAXSIZE
    omega
  · omega

/-- One call of `gtk_tim_sort_step` with any comparison function keeps the sorter
memory safe. -/
theorem memorySafe_step (cmp : α → α → Int) {input : List α} {self : GtkTimSort α}
    (hR : MemorySafe input self) (oc : Option GtkTimSortChange) :
    ∃ b self' oc', gtk_tim_sort_step cmp self oc = some (b, self', oc') ∧
      MemorySafe input self' ∧ self'.mem.Perm self.mem := by
  obtain ⟨⟨segs, tail, hL⟩, hst, hmax, h64⟩ := hR
  have hlen : self.mem.length < GSIZE_MOD := by
    rw [hst.length_eq]
    exact h64
  rw [gtk_tim_sort_step_eq]
  obtain ⟨b, s', oc', e, h1, h2, h3⟩ := step_safe cmp self oc hL hlen hmax
  exact ⟨b, s', oc', e, ⟨h2, h1.trans hst, by rw [h3]; exact hmax, h64⟩, h1⟩

/-- Every state of the sorter that calls of `gtk_tim_sort_step` lead to is memory
safe, whatever the comparison function. -/
theorem reachable_memorySafe (cmp : α → α → Int) {base : List α}
    {size element_size : Nat} (hlen : base.length = size) (h64 : size < GSIZE_MOD)
    {s : GtkTimSort α} (hr : Reachable cmp base size element_size s) :
    MemorySafe base s := by
  induction hr with
  | init => exact memorySafe_init base size element_size hlen h64
  | set_max s m _ ih => exact memorySafe_set_max ih m
  | step s s' oc oc' b _ e ih =>
    obtain ⟨b2, s2, oc2, e2, hR, _⟩ := memorySafe_step cmp ih oc
    rw [e] at e2
    simp only [Option.some.injEq, Prod.mk.injEq] at e2
    obtain ⟨_, rfl, _⟩ := e2
    exact hR

/-! ## Safety for every comparison function -/

theorem gallop_in_bounds (cmp : α → α → Int) : GallopInBounds cmp := by
  intro key A S B hint hh h64
  exact ⟨gallop_left_safe cmp key rfl rfl rfl hh h64,
    gallop_right_safe cmp key rfl rfl rfl hh h64⟩

theorem merge_in_bounds (cmp : α → α → Int) : MergeInBounds cmp := by
  intro self P X Y Q hm hX hY h64
  obtain ⟨s1, M1, a1, a2, a3, _⟩ := merge_lo_safe cmp self hm rfl rfl rfl rfl hX hY h64
  obtain ⟨s2, M2, b1, b2, b3, _⟩ := merge_hi_safe cmp self hm rfl rfl rfl rfl hX hY h64
  exact ⟨⟨s1, M1, a1, a2, a3⟩, ⟨s2, M2, b1, b2, b3⟩⟩

theorem binary_sort_in_bounds (cmp : α → α → Int) : BinarySortInBounds cmp := by
  intro A W B start ic hpos hle hic
  exact binary_sort_safe cmp ic rfl rfl rfl hpos hle hic

/-- An instance of the branch of `merge_lo` that reports a comparison function that
violates its contract: with the function that always answers "greater", the loop of
`merge_lo` on the runs `1, ..., 9` and `10, 11` ends with `len1 = 0`, and `merge_lo`
leaves a permutation of the array that is not sorted. -/
theorem merge_lo_violation_branch :
    (merge_lo_outer (fun _ _ => 1) ([1, 2, 3, 4, 5, 6, 7, 8, 9] : List Int) 10
        { mem := [10, 2, 3, 4, 5, 6, 7, 8, 9, 10, 11], cursor1 := 0, cursor2 := 10, dest := 1,
          len1 := 9, len2 := 1, min_gallop := 7 }).map (fun v => (v.len1, v.len2)) =
        some (0, 1) ∧
      (merge_lo (fun _ _ => 1)
        (gtk_tim_sort_init ([1, 2, 3, 4, 5, 6, 7, 8, 9, 10, 11] : List Int) 11 4) 0 9 9 2).map
          (fun s => s.mem) = some [10, 1, 2, 3, 4, 5, 6, 7, 8, 9, 11] := by
  decide

/-- C12: Comparator-violation safety.  For every comparison function whatsoever and
every state reachable from `gtk_tim_sort_init` by calls of `gtk_tim_sort_step`, a call
of `gtk_tim_sort_step` returns, which in this model means that no read or write left
its buffer and no assertion failed, and it leaves the array a permutation of the
input, of the same length.  The searches and merges it is made of stay in bounds on
their own: `gallop_left` and `gallop_right` return an offset `k ≤ len`, and
`binary_sort`, `merge_lo` and `merge_hi` return and leave a permutation of their
ranges, also when `merge_lo` or `merge_hi` ends on the branch that reports that the
comparison function violates its contract. -/
theorem step_safe_for_any_comparator (cmp : α → α → Int) (base : List α)
    (size element_size : Nat) (hlen : base.length = size) (h64 : size < GSIZE_MOD)
    (s : GtkTimSort α) (hr : Reachable cmp base size element_size s)
    (oc : Option GtkTimSortChange) :
    (∃ b s' oc', gtk_tim_sort_step cmp s oc = some (b, s', oc') ∧ s'.mem.Perm base ∧
      s'.mem.length = size) ∧
      GallopInBounds cmp ∧ MergeInBounds cmp ∧ BinarySortInBounds cmp := by
  have hS := reachable_memorySafe cmp hlen h64 hr
  obtain ⟨b, s', oc', e, hS', _⟩ := memorySafe_step cmp hS oc
  exact ⟨⟨b, s', oc', e, hS'.2.1, by rw [hS'.2.1.length_eq, hlen]⟩, gallop_in_bounds cmp,
    merge_in_bounds cmp, binary_sort_in_bounds cmp⟩

theorem step_safe_for_any_comparator_witness :
    ([3, 1, 2] : List Int).length = 3 ∧ 3 < GSIZE_MOD ∧
      Reachable (fun _ _ => 1) [3, 1, 2] 3 4 (gtk_tim_sort_init ([3, 1, 2] : List Int) 3 4) ∧
      ((∃ b s' oc', gtk_tim_sort_step (fun _ _ => 1) (gtk_tim_sort_init ([3, 1, 2] : List Int) 3 4)
          none = some (b, s', oc') ∧ s'.mem.Perm [3, 1, 2] ∧ s'.mem.length = 3) ∧
        GallopInBounds (fun (_ _ : Int) => (1 : Int)) ∧
        MergeInBounds (fun (_ _ : Int) => (1 : Int)) ∧
        BinarySortInBounds (fun (_ _ : Int) => (1 : Int))) :=
  ⟨rfl, by decide, Reachable.init,
    step_safe_for_any_comparator (fun _ _ => 1) [3, 1, 2] 3 4 rfl (by decide) _ Reachable.init
      none⟩

/-! ## The value of the minimum run length -/

theorem or_and_one_eq (r n : Nat) (hr : r ≤ 1) :
    r ||| (n &&& 1) = if r = 1 ∨ n % 2 ≠ 0 then 1 else 0 := by
  have h1 : n &&& 1 = n % 2 := Nat.and_one_is_mod n
  rw [h1]
  have h2 : n % 2 < 2 := Nat.mod_lt _ (by omega)
  interval_cases r <;> interval_cases (n % 2) <;> decide

theorem mod_two_mul_ne_zero (n q : Nat) :
    n % (2 * q) ≠ 0 ↔ (n % 2 ≠ 0 ∨ (n / 2) % q ≠ 0) := by
  rw [Nat.mod_mul]
  omega

/-- The loop of `compute_min_run` shifts `n` right `j` times, until it is below
`MIN_MERGE`, and adds one when a bit shifted off, or `r`, was set. -/
theorem compute_min_run_loop_eq : ∀ (fuel n r : Nat), r ≤ 1 → n ≤ fuel →
    ∃ j, n / 2 ^ j < 32 ∧ (j = 0 ∨ 16 ≤ n / 2 ^ j) ∧ (j = 0 ↔ n < 32) ∧
      compute_min_run_loop fuel n r =
        n / 2 ^ j + (if r = 1 ∨ n % 2 ^ j ≠ 0 then 1 else 0) := by
  intro fuel
  induction fuel with
  | zero =>
    intro n r hr hn
    have h0 : n = 0 := by omega
    subst h0
    refine ⟨0, by simp, Or.inl rfl, by simp, ?_⟩
    unfold compute_min_run_loop
    interval_cases r <;> simp
  | succ f ih =>
    intro n r hr hn
    unfold compute_min_run_loop
    by_cases hge : n ≥ MIN_MERGE
    · rw [if_pos hge]
      simp only [MIN_MERGE] at hge
      have h3 : n >>> 1 = n / 2 := by rw [Nat.shiftRight_eq_div_pow]
      have hr' : r ||| (n &&& 1) ≤ 1 := or_and_one_le r n hr
      obtain ⟨j, h1, h2, h2', h4⟩ := ih (n >>> 1) (r ||| (n &&& 1)) hr' (by rw [h3]; omega)
      rw [h3] at h1 h2 h2' h4
      rw [h3]
      have hdiv : n / 2 ^ (j + 1) = n / 2 / 2 ^ j := by
        rw [Nat.pow_succ, Nat.mul_comm, Nat.div_div_eq_div_mul]
      refine ⟨j + 1, by rw [hdiv]; exact h1, Or.inr ?_, by omega, ?_⟩
      · rw [hdiv]
        rcases h2 with h2 | h2
        · subst h2
          simp only [Nat.pow_zero, Nat.div_one]
          omega
        · exact h2
      · rw [h4, hdiv, or_and_one_eq r n hr]
        congr 1
        have hm := mod_two_mul_ne_zero n (2 ^ j)
        have hp : 2 ^ (j + 1) = 2 * 2 ^ j := by rw [Nat.pow_succ, Nat.mul_comm]
        rw [hp]
        by_cases c1 : r = 1 <;> by_cases c2 : n % 2 ≠ 0 <;>
          by_cases c3 : n / 2 % 2 ^ j ≠ 0 <;> simp [c1, c2, c3, hm] <;> omega
    · rw [if_neg hge]
      simp only [MIN_MERGE] at hge
      refine ⟨0, by simp; omega, Or.inl rfl, by simp; omega, ?_⟩
      simp only [Nat.pow_zero, Nat.div_one, Nat.mod_one]
      interval_cases r <;> simp

/-- The value of `compute_min_run`: `n` shifted right until it is below
`MIN_MERGE`, plus one when a bit shifted off was set. -/
theorem compute_min_run_eq (n : Nat) :
    ∃ j, n / 2 ^ j < 32 ∧ (j = 0 ∨ 16 ≤ n / 2 ^ j) ∧ (j = 0 ↔ n < 32) ∧
      compute_min_run n = n / 2 ^ j + (if n % 2 ^ j ≠ 0 then 1 else 0) := by
  obtain ⟨j, h1, h2, h3, h4⟩ := compute_min_run_loop_eq n n 0 (by omega) (Nat.le_refl n)
  refine ⟨j, h1, h2, h3, ?_⟩
  unfold compute_min_run
  rw [h4]
  simp

theorem compute_min_run_small (n : Nat) (hn : n < 32) : compute_min_run n = n := by
  obtain ⟨j, _, _, h3, h4⟩ := compute_min_run_eq n
  have hj : j = 0 := h3.2 hn
  subst hj
  rw [h4]
  simp [Nat.mod_one]

/-- C21: `compute_min_run n` is `n` for `n < MIN_MERGE`, is `MIN_MERGE / 2` for
every power of two `n ≥ MIN_MERGE`, and lies between `MIN_MERGE / 2` and
`MIN_MERGE` for every `n ≥ MIN_MERGE`. -/
theorem compute_min_run_cases (n : Nat) :
    (n < MIN_MERGE → compute_min_run n = n) ∧
      (MIN_MERGE ≤ n → (∃ e, n = 2 ^ e) → compute_min_run n = MIN_MERGE / 2) ∧
      (MIN_MERGE ≤ n → MIN_MERGE / 2 ≤ compute_min_run n ∧ compute_min_run n ≤ MIN_MERGE) := by
  obtain ⟨j, h1, h2, h3, h4⟩ := compute_min_run_eq n
  simp only [MIN_MERGE]
  refine ⟨?_, ?_, ?_⟩
  · intro hn
    have hj : j = 0 := h3.2 hn
    subst hj
    rw [h4]
    simp [Nat.mod_one]
  · intro hn ⟨e, he⟩
    have hj : j ≠ 0 := fun c => by have := h3.1 c; omega
    have h16 : 16 ≤ n / 2 ^ j := by
      rcases h2 with h2 | h2
      · exact absurd h2 hj
      · exact h2
    subst he
    have hje : j ≤ e := by
      by_contra hc
      have : 2 ^ e / 2 ^ j = 0 :=
        Nat.div_eq_of_lt (Nat.pow_lt_pow_right (by omega) (by omega))
      omega
    have hdiv : 2 ^ e / 2 ^ j = 2 ^ (e - j) := Nat.pow_div hje (by omega)
    have hmod : 2 ^ e % 2 ^ j = 0 := Nat.mod_eq_zero_of_dvd (Nat.pow_dvd_pow 2 hje)
    rw [h4, hmod, hdiv]
    rw [hdiv] at h1 h16
    have hd : e - j = 4 := by
      have a1 : 4 ≤ e - j := by
        by_contra hc
        have : 2 ^ (e - j) < 2 ^ 4 := Nat.pow_lt_pow_right (by omega) (by omega)
        omega
      have a2 : e - j < 5 := by
        by_contra hc
        have : 2 ^ 5 ≤ 2 ^ (e - j) := Nat.pow_le_pow_right (by omega) (by omega)
        omega
      omega
    rw [hd]
    simp
  · intro hn
    have hj : j ≠ 0 := fun c => by have := h3.1 c; omega
    have h16 : 16 ≤ n / 2 ^ j := by
      rcases h2 with h2 | h2
      · exact absurd h2 hj
      · exact h2
    rw [h4]
    split <;> omega

theorem compute_min_run_cases_witness :
    compute_min_run 5 = 5 ∧ compute_min_run 64 = 16 ∧
      (16 ≤ compute_min_run 100 ∧ compute_min_run 100 ≤ 32) :=
  ⟨(compute_min_run_cases 5).1 (by decide),
    (compute_min_run_cases 64).2.1 (by decide) ⟨6, by decide⟩,
    (compute_min_run_cases 100).2.2 (by decide)⟩

/-- C22: for `n ≥ 32` and `k = compute_min_run n` there is `j ≥ 1` with
`(k - 1) * 2 ^ j < n ≤ k * 2 ^ j`: the quotient `n / k` is at most `2 ^ j`, the
quotient `n / (k - 1)` is greater, and `n / k` is strictly smaller than `2 ^ j`
when `2 ^ j` does not divide `n`. -/
theorem min_run_below_power_of_two (n : Nat) (hn : 32 ≤ n) :
    ∃ j, 1 ≤ j ∧ (compute_min_run n - 1) * 2 ^ j < n ∧ n ≤ compute_min_run n * 2 ^ j ∧
      ((n : ℚ) / (compute_min_run n : ℚ) ≤ (2 : ℚ) ^ j) ∧
      ((2 : ℚ) ^ j < (n : ℚ) / ((compute_min_run n : ℚ) - 1)) ∧
      n / compute_min_run n ≤ 2 ^ j ∧
      (¬ 2 ^ j ∣ n → n < compute_min_run n * 2 ^ j ∧ n / compute_min_run n < 2 ^ j ∧
        (n : ℚ) / (compute_min_run n : ℚ) < (2 : ℚ) ^ j) := by
  obtain ⟨j, h1, h2, h3, h4⟩ := compute_min_run_eq n
  have hj : j ≠ 0 := fun c => by have := h3.1 c; omega
  have h16 : 16 ≤ n / 2 ^ j := by
    rcases h2 with h2 | h2
    · exact absurd h2 hj
    · exact h2
  have hP : 0 < 2 ^ j := Nat.pos_pow_of_pos j (by omega)
  have hdm : 2 ^ j * (n / 2 ^ j) + n % 2 ^ j = n := Nat.div_add_mod n (2 ^ j)
  have hml : n % 2 ^ j < 2 ^ j := Nat.mod_lt n hP
  generalize hk : compute_min_run n = k at *
  generalize hq : n / 2 ^ j = q at *
  generalize hr : n % 2 ^ j = r at *
  generalize hPP : 2 ^ j = P at *
  have hlo : (k - 1) * P < n := by
    by_cases c : r ≠ 0
    · rw [if_pos c] at h4
      have : k - 1 = q := by omega
      rw [this, Nat.mul_comm]
      omega
    · rw [if_neg c] at h4
      have hkq : k = q := by omega
      have e1 : (k - 1) * P + P = k * P := by
        have : k = (k - 1) + 1 := by omega
        conv_rhs => rw [this, Nat.add_mul, Nat.one_mul]
      have e2 : P * q = k * P := by rw [hkq, Nat.mul_comm]
      omega
  have hhi : n ≤ k * P := by
    by_cases c : r ≠ 0
    · rw [if_pos c] at h4
      have : k * P = P * q + P := by rw [h4, Nat.add_mul, Nat.one_mul, Nat.mul_comm]
      omega
    · rw [if_neg c] at h4
      have : k * P = P * q := by rw [h4, Nat.add_zero, Nat.mul_comm]
      omega
  have hkpos : 16 ≤ k := by split at h4 <;> omega
  have hkQ : (0 : ℚ) < (k : ℚ) := by exact_mod_cast (show 0 < k by omega)
  have hk1Q : (0 : ℚ) < (k : ℚ) - 1 := by
    have : (1 : ℚ) < (k : ℚ) := by exact_mod_cast (show 1 < k by omega)
    linarith
  have hPQ : ((2 : ℚ) ^ j) = (P : ℚ) := by rw [← hPP]; push_cast; rfl
  have hstrict : ¬ P ∣ n → n < k * P := by
    intro hd
    have c : r ≠ 0 := by
      intro c
      apply hd
      rw [← hr]  at c
      exact Nat.dvd_of_mod_eq_zero c
    rw [if_pos c] at h4
    have : k * P = P * q + P := by rw [h4, Nat.add_mul, Nat.one_mul, Nat.mul_comm]
    omega
  have g1 : (n : ℚ) / (k : ℚ) ≤ (2 : ℚ) ^ j := by
    rw [hPQ, div_le_iff hkQ]
    have : ((n : Nat) : ℚ) ≤ ((k * P : Nat) : ℚ) := by exact_mod_cast hhi
    rw [Nat.cast_mul] at this
    linarith
  have g2 : (2 : ℚ) ^ j < (n : ℚ) / ((k : ℚ) - 1) := by
    rw [hPQ, lt_div_iff hk1Q]
    have : (((k - 1) * P : Nat) : ℚ) < ((n : Nat) : ℚ) := by exact_mod_cast hlo
    rw [Nat.cast_mul, Nat.cast_sub (by omega)] at this
    push_cast at this
    linarith
  have g3 : n / k ≤ P := by
    have : n / k ≤ k * P / k := Nat.div_le_div_right hhi
    rw [Nat.mul_div_cancel_left P (by omega)] at this
    exact this
  have g4 : ¬ P ∣ n → n < k * P ∧ n / k < P ∧ (n : ℚ) / (k : ℚ) < (2 : ℚ) ^ j := by
    intro hd
    have hs := hstrict hd
    refine ⟨hs, ?_, ?_⟩
    · exact Nat.div_lt_of_lt_mul hs
    · rw [hPQ, div_lt_iff hkQ]
      have : ((n : Nat) : ℚ) < ((k * P : Nat) : ℚ) := by exact_mod_cast hs
      rw [Nat.cast_mul] at this
      linarith
  subst hPP
  exact ⟨j, by omega, hlo, hhi, g1, g2, g3, g4⟩

theorem min_run_below_power_of_two_witness :
    ∃ j, 1 ≤ j ∧ (compute_min_run 100 - 1) * 2 ^ j < 100 ∧ 100 ≤ compute_min_run 100 * 2 ^ j ∧
      (((100 : Nat) : ℚ) / (compute_min_run 100 : ℚ) ≤ (2 : ℚ) ^ j) ∧
      ((2 : ℚ) ^ j < ((100 : Nat) : ℚ) / ((compute_min_run 100 : ℚ) - 1)) ∧
      100 / compute_min_run 100 ≤ 2 ^ j ∧
      (¬ 2 ^ j ∣ 100 → 100 < compute_min_run 100 * 2 ^ j ∧ 100 / compute_min_run 100 < 2 ^ j ∧
        ((100 : Nat) : ℚ) / (compute_min_run 100 : ℚ) < (2 : ℚ) ^ j) :=
  min_run_below_power_of_two 100 (by decide)

/-! ## The run found at the cursor -/

theorem sorted_take_iff {cmp : α → α → Int} (h : TotalPreorder cmp) {run rest : List α}
    (hs : Sorted cmp run)
    (hmax : ∀ y t, rest = y :: t → ∃ z init, run = init ++ [z] ∧ cmp y z < 0) (l : Nat)
    (hl : l ≤ (run ++ rest).length) :
    Sorted cmp ((run ++ rest).take l) ↔ l ≤ run.length := by
  constructor
  · intro hsl
    by_contra hc
    cases hq : rest with
    | nil =>
      rw [hq] at hl
      simp at hl
      omega
    | cons y t =>
      obtain ⟨z, init, hz, hlt⟩ := hmax y t hq
      rw [hq, hz] at hsl
      have e : (init ++ [z] ++ y :: t).take l = init ++ [z] ++ y :: t.take (l - (init.length + 2)) := by
        rw [hz] at hc
        simp only [List.length_append, List.length_singleton] at hc
        rw [List.take_append_eq_append_take]
        rw [List.take_of_length_le (by simp; omega)]
        simp only [List.length_append, List.length_singleton]
        rw [show l - (init.length + 1) = (l - (init.length + 2)) + 1 by omega, List.take_succ_cons]
      rw [e] at hsl
      have h1 : cmp z y ≤ 0 :=
        (List.pairwise_append.1 hsl).2.2 z (by simp) y (by simp)
      have h2 := (h.swap y z).1 hlt
      omega
  · intro hle
    rw [List.take_append_of_le_length hle]
    exact hs.sublist (List.take_sublist _ _)

theorem strictDesc_take_iff {cmp : α → α → Int} {run rest : List α}
    (hs : StrictDesc cmp run)
    (hmax : ∀ y t, rest = y :: t → ∃ z init, run = init ++ [z] ∧ ¬ cmp y z < 0) (l : Nat)
    (hl : l ≤ (run ++ rest).length) :
    StrictDesc cmp ((run ++ rest).take l) ↔ l ≤ run.length := by
  constructor
  · intro hsl
    by_contra hc
    cases hq : rest with
    | nil =>
      rw [hq] at hl
      simp at hl
      omega
    | cons y t =>
      obtain ⟨z, init, hz, hlt⟩ := hmax y t hq
      rw [hq, hz] at hsl
      have e : (init ++ [z] ++ y :: t).take l = init ++ [z] ++ y :: t.take (l - (init.length + 2)) := by
        rw [hz] at hc
        simp only [List.length_append, List.length_singleton] at hc
        rw [List.take_append_eq_append_take]
        rw [List.take_of_length_le (by simp; omega)]
        simp only [List.length_append, List.length_singleton]
        rw [show l - (init.length + 1) = (l - (init.length + 2)) + 1 by omega, List.take_succ_cons]
      rw [e] at hsl
      exact hlt ((List.pairwise_append.1 hsl).2.2 z (by simp) y (by simp))
  · intro hle
    rw [List.take_append_of_le_length hle]
    exact hs.sublist (List.take_sublist _ _)

/-- C23: `prepare_run` returns the size of the unconsumed `tail` when that is at
most one; otherwise it returns the length `r ≥ 2` of the longest non-decreasing
prefix of `tail` when `tail[1] ≥ tail[0]`, and of the longest strictly decreasing
prefix, which it reverses, when `tail[1] < tail[0]`.  Afterwards the first `r`
elements of the tail are non-decreasing and the elements behind them, like those
before the tail, are unchanged. -/
theorem prepare_run_longest_run {cmp : α → α → Int} (h : TotalPreorder cmp)
    (self : GtkTimSort α) (oc : Option GtkTimSortChange) (A tail : List α)
    (hm : self.mem = A ++ tail) (hA : A.length = self.base) (ht : tail.length = self.size) :
    ∃ r mem' oc', prepare_run cmp self oc = some (r, mem', oc') ∧
      (r = 0 ↔ self.size = 0) ∧
      (self.size ≤ 1 → r = self.size ∧ mem' = self.mem) ∧
      (2 ≤ self.size → 2 ≤ r ∧ r ≤ self.size ∧
        ∃ t0 t1, tail[0]? = some t0 ∧ tail[1]? = some t1 ∧
          (0 ≤ cmp t1 t0 →
            (∀ l, l ≤ self.size → (Sorted cmp (tail.take l) ↔ l ≤ r)) ∧ mem' = self.mem) ∧
          (cmp t1 t0 < 0 →
            (∀ l, l ≤ self.size → (StrictDesc cmp (tail.take l) ↔ l ≤ r)) ∧
              mem' = A ++ ((tail.take r).reverse ++ tail.drop r))) ∧
      Sorted cmp ((mem'.drop self.base).take r) ∧
      mem'.take self.base = self.mem.take self.base ∧
      mem'.drop (self.base + r) = self.mem.drop (self.base + r) := by
  obtain ⟨run, rest, run', oc', e, htail, hs', hst, h1, h2, hcase⟩ :=
    prepare_run_spec h self oc A tail hm hA ht
  have hrl : run'.length = run.length := stable_length_eq hst
  have hlen : tail.length = run.length + rest.length := by rw [htail, List.length_append]
  refine ⟨run.length, A ++ (run' ++ rest), oc', e, ?_, ?_, ?_, ?_, ?_, ?_⟩
  · constructor
    · intro h0
      by_contra hc
      by_cases hs1 : self.size ≤ 1
      · have := h1 hs1
        rw [this] at hlen
        simp at hlen
        omega
      · have := h2 (by omega)
        omega
    · intro h0
      omega
  · intro hs1
    have hr := h1 hs1
    rw [hr] at hlen htail
    simp only [List.append_nil] at htail
    refine ⟨by simp at hlen; omega, ?_⟩
    rcases hcase with ⟨hr', _⟩ | ⟨hr', _⟩
    · rw [hm, hr', hr, htail, List.append_nil]
    · omega
  · intro hs2
    have hr2 := h2 hs2
    refine ⟨hr2, by omega, ?_⟩
    obtain ⟨t0, t1, run2, hrun⟩ : ∃ t0 t1 run2, run = t0 :: t1 :: run2 := by
      match run, hr2 with
      | t0 :: t1 :: r, _ => exact ⟨t0, t1, r, rfl⟩
    refine ⟨t0, t1, by rw [htail, hrun]; simp, by rw [htail, hrun]; simp, ?_, ?_⟩
    · intro hc
      rcases hcase with ⟨hr', _, hmax⟩ | ⟨_, hd, _⟩
      · refine ⟨?_, by rw [hm, hr', htail]⟩
        intro l hl
        rw [htail]
        rw [hr'] at hs'
        exact sorted_take_iff h hs' hmax l (by rw [← htail]; omega)
      · rw [hrun] at hd
        have := (List.pairwise_cons.1 hd).1 t1 (by simp)
        omega
    · intro hc
      rcases hcase with ⟨hr', _, _⟩ | ⟨_, hd, hrev, _, hmax⟩
      · rw [hr', hrun] at hs'
        have h3 : cmp t0 t1 ≤ 0 := (List.pairwise_cons.1 hs').1 t1 (by simp)
        have h4 := (h.swap t1 t0).1 hc
        omega
      · refine ⟨?_, ?_⟩
        · intro l hl
          rw [htail]
          exact strictDesc_take_iff hd hmax l (by rw [← htail]; omega)
        · rw [hrev, htail, List.take_left, List.drop_left]
  · rw [← hA, List.drop_left, ← hrl, List.take_left]
    exact hs'
  · rw [hm, ← hA, List.take_left, List.take_left]
  · have e1 : (A ++ (run' ++ rest)).drop (A.length + run.length) = rest := by
      rw [← hrl, show A ++ (run' ++ rest) = (A ++ run') ++ rest by simp,
        show A.length + run'.length = (A ++ run').length by simp, List.drop_left]
    have e2 : (A ++ (run ++ rest)).drop (A.length + run.length) = rest := by
      rw [show A ++ (run ++ rest) = (A ++ run) ++ rest by simp,
        show A.length + run.length = (A ++ run).length by simp, List.drop_left]
    rw [hm, htail, ← hA, e1, e2]

theorem prepare_run_longest_run_witness :
    ∃ r mem' oc', prepare_run int_cmp
        { element_size := 4, mem := [1, 3, 2, 5], base := 0, size := 4, min_gallop := 7,
          max_merge_size := G_MAXSIZE, min_run := 4, tmp_length := 0, run := [] } none =
          some (r, mem', oc') ∧
      (r = 0 ↔ 4 = 0) ∧
      (4 ≤ 1 → r = 4 ∧ mem' = [1, 3, 2, 5]) ∧
      (2 ≤ 4 → 2 ≤ r ∧ r ≤ 4 ∧
        ∃ t0 t1, ([1, 3, 2, 5] : List Int)[0]? = some t0 ∧ ([1, 3, 2, 5] : List Int)[1]? = some t1 ∧
          (0 ≤ int_cmp t1 t0 →
            (∀ l, l ≤ 4 → (Sorted int_cmp (([1, 3, 2, 5] : List Int).take l) ↔ l ≤ r)) ∧
              mem' = [1, 3, 2, 5]) ∧
          (int_cmp t1 t0 < 0 →
            (∀ l, l ≤ 4 → (StrictDesc int_cmp (([1, 3, 2, 5] : List Int).take l) ↔ l ≤ r)) ∧
              mem' = [] ++ ((([1, 3, 2, 5] : List Int).take r).reverse ++
                ([1, 3, 2, 5] : List Int).drop r))) ∧
      Sorted int_cmp ((mem'.drop 0).take r) ∧
      mem'.take 0 = ([1, 3, 2, 5] : List Int).take 0 ∧
      mem'.drop (0 + r) = ([1, 3, 2, 5] : List Int).drop (0 + r) :=
  prepare_run_longest_run int_cmp_total
    { element_size := 4, mem := [1, 3, 2, 5], base := 0, size := 4, min_gallop := 7,
      max_merge_size := G_MAXSIZE, min_run := 4, tmp_length := 0, run := [] } none
    [] [1, 3, 2, 5] rfl rfl rfl

/-! ## The run pushed by one call -/

/-- A call of `merge_append` that returns `TRUE` pushed one run that starts at the
cursor: the run `prepare_run` found when that has `min_run` elements, and otherwise
`min (size, min_run)` elements. -/
theorem merge_append_push {cmp : α → α → Int} {self s' : GtkTimSort α}
    {oc oc' : Option GtkTimSortChange} (e : merge_append cmp self oc = some (true, s', oc')) :
    ∃ r mem1 oc1 mem2 len, prepare_run cmp self oc = some (r, mem1, oc1) ∧ r ≠ 0 ∧
      len = (if r < self.min_run then min self.size self.min_run else r) ∧ len ≤ self.size ∧
      s' = { self with
        mem := mem2
        run := self.run ++ [{ base := self.base, len := len }]
        base := self.base + len
        size := self.size - len } := by
  unfold merge_append at e
  cases hp : prepare_run cmp self oc with
  | none => simp [hp] at e
  | some q =>
    obtain ⟨r, mem, oc1⟩ := q
    simp only [hp] at e
    by_cases hr : r = 0
    · rw [if_pos hr] at e
      simp at e
    · rw [if_neg hr] at e
      by_cases hlt : r < self.min_run
      · rw [if_pos hlt] at e
        cases hb : binary_sort cmp mem self.base (min self.size self.min_run) r oc1 with
        | none => simp [hb] at e
        | some q =>
          obtain ⟨mem1, oc2⟩ := q
          simp only [hb, gtk_tim_sort_push_run] at e
          by_cases hle : min self.size self.min_run ≤ self.size
          · rw [if_pos hle] at e
            simp only [Option.some.injEq, Prod.mk.injEq, true_and] at e
            exact ⟨r, mem, oc1, mem1, _, rfl, hr, by rw [if_pos hlt], hle, e.1.symm⟩
          · rw [if_neg hle] at e
            simp at e
      · rw [if_neg hlt] at e
        simp only [gtk_tim_sort_push_run] at e
        by_cases hle : r ≤ self.size
        · rw [if_pos hle] at e
          simp only [Option.some.injEq, Prod.mk.injEq, true_and] at e
          exact ⟨r, mem, oc1, mem, _, rfl, hr, by rw [if_neg hlt], hle, e.1.symm⟩
        · rw [if_neg hle] at e
          simp at e

/-- The run that `merge_append` pushes on a sorter with a non-empty unconsumed `tail`,
the assertion on the capacity of the run stack left aside: the run of length `r` that
`prepare_run` finds when `r ≥ min_run`, and otherwise `min (min_run, size)` elements.
The run starts at the cursor and is non-decreasing, and the cursor advances by its
length. -/
theorem merge_append_push_spec {cmp : α → α → Int} (h : TotalPreorder cmp)
    (self : GtkTimSort α) (oc : Option GtkTimSortChange) (A tail : List α)
    (hm : self.mem = A ++ tail) (hA : A.length = self.base) (ht : tail.length = self.size)
    (hpos : 0 < self.size) :
    ∃ r mem1 oc1 self' oc' len, prepare_run cmp self oc = some (r, mem1, oc1) ∧
      merge_append cmp self oc = some (true, self', oc') ∧
      len = (if self.min_run ≤ r then r else min self.min_run self.size) ∧
      self'.run = self.run ++ [{ base := self.base, len := len }] ∧
      self'.pending_runs = self.pending_runs + 1 ∧
      Sorted cmp (run_slice self'.mem { base := self.base, len := len }) ∧
      self'.base = self.base + len ∧ self'.size = self.size - len ∧ len ≤ self.size ∧
      (0 < self'.size → self.min_run ≤ len) := by
  rcases merge_append_spec h self oc A tail hm hA ht with ⟨h0, _⟩ |
    ⟨_, seg, rest, oc', e, hne, hss, hlen, _⟩
  · omega
  · obtain ⟨r, mem1, oc1, mem2, len, e1, hr, hL, hle, e2⟩ := merge_append_push e
    have hL' : len = (if self.min_run ≤ r then r else min self.min_run self.size) := by
      rw [hL]
      by_cases c : r < self.min_run
      · rw [if_pos c, if_neg (by omega), Nat.min_comm]
      · rw [if_neg c, if_pos (by omega)]
    have hrun := congrArg GtkTimSort.run e2
    simp only [] at hrun
    have hseg : seg.length = len := by
      have := List.append_cancel_left hrun
      simp only [List.cons.injEq, GtkTimSortRun.mk.injEq, true_and, and_true] at this
      exact this
    refine ⟨r, mem1, oc1, _, oc', len, e1, e, hL', ?_, ?_, ?_, ?_, ?_, hle, ?_⟩
    · show self.run ++ [_] = _
      rw [hseg]
    · simp [GtkTimSort.pending_runs]
    · show Sorted cmp (run_slice (A ++ (seg ++ rest)) _)
      unfold run_slice
      simp only []
      rw [← hA, List.drop_left, ← hseg, List.take_left]
      exact hss
    · show self.base + seg.length = _
      rw [hseg]
    · show self.size - seg.length = _
      rw [hseg]
    · show 0 < self.size - seg.length → _
      rw [hseg, hL']
      split <;> omega

/-! ## What a merge does to the run stack -/

theorem gallop_search_loop_le (cmp : α → α → Int) (key : α) (buf : List α) (base : Nat)
    (right : Int → Bool) : ∀ (fuel last ofs k : Nat),
    gallop_search_loop cmp key buf base right fuel last ofs = some k → last ≤ ofs → k ≤ ofs := by
  intro fuel
  induction fuel with
  | zero =>
    intro last ofs k e
    simp [gallop_search_loop] at e
  | succ f ih =>
    intro last ofs k e hle
    rw [gallop_search_loop] at e
    by_cases hlt : last < ofs
    · rw [if_pos hlt] at e
      simp only [Nat.shiftRight_eq_div_pow, pow_one, and_add_xor_shift] at e
      cases hc : compare_key cmp key buf (base + (last + ofs) / 2) with
      | none => simp [hc] at e
      | some c =>
        simp only [hc] at e
        by_cases hr : right c = true
        · rw [if_pos hr] at e
          exact ih _ _ _ e (by omega)
        · rw [if_neg hr] at e
          have := ih _ _ _ e (by omega)
          omega
    · rw [if_neg hlt] at e
      simp only [Option.some.injEq] at e
      omega

/-- The index `gallop_left` returns is at most `len`. -/
theorem gallop_left_le {cmp : α → α → Int} {key : α} {buf : List α} {base len hint k : Nat}
    (e : gallop_left cmp key buf base len hint = some k) : k ≤ len := by
  unfold gallop_left at e
  simp only [] at e
  split at e
  · split at e
    · exact absurd e (by simp)
    · split at e
      · exact absurd e (by simp)
      · split at e
        · rename_i hb
          have := gallop_search_loop_le cmp key buf base _ _ _ _ _ e hb.1
          omega
        · exact absurd e (by simp)
  · exact absurd e (by simp)

/-- The function `merge_lo` changes nothing but the memory, `min_gallop` and the
capacity of `tmp`. -/
theorem merge_lo_frame {cmp : α → α → Int} {self s' : GtkTimSort α} {base1 len1 base2 len2 : Nat}
    (e : merge_lo cmp self base1 len1 base2 len2 = some s') : MergeFrame self s' := by
  have hf := ensure_capacity_frame self len1
  unfold merge_lo at e
  simp only [] at e
  unfold MergeFrame at hf ⊢
  repeat' split at e
  all_goals first
    | (simp only [Option.some.injEq] at e
       subst e
       exact hf)
    | (simp at e)

/-- The function `merge_hi` changes nothing but the memory, `min_gallop` and the
capacity of `tmp`. -/
theorem merge_hi_frame {cmp : α → α → Int} {self s' : GtkTimSort α} {base1 len1 base2 len2 : Nat}
    (e : merge_hi cmp self base1 len1 base2 len2 = some s') : MergeFrame self s' := by
  have hf := ensure_capacity_frame self len2
  unfold merge_hi at e
  simp only [] at e
  unfold MergeFrame at hf ⊢
  repeat' split at e
  all_goals first
    | (simp only [Option.some.injEq] at e
       subst e
       exact hf)
    | (simp at e)

theorem getElem?_pre (pre : List GtkTimSortRun) (a : GtkTimSortRun) (rest : List GtkTimSortRun) :
    (pre ++ a :: rest)[pre.length]? = some a := by
  rw [List.getElem?_append_right (Nat.le_refl _)]
  simp

theorem getElem?_pre_succ (pre : List GtkTimSortRun) (a b : GtkTimSortRun)
    (rest : List GtkTimSortRun) :
    (pre ++ a :: b :: rest)[pre.length + 1]? = some b := by
  rw [List.getElem?_append_right (by omega)]
  simp

/-- The code of `merge_at` from the label `done` on replaces the two entries by one. -/
theorem merge_at_done_runs (self : GtkTimSort α) (pre post : List GtkTimSortRun)
    (ri ri1 : GtkTimSortRun) (hrun : self.run = pre ++ ri :: ri1 :: post)
    (hpost : post.length ≤ 1) (h64 : self.pending_runs < GSIZE_MOD) :
    merge_at_done self pre.length =
      some { self with run := pre ++ { ri with len := ri.len + ri1.len } :: post } := by
  have hp : self.pending_runs = pre.length + 2 + post.length := by
    simp [GtkTimSort.pending_runs, hrun]
    omega
  simp only [GSIZE_MOD] at h64
  unfold merge_at_done
  rw [hrun, getElem?_pre, getElem?_pre_succ]
  simp only []
  match post, hpost with
  | [], _ =>
    simp only [List.length_nil] at hp
    rw [if_neg (by rw [hp]; simp only [GSIZE_MOD]; omega)]
    simp [List.set_append]
  | [d], _ =>
    simp only [List.length_cons, List.length_nil] at hp
    rw [if_pos (by rw [hp]; simp only [GSIZE_MOD]; omega)]
    simp [List.set_append]
    rw [List.getElem_append_right (by omega)]
    simp

/-- What `merge_at` does to the run stack, whatever the comparison function does:
the two runs become one, or, with `m` the cap, `m` elements pass from the first
run to the second when both hold more than `m`, or from the second to the first
when the second holds more than `m` and the first more than `m + 1`. -/
theorem merge_at_runs {cmp : α → α → Int} {self s' : GtkTimSort α}
    {oc oc' : Option GtkTimSortChange} (pre post : List GtkTimSortRun)
    (ri ri1 : GtkTimSortRun) (hrun : self.run = pre ++ ri :: ri1 :: post)
    (hpost : post.length ≤ 1) (h64 : self.pending_runs < GSIZE_MOD)
    (e : merge_at cmp self pre.length oc = some (s', oc')) :
    SameParams self s' ∧
      (s'.run = pre ++ { ri with len := ri.len + ri1.len } :: post ∨
        (self.max_merge_size < ri.len ∧ self.max_merge_size < ri1.len ∧
          s'.run = pre ++ { ri with len := ri.len - self.max_merge_size } ::
            { base := ri1.base - self.max_merge_size,
              len := ri1.len + self.max_merge_size } :: post) ∨
        (self.max_merge_size < ri1.len ∧ self.max_merge_size + 1 < ri.len ∧
          s'.run = pre ++ { ri with len := ri.len + self.max_merge_size } ::
            { base := ri1.base + self.max_merge_size,
              len := ri1.len - self.max_merge_size } :: post)) := by
  have hd := merge_at_done_runs self pre post ri ri1 hrun hpost h64
  have hdone : ∀ (s1 : GtkTimSort α), MergeFrame self s1 → 
      ∀ s2, merge_at_done s1 pre.length = some s2 →
      SameParams self s2 ∧ s2.run = pre ++ { ri with len := ri.len + ri1.len } :: post := by
    intro s1 hf s2 e2
    have hrun1 : s1.run = pre ++ ri :: ri1 :: post := by rw [hf.1, hrun]
    have h641 : s1.pending_runs < GSIZE_MOD := by
      unfold GtkTimSort.pending_runs at h64 ⊢
      rw [hf.1]
      exact h64
    rw [merge_at_done_runs s1 pre post ri ri1 hrun1 hpost h641] at e2
    simp only [Option.some.injEq] at e2
    subst e2
    exact ⟨⟨hf.2.1, hf.2.2.1, hf.2.2.2.1, hf.2.2.2.2.1, hf.2.2.2.2.2⟩, rfl⟩
  unfold merge_at at e
  rw [hrun, getElem?_pre, getElem?_pre_succ] at e
  simp only [] at e
  split at e
  · -- the assertions hold
    cases hk2 : load self.mem ri1.base with
    | none => simp [hk2] at e
    | some key2 =>
      simp only [hk2] at e
      cases hg : gallop_right cmp key2 self.mem ri.base ri.len 0 with
      | none => simp [hg] at e
      | some k =>
        simp only [hg] at e
        by_cases hl1 : ri.len - k = 0
        · rw [if_pos hl1] at e
          cases hdn : merge_at_done self pre.length with
          | none => simp [hdn] at e
          | some s2 =>
            simp only [hdn, Option.some.injEq, Prod.mk.injEq] at e
            obtain ⟨rfl, _⟩ := e
            have := hdone self (merge_frame_refl self) s2 hdn
            exact ⟨this.1, Or.inl this.2⟩
        · rw [if_neg hl1] at e
          cases hk1 : load self.mem (ri.base + k + (ri.len - k - 1)) with
          | none => simp [hk1] at e
          | some key1 =>
            simp only [hk1] at e
            cases hg2 : gallop_left cmp key1 self.mem ri1.base ri1.len (ri1.len - 1) with
            | none => simp [hg2] at e
            | some l2 =>
              simp only [hg2] at e
              have hl2le := gallop_left_le hg2
              by_cases hl20 : l2 = 0
              · rw [if_pos hl20] at e
                cases hdn : merge_at_done self pre.length with
                | none => simp [hdn] at e
                | some s2 =>
                  simp only [hdn, Option.some.injEq, Prod.mk.injEq] at e
                  obtain ⟨rfl, _⟩ := e
                  have := hdone self (merge_frame_refl self) s2 hdn
                  exact ⟨this.1, Or.inl this.2⟩
              · rw [if_neg hl20] at e
                by_cases hle : ri.len - k ≤ l2
                · rw [if_pos hle] at e
                  by_cases hcap : ri.len - k > self.max_merge_size
                  · rw [if_pos hcap] at e
                    cases hm : merge_lo cmp self (ri.base + (ri.len - self.max_merge_size))
                        self.max_merge_size ri1.base l2 with
                    | none => simp [hm] at e
                    | some s1 =>
                      simp only [hm] at e
                      split at e
                      · simp only [Option.some.injEq, Prod.mk.injEq] at e
                        obtain ⟨rfl, _⟩ := e
                        have hf := merge_lo_frame hm
                        refine ⟨⟨hf.2.1, hf.2.2.1, hf.2.2.2.1, hf.2.2.2.2.1, hf.2.2.2.2.2⟩,
                          Or.inr (Or.inl ⟨by omega, by omega, ?_⟩)⟩
                        show (s1.run.set _ _).set _ _ = _
                        rw [hf.1, hrun]
                        simp [List.set_append]
                      · simp at e
                  · rw [if_neg hcap] at e
                    cases hm : merge_lo cmp self (ri.base + k) (ri.len - k) ri1.base l2 with
                    | none => simp [hm] at e
                    | some s1 =>
                      simp only [hm] at e
                      cases hdn : merge_at_done s1 pre.length with
                      | none => simp [hdn] at e
                      | some s2 =>
                        simp only [hdn, Option.some.injEq, Prod.mk.injEq] at e
                        obtain ⟨rfl, _⟩ := e
                        have := hdone s1 (merge_lo_frame hm) s2 hdn
                        exact ⟨this.1, Or.inl this.2⟩
                · rw [if_neg hle] at e
                  by_cases hcap : l2 > self.max_merge_size
                  · rw [if_pos hcap] at e
                    cases hm : merge_hi cmp self (ri.base + k) (ri.len - k) ri1.base
                        self.max_merge_size with
                    | none => simp [hm] at e
                    | some s1 =>
                      simp only [hm] at e
                      split at e
                      · simp only [Option.some.injEq, Prod.mk.injEq] at e
                        obtain ⟨rfl, _⟩ := e
                        have hf := merge_hi_frame hm
                        refine ⟨⟨hf.2.1, hf.2.2.1, hf.2.2.2.1, hf.2.2.2.2.1, hf.2.2.2.2.2⟩,
                          Or.inr (Or.inr ⟨by omega, by omega, ?_⟩)⟩
                        show (s1.run.set _ _).set _ _ = _
                        rw [hf.1, hrun]
                        simp [List.set_append]
                      · simp at e
                  · rw [if_neg hcap] at e
                    cases hm : merge_hi cmp self (ri.base + k) (ri.len - k) ri1.base l2 with
                    | none => simp [hm] at e
                    | some s1 =>
                      simp only [hm] at e
                      cases hdn : merge_at_done s1 pre.length with
                      | none => simp [hdn] at e
                      | some s2 =>
                        simp only [hdn, Option.some.injEq, Prod.mk.injEq] at e
                        obtain ⟨rfl, _⟩ := e
                        have := hdone s1 (merge_hi_frame hm) s2 hdn
                        exact ⟨this.1, Or.inl this.2⟩
  · simp at e

/-! ## The invariant of the run stack -/

theorem ginv_tail {a : Nat} {l : List Nat} (h : GInv (a :: l)) : GInv l := by
  match l, h with
  | [], _ => simp [GInv]
  | [_], _ => simp [GInv]
  | _ :: _ :: _, h => exact h.2

theorem ginv_drop_one {l : List Nat} (h : GInv l) : GInv (l.drop 1) := by
  cases l with
  | nil => simpa using h
  | cons a l => simpa using ginv_tail h

/-- A merge, complete or capped, keeps `MidInv`. -/
theorem mergeMove_midInv {m : Nat} {t t' : List Nat} (hm : MergeMove m t t')
    (h : MidInv m t) : MidInv m t' := by
  obtain ⟨h1, h2⟩ := h
  cases hm with
  | full_top z y rest =>
    simp only [List.drop_succ_cons] at h1
    refine ⟨by simpa using ginv_drop_one h1, ?_⟩
    intro z' y' x' w' v' r' e
    simp only [List.cons.injEq] at e
    obtain ⟨_, rfl⟩ := e
    simp only [List.drop_succ_cons, List.drop_zero] at h1
    exact Or.inl h1.1
  | lo_top z y rest hy hz =>
    refine ⟨by simpa using h1, ?_⟩
    intro z' y' x' w' v' r' e
    simp only [List.cons.injEq] at e
    obtain ⟨rfl, rfl, rfl⟩ := e
    rcases h2 _ _ _ _ _ _ rfl with h | h
    · exact Or.inl h
    · right
      simp only [Tainted] at h ⊢
      omega
  | hi_top z y rest hz hy =>
    refine ⟨by simpa using h1, ?_⟩
    intro z' y' x' w' v' r' e
    simp only [List.cons.injEq] at e
    obtain ⟨rfl, rfl, rfl⟩ := e
    rcases h2 _ _ _ _ _ _ rfl with h | h
    · exact Or.inl h
    · right
      simp only [Tainted] at h ⊢
      omega
  | full_next z y x rest hxz =>
    simp only [List.drop_succ_cons, List.drop_zero] at h1
    refine ⟨by simpa using ginv_drop_one h1, ?_⟩
    intro z' y' x' w' v' r' e
    simp only [List.cons.injEq] at e
    obtain ⟨rfl, rfl, rfl⟩ := e
    exact Or.inl h1.1
  | lo_next z y x rest hxz hx hy =>
    refine ⟨by simpa using h1, ?_⟩
    intro z' y' x' w' v' r' e
    simp only [List.cons.injEq] at e
    obtain ⟨rfl, rfl, rfl, rfl⟩ := e
    right
    simp only [Tainted]
    omega
  | hi_next z y x rest hxz hy hx =>
    refine ⟨by simpa using h1, ?_⟩
    intro z' y' x' w' v' r' e
    simp only [List.cons.injEq] at e
    obtain ⟨rfl, rfl, rfl, rfl⟩ := e
    right
    simp only [Tainted]
    omega

/-- A merge, complete or capped, keeps `Mass`. -/
theorem mergeMove_mass {k m : Nat} {t t' : List Nat} (hm : MergeMove m t t')
    (h : Mass k m t) : Mass k m t' := by
  unfold Mass at h ⊢
  right
  cases hm with
  | full_top z y rest =>
    rcases h with h | ⟨h1, _⟩
    · simp at h
    · cases rest with
      | nil => simp at h1 ⊢; omega
      | cons x rest =>
        cases rest with
        | nil => simp at h1 ⊢; omega
        | cons w rest => simp at h1 ⊢; omega
  | lo_top z y rest hy hz =>
    rcases h with h | ⟨h1, h2⟩
    · simp at h
    · cases rest with
      | nil => simp [Tainted] at h1 h2 ⊢; omega
      | cons x rest => simp [Tainted] at h1 h2 ⊢; omega
  | hi_top z y rest hz hy =>
    rcases h with h | ⟨h1, h2⟩
    · simp at h
    · cases rest with
      | nil => simp [Tainted] at h1 h2 ⊢; omega
      | cons x rest => simp [Tainted] at h1 h2 ⊢; omega
  | full_next z y x rest hxz =>
    rcases h with h | ⟨h1, _⟩
    · simp at h
    · cases rest with
      | nil => simp at h1 ⊢; omega
      | cons w rest => simp at h1 ⊢; omega
  | lo_next z y x rest hxz hx hy =>
    rcases h with h | ⟨h1, h2⟩
    · simp at h
    · simp [Tainted] at h1 h2 ⊢
      omega
  | hi_next z y x rest hxz hy hx =>
    rcases h with h | ⟨h1, h2⟩
    · simp at h
    · simp [Tainted] at h1 h2 ⊢
      omega

theorem collapseDone_not_tainted {m : Nat} {t : List Nat} (hd : CollapseDone t) :
    ¬ Tainted m t := by
  match t, hd with
  | [], _ => simp [Tainted]
  | [_], _ => simp [Tainted]
  | [_, _], _ => simp [Tainted]
  | [z, y, x], hd =>
    simp only [CollapseDone] at hd
    simp only [Tainted]
    omega
  | z :: y :: x :: w :: _, hd =>
    simp only [CollapseDone] at hd
    simp only [Tainted]
    omega

/-- When `merge_collapse` has nothing to do, `MidInv` amounts to the invariant of
the whole stack. -/
theorem collapseDone_stackInv {m : Nat} {t : List Nat} (hd : CollapseDone t)
    (h : MidInv m t) : StackInv t := by
  have hnt := collapseDone_not_tainted (m := m) hd
  obtain ⟨h1, h2⟩ := h
  match t, hd, h1, h2, hnt with
  | [], _, _, _, _ => exact ⟨by simp [GInv], by simp⟩
  | [_], _, _, _, _ => exact ⟨by simp [GInv], by simp⟩
  | [z, y], hd, _, _, _ =>
    simp only [CollapseDone] at hd
    refine ⟨by simp [GInv], ?_⟩
    intro z' y' r e
    simp only [List.cons.injEq] at e
    obtain ⟨rfl, rfl, _⟩ := e
    exact hd
  | [z, y, x], hd, _, _, _ =>
    simp only [CollapseDone] at hd
    refine ⟨by simp [GInv]; omega, ?_⟩
    intro z' y' r e
    simp only [List.cons.injEq] at e
    obtain ⟨rfl, rfl, _⟩ := e
    exact hd.2
  | [z, y, x, w], hd, _, _, _ =>
    simp only [CollapseDone] at hd
    refine ⟨by simp [GInv]; omega, ?_⟩
    intro z' y' r e
    simp only [List.cons.injEq] at e
    obtain ⟨rfl, rfl, _⟩ := e
    exact hd.2.2
  | z :: y :: x :: w :: v :: rest, hd, h1, h2, hnt =>
    simp only [CollapseDone] at hd
    simp only [List.drop_succ_cons, List.drop_zero] at h1
    have h3 : v > w + x := by
      rcases h2 _ _ _ _ _ _ rfl with h | h
      · exact h
      · exact absurd h hnt
    refine ⟨?_, ?_⟩
    · simp only [GInv]
      exact ⟨by omega, by omega, h3, h1⟩
    · intro z' y' r e
      simp only [List.cons.injEq] at e
      obtain ⟨rfl, rfl, _⟩ := e
      exact hd.2.2

/-- Pushing a run when `merge_collapse` has nothing to do keeps `MidInv`. -/
theorem push_midInv {m : Nat} {t : List Nat} (hd : CollapseDone t) (h : MidInv m t)
    (len : Nat) : MidInv m (len :: t) := by
  have hs := collapseDone_stackInv hd h
  obtain ⟨hg, _⟩ := hs
  refine ⟨?_, ?_⟩
  · simp only [List.drop_succ_cons]
    have := ginv_drop_one (ginv_drop_one hg)
    rw [List.drop_drop] at this
    exact this
  · intro z' y' x' w' v' r' e
    simp only [List.cons.injEq] at e
    obtain ⟨rfl, rfl⟩ := e
    left
    simp only [GInv] at hg
    omega

theorem push_mass {k m : Nat} (t : List Nat) {len : Nat} (hk : k ≤ len) :
    Mass k m (len :: t) := by
  right
  cases t with
  | nil => simp; omega
  | cons y t =>
    cases t with
    | nil => simp; omega
    | cons x t => simp; omega

/-! ## The moves of `merge_collapse` and `merge_force_collapse` -/

/-- A merge of the two newest runs is a `MergeMove`. -/
theorem merge_at_move_top {cmp : α → α → Int} {self s' : GtkTimSort α}
    {oc oc' : Option GtkTimSortChange} (pre : List GtkTimSortRun) (ry rz : GtkTimSortRun)
    (hrun : self.run = pre ++ [ry, rz]) (h64 : self.pending_runs < GSIZE_MOD)
    (e : merge_at cmp self pre.length oc = some (s', oc')) :
    SameParams self s' ∧ MergeMove self.max_merge_size (stack_lens self) (stack_lens s') ∧
      (s'.pending_runs = self.pending_runs ∨ s'.pending_runs + 1 = self.pending_runs) := by
  obtain ⟨hp, hc⟩ := merge_at_runs pre [] ry rz hrun (by simp) h64 e
  have hs : stack_lens self = rz.len :: ry.len :: (pre.map (fun r => r.len)).reverse := by
    simp [stack_lens, hrun]
  refine ⟨hp, ?_⟩
  rw [hs]
  rcases hc with hc | ⟨h1, h2, hc⟩ | ⟨h1, h2, hc⟩
  · have : stack_lens s' = (ry.len + rz.len) :: (pre.map (fun r => r.len)).reverse := by
      simp [stack_lens, hc]
    rw [this]
    exact ⟨MergeMove.full_top _ _ _, Or.inr (by simp [GtkTimSort.pending_runs, hc, hrun])⟩
  · have : stack_lens s' = (rz.len + self.max_merge_size) :: (ry.len - self.max_merge_size) ::
        (pre.map (fun r => r.len)).reverse := by
      simp [stack_lens, hc]
    rw [this]
    exact ⟨MergeMove.lo_top _ _ _ h1 h2, Or.inl (by simp [GtkTimSort.pending_runs, hc, hrun])⟩
  · have : stack_lens s' = (rz.len - self.max_merge_size) :: (ry.len + self.max_merge_size) ::
        (pre.map (fun r => r.len)).reverse := by
      simp [stack_lens, hc]
    rw [this]
    exact ⟨MergeMove.hi_top _ _ _ h1 h2, Or.inl (by simp [GtkTimSort.pending_runs, hc, hrun])⟩

/-- A merge of the second and third newest runs, the third newest being shorter
than the newest, is a `MergeMove`. -/
theorem merge_at_move_next {cmp : α → α → Int} {self s' : GtkTimSort α}
    {oc oc' : Option GtkTimSortChange} (pre : List GtkTimSortRun) (rx ry rz : GtkTimSortRun)
    (hrun : self.run = pre ++ [rx, ry, rz]) (hxz : rx.len < rz.len)
    (h64 : self.pending_runs < GSIZE_MOD)
    (e : merge_at cmp self pre.length oc = some (s', oc')) :
    SameParams self s' ∧ MergeMove self.max_merge_size (stack_lens self) (stack_lens s') ∧
      (s'.pending_runs = self.pending_runs ∨ s'.pending_runs + 1 = self.pending_runs) := by
  obtain ⟨hp, hc⟩ := merge_at_runs pre [rz] rx ry hrun (by simp) h64 e
  have hs : stack_lens self =
      rz.len :: ry.len :: rx.len :: (pre.map (fun r => r.len)).reverse := by
    simp [stack_lens, hrun]
  refine ⟨hp, ?_⟩
  rw [hs]
  rcases hc with hc | ⟨h1, h2, hc⟩ | ⟨h1, h2, hc⟩
  · have : stack_lens s' = rz.len :: (rx.len + ry.len) :: (pre.map (fun r => r.len)).reverse := by
      simp [stack_lens, hc]
    rw [this]
    exact ⟨MergeMove.full_next _ _ _ _ hxz,
      Or.inr (by simp [GtkTimSort.pending_runs, hc, hrun])⟩
  · have : stack_lens s' = rz.len :: (ry.len + self.max_merge_size) ::
        (rx.len - self.max_merge_size) :: (pre.map (fun r => r.len)).reverse := by
      simp [stack_lens, hc]
    rw [this]
    exact ⟨MergeMove.lo_next _ _ _ _ hxz h1 h2,
      Or.inl (by simp [GtkTimSort.pending_runs, hc, hrun])⟩
  · have : stack_lens s' = rz.len :: (ry.len - self.max_merge_size) ::
        (rx.len + self.max_merge_size) :: (pre.map (fun r => r.len)).reverse := by
      simp [stack_lens, hc]
    rw [this]
    exact ⟨MergeMove.hi_next _ _ _ _ hxz h1 h2,
      Or.inl (by simp [GtkTimSort.pending_runs, hc, hrun])⟩

theorem run_len_append (self : GtkTimSort α) (pre suffix : List GtkTimSortRun) (j : Nat)
    (hrun : self.run = pre ++ suffix) :
    run_len self (pre.length + j) = (suffix[j]?).map (fun r => r.len) := by
  unfold run_len
  rw [hrun, List.getElem?_append_right (by omega)]
  simp only [Nat.add_sub_cancel_left]
  cases suffix[j]? <;> rfl

/-- The function `merge_collapse` in terms of the lengths it reads. -/
theorem merge_collapse_eval (cmp : α → α → Int) (self : GtkTimSort α)
    (oc : Option GtkTimSortChange) (a b c d : Nat) (hp : ¬ self.pending_runs ≤ 1)
    (hb : run_len self (self.pending_runs - 2) = some b)
    (hc : run_len self (self.pending_runs - 2 + 1) = some c)
    (ha : run_len self (self.pending_runs - 2 - 1) = some a)
    (hd : run_len self (self.pending_runs - 2 - 2) = some d) :
    merge_collapse cmp self oc =
      if (self.pending_runs - 2 > 0 ∧ a ≤ b + c) ∨ (self.pending_runs - 2 > 1 ∧ d ≤ b + a) then
        (merge_at cmp self (if a < c then self.pending_runs - 2 - 1
          else self.pending_runs - 2) oc).map (fun r => (true, r.1, r.2))
      else if b > c then some (false, self, oc)
      else (merge_at cmp self (self.pending_runs - 2) oc).map (fun r => (true, r.1, r.2)) := by
  unfold merge_collapse
  rw [if_neg hp]
  simp only [merge_collapse_cond1, merge_collapse_cond2, ha, hb, hc, hd, map_true_eq]
  by_cases hn0 : self.pending_runs - 2 > 0 <;> by_cases hn1 : self.pending_runs - 2 > 1 <;>
    by_cases hv1 : a ≤ b + c <;> by_cases hv2 : d ≤ b + a <;> by_cases hac : a < c <;>
    by_cases hbc : b > c <;>
    first
      | (exfalso; omega)
      | simp [hn0, hn1, hv1, hv2, hac, hbc]

/-- The run stack is empty, holds one run, or ends with two, three or four runs. -/
theorem run_stack_shape (l : List GtkTimSortRun) :
    l = [] ∨ (∃ rz, l = [rz]) ∨ (∃ ry rz, l = [ry, rz]) ∨ (∃ rx ry rz, l = [rx, ry, rz]) ∨
      ∃ pre rw rx ry rz, l = pre ++ [rw, rx, ry, rz] := by
  rcases List.eq_nil_or_concat l with h0 | ⟨l1, rz, h1⟩
  · exact Or.inl h0
  · rcases List.eq_nil_or_concat l1 with h0 | ⟨l2, ry, h2⟩
    · subst h0
      exact Or.inr (Or.inl ⟨rz, by simpa using h1⟩)
    · rcases List.eq_nil_or_concat l2 with h0 | ⟨l3, rx, h3⟩
      · subst h0
        exact Or.inr (Or.inr (Or.inl ⟨ry, rz, by simp [h1, h2]⟩))
      · rcases List.eq_nil_or_concat l3 with h0 | ⟨pre, rw, h4⟩
        · subst h0
          exact Or.inr (Or.inr (Or.inr (Or.inl ⟨rx, ry, rz, by simp [h1, h2, h3]⟩)))
        · exact Or.inr (Or.inr (Or.inr (Or.inr ⟨pre, rw, rx, ry, rz, by simp [h1, h2, h3, h4]⟩)))

/-- The function `merge_collapse` returns `FALSE` and changes nothing when the
lengths of the newest runs pass its test, and otherwise makes one `MergeMove` by one
call of `merge_at`. -/
theorem merge_collapse_move (cmp : α → α → Int) (self : GtkTimSort α)
    (oc : Option GtkTimSortChange) (h64 : self.pending_runs < GSIZE_MOD) :
    (CollapseDone (stack_lens self) ∧ merge_collapse cmp self oc = some (false, self, oc)) ∨
      (¬ CollapseDone (stack_lens self) ∧ 2 ≤ self.pending_runs ∧ ∃ n,
        merge_collapse cmp self oc = (merge_at cmp self n oc).map (fun r => (true, r.1, r.2)) ∧
        ∀ s' oc', merge_at cmp self n oc = some (s', oc') →
          SameParams self s' ∧ MergeMove self.max_merge_size (stack_lens self) (stack_lens s') ∧
          (s'.pending_runs = self.pending_runs ∨ s'.pending_runs + 1 = self.pending_runs)) := by
  rcases run_stack_shape self.run with h | ⟨rz, h⟩ | ⟨ry, rz, h⟩ | ⟨rx, ry, rz, h⟩ |
    ⟨pre, rw, rx, ry, rz, h⟩
  · left
    refine ⟨by simp [stack_lens, h, CollapseDone], ?_⟩
    unfold merge_collapse
    rw [if_pos (by simp [GtkTimSort.pending_runs, h])]
  · left
    refine ⟨by simp [stack_lens, h, CollapseDone], ?_⟩
    unfold merge_collapse
    rw [if_pos (by simp [GtkTimSort.pending_runs, h])]
  · have hp : self.pending_runs = 2 := by simp [GtkTimSort.pending_runs, h]
    have hs : stack_lens self = [rz.len, ry.len] := by simp [stack_lens, h]
    have hb : run_len self 0 = some ry.len := by simp [run_len, h]
    have hc : run_len self 1 = some rz.len := by simp [run_len, h]
    rw [merge_collapse_eval cmp self oc ry.len ry.len rz.len ry.len (by omega)
      (by rw [hp]; exact hb) (by rw [hp]; exact hc) (by rw [hp]; exact hb)
      (by rw [hp]; exact hb), hs, hp]
    simp only [CollapseDone]
    rw [if_neg (by omega)]
    by_cases hyz : ry.len > rz.len
    · rw [if_pos hyz]
      exact Or.inl ⟨hyz, rfl⟩
    · rw [if_neg hyz]
      refine Or.inr ⟨hyz, by omega, 0, rfl, ?_⟩
      intro s' oc' e
      have := merge_at_move_top [] ry rz (by simpa using h) h64 e
      rw [hs, hp] at this
      exact this
  · have hp : self.pending_runs = 3 := by simp [GtkTimSort.pending_runs, h]
    have hs : stack_lens self = [rz.len, ry.len, rx.len] := by simp [stack_lens, h]
    have ha : run_len self 0 = some rx.len := by simp [run_len, h]
    have hb : run_len self 1 = some ry.len := by simp [run_len, h]
    have hc : run_len self 2 = some rz.len := by simp [run_len, h]
    rw [merge_collapse_eval cmp self oc rx.len ry.len rz.len rx.len (by omega)
      (by rw [hp]; exact hb) (by rw [hp]; exact hc) (by rw [hp]; exact ha)
      (by rw [hp]; exact ha), hs, hp]
    simp only [CollapseDone]
    by_cases hv : rx.len ≤ ry.len + rz.len
    · rw [if_pos (Or.inl ⟨by omega, hv⟩)]
      refine Or.inr ⟨by omega, by omega, _, rfl, ?_⟩
      intro s' oc' e
      by_cases hxz : rx.len < rz.len
      · rw [if_pos hxz] at e
        have := merge_at_move_next [] rx ry rz (by simpa using h) hxz h64 e
        rw [hs, hp] at this
        exact this
      · rw [if_neg hxz] at e
        have := merge_at_move_top [rx] ry rz (by simpa using h) h64 e
        rw [hs, hp] at this
        exact this
    · rw [if_neg (by omega)]
      by_cases hyz : ry.len > rz.len
      · rw [if_pos hyz]
        exact Or.inl ⟨⟨hv, hyz⟩, rfl⟩
      · rw [if_neg hyz]
        refine Or.inr ⟨by omega, by omega, _, rfl, ?_⟩
        intro s' oc' e
        have := merge_at_move_top [rx] ry rz (by simpa using h) h64 e
        rw [hs, hp] at this
        exact this
  · have hp : self.pending_runs = pre.length + 4 := by simp [GtkTimSort.pending_runs, h]
    have hs : stack_lens self =
        rz.len :: ry.len :: rx.len :: rw.len :: (pre.map (fun r => r.len)).reverse := by
      simp [stack_lens, h]
    have hd : run_len self (pre.length + 0) = some rw.len := by
      rw [run_len_append self pre _ 0 h]; rfl
    have ha : run_len self (pre.length + 1) = some rx.len := by
      rw [run_len_append self pre _ 1 h]; rfl
    have hb : run_len self (pre.length + 2) = some ry.len := by
      rw [run_len_append self pre _ 2 h]; rfl
    have hc : run_len self (pre.length + 3) = some rz.len := by
      rw [run_len_append self pre _ 3 h]; rfl
    have e2 : self.pending_runs - 2 = pre.length + 2 := by omega
    have e3 : self.pending_runs - 2 + 1 = pre.length + 3 := by omega
    have e1 : self.pending_runs - 2 - 1 = pre.length + 1 := by omega
    have e0 : self.pending_runs - 2 - 2 = pre.length + 0 := by omega
    rw [merge_collapse_eval cmp self oc rx.len ry.len rz.len rw.len (by omega)
      (by rw [e2]; exact hb) (by rw [e3]; exact hc) (by rw [e1]; exact ha)
      (by rw [e0]; exact hd), hs, e1, e2]
    simp only [CollapseDone]
    have htop : ∀ s' oc', merge_at cmp self (pre.length + 2) oc = some (s', oc') →
        SameParams self s' ∧ MergeMove self.max_merge_size
          (rz.len :: ry.len :: rx.len :: rw.len :: (pre.map (fun r => r.len)).reverse)
          (stack_lens s') ∧
        (s'.pending_runs = self.pending_runs ∨ s'.pending_runs + 1 = self.pending_runs) := by
      intro s' oc' e
      have := merge_at_move_top (pre ++ [rw, rx]) ry rz (by simpa using h) h64
        (by simpa using e)
      rw [hs] at this
      exact this
    by_cases hv : rx.len ≤ ry.len + rz.len ∨ rw.len ≤ ry.len + rx.len
    · rw [if_pos (by rcases hv with hv | hv
                     · exact Or.inl ⟨by omega, hv⟩
                     · exact Or.inr ⟨by omega, hv⟩)]
      refine Or.inr ⟨by omega, by omega, _, rfl, ?_⟩
      intro s' oc' e
      by_cases hxz : rx.len < rz.len
      · rw [if_pos hxz] at e
        have := merge_at_move_next (pre ++ [rw]) rx ry rz (by simpa using h) hxz h64
          (by simpa using e)
        rw [hs] at this
        exact this
      · rw [if_neg hxz] at e
        exact htop s' oc' e
    · rw [if_neg (by omega)]
      by_cases hyz : ry.len > rz.len
      · rw [if_pos hyz]
        exact Or.inl ⟨⟨by omega, by omega, hyz⟩, rfl⟩
      · rw [if_neg hyz]
        exact Or.inr ⟨by omega, by omega, _, rfl, htop⟩

/-- The function `merge_force_collapse` returns `FALSE` and changes nothing when at
most one run is pending, and otherwise makes one `MergeMove` by one call of
`merge_at`. -/
theorem merge_force_collapse_move (cmp : α → α → Int) (self : GtkTimSort α)
    (oc : Option GtkTimSortChange) (h64 : self.pending_runs < GSIZE_MOD) :
    (self.pending_runs ≤ 1 ∧ merge_force_collapse cmp self oc = some (false, self, oc)) ∨
      (2 ≤ self.pending_runs ∧ ∃ n,
        merge_force_collapse cmp self oc =
          (merge_at cmp self n oc).map (fun r => (true, r.1, r.2)) ∧
        ∀ s' oc', merge_at cmp self n oc = some (s', oc') →
          SameParams self s' ∧ MergeMove self.max_merge_size (stack_lens self) (stack_lens s') ∧
          (s'.pending_runs = self.pending_runs ∨ s'.pending_runs + 1 = self.pending_runs)) := by
  have hshape : self.pending_runs ≤ 1 ∨ (∃ ry rz, self.run = [ry, rz]) ∨
      ∃ pre rx ry rz, self.run = pre ++ [rx, ry, rz] := by
    rcases run_stack_shape self.run with h | ⟨rz, h⟩ | ⟨ry, rz, h⟩ | ⟨rx, ry, rz, h⟩ |
      ⟨pre, rw, rx, ry, rz, h⟩
    · exact Or.inl (by simp [GtkTimSort.pending_runs, h])
    · exact Or.inl (by simp [GtkTimSort.pending_runs, h])
    · exact Or.inr (Or.inl ⟨ry, rz, h⟩)
    · exact Or.inr (Or.inr ⟨[], rx, ry, rz, by simpa using h⟩)
    · exact Or.inr (Or.inr ⟨pre ++ [rw], rx, ry, rz, by simpa using h⟩)
  rcases hshape with h | ⟨ry, rz, h⟩ | ⟨pre, rx, ry, rz, h⟩
  · left
    refine ⟨h, ?_⟩
    unfold merge_force_collapse
    rw [if_pos h]
  · right
    have hp : self.pending_runs = 2 := by simp [GtkTimSort.pending_runs, h]
    refine ⟨by omega, 0, ?_, ?_⟩
    · unfold merge_force_collapse
      rw [if_neg (by omega)]
      simp only [hp, map_true_eq]
      simp
    · intro s' oc' e
      exact merge_at_move_top [] ry rz (by simpa using h) h64 e
  · right
    have hp : self.pending_runs = pre.length + 3 := by simp [GtkTimSort.pending_runs, h]
    have ha : run_len self (pre.length + 0) = some rx.len := by
      rw [run_len_append self pre _ 0 h]; rfl
    have hc : run_len self (pre.length + 2) = some rz.len := by
      rw [run_len_append self pre _ 2 h]; rfl
    have e2 : self.pending_runs - 2 = pre.length + 1 := by omega
    have e3 : pre.length + 1 + 1 = pre.length + 2 := by omega
    have e1 : pre.length + 1 - 1 = pre.length + 0 := by omega
    have hev : merge_force_collapse cmp self oc =
        (merge_at cmp self (if rx.len < rz.len then pre.length else pre.length + 1) oc).map
          (fun r => (true, r.1, r.2)) := by
      unfold merge_force_collapse
      rw [if_neg (by omega)]
      simp only [e2, e3, e1, ha, hc, map_true_eq]
      by_cases hxz : rx.len < rz.len <;> simp [hxz]
    refine ⟨by omega, _, hev, ?_⟩
    intro s' oc' e
    by_cases hxz : rx.len < rz.len
    · rw [if_pos hxz] at e
      exact merge_at_move_next pre rx ry rz h hxz h64 e
    · rw [if_neg hxz] at e
      exact merge_at_move_top (pre ++ [rx]) ry rz (by simpa using h) h64 (by simpa using e)

/-- What one call of `step` does: nothing, when it returns `FALSE`; one call of
`merge_at`, when the lengths of the newest runs do not pass the test of
`merge_collapse`; otherwise one push, when the tail is not empty; otherwise one call
of `merge_at` by `merge_force_collapse`. -/
theorem step_move {cmp : α → α → Int} {self s' : GtkTimSort α}
    {oc oc' : Option GtkTimSortChange} {b : Bool} (h64 : self.pending_runs < GSIZE_MOD)
    (e : step cmp self oc = some (b, s', oc')) :
    (b = false ∧ s' = self ∧ self.size = 0 ∧ self.pending_runs ≤ 1) ∨
      (b = true ∧ ¬ CollapseDone (stack_lens self) ∧
        merge_collapse cmp self oc = some (true, s', oc') ∧
        (∃ n, merge_at cmp self n oc = some (s', oc')) ∧ SameParams self s' ∧
        MergeMove self.max_merge_size (stack_lens self) (stack_lens s') ∧
        (s'.pending_runs = self.pending_runs ∨ s'.pending_runs + 1 = self.pending_runs)) ∨
      (b = true ∧ CollapseDone (stack_lens self) ∧
        merge_collapse cmp self oc = some (false, self, oc) ∧ 0 < self.size ∧
        merge_append cmp self oc = some (true, s', oc')) ∨
      (b = true ∧ CollapseDone (stack_lens self) ∧
        merge_collapse cmp self oc = some (false, self, oc) ∧
        self.size = 0 ∧ 2 ≤ self.pending_runs ∧
        (∃ n, merge_at cmp self n (gtk_tim_sort_set_change oc none 0) = some (s', oc')) ∧
        SameParams self s' ∧
        MergeMove self.max_merge_size (stack_lens self) (stack_lens s') ∧
        (s'.pending_runs = self.pending_runs ∨ s'.pending_runs + 1 = self.pending_runs)) := by
  unfold step at e
  rcases merge_collapse_move cmp self oc h64 with ⟨hd, h1⟩ | ⟨hd, hp, n, h1, hmv⟩
  · have h1' := h1
    rw [h1] at e
    simp only [] at e
    cases ha : merge_append cmp self oc with
    | none => simp [ha] at e
    | some q =>
      obtain ⟨b2, s2, oc2⟩ := q
      cases b2 with
      | true =>
        simp only [ha, Option.some.injEq, Prod.mk.injEq] at e
        obtain ⟨rfl, rfl, rfl⟩ := e
        have hpos : 0 < self.size := by
          by_contra hc
          have := merge_append_zero cmp self oc (by omega)
          rw [this] at ha
          simp at ha
        exact Or.inr (Or.inr (Or.inl ⟨rfl, hd, h1', hpos, rfl⟩))
      | false =>
        obtain ⟨a1, a2, a3⟩ := merge_append_false ha
        subst a2 a3
        simp only [ha] at e
        rcases merge_force_collapse_move cmp s2 (gtk_tim_sort_set_change oc none 0) h64 with
          ⟨hp, h2⟩ | ⟨hp, n, h2, hmv⟩
        · rw [h2] at e
          simp only [Option.some.injEq, Prod.mk.injEq] at e
          obtain ⟨rfl, rfl, _⟩ := e
          exact Or.inl ⟨rfl, rfl, a1, hp⟩
        · rw [h2] at e
          cases hm : merge_at cmp s2 n (gtk_tim_sort_set_change oc none 0) with
          | none => simp [hm] at e
          | some r =>
            obtain ⟨s3, oc3⟩ := r
            simp only [hm, Option.map_some', Option.some.injEq, Prod.mk.injEq] at e
            obtain ⟨rfl, rfl, rfl⟩ := e
            obtain ⟨m1, m2, m3⟩ := hmv _ _ hm
            exact Or.inr (Or.inr (Or.inr ⟨rfl, hd, h1', a1, hp, ⟨n, hm⟩, m1, m2, m3⟩))
  · rw [h1] at e
    cases hm : merge_at cmp self n oc with
    | none => simp [hm] at e
    | some r =>
      obtain ⟨s3, oc3⟩ := r
      simp only [hm, Option.map_some', Option.some.injEq, Prod.mk.injEq] at e
      obtain ⟨rfl, rfl, rfl⟩ := e
      obtain ⟨m1, m2, m3⟩ := hmv _ _ hm
      rw [hm] at h1
      exact Or.inr (Or.inl ⟨rfl, hd, h1, ⟨n, hm⟩, m1, m2, m3⟩)

theorem gtk_tim_sort_step_move {cmp : α → α → Int} {self s' : GtkTimSort α}
    {oc oc' : Option GtkTimSortChange} {b : Bool}
    (e : gtk_tim_sort_step cmp self oc = some (b, s', oc')) :
    step cmp self oc = some (b, s', oc') := by
  rw [gtk_tim_sort_step_eq] at e
  exact e

/-! ## The newest runs when `merge_collapse` is done -/

theorem stack_lens_getElem? (self : GtkTimSort α) (i : Nat) (hi : i < self.pending_runs) :
    (stack_lens self)[i]? = (self.run[self.pending_runs - 1 - i]?).map (fun r => r.len) := by
  unfold stack_lens GtkTimSort.pending_runs at *
  rw [List.getElem?_reverse (by simpa using hi), List.getElem?_map, List.length_map]

theorem collapseDone_top {t : List Nat} (hd : CollapseDone t) :
    (∀ z y, t[0]? = some z → t[1]? = some y → y > z) ∧
      (∀ z y x, t[0]? = some z → t[1]? = some y → t[2]? = some x → x > y + z) := by
  match t, hd with
  | [], _ => simp
  | [_], _ => simp
  | [z, y], hd =>
    simp only [CollapseDone] at hd
    simp
    exact hd
  | [z, y, x], hd =>
    simp only [CollapseDone] at hd
    simp
    omega
  | z :: y :: x :: w :: _, hd =>
    simp only [CollapseDone] at hd
    simp
    omega

theorem merge_append_pending {cmp : α → α → Int} {self s' : GtkTimSort α}
    {oc oc' : Option GtkTimSortChange} (e : merge_append cmp self oc = some (true, s', oc')) :
    s'.pending_runs = self.pending_runs + 1 := by
  obtain ⟨r, mem1, oc1, mem2, len, _, _, _, _, e2⟩ := merge_append_push e
  rw [e2]
  simp [GtkTimSort.pending_runs]

/-- C28: when `merge_collapse` returns `FALSE`, the newest run is shorter than the
one before it, `run[n].len > run[n + 1].len`, if two runs are pending, and the run
before them is longer than the two together, `run[n - 1].len > run[n].len +
run[n + 1].len`, if three are; a call of `gtk_tim_sort_step` that pushes a run found
the stack in such a state. -/
theorem collapse_done_top_invariant (cmp : α → α → Int) (self : GtkTimSort α)
    (oc : Option GtkTimSortChange) (h64 : self.pending_runs < GSIZE_MOD)
    (hc : (∃ s1 oc1, merge_collapse cmp self oc = some (false, s1, oc1)) ∨
      (∃ s' oc', gtk_tim_sort_step cmp self oc = some (true, s', oc') ∧
        s'.pending_runs = self.pending_runs + 1)) :
    (2 ≤ self.pending_runs → ∀ ry rz, self.run[self.pending_runs - 2]? = some ry →
        self.run[self.pending_runs - 1]? = some rz → ry.len > rz.len) ∧
      (3 ≤ self.pending_runs → ∀ rx ry rz, self.run[self.pending_runs - 3]? = some rx →
        self.run[self.pending_runs - 2]? = some ry →
        self.run[self.pending_runs - 1]? = some rz → rx.len > ry.len + rz.len) := by
  have hd : CollapseDone (stack_lens self) := by
    rcases hc with ⟨s1, oc1, e⟩ | ⟨s', oc', e, hp⟩
    · rcases merge_collapse_move cmp self oc h64 with ⟨hd, _⟩ | ⟨_, _, n, h1, _⟩
      · exact hd
      · rw [h1] at e
        cases hm : merge_at cmp self n oc with
        | none => simp [hm] at e
        | some r => simp [hm] at e
    · rcases step_move h64 (gtk_tim_sort_step_move e) with ⟨hb, _⟩ | ⟨_, _, _, _, _, _, hq⟩ |
        ⟨_, hd, _⟩ | ⟨_, hd, _⟩
      · simp at hb
      · omega
      · exact hd
      · exact hd
  obtain ⟨t1, t2⟩ := collapseDone_top hd
  refine ⟨?_, ?_⟩
  · intro hp ry rz ey ez
    apply t1 rz.len ry.len
    · rw [stack_lens_getElem? self 0 (by omega), Nat.sub_zero, ez]
      rfl
    · rw [stack_lens_getElem? self 1 (by omega),
        show self.pending_runs - 1 - 1 = self.pending_runs - 2 by omega, ey]
      rfl
  · intro hp rx ry rz ex ey ez
    apply t2 rz.len ry.len rx.len
    · rw [stack_lens_getElem? self 0 (by omega), Nat.sub_zero, ez]
      rfl
    · rw [stack_lens_getElem? self 1 (by omega),
        show self.pending_runs - 1 - 1 = self.pending_runs - 2 by omega, ey]
      rfl
    · rw [stack_lens_getElem? self 2 (by omega),
        show self.pending_runs - 1 - 2 = self.pending_runs - 3 by omega, ex]
      rfl

/-! ## One unit of work per call -/

/-- C30: a call of `gtk_tim_sort_step` that returns `TRUE` did exactly one of three
things.  When `merge_collapse` returned `TRUE`, it made one call of `merge_at` and
left the cursor alone.  Otherwise, when the tail was not empty, it pushed one run and
merged nothing.  Otherwise the tail was empty, two runs or more were pending, and
`merge_force_collapse` made one call of `merge_at`.  The number of pending runs
changed by -1, 0 or +1. -/
theorem step_one_unit_of_work {cmp : α → α → Int} {self s' : GtkTimSort α}
    {oc oc' : Option GtkTimSortChange} (h64 : self.pending_runs < GSIZE_MOD)
    (e : gtk_tim_sort_step cmp self oc = some (true, s', oc')) :
    ((merge_collapse cmp self oc = some (true, s', oc') ∧
        (∃ n, merge_at cmp self n oc = some (s', oc')) ∧
        s'.base = self.base ∧ s'.size = self.size ∧
        (s'.pending_runs = self.pending_runs ∨ s'.pending_runs + 1 = self.pending_runs)) ∨
      (merge_collapse cmp self oc = some (false, self, oc) ∧ 0 < self.size ∧
        merge_append cmp self oc = some (true, s', oc') ∧
        (∃ r, s'.run = self.run ++ [r]) ∧ s'.pending_runs = self.pending_runs + 1) ∨
      (merge_collapse cmp self oc = some (false, self, oc) ∧ self.size = 0 ∧
        2 ≤ self.pending_runs ∧
        merge_append cmp self oc = some (false, self, gtk_tim_sort_set_change oc none 0) ∧
        merge_force_collapse cmp self (gtk_tim_sort_set_change oc none 0) =
          some (true, s', oc') ∧
        (∃ n, merge_at cmp self n (gtk_tim_sort_set_change oc none 0) = some (s', oc')) ∧
        s'.base = self.base ∧ s'.size = self.size ∧
        (s'.pending_runs = self.pending_runs ∨ s'.pending_runs + 1 = self.pending_runs))) ∧
      (s'.pending_runs + 1 = self.pending_runs ∨ s'.pending_runs = self.pending_runs ∨
        s'.pending_runs = self.pending_runs + 1) := by
  have es := gtk_tim_sort_step_move e
  rcases step_move h64 es with ⟨hb, _⟩ | ⟨_, _, hmc, hn, hpar, _, hq⟩ |
    ⟨_, _, hmc, hpos, ha⟩ | ⟨_, _, hmc, h0, hp, hn, hpar, _, hq⟩
  · simp at hb
  · exact ⟨Or.inl ⟨hmc, hn, hpar.1, hpar.2.1, hq⟩, by omega⟩
  · have hpush := merge_append_pending ha
    obtain ⟨r, mem1, oc1, mem2, len, _, _, _, _, e2⟩ := merge_append_push ha
    refine ⟨Or.inr (Or.inl ⟨hmc, hpos, ha,
      ⟨({ base := self.base, len := len } : GtkTimSortRun), ?_⟩, hpush⟩), by omega⟩
    rw [e2]
  · have ha := merge_append_zero cmp self oc h0
    refine ⟨Or.inr (Or.inr ⟨hmc, h0, hp, ha, ?_, hn, hpar.1, hpar.2.1, hq⟩), by omega⟩
    unfold step at es
    rw [hmc] at es
    simp only [ha] at es
    cases hf : merge_force_collapse cmp self (gtk_tim_sort_set_change oc none 0) with
    | none => simp [hf] at es
    | some q =>
      obtain ⟨b3, s3, oc3⟩ := q
      cases b3 with
      | true =>
        simp only [hf, Option.some.injEq, Prod.mk.injEq, true_and] at es
        rw [es.1, es.2]
      | false =>
        simp [hf] at es

/-! ## The run stack of a sorter driven by `gtk_tim_sort_step` -/

theorem memorySafe_pending {input : List α} {s : GtkTimSort α} (hR : MemorySafe input s) :
    s.pending_runs < GSIZE_MOD ∧ (stack_lens s).sum + s.size = input.length := by
  obtain ⟨⟨segs, tail, hL⟩, hperm, _, h64⟩ := hR
  obtain ⟨l1, l2, _, l4⟩ := layout_lens hL
  have hle := segs_length_le segs (fun x hx => (hL.2.2.2.2 x hx).1)
  have hm : s.mem.length = input.length := hperm.length_eq
  have hfl : segs.flatten.length + tail.length = s.mem.length := by
    rw [hL.1, List.length_append]
  refine ⟨by omega, ?_⟩
  unfold stack_lens
  rw [List.sum_reverse, l1, hL.2.2.2.1]
  omega

theorem drivenFrom_memorySafe (cmp : α → α → Int) {input : List α} {s0 s : GtkTimSort α}
    (h0 : MemorySafe input s0) (hd : DrivenFrom cmp s0 s) : MemorySafe input s := by
  induction hd with
  | start => exact h0
  | step s s' oc oc' b _ e ih =>
    obtain ⟨b2, s2, oc2, e2, hR, _⟩ := memorySafe_step cmp ih oc
    rw [e] at e2
    simp only [Option.some.injEq, Prod.mk.injEq] at e2
    obtain ⟨_, rfl, _⟩ := e2
    exact hR

theorem stack_lens_push (self : GtkTimSort α) (mem : List α) (r : GtkTimSortRun) (b sz : Nat) :
    stack_lens { self with mem := mem, run := self.run ++ [r], base := b, size := sz } =
      r.len :: stack_lens self := by
  simp [stack_lens]

/-- One call of `step` keeps `MidInv` and `Mass`, for the cap and the minimum run
length of the sorter, which it does not change. -/
theorem step_stack_invariant {cmp : α → α → Int} {self s' : GtkTimSort α}
    {oc oc' : Option GtkTimSortChange} {b : Bool} (h64 : self.pending_runs < GSIZE_MOD)
    (e : step cmp self oc = some (b, s', oc'))
    (hI : MidInv self.max_merge_size (stack_lens self))
    (hM : 0 < self.size → Mass self.min_run self.max_merge_size (stack_lens self)) :
    s'.max_merge_size = self.max_merge_size ∧ s'.min_run = self.min_run ∧
      MidInv self.max_merge_size (stack_lens s') ∧
      (0 < s'.size → Mass self.min_run self.max_merge_size (stack_lens s')) := by
  rcases step_move h64 e with ⟨_, rfl, _⟩ | ⟨_, _, _, _, hpar, hmv, _⟩ |
    ⟨_, hd, _, hpos, ha⟩ | ⟨_, _, _, _, _, _, hpar, hmv, _⟩
  · exact ⟨rfl, rfl, hI, hM⟩
  · refine ⟨hpar.2.2.1, hpar.2.2.2.1, mergeMove_midInv hmv hI, ?_⟩
    intro hs
    rw [hpar.2.1] at hs
    exact mergeMove_mass hmv (hM hs)
  · obtain ⟨r, mem1, oc1, mem2, len, _, _, hlen, hle, e2⟩ := merge_append_push ha
    subst e2
    rw [stack_lens_push]
    refine ⟨rfl, rfl, push_midInv hd hI _, ?_⟩
    intro hs
    apply push_mass
    have hs' : 0 < self.size - len := hs
    show self.min_run ≤ len
    rw [hlen]
    rw [hlen] at hs'
    split
    · rename_i c
      rw [if_pos c] at hs'
      omega
    · omega
  · refine ⟨hpar.2.2.1, hpar.2.2.2.1, mergeMove_midInv hmv hI, ?_⟩
    intro hs
    rw [hpar.2.1] at hs
    exact mergeMove_mass hmv (hM hs)

/-- The invariant of a sorter driven by `gtk_tim_sort_step` alone from a state with
no pending run. -/
theorem drivenFrom_stack_invariant (cmp : α → α → Int) {input : List α}
    {s0 s : GtkTimSort α} (h0 : MemorySafe input s0) (hrun : s0.run = [])
    (hd : DrivenFrom cmp s0 s) :
    s.max_merge_size = s0.max_merge_size ∧ s.min_run = s0.min_run ∧
      MidInv s0.max_merge_size (stack_lens s) ∧
      (0 < s.size → Mass s0.min_run s0.max_merge_size (stack_lens s)) := by
  induction hd with
  | start =>
    have : stack_lens s0 = [] := by simp [stack_lens, hrun]
    rw [this]
    exact ⟨rfl, rfl, ⟨by simp [GInv], by simp⟩, fun _ => Or.inl rfl⟩
  | step s s' oc oc' b hprev e ih =>
    obtain ⟨i1, i2, i3, i4⟩ := ih
    have hms := drivenFrom_memorySafe cmp h0 hprev
    have h64 := (memorySafe_pending hms).1
    have := step_stack_invariant h64 (gtk_tim_sort_step_move e) (by rw [i1]; exact i3)
      (by rw [i1, i2]; exact i4)
    rw [i1, i2] at this
    exact this

/-- When `merge_collapse` returns `FALSE`, the lengths of the pending runs pass its
test. -/
theorem merge_collapse_false_done {cmp : α → α → Int} {self s1 : GtkTimSort α}
    {oc oc1 : Option GtkTimSortChange} (h64 : self.pending_runs < GSIZE_MOD)
    (e : merge_collapse cmp self oc = some (false, s1, oc1)) :
    CollapseDone (stack_lens self) := by
  rcases merge_collapse_move cmp self oc h64 with ⟨hd, _⟩ | ⟨_, _, n, h1, _⟩
  · exact hd
  · rw [h1] at e
    cases hm : merge_at cmp self n oc with
    | none => simp [hm] at e
    | some r => simp [hm] at e

theorem stackInv_getElem {t : List Nat} (hs : StackInv t) :
    (∀ j a b, t[j]? = some a → t[j + 1]? = some b → b > a) ∧
      (∀ j a b c, t[j]? = some a → t[j + 1]? = some b → t[j + 2]? = some c → c > b + a) := by
  obtain ⟨hg, htop⟩ := hs
  have h3 : ∀ (t : List Nat), GInv t →
      ∀ j a b c, t[j]? = some a → t[j + 1]? = some b → t[j + 2]? = some c → c > b + a := by
    intro t
    induction t with
    | nil => intro _ j a b c e; simp at e
    | cons z t ih =>
      intro hg j a b c e1 e2 e3
      cases j with
      | zero =>
        match t, hg, e1, e2, e3 with
        | y :: x :: rest, hg, e1, e2, e3 =>
          simp only [GInv] at hg
          simp at e1 e2 e3
          omega
      | succ j =>
        simp only [List.getElem?_cons_succ] at e1 e2 e3
        exact ih (ginv_tail hg) j a b c e1 e2 e3
  refine ⟨?_, h3 t hg⟩
  intro j a b e1 e2
  cases j with
  | zero =>
    match t, htop, e1, e2 with
    | z :: y :: rest, htop, e1, e2 =>
      simp at e1 e2
      have := htop z y rest rfl
      omega
  | succ j =>
    have hlt : j + 1 + 1 < t.length := by
      by_contra hc
      rw [List.getElem?_eq_none (by omega)] at e2
      simp at e2
    have hj : j < t.length := by omega
    have := h3 t hg j t[j] a b (List.getElem?_eq_getElem hj) e1 e2
    omega

/-- The invariant of the stack, read on the entries of `run`. -/
theorem stackInv_index {self : GtkTimSort α} (hs : StackInv (stack_lens self)) :
    (∀ i ri ri1, self.run[i]? = some ri → self.run[i + 1]? = some ri1 → ri.len > ri1.len) ∧
      (∀ i ri ri1 ri2, self.run[i]? = some ri → self.run[i + 1]? = some ri1 →
        self.run[i + 2]? = some ri2 → ri.len > ri1.len + ri2.len) := by
  obtain ⟨g1, g2⟩ := stackInv_getElem hs
  have hlt : ∀ i r, self.run[i]? = some r → i < self.pending_runs := by
    intro i r e
    by_contra hc
    unfold GtkTimSort.pending_runs at hc
    rw [List.getElem?_eq_none (by omega)] at e
    simp at e
  have hget : ∀ i r, self.run[i]? = some r →
      (stack_lens self)[self.pending_runs - 1 - i]? = some r.len := by
    intro i r e
    have hi := hlt i r e
    rw [stack_lens_getElem? self _ (by omega),
      show self.pending_runs - 1 - (self.pending_runs - 1 - i) = i by omega, e]
    rfl
  refine ⟨?_, ?_⟩
  · intro i ri ri1 e1 e2
    have h2 := hlt _ _ e2
    have a1 := hget _ _ e1
    have a2 := hget _ _ e2
    have e : self.pending_runs - 1 - i = self.pending_runs - 1 - (i + 1) + 1 := by omega
    rw [e] at a1
    exact g1 _ _ _ a2 a1
  · intro i ri ri1 ri2 e1 e2 e3
    have h3 := hlt _ _ e3
    have a1 := hget _ _ e1
    have a2 := hget _ _ e2
    have a3 := hget _ _ e3
    have e : self.pending_runs - 1 - i = self.pending_runs - 1 - (i + 2) + 2 := by omega
    have e' : self.pending_runs - 1 - (i + 1) = self.pending_runs - 1 - (i + 2) + 1 := by omega
    rw [e] at a1
    rw [e'] at a2
    have := g2 _ _ _ _ a3 a2 a1
    omega

/-! ## The depth of the run stack -/

theorem min_stack_sum_eq : ∀ (n z y : Nat),
    min_stack_sum n z y =
      (stack_coeffs n).1 * z + (stack_coeffs n).2.1 * y + (stack_coeffs n).2.2 := by
  intro n
  induction n with
  | zero => intro z y; simp [min_stack_sum, stack_coeffs]
  | succ n ih =>
    intro z y
    rw [min_stack_sum, ih]
    simp only [stack_coeffs]
    ring

theorem min_stack_sum_mono (n z y y' : Nat) (h : y ≤ y') :
    min_stack_sum n z y ≤ min_stack_sum n z y' := by
  rw [min_stack_sum_eq, min_stack_sum_eq]
  have := Nat.mul_le_mul_left (stack_coeffs n).2.1 h
  omega

/-- A stack of `n + 2` runs or more, each of them longer than the two above it
together, holds at least `min_stack_sum n z y` elements, for the lengths `z` and `y`
of the two newest runs. -/
theorem ginv_sum_ge : ∀ (n : Nat) (z y : Nat) (rest : List Nat), GInv (z :: y :: rest) →
    n ≤ rest.length → min_stack_sum n z y ≤ (z :: y :: rest).sum := by
  intro n
  induction n with
  | zero =>
    intro z y rest _ _
    simp only [min_stack_sum, List.sum_cons]
    omega
  | succ n ih =>
    intro z y rest hg hl
    match rest, hg, hl with
    | x :: rest', hg, hl =>
      simp only [GInv] at hg
      have h1 := ih y x rest' hg.2 (by simpa using hl)
      have h2 := min_stack_sum_mono n y (y + z + 1) x (by omega)
      simp only [min_stack_sum, List.sum_cons] at h1 ⊢
      omega

/-- For an array of 32 elements or more whose size fits `gsize`, `min_run` lies
between 16 and 32 and the size is at most `min_run * 2 ^ 59`. -/
theorem min_run_bound (n : Nat) (h32 : 32 ≤ n) (h64 : n < GSIZE_MOD) :
    16 ≤ compute_min_run n ∧ compute_min_run n ≤ 32 ∧ n ≤ compute_min_run n * 2 ^ 59 := by
  obtain ⟨j, h1, h2, h3, h4⟩ := compute_min_run_eq n
  have hj : j ≠ 0 := fun c => by have := h3.1 c; omega
  have h16 : 16 ≤ n / 2 ^ j := by
    rcases h2 with h2 | h2
    · exact absurd h2 hj
    · exact h2
  have hP : 0 < 2 ^ j := Nat.pos_pow_of_pos j (by omega)
  have hdm : 2 ^ j * (n / 2 ^ j) + n % 2 ^ j = n := Nat.div_add_mod n (2 ^ j)
  have hml : n % 2 ^ j < 2 ^ j := Nat.mod_lt n hP
  have hj59 : j ≤ 59 := by
    by_contra hc
    have : 2 ^ 60 ≤ 2 ^ j := Nat.pow_le_pow_right (by omega) (by omega)
    have h5 : 2 ^ j * 16 ≤ 2 ^ j * (n / 2 ^ j) := Nat.mul_le_mul_left _ h16
    simp only [GSIZE_MOD] at h64
    omega
  have hP59 : 2 ^ j ≤ 2 ^ 59 := Nat.pow_le_pow_right (by omega) hj59
  generalize hk : compute_min_run n = k at *
  generalize hq : n / 2 ^ j = q at *
  generalize hr : n % 2 ^ j = r at *
  generalize hPP : 2 ^ j = P at *
  have hhi : n ≤ k * P := by
    by_cases c : r ≠ 0
    · rw [if_pos c] at h4
      have : k * P = P * q + P := by rw [h4, Nat.add_mul, Nat.one_mul, Nat.mul_comm]
      omega
    · rw [if_neg c] at h4
      have : k * P = P * q := by rw [h4, Nat.add_zero, Nat.mul_comm]
      omega
  have hkP : k * P ≤ k * 2 ^ 59 := Nat.mul_le_mul_left k hP59
  refine ⟨by split at h4 <;> omega, by split at h4 <;> omega, by omega⟩

/-- The whole stack satisfies its invariant whenever `merge_collapse` returns
`FALSE`, in a sorter driven by `gtk_tim_sort_step` alone from a memory-safe state
with no pending run, whatever its cap on merges. -/
theorem driven_stackInv (cmp : α → α → Int) {input : List α} {s0 s s1 : GtkTimSort α}
    (h0 : MemorySafe input s0) (hrun : s0.run = []) (hd : DrivenFrom cmp s0 s)
    {oc oc1 : Option GtkTimSortChange}
    (e : merge_collapse cmp s oc = some (false, s1, oc1)) :
    StackInv (stack_lens s) ∧
      (0 < s.size → ∀ z y rest, stack_lens s = z :: y :: rest → s0.min_run ≤ z + y) ∧
      (0 < s.size → ∀ z, stack_lens s = [z] → s0.min_run ≤ z) := by
  have hms := drivenFrom_memorySafe cmp h0 hd
  have h64 := (memorySafe_pending hms).1
  obtain ⟨_, _, i3, i4⟩ := drivenFrom_stack_invariant cmp h0 hrun hd
  have hdone := merge_collapse_false_done h64 e
  refine ⟨collapseDone_stackInv hdone i3, ?_, ?_⟩
  · intro hpos z y rest ht
    rcases i4 hpos with h | ⟨_, h | h⟩
    · rw [ht] at h
      simp at h
    · rw [ht] at h
      simpa [Nat.add_comm] using h
    · exact absurd h (collapseDone_not_tainted hdone)
  · intro hpos z ht
    rcases i4 hpos with h | ⟨h, _⟩
    · rw [ht] at h
      simp at h
    · rw [ht] at h
      simpa using h

/-- C29: in a sorter driven by `gtk_tim_sort_init` and `gtk_tim_sort_step` alone, so
that `max_merge_size` is unbounded, whenever `merge_collapse` returns `FALSE` every
run of the stack is longer than the next two together and longer than the next one:
`run[i].len > run[i + 1].len + run[i + 2].len` and `run[i].len > run[i + 1].len` for
every valid `i`. -/
theorem whole_stack_invariant (cmp : α → α → Int) (base : List α) (size element_size : Nat)
    (hlen : base.length = size) (h64 : size < GSIZE_MOD) (s : GtkTimSort α)
    (hd : DrivenFrom cmp (gtk_tim_sort_init base size element_size) s)
    (oc : Option GtkTimSortChange) (s1 : GtkTimSort α) (oc1 : Option GtkTimSortChange)
    (e : merge_collapse cmp s oc = some (false, s1, oc1)) :
    s.max_merge_size = G_MAXSIZE ∧
      (∀ i ri ri1 ri2, s.run[i]? = some ri → s.run[i + 1]? = some ri1 →
        s.run[i + 2]? = some ri2 → ri.len > ri1.len + ri2.len) ∧
      (∀ i ri ri1, s.run[i]? = some ri → s.run[i + 1]? = some ri1 → ri.len > ri1.len) := by
  have h0 := memorySafe_init base size element_size hlen h64
  obtain ⟨hs, _⟩ := driven_stackInv cmp h0 rfl hd e
  obtain ⟨g1, g2⟩ := stackInv_index hs
  exact ⟨(drivenFrom_stack_invariant cmp h0 rfl hd).1, g2, g1⟩

theorem whole_stack_invariant_witness :
    ({ gtk_tim_sort_init two_runs_input 32 4 with
        run := [{ base := 0, len := 20 }, { base := 20, len := 12 }], base := 32,
        size := 0 } : GtkTimSort Int).max_merge_size = G_MAXSIZE ∧
      (∀ i ri ri1 ri2,
        ({ gtk_tim_sort_init two_runs_input 32 4 with
          run := [{ base := 0, len := 20 }, { base := 20, len := 12 }], base := 32,
          size := 0 } : GtkTimSort Int).run[i]? = some ri →
        ({ gtk_tim_sort_init two_runs_input 32 4 with
          run := [{ base := 0, len := 20 }, { base := 20, len := 12 }], base := 32,
          size := 0 } : GtkTimSort Int).run[i + 1]? = some ri1 →
        ({ gtk_tim_sort_init two_runs_input 32 4 with
          run := [{ base := 0, len := 20 }, { base := 20, len := 12 }], base := 32,
          size := 0 } : GtkTimSort Int).run[i + 2]? = some ri2 → ri.len > ri1.len + ri2.len) ∧
      (∀ i ri ri1,
        ({ gtk_tim_sort_init two_runs_input 32 4 with
          run := [{ base := 0, len := 20 }, { base := 20, len := 12 }], base := 32,
          size := 0 } : GtkTimSort Int).run[i]? = some ri →
        ({ gtk_tim_sort_init two_runs_input 32 4 with
          run := [{ base := 0, len := 20 }, { base := 20, len := 12 }], base := 32,
          size := 0 } : GtkTimSort Int).run[i + 1]? = some ri1 → ri.len > ri1.len) :=
  whole_stack_invariant int_cmp two_runs_input 32 4 rfl (by decide) _
    (DrivenFrom.step
      { gtk_tim_sort_init two_runs_input 32 4 with
        run := [{ base := 0, len := 20 }], base := 20, size := 12 } _ none none true
      (DrivenFrom.step _ _ none none true DrivenFrom.start (by decide)) (by decide))
    none
    { gtk_tim_sort_init two_runs_input 32 4 with
      run := [{ base := 0, len := 20 }, { base := 20, len := 12 }], base := 32, size := 0 }
    none (by decide)

/-- C25: in a sorter driven by `gtk_tim_sort_init`, one setting of
`max_merge_size`, and `gtk_tim_sort_step` alone, on an array whose size fits `gsize`,
the assertion of `gtk_tim_sort_push_run` on the number of pending runs holds at every
call that pushes a run, for every capacity `GTK_TIM_SORT_MAX_PENDING` of 86 entries
or more: the stack holds at most 85 runs when a run is pushed. -/
theorem stack_depth_below_capacity (cmp : α → α → Int) (base : List α)
    (size element_size max_merge_size : Nat) (hlen : base.length = size)
    (h64 : size < GSIZE_MOD) (max_pending : Nat) (hcap : 86 ≤ max_pending)
    (s : GtkTimSort α)
    (hd : DrivenFrom cmp (gtk_tim_sort_set_max_merge_size
      (gtk_tim_sort_init base size element_size) max_merge_size) s)
    (oc : Option GtkTimSortChange) (s' : GtkTimSort α) (oc' : Option GtkTimSortChange)
    (e : gtk_tim_sort_step cmp s oc = some (true, s', oc'))
    (hpush : s'.pending_runs = s.pending_runs + 1) :
    push_run_assertion max_pending s := by
  unfold push_run_assertion
  have h0 := memorySafe_set_max (memorySafe_init base size element_size hlen h64) max_merge_size
  have hms := drivenFrom_memorySafe cmp h0 hd
  obtain ⟨hp64, hsum⟩ := memorySafe_pending hms
  rw [hlen] at hsum
  rcases step_move hp64 (gtk_tim_sort_step_move e) with ⟨hb, _⟩ | ⟨_, _, _, _, _, _, hq⟩ |
    ⟨_, _, hmc, hpos, _⟩ | ⟨_, _, _, _, _, _, _, _, hq⟩
  · simp at hb
  · omega
  · obtain ⟨hs, hk2, hk1⟩ := driven_stackInv cmp h0 rfl hd hmc
    have hkdef : (gtk_tim_sort_set_max_merge_size
        (gtk_tim_sort_init base size element_size) max_merge_size).min_run =
        compute_min_run size := rfl
    rw [hkdef] at hk2 hk1
    by_contra hc
    have hl : 86 ≤ (stack_lens s).length := by
      simp only [stack_lens, List.length_reverse, List.length_map]
      unfold GtkTimSort.pending_runs at hc
      omega
    match ht : stack_lens s, hl with
    | z :: y :: rest, hl =>
      have hzy := hk2 hpos z y rest ht
      rw [ht] at hs hsum
      have hyz : y > z := hs.2 z y rest rfl
      have hge := ginv_sum_ge 84 z y rest hs.1 (by simpa using hl)
      rw [min_stack_sum_eq] at hge
      have hco : stack_coeffs 84 =
          (420196140727489673, 679891637638612257, 1100087778366101844) := by decide
      rw [hco] at hge
      simp only [] at hge
      by_cases h32 : 32 ≤ size
      · obtain ⟨k1, k2, k3⟩ := min_run_bound size h32 h64
        generalize compute_min_run size = k at *
        generalize (z :: y :: rest).sum = S at *
        omega
      · have := compute_min_run_small size (by omega)
        rw [this] at hzy
        simp only [List.sum_cons] at hsum
        omega
  · omega

theorem stack_depth_below_capacity_witness :
    push_run_assertion 86
      (gtk_tim_sort_set_max_merge_size (gtk_tim_sort_init ([3, 1, 2] : List Int) 3 4) 2) :=
  stack_depth_below_capacity int_cmp [3, 1, 2] 3 4 2 rfl (by decide) 86 (by decide) _
    DrivenFrom.start none
    { gtk_tim_sort_set_max_merge_size (gtk_tim_sort_init ([1, 2, 3] : List Int) 3 4) 2 with
      run := [{ base := 0, len := 3 }], base := 3, size := 0 }
    none (by decide) (by decide)

theorem collapse_done_top_invariant_witness :
    (2 ≤ ({ gtk_tim_sort_init two_runs_input 32 4 with
        run := [{ base := 0, len := 20 }, { base := 20, len := 8 }, { base := 28, len := 4 }],
        base := 32, size := 0 } : GtkTimSort Int).pending_runs →
      ∀ ry rz, ({ gtk_tim_sort_init two_runs_input 32 4 with
          run := [{ base := 0, len := 20 }, { base := 20, len := 8 }, { base := 28, len := 4 }],
          base := 32, size := 0 } : GtkTimSort Int).run[
            ({ gtk_tim_sort_init two_runs_input 32 4 with
              run := [{ base := 0, len := 20 }, { base := 20, len := 8 },
                { base := 28, len := 4 }],
              base := 32, size := 0 } : GtkTimSort Int).pending_runs - 2]? = some ry →
        ({ gtk_tim_sort_init two_runs_input 32 4 with
          run := [{ base := 0, len := 20 }, { base := 20, len := 8 }, { base := 28, len := 4 }],
          base := 32, size := 0 } : GtkTimSort Int).run[
            ({ gtk_tim_sort_init two_runs_input 32 4 with
              run := [{ base := 0, len := 20 }, { base := 20, len := 8 },
                { base := 28, len := 4 }],
              base := 32, size := 0 } : GtkTimSort Int).pending_runs - 1]? = some rz →
        ry.len > rz.len) ∧
      (3 ≤ ({ gtk_tim_sort_init two_runs_input 32 4 with
        run := [{ base := 0, len := 20 }, { base := 20, len := 8 }, { base := 28, len := 4 }],
        base := 32, size := 0 } : GtkTimSort Int).pending_runs →
      ∀ rx ry rz, ({ gtk_tim_sort_init two_runs_input 32 4 with
          run := [{ base := 0, len := 20 }, { base := 20, len := 8 }, { base := 28, len := 4 }],
          base := 32, size := 0 } : GtkTimSort Int).run[
            ({ gtk_tim_sort_init two_runs_input 32 4 with
              run := [{ base := 0, len := 20 }, { base := 20, len := 8 },
                { base := 28, len := 4 }],
              base := 32, size := 0 } : GtkTimSort Int).pending_runs - 3]? = some rx →
        ({ gtk_tim_sort_init two_runs_input 32 4 with
          run := [{ base := 0, len := 20 }, { base := 20, len := 8 }, { base := 28, len := 4 }],
          base := 32, size := 0 } : GtkTimSort Int).run[
            ({ gtk_tim_sort_init two_runs_input 32 4 with
              run := [{ base := 0, len := 20 }, { base := 20, len := 8 },
                { base := 28, len := 4 }],
              base := 32, size := 0 } : GtkTimSort Int).pending_runs - 2]? = some ry →
        ({ gtk_tim_sort_init two_runs_input 32 4 with
          run := [{ base := 0, len := 20 }, { base := 20, len := 8 }, { base := 28, len := 4 }],
          base := 32, size := 0 } : GtkTimSort Int).run[
            ({ gtk_tim_sort_init two_runs_input 32 4 with
              run := [{ base := 0, len := 20 }, { base := 20, len := 8 },
                { base := 28, len := 4 }],
              base := 32, size := 0 } : GtkTimSort Int).pending_runs - 1]? = some rz →
        rx.len > ry.len + rz.len) :=
  collapse_done_top_invariant int_cmp
    { gtk_tim_sort_init two_runs_input 32 4 with
      run := [{ base := 0, len := 20 }, { base := 20, len := 8 }, { base := 28, len := 4 }],
      base := 32, size := 0 } none (by decide)
    (Or.inl ⟨{ gtk_tim_sort_init two_runs_input 32 4 with
      run := [{ base := 0, len := 20 }, { base := 20, len := 8 }, { base := 28, len := 4 }],
      base := 32, size := 0 }, none, by decide⟩)

/-! ## The two runs after a merge -/

/-- Two neighbours among the pending runs: their stack entries, the elements these
cover, and the number of pending runs. -/
theorem layout_pair {cmp : α → α → Int} {self : GtkTimSort α} {pre post : List (List α)}
    {A B tail : List α} (hL : Layout cmp self (pre ++ A :: B :: post) tail) :
    self.run[pre.length]? = some { base := pre.flatten.length, len := A.length } ∧
      self.run[pre.length + 1]? =
        some { base := pre.flatten.length + A.length, len := B.length } ∧
      run_slice self.mem { base := pre.flatten.length, len := A.length } = A ∧
      run_slice self.mem { base := pre.flatten.length + A.length, len := B.length } = B ∧
      Sorted cmp A ∧ Sorted cmp B ∧ A ≠ [] ∧ B ≠ [] ∧
      self.pending_runs = pre.length + 2 + post.length := by
  have hm := layout_mem hL
  obtain ⟨_, hrun, _, _, hsegs⟩ := hL
  have hA := hsegs A (by simp)
  have hB := hsegs B (by simp)
  refine ⟨by rw [hrun, runs_getElem_fst], by rw [hrun, runs_getElem_snd], ?_, ?_,
    hA.2, hB.2, hA.1, hB.1, ?_⟩
  · rw [hm]
    exact run_slice_eq _ _ _ _ rfl rfl
  · rw [hm, ← List.append_assoc]
    exact run_slice_eq _ _ _ _ (by simp) rfl
  · rw [runs_pending self _ hrun]
    simp only [List.length_append, List.length_cons]
    omega

/-- C27: a call of `merge_at` on the neighbours `A` and `B` among sorted pending runs,
where `b0` is the first element of `B` and `xl` the last element of `A`.  Trimmed of
what is in place, run `i` keeps its elements greater than `b0` and run `i + 1` its
elements smaller than `xl`.  The call leaves the number of pending runs as it was
exactly when the shorter trimmed run has more than `max_merge_size` elements, and
takes one run off the stack otherwise.  In the first case the two entries cover the
same elements as before, entry `i` starts where it did, entry `i + 1` starts where
entry `i` ends, both runs are sorted, and `max_merge_size` elements went from entry
`i` to entry `i + 1` when the trimmed run `i` is not the longer one (`merge_lo`), and
from entry `i + 1` to entry `i` otherwise (`merge_hi`). -/
theorem capped_merge_bookkeeping {cmp : α → α → Int} (h : TotalPreorder cmp)
    (self : GtkTimSort α) (oc : Option GtkTimSortChange) (pre post : List (List α))
    (A B tail : List α) (hL : Layout cmp self (pre ++ A :: B :: post) tail)
    (hpost : post.length ≤ 1) (h64 : self.mem.length < GSIZE_MOD)
    (hmax : 1 ≤ self.max_merge_size) (b0 xl : α) (hbh : B.head? = some b0)
    (hal : A.getLast? = some xl) :
    ∃ self' oc' ri ri1, merge_at cmp self pre.length oc = some (self', oc') ∧
      self.run[pre.length]? = some ri ∧ self.run[pre.length + 1]? = some ri1 ∧
      run_slice self.mem ri = A ∧ run_slice self.mem ri1 = B ∧
      (self'.pending_runs = self.pending_runs ↔
        self.max_merge_size < min (A.countP (fun a => decide (cmp b0 a < 0)))
          (B.countP (fun y => decide (cmp y xl < 0)))) ∧
      (self'.pending_runs = self.pending_runs ∨
        self'.pending_runs + 1 = self.pending_runs) ∧
      (self.max_merge_size < min (A.countP (fun a => decide (cmp b0 a < 0)))
          (B.countP (fun y => decide (cmp y xl < 0))) →
        ∃ ri' ri1', self'.run[pre.length]? = some ri' ∧
          self'.run[pre.length + 1]? = some ri1' ∧
          ri'.len + ri1'.len = ri.len + ri1.len ∧ ri'.base = ri.base ∧
          ri'.base + ri'.len = ri1'.base ∧ 0 < ri'.len ∧ 0 < ri1'.len ∧
          Sorted cmp (run_slice self'.mem ri') ∧ Sorted cmp (run_slice self'.mem ri1') ∧
          (A.countP (fun a => decide (cmp b0 a < 0)) ≤
              B.countP (fun y => decide (cmp y xl < 0)) →
            ri'.len + self.max_merge_size = ri.len ∧
              ri1'.len = ri1.len + self.max_merge_size ∧
              ri1'.base + self.max_merge_size = ri1.base) ∧
          (B.countP (fun y => decide (cmp y xl < 0)) <
              A.countP (fun a => decide (cmp b0 a < 0)) →
            ri'.len = ri.len + self.max_merge_size ∧
              ri1'.len + self.max_merge_size = ri1.len ∧
              ri1'.base = ri1.base + self.max_merge_size)) := by
  obtain ⟨self', oc', e, _, _, _, hc⟩ :=
    merge_at_spec_full h self oc hL hpost h64 hmax b0 xl hbh hal
  obtain ⟨g1, g2, g3, g4, _, _, _, _, g5⟩ := layout_pair hL
  have hT1 := List.countP_le_length (fun a => decide (cmp b0 a < 0)) (l := A)
  have hT2 := List.countP_le_length (fun y => decide (cmp y xl < 0)) (l := B)
  refine ⟨self', oc', _, _, e, g1, g2, g3, g4, ?_⟩
  rcases hc with ⟨hn, C, hL', _, _⟩ | ⟨c1, c2, hL', _⟩ | ⟨c1, c2, hL', _⟩
  · have hp : self'.pending_runs = pre.length + 1 + post.length := by
      rw [runs_pending self' _ hL'.2.1]
      simp only [List.length_append, List.length_cons]
      omega
    exact ⟨⟨fun hq => by omega, fun hq => absurd hq hn⟩, Or.inr (by omega),
      fun hq => absurd hq hn⟩
  · obtain ⟨k1, k2, k3, k4, k5, k6, k7, k8, k9⟩ := layout_pair hL'
    have hm : self.max_merge_size <
        min (A.countP (fun a => decide (cmp b0 a < 0)))
          (B.countP (fun y => decide (cmp y xl < 0))) := by omega
    have l1 : (A.take (A.length - self.max_merge_size)).length =
        A.length - self.max_merge_size := by
      rw [List.length_take]
      omega
    have l2 : (naive_merge cmp (A.drop (A.length - self.max_merge_size)) B).length =
        self.max_merge_size + B.length := by
      rw [naive_merge_length, List.length_drop]
      omega
    refine ⟨⟨fun _ => hm, fun _ => by omega⟩, Or.inl (by omega), fun _ =>
      ⟨_, _, k1, k2, ?_, rfl, rfl, ?_, ?_, ?_, ?_, fun _ => ⟨?_, ?_, ?_⟩,
        fun hq => by omega⟩⟩
    · show (A.take _).length + (naive_merge cmp _ B).length = A.length + B.length
      rw [l1, l2]
      omega
    · exact List.length_pos.2 k7
    · exact List.length_pos.2 k8
    · rw [k3]
      exact k5
    · rw [k4]
      exact k6
    · show (A.take _).length + _ = A.length
      rw [l1]
      omega
    · show (naive_merge cmp _ B).length = B.length + _
      rw [l2]
      omega
    · show pre.flatten.length + (A.take _).length + _ = pre.flatten.length + A.length
      rw [l1]
      omega
  · obtain ⟨k1, k2, k3, k4, k5, k6, k7, k8, k9⟩ := layout_pair hL'
    have hm : self.max_merge_size <
        min (A.countP (fun a => decide (cmp b0 a < 0)))
          (B.countP (fun y => decide (cmp y xl < 0))) := by omega
    have l1 : (naive_merge cmp A (B.take self.max_merge_size)).length =
        A.length + self.max_merge_size := by
      rw [naive_merge_length, List.length_take]
      omega
    have l2 : (B.drop self.max_merge_size).length = B.length - self.max_merge_size := by
      rw [List.length_drop]
    refine ⟨⟨fun _ => hm, fun _ => by omega⟩, Or.inl (by omega), fun _ =>
      ⟨_, _, k1, k2, ?_, rfl, rfl, ?_, ?_, ?_, ?_, fun hq => by omega,
        fun _ => ⟨?_, ?_, ?_⟩⟩⟩
    · show (naive_merge cmp A _).length + (B.drop _).length = A.length + B.length
      rw [l1, l2]
      omega
    · exact List.length_pos.2 k7
    · exact List.length_pos.2 k8
    · rw [k3]
      exact k5
    · rw [k4]
      exact k6
    · show (naive_merge cmp A _).length = A.length + _
      rw [l1]
    · show (B.drop _).length + _ = B.length
      rw [l2]
      omega
    · show pre.flatten.length + (naive_merge cmp A _).length =
        pre.flatten.length + A.length + _
      rw [l1]
      omega

theorem capped_merge_bookkeeping_witness :
    TotalPreorder int_cmp ∧
      Layout int_cmp capped_lo_state (([] : List (List Int)) ++
        ([5, 6] : List Int) :: ([1, 2, 3, 7] : List Int) :: []) [] ∧
      (∃ self' oc' ri ri1, merge_at int_cmp capped_lo_state ([] : List (List Int)).length none = some (self', oc') ∧
      capped_lo_state.run[([] : List (List Int)).length]? = some ri ∧ capped_lo_state.run[([] : List (List Int)).length + 1]? = some ri1 ∧
      run_slice capped_lo_state.mem ri = ([5, 6] : List Int) ∧ run_slice capped_lo_state.mem ri1 = ([1, 2, 3, 7] : List Int) ∧
      (self'.pending_runs = capped_lo_state.pending_runs ↔
        capped_lo_state.max_merge_size < min (([5, 6] : List Int).countP (fun a => decide (int_cmp (1 : Int) a < 0)))
          (([1, 2, 3, 7] : List Int).countP (fun y => decide (int_cmp y (6 : Int) < 0)))) ∧
      (self'.pending_runs = capped_lo_state.pending_runs ∨
        self'.pending_runs + 1 = capped_lo_state.pending_runs) ∧
      (capped_lo_state.max_merge_size < min (([5, 6] : List Int).countP (fun a => decide (int_cmp (1 : Int) a < 0)))
          (([1, 2, 3, 7] : List Int).countP (fun y => decide (int_cmp y (6 : Int) < 0))) →
        ∃ ri' ri1', self'.run[([] : List (List Int)).length]? = some ri' ∧
          self'.run[([] : List (List Int)).length + 1]? = some ri1' ∧
          ri'.len + ri1'.len = ri.len + ri1.len ∧ ri'.base = ri.base ∧
          ri'.base + ri'.len = ri1'.base ∧ 0 < ri'.len ∧ 0 < ri1'.len ∧
          Sorted int_cmp (run_slice self'.mem ri') ∧ Sorted int_cmp (run_slice self'.mem ri1') ∧
          (([5, 6] : List Int).countP (fun a => decide (int_cmp (1 : Int) a < 0)) ≤
              ([1, 2, 3, 7] : List Int).countP (fun y => decide (int_cmp y (6 : Int) < 0)) →
            ri'.len + capped_lo_state.max_merge_size = ri.len ∧
              ri1'.len = ri1.len + capped_lo_state.max_merge_size ∧
              ri1'.base + capped_lo_state.max_merge_size = ri1.base) ∧
          (([1, 2, 3, 7] : List Int).countP (fun y => decide (int_cmp y (6 : Int) < 0)) <
              ([5, 6] : List Int).countP (fun a => decide (int_cmp (1 : Int) a < 0)) →
            ri'.len = ri.len + capped_lo_state.max_merge_size ∧
              ri1'.len + capped_lo_state.max_merge_size = ri1.len ∧
              ri1'.base = ri1.base + capped_lo_state.max_merge_size))) :=
  have hL : Layout int_cmp capped_lo_state (([] : List (List Int)) ++
      ([5, 6] : List Int) :: ([1, 2, 3, 7] : List Int) :: []) [] := by
    unfold Layout Sorted
    decide
  ⟨int_cmp_total, hL, capped_merge_bookkeeping int_cmp_total capped_lo_state none [] []
    [5, 6] [1, 2, 3, 7] [] hL (by decide) (by decide) (by decide) 1 6 rfl rfl⟩

/-! ## Which elements a capped merge takes -/

/-- C26 (counterexample): the sorter `capped_lo_state` is capped at merges of one
element and holds the runs `[5, 6]` and `[1, 2, 3, 7]`; it is the sorter that
`gtk_tim_sort_set_runs` makes of the array `[5, 6, 1, 2, 3, 7]` and the run lengths
2 and 4.  The call of `merge_at` trims nothing off the first run and the last element
off the second one, and caps the first run, which is the shorter one, trimmed or
not.  It merges the last element of that run into the second run and leaves the runs
`[5]` and `[1, 2, 3, 6, 7]`.  The first element of the longer run merged with the
whole other run would have left the runs `[1, 5, 6]` and `[2, 3, 7]`. -/
theorem capped_merge_takes_end_of_shorter_run :
    ∃ s' oc', merge_at int_cmp capped_lo_state 0 none = some (s', oc') ∧
      gtk_tim_sort_set_runs (gtk_tim_sort_set_max_merge_size
        (gtk_tim_sort_init [5, 6, 1, 2, 3, 7] 6 4) 1) [2, 4, 0] = some capped_lo_state ∧
      capped_lo_state.max_merge_size = 1 ∧
      capped_lo_state.run = [{ base := 0, len := 2 }, { base := 2, len := 4 }] ∧
      run_slice capped_lo_state.mem { base := 0, len := 2 } = [5, 6] ∧
      run_slice capped_lo_state.mem { base := 2, len := 4 } = [1, 2, 3, 7] ∧
      s'.run = [{ base := 0, len := 1 }, { base := 1, len := 5 }] ∧
      s'.mem = [5, 1, 2, 3, 6, 7] ∧
      run_slice s'.mem { base := 0, len := 1 } = ([5, 6] : List Int).take 1 ∧
      run_slice s'.mem { base := 1, len := 5 } =
        naive_merge int_cmp (([5, 6] : List Int).drop 1) [1, 2, 3, 7] ∧
      s'.mem ≠ naive_merge int_cmp [5, 6] (([1, 2, 3, 7] : List Int).take 1) ++
        ([1, 2, 3, 7] : List Int).drop 1 ∧
      naive_merge int_cmp [5, 6] (([1, 2, 3, 7] : List Int).take 1) ++
        ([1, 2, 3, 7] : List Int).drop 1 = [1, 5, 6, 2, 3, 7] := by
  have e : merge_at int_cmp capped_lo_state 0 none =
      some ((⟨4, [5, 1, 2, 3, 6, 7], 6, 0, 7, 1, 6, 2, [⟨0, 1⟩, ⟨1, 5⟩]⟩ : GtkTimSort Int),
        none) := by
    decide
  exact ⟨_, _, e, by decide, by decide, by decide, by decide, by decide, by decide, by decide,
    by decide, by decide, by decide, by decide⟩

/-- C26 (amended): when the shorter trimmed run has more than `max_merge_size`
elements, `merge_at` caps the run whose trimmed part is the shorter one.  When the
trimmed run `i` is not the longer one, the last `max_merge_size` elements of run `i`
are merged with run `i + 1` and become part of it, and the elements of run `i` before
them stay behind as a pending run.  Otherwise the first `max_merge_size` elements of
run `i + 1` are merged with run `i` and become part of it, and the rest of run
`i + 1` stays behind as a pending run.  In both cases the two runs are neighbours in
the array, non-empty and sorted. -/
theorem capped_merge_takes_shorter_run {cmp : α → α → Int} (h : TotalPreorder cmp)
    (self : GtkTimSort α) (oc : Option GtkTimSortChange) (pre post : List (List α))
    (A B tail : List α) (hL : Layout cmp self (pre ++ A :: B :: post) tail)
    (hpost : post.length ≤ 1) (h64 : self.mem.length < GSIZE_MOD)
    (hmax : 1 ≤ self.max_merge_size) (b0 xl : α) (hbh : B.head? = some b0)
    (hal : A.getLast? = some xl)
    (hcap : self.max_merge_size < min (A.countP (fun a => decide (cmp b0 a < 0)))
      (B.countP (fun y => decide (cmp y xl < 0)))) :
    ∃ self' oc', merge_at cmp self pre.length oc = some (self', oc') ∧
      self.max_merge_size < A.length ∧ self.max_merge_size < B.length ∧
      (A.countP (fun a => decide (cmp b0 a < 0)) ≤
          B.countP (fun y => decide (cmp y xl < 0)) →
        Layout cmp self' (pre ++ A.take (A.length - self.max_merge_size) ::
          naive_merge cmp (A.drop (A.length - self.max_merge_size)) B :: post) tail) ∧
      (B.countP (fun y => decide (cmp y xl < 0)) <
          A.countP (fun a => decide (cmp b0 a < 0)) →
        Layout cmp self' (pre ++ naive_merge cmp A (B.take self.max_merge_size) ::
          B.drop self.max_merge_size :: post) tail) := by
  obtain ⟨self', oc', e, _, _, _, hc⟩ :=
    merge_at_spec_full h self oc hL hpost h64 hmax b0 xl hbh hal
  have hT1 := List.countP_le_length (fun a => decide (cmp b0 a < 0)) (l := A)
  have hT2 := List.countP_le_length (fun y => decide (cmp y xl < 0)) (l := B)
  refine ⟨self', oc', e, by omega, by omega, ?_⟩
  rcases hc with ⟨hn, _⟩ | ⟨c1, c2, hL', _⟩ | ⟨c1, c2, hL', _⟩
  · exact absurd hcap hn
  · exact ⟨fun _ => hL', fun hq => by omega⟩
  · exact ⟨fun hq => by omega, fun _ => hL'⟩

theorem capped_merge_takes_shorter_run_witness :
    TotalPreorder int_cmp ∧
      Layout int_cmp capped_hi_state (([] : List (List Int)) ++
        ([4, 5, 6, 7] : List Int) :: ([1, 2, 8] : List Int) :: []) [] ∧
      capped_hi_state.max_merge_size <
        min (([4, 5, 6, 7] : List Int).countP (fun a => decide (int_cmp 1 a < 0)))
          (([1, 2, 8] : List Int).countP (fun y => decide (int_cmp y 7 < 0))) ∧
      (∃ self' oc', merge_at int_cmp capped_hi_state ([] : List (List Int)).length none = some (self', oc') ∧
      capped_hi_state.max_merge_size < ([4, 5, 6, 7] : List Int).length ∧ capped_hi_state.max_merge_size < ([1, 2, 8] : List Int).length ∧
      (([4, 5, 6, 7] : List Int).countP (fun a => decide (int_cmp (1 : Int) a < 0)) ≤
          ([1, 2, 8] : List Int).countP (fun y => decide (int_cmp y (7 : Int) < 0)) →
        Layout int_cmp self' (([] : List (List Int)) ++ ([4, 5, 6, 7] : List Int).take (([4, 5, 6, 7] : List Int).length - capped_hi_state.max_merge_size) ::
          naive_merge int_cmp (([4, 5, 6, 7] : List Int).drop (([4, 5, 6, 7] : List Int).length - capped_hi_state.max_merge_size)) ([1, 2, 8] : List Int) :: ([] : List (List Int))) ([] : List Int)) ∧
      (([1, 2, 8] : List Int).countP (fun y => decide (int_cmp y (7 : Int) < 0)) <
          ([4, 5, 6, 7] : List Int).countP (fun a => decide (int_cmp (1 : Int) a < 0)) →
        Layout int_cmp self' (([] : List (List Int)) ++ naive_merge int_cmp ([4, 5, 6, 7] : List Int) (([1, 2, 8] : List Int).take capped_hi_state.max_merge_size) ::
          ([1, 2, 8] : List Int).drop capped_hi_state.max_merge_size :: ([] : List (List Int))) ([] : List Int))) :=
  have hL : Layout int_cmp capped_hi_state (([] : List (List Int)) ++
      ([4, 5, 6, 7] : List Int) :: ([1, 2, 8] : List Int) :: []) [] := by
    unfold Layout Sorted
    decide
  ⟨int_cmp_total, hL, by decide,
    capped_merge_takes_shorter_run int_cmp_total capped_hi_state none [] []
      [4, 5, 6, 7] [1, 2, 8] [] hL (by decide) (by decide) (by decide) 1 7 rfl rfl
      (by decide)⟩

/-! ## The first step on a short array -/

theorem step_one_unit_of_work_witness :
    first_step_before.pending_runs < GSIZE_MOD ∧
      gtk_tim_sort_step int_cmp first_step_before none =
        some (true, first_step_after, none) ∧
      (((merge_collapse int_cmp first_step_before (none : Option GtkTimSortChange) = some (true,
      first_step_after, (none : Option GtkTimSortChange)) ∧
        (∃ n, merge_at int_cmp first_step_before n (none : Option GtkTimSortChange) = some
          (first_step_after, (none : Option GtkTimSortChange))) ∧
        first_step_after.base = first_step_before.base ∧ first_step_after.size =
          first_step_before.size ∧
        (first_step_after.pending_runs = first_step_before.pending_runs ∨
          first_step_after.pending_runs + 1 = first_step_before.pending_runs)) ∨
      (merge_collapse int_cmp first_step_before (none : Option GtkTimSortChange) = some
        (false, first_step_before, (none : Option GtkTimSortChange)) ∧ 0 <
        first_step_before.size ∧
        merge_append int_cmp first_step_before (none : Option GtkTimSortChange) = some (true,
          first_step_after, (none : Option GtkTimSortChange)) ∧
        (∃ r, first_step_after.run = first_step_before.run ++ [r]) ∧
          first_step_after.pending_runs = first_step_before.pending_runs + 1) ∨
      (merge_collapse int_cmp first_step_before (none : Option GtkTimSortChange) = some
        (false, first_step_before, (none : Option GtkTimSortChange)) ∧ first_step_before.size =
        0 ∧
        2 ≤ first_step_before.pending_runs ∧
        merge_append int_cmp first_step_before (none : Option GtkTimSortChange) = some (false,
          first_step_before, gtk_tim_sort_set_change (none : Option GtkTimSortChange) none 0) ∧
        merge_force_collapse int_cmp first_step_before (gtk_tim_sort_set_change (none : Option
          GtkTimSortChange) none 0) =
          some (true, first_step_after, (none : Option GtkTimSortChange)) ∧
        (∃ n, merge_at int_cmp first_step_before n (gtk_tim_sort_set_change (none : Option
          GtkTimSortChange) none 0) = some (first_step_after, (none : Option GtkTimSortChange)))
          ∧
        first_step_after.base = first_step_before.base ∧ first_step_after.size =
          first_step_before.size ∧
        (first_step_after.pending_runs = first_step_before.pending_runs ∨
          first_step_after.pending_runs + 1 = first_step_before.pending_runs))) ∧
      (first_step_after.pending_runs + 1 = first_step_before.pending_runs ∨
        first_step_after.pending_runs = first_step_before.pending_runs ∨
        first_step_after.pending_runs = first_step_before.pending_runs + 1)) :=
  ⟨by decide, by decide,
    @step_one_unit_of_work Int int_cmp first_step_before first_step_after none none
      (by decide) (by decide)⟩

/-! ## The pair that `merge_collapse` merges -/

/-- C31: with `X`, `Y`, `Z` the three newest runs (`Z` the newest) and `W` the run
below them, when `X.len <= Y.len + Z.len`, or `W.len <= X.len + Y.len`,
`merge_collapse` returns `TRUE` with what `merge_at` does to the pair of the smaller
combined length: to `(X, Y)` when `X.len + Y.len < Y.len + Z.len`, to `(Y, Z)`
otherwise.  When neither holds and `Y.len <= Z.len`, also with two runs only, it
returns `TRUE` with what `merge_at` does to the pair `(Y, Z)`. -/
theorem collapse_pair_choice (cmp : α → α → Int) (self : GtkTimSort α)
    (oc : Option GtkTimSortChange) :
    (∀ x y z, 3 ≤ self.pending_runs → run_len self (self.pending_runs - 3) = some x →
      run_len self (self.pending_runs - 2) = some y →
      run_len self (self.pending_runs - 1) = some z →
      (x ≤ y + z ∨
        (4 ≤ self.pending_runs ∧ ∃ w, run_len self (self.pending_runs - 4) = some w ∧
          w ≤ x + y)) →
      merge_collapse cmp self oc =
        (merge_at cmp self (if x + y < y + z then self.pending_runs - 3
          else self.pending_runs - 2) oc).map (fun r => (true, r.1, r.2))) ∧
      (∀ y z, 2 ≤ self.pending_runs → run_len self (self.pending_runs - 2) = some y →
        run_len self (self.pending_runs - 1) = some z → y ≤ z →
        (3 ≤ self.pending_runs → ∀ x, run_len self (self.pending_runs - 3) = some x →
          ¬ x ≤ y + z ∧
          (4 ≤ self.pending_runs → ∀ w, run_len self (self.pending_runs - 4) = some w →
            ¬ w ≤ x + y)) →
        merge_collapse cmp self oc =
          (merge_at cmp self (self.pending_runs - 2) oc).map (fun r => (true, r.1, r.2))) := by
  refine ⟨?_, ?_⟩
  · intro x y z hp hx hy hz hv
    obtain ⟨d, hd⟩ := run_len_lt self (i := self.pending_runs - 2 - 2) (by omega)
    have e1 : self.pending_runs - 2 + 1 = self.pending_runs - 1 := by omega
    have e2 : self.pending_runs - 2 - 1 = self.pending_runs - 3 := by omega
    have e3 : self.pending_runs - 2 - 2 = self.pending_runs - 4 := by omega
    rw [merge_collapse_eval cmp self oc x y z d (by omega) hy (by rw [e1]; exact hz)
      (by rw [e2]; exact hx) hd, e2]
    have hc : (self.pending_runs - 2 > 0 ∧ x ≤ y + z) ∨
        (self.pending_runs - 2 > 1 ∧ d ≤ y + x) := by
      rcases hv with hv | ⟨h4, w, hw, hwl⟩
      · exact Or.inl ⟨by omega, hv⟩
      · rw [e3, hw] at hd
        simp only [Option.some.injEq] at hd
        exact Or.inr ⟨by omega, by omega⟩
    rw [if_pos hc]
    by_cases hxz : x < z
    · rw [if_pos hxz, if_pos (by omega)]
    · rw [if_neg hxz, if_neg (by omega)]
  · intro y z hp hy hz hyz hv
    obtain ⟨a, ha⟩ := run_len_lt self (i := self.pending_runs - 2 - 1) (by omega)
    obtain ⟨d, hd⟩ := run_len_lt self (i := self.pending_runs - 2 - 2) (by omega)
    have e1 : self.pending_runs - 2 + 1 = self.pending_runs - 1 := by omega
    rw [merge_collapse_eval cmp self oc a y z d (by omega) hy (by rw [e1]; exact hz) ha hd]
    have hc : ¬ ((self.pending_runs - 2 > 0 ∧ a ≤ y + z) ∨
        (self.pending_runs - 2 > 1 ∧ d ≤ y + a)) := by
      rintro (⟨h1, h2⟩ | ⟨h1, h2⟩)
      · have e2 : self.pending_runs - 2 - 1 = self.pending_runs - 3 := by omega
        rw [e2] at ha
        exact (hv (by omega) a ha).1 h2
      · have e2 : self.pending_runs - 2 - 1 = self.pending_runs - 3 := by omega
        have e3 : self.pending_runs - 2 - 2 = self.pending_runs - 4 := by omega
        rw [e2] at ha
        rw [e3] at hd
        exact (hv (by omega) a ha).2 (by omega) d hd (by omega)
    rw [if_neg hc, if_neg (by omega)]

theorem collapse_pair_choice_witness :
    merge_collapse int_cmp three_runs_state none =
        (merge_at int_cmp three_runs_state
          (if 1 + 1 < 1 + 4 then three_runs_state.pending_runs - 3
            else three_runs_state.pending_runs - 2) none).map (fun r => (true, r.1, r.2)) ∧
      merge_collapse int_cmp capped_lo_state none =
        (merge_at int_cmp capped_lo_state (capped_lo_state.pending_runs - 2) none).map
          (fun r => (true, r.1, r.2)) :=
  ⟨(collapse_pair_choice int_cmp three_runs_state none).1 1 1 4 (by decide) (by decide)
      (by decide) (by decide) (Or.inl (by decide)),
    (collapse_pair_choice int_cmp capped_lo_state none).2 2 4 (by decide) (by decide)
      (by decide) (by decide) (fun h3 => absurd h3 (by decide))⟩

/-! ## The insertion points that galloping finds -/

theorem getElem?_mem_take {S : List α} {i k : Nat} {x : α} (hx : S[i]? = some x) (hi : i < k) :
    x ∈ S.take k := by
  have : (S.take k)[i]? = some x := by rw [List.getElem?_take_of_lt hi]; exact hx
  exact List.getElem?_mem this

theorem getElem?_mem_drop {S : List α} {i k : Nat} {x : α} (hx : S[i]? = some x) (hi : k ≤ i) :
    x ∈ S.drop k := by
  have : (S.drop k)[i - k]? = some x := by
    rw [List.getElem?_drop, show k + (i - k) = i by omega]
    exact hx
  exact List.getElem?_mem this

/-- A prefix length `k` that splits a list in elements that satisfy `p` and elements
that do not is unique. -/
theorem split_point_unique {S : List α} {p : α → Prop} {k k' : Nat} (hk : k ≤ S.length)
    (hk' : k' ≤ S.length) (h1 : ∀ i x, S[i]? = some x → i < k → p x)
    (h2 : ∀ i x, S[i]? = some x → k ≤ i → ¬ p x)
    (h1' : ∀ i x, S[i]? = some x → i < k' → p x)
    (h2' : ∀ i x, S[i]? = some x → k' ≤ i → ¬ p x) : k' = k := by
  by_contra hne
  rcases Nat.lt_or_gt_of_ne hne with hlt | hlt
  · have hi : k' < S.length := by omega
    exact h2' k' S[k'] (List.getElem?_eq_getElem hi) (Nat.le_refl _)
      (h1 k' S[k'] (List.getElem?_eq_getElem hi) hlt)
  · have hi : k < S.length := by omega
    exact h2 k S[k] (List.getElem?_eq_getElem hi) (Nat.le_refl _)
      (h1' k S[k] (List.getElem?_eq_getElem hi) hlt)

/-- What `gallop_left` returns, in terms of positions. -/
theorem gallop_left_split {cmp : α → α → Int} (h : TotalPreorder cmp) (key : α)
    {buf A S B : List α} {base len hint : Nat} (hb : buf = A ++ (S ++ B)) (hA : A.length = base)
    (hS : S.length = len) (hhint : hint < len) (hlen : len < GSIZE_MOD) (hs : Sorted cmp S) :
    ∃ k, gallop_left cmp key buf base len hint = some k ∧ k ≤ len ∧
      (∀ i x, S[i]? = some x → i < k → cmp x key < 0) ∧
      (∀ i x, S[i]? = some x → k ≤ i → 0 ≤ cmp x key) := by
  obtain ⟨k, e, hk, h1, h2⟩ := gallop_left_spec h key hb hA hS hhint hlen hs
  refine ⟨k, e, hk, fun i x hx hi => h1 x (getElem?_mem_take hx hi), fun i x hx hi => ?_⟩
  have := h2 x (getElem?_mem_drop hx hi)
  have hsw := h.swap x key
  by_contra hc
  have := hsw.1 (by omega)
  omega

/-- What `gallop_right` returns, in terms of positions. -/
theorem gallop_right_split {cmp : α → α → Int} (h : TotalPreorder cmp) (key : α)
    {buf A S B : List α} {base len hint : Nat} (hb : buf = A ++ (S ++ B)) (hA : A.length = base)
    (hS : S.length = len) (hhint : hint < len) (hlen : len < GSIZE_MOD) (hs : Sorted cmp S) :
    ∃ k, gallop_right cmp key buf base len hint = some k ∧ k ≤ len ∧
      (∀ i x, S[i]? = some x → i < k → cmp x key ≤ 0) ∧
      (∀ i x, S[i]? = some x → k ≤ i → 0 < cmp x key) := by
  obtain ⟨k, e, hk, h1, h2⟩ := gallop_right_spec h key hb hA hS hhint hlen hs
  exact ⟨k, e, hk, fun i x hx hi => h1 x (getElem?_mem_take hx hi),
    fun i x hx hi => (h.swap key x).1 (h2 x (getElem?_mem_drop hx hi))⟩

/-- C32: on a sorted range `S` of `len > 0` elements, for every key and every hint
below `len`, `gallop_left` returns a `k ≤ len` such that the elements at the positions
below `k` are smaller than the key and the elements from position `k` on are greater
than or equal to it.  No other `k'` has this property, and every hint gives the
same `k`. -/
theorem gallop_left_leftmost {cmp : α → α → Int} (h : TotalPreorder cmp) (key : α)
    (buf A S B : List α) (base len hint : Nat) (hb : buf = A ++ (S ++ B))
    (hA : A.length = base) (hS : S.length = len) (hhint : hint < len)
    (hlen : len < GSIZE_MOD) (hs : Sorted cmp S) :
    ∃ k, gallop_left cmp key buf base len hint = some k ∧ k ≤ len ∧
      (∀ i x, S[i]? = some x → i < k → cmp x key < 0) ∧
      (∀ i x, S[i]? = some x → k ≤ i → 0 ≤ cmp x key) ∧
      (∀ k', k' ≤ len → (∀ i x, S[i]? = some x → i < k' → cmp x key < 0) →
        (∀ i x, S[i]? = some x → k' ≤ i → 0 ≤ cmp x key) → k' = k) ∧
      (∀ hint', hint' < len → gallop_left cmp key buf base len hint' = some k) := by
  obtain ⟨k, e, hk, h1, h2⟩ := gallop_left_split h key hb hA hS hhint hlen hs
  have huniq : ∀ k', k' ≤ len → (∀ i x, S[i]? = some x → i < k' → cmp x key < 0) →
      (∀ i x, S[i]? = some x → k' ≤ i → 0 ≤ cmp x key) → k' = k := by
    intro k' hk' h1' h2'
    exact split_point_unique (p := fun x => cmp x key < 0) (by omega) (by omega) h1
      (fun i x hx hi => by have := h2 i x hx hi; omega) h1'
      (fun i x hx hi => by have := h2' i x hx hi; omega)
  refine ⟨k, e, hk, h1, h2, huniq, fun hint' hh => ?_⟩
  obtain ⟨k2, e2, hk2, h3, h4⟩ := gallop_left_split h key hb hA hS hh hlen hs
  rw [e2, huniq k2 hk2 h3 h4]

theorem gallop_left_leftmost_witness :
    ∃ k, gallop_left int_cmp 3 [1, 3, 3, 5] 0 4 2 = some k ∧ k ≤ 4 ∧
      (∀ i x, ([1, 3, 3, 5] : List Int)[i]? = some x → i < k → int_cmp x 3 < 0) ∧
      (∀ i x, ([1, 3, 3, 5] : List Int)[i]? = some x → k ≤ i → 0 ≤ int_cmp x 3) ∧
      (∀ k', k' ≤ 4 →
        (∀ i x, ([1, 3, 3, 5] : List Int)[i]? = some x → i < k' → int_cmp x 3 < 0) →
        (∀ i x, ([1, 3, 3, 5] : List Int)[i]? = some x → k' ≤ i → 0 ≤ int_cmp x 3) →
        k' = k) ∧
      (∀ hint', hint' < 4 → gallop_left int_cmp 3 [1, 3, 3, 5] 0 4 hint' = some k) :=
  gallop_left_leftmost int_cmp_total 3 [1, 3, 3, 5] [] [1, 3, 3, 5] [] 0 4 2 (by simp) rfl rfl
    (by decide) (by decide) (by unfold Sorted; decide)

/-- C33: on a sorted range `S` of `len > 0` elements, for every key and every hint
below `len`, `gallop_right` returns a `k ≤ len` such that the elements at the
positions below `k` are smaller than or equal to the key and the elements from
position `k` on are greater than it.  No other `k'` has this property, every hint
gives the same `k`, and what `gallop_left` returns for the key is at most `k`. -/
theorem gallop_right_rightmost {cmp : α → α → Int} (h : TotalPreorder cmp) (key : α)
    (buf A S B : List α) (base len hint : Nat) (hb : buf = A ++ (S ++ B))
    (hA : A.length = base) (hS : S.length = len) (hhint : hint < len)
    (hlen : len < GSIZE_MOD) (hs : Sorted cmp S) :
    ∃ k, gallop_right cmp key buf base len hint = some k ∧ k ≤ len ∧
      (∀ i x, S[i]? = some x → i < k → cmp x key ≤ 0) ∧
      (∀ i x, S[i]? = some x → k ≤ i → 0 < cmp x key) ∧
      (∀ k', k' ≤ len → (∀ i x, S[i]? = some x → i < k' → cmp x key ≤ 0) →
        (∀ i x, S[i]? = some x → k' ≤ i → 0 < cmp x key) → k' = k) ∧
      (∀ hint', hint' < len → gallop_right cmp key buf base len hint' = some k) ∧
      (∀ hint', hint' < len →
        ∃ kl, gallop_left cmp key buf base len hint' = some kl ∧ kl ≤ k) := by
  obtain ⟨k, e, hk, h1, h2⟩ := gallop_right_split h key hb hA hS hhint hlen hs
  have huniq : ∀ k', k' ≤ len → (∀ i x, S[i]? = some x → i < k' → cmp x key ≤ 0) →
      (∀ i x, S[i]? = some x → k' ≤ i → 0 < cmp x key) → k' = k := by
    intro k' hk' h1' h2'
    exact split_point_unique (p := fun x => cmp x key ≤ 0) (by omega) (by omega) h1
      (fun i x hx hi => by have := h2 i x hx hi; omega) h1'
      (fun i x hx hi => by have := h2' i x hx hi; omega)
  refine ⟨k, e, hk, h1, h2, huniq, fun hint' hh => ?_, fun hint' hh => ?_⟩
  · obtain ⟨k2, e2, hk2, h3, h4⟩ := gallop_right_split h key hb hA hS hh hlen hs
    rw [e2, huniq k2 hk2 h3 h4]
  · obtain ⟨kl, el, hkl, h3, h4⟩ := gallop_left_split h key hb hA hS hh hlen hs
    refine ⟨kl, el, ?_⟩
    by_contra hc
    have hi : k < S.length := by omega
    have a1 := h3 k S[k] (List.getElem?_eq_getElem hi) (by omega)
    have a2 := h2 k S[k] (List.getElem?_eq_getElem hi) (Nat.le_refl _)
    omega

theorem gallop_right_rightmost_witness :
    ∃ k, gallop_right int_cmp 3 [1, 3, 3, 5] 0 4 0 = some k ∧ k ≤ 4 ∧
      (∀ i x, ([1, 3, 3, 5] : List Int)[i]? = some x → i < k → int_cmp x 3 ≤ 0) ∧
      (∀ i x, ([1, 3, 3, 5] : List Int)[i]? = some x → k ≤ i → 0 < int_cmp x 3) ∧
      (∀ k', k' ≤ 4 →
        (∀ i x, ([1, 3, 3, 5] : List Int)[i]? = some x → i < k' → int_cmp x 3 ≤ 0) →
        (∀ i x, ([1, 3, 3, 5] : List Int)[i]? = some x → k' ≤ i → 0 < int_cmp x 3) →
        k' = k) ∧
      (∀ hint', hint' < 4 → gallop_right int_cmp 3 [1, 3, 3, 5] 0 4 hint' = some k) ∧
      (∀ hint', hint' < 4 →
        ∃ kl, gallop_left int_cmp 3 [1, 3, 3, 5] 0 4 hint' = some kl ∧ kl ≤ k) :=
  gallop_right_rightmost int_cmp_total 3 [1, 3, 3, 5] [] [1, 3, 3, 5] [] 0 4 0 (by simp) rfl
    rfl (by decide) (by decide) (by unfold Sorted; decide)

/-! ## Binary insertion sort on a range -/

/-- The call `binary_sort (a, hi, 0)` treats the first element as sorted. -/
theorem binary_sort_start_zero (cmp : α → α → Int) (mem : List α) (a hi : Nat)
    (ic : Option GtkTimSortChange) (hhi : 1 ≤ hi) :
    binary_sort cmp mem a hi 0 ic = binary_sort cmp mem a hi 1 ic := by
  unfold binary_sort
  simp [hhi]

/-- C34: on the range of `hi` elements from `a` on, the first `start ≤ hi` of which
are sorted, `binary_sort` returns; the range is then sorted and a stable
rearrangement of what it was, so records that compare equal keep their order, and
the elements before and behind the range are unchanged.  The change passed in is
`NULL`, a range with a base, or the empty change `(NULL, 0)`. -/
theorem binary_sort_sorts_range {cmp : α → α → Int} (h : TotalPreorder cmp)
    (mem A seg B : List α) (a hi start : Nat) (ic : Option GtkTimSortChange)
    (hm : mem = A ++ (seg ++ B)) (hA : A.length = a) (hhi : seg.length = hi)
    (hst : start ≤ hi) (hs : Sorted cmp (seg.take start))
    (hic : ∀ c, ic = some c → c.base = none → c.len = 0) :
    ∃ mem' oc', binary_sort cmp mem a hi start ic = some (mem', oc') ∧
      mem'.length = mem.length ∧ Sorted cmp ((mem'.drop a).take hi) ∧
      Stable cmp ((mem.drop a).take hi) ((mem'.drop a).take hi) ∧
      mem'.drop (a + hi) = mem.drop (a + hi) ∧ mem'.take a = mem.take a := by
  have key : ∀ st, 0 < st → st ≤ hi → Sorted cmp (seg.take st) →
      ∃ mem' oc', binary_sort cmp mem a hi st ic = some (mem', oc') ∧
        mem'.length = mem.length ∧ Sorted cmp ((mem'.drop a).take hi) ∧
        Stable cmp ((mem.drop a).take hi) ((mem'.drop a).take hi) ∧
        mem'.drop (a + hi) = mem.drop (a + hi) ∧ mem'.take a = mem.take a := by
    intro st hpos hle hsorted
    have hm' : mem = A ++ (seg.take st ++ (seg.drop st ++ B)) := by
      rw [← List.append_assoc (seg.take st), List.take_append_drop]
      exact hm
    have h1 : st = (seg.take st).length := by
      rw [List.length_take]
      omega
    have h2 : hi = (seg.take st).length + (seg.drop st).length := by
      rw [List.length_take, List.length_drop]
      omega
    obtain ⟨seg', oc', e, hl, hso, hstab, _⟩ :=
      binary_sort_spec h ic hm' hA h1 hpos h2 hsorted hic
    rw [List.take_append_drop] at hstab
    have e1 : ((A ++ (seg' ++ B)).drop a).take hi = seg' := by
      rw [← hA, List.drop_left, ← hl, List.take_left]
    have e2 : ((A ++ (seg ++ B)).drop a).take hi = seg := by
      rw [← hA, List.drop_left, ← hhi, List.take_left]
    refine ⟨_, oc', e, ?_, ?_, ?_, ?_, ?_⟩
    · rw [hm]
      simp only [List.length_append]
      omega
    · rw [e1]
      exact hso
    · rw [e1, hm, e2]
      exact hstab
    · rw [hm, ← hA]
      conv_lhs => rw [← hl, ← List.append_assoc, ← List.length_append, List.drop_left]
      conv_rhs => rw [← hhi, ← List.append_assoc, ← List.length_append, List.drop_left]
    · rw [hm, ← hA, List.take_left, List.take_left]
  rcases Nat.eq_zero_or_pos start with h0 | hpos
  · subst h0
    rcases Nat.eq_zero_or_pos hi with hz | hp
    · subst hz
      have hseg : seg = [] := List.length_eq_zero.1 hhi
      subst hseg
      refine ⟨mem, ic, ?_, rfl, ?_, ?_, rfl, rfl⟩
      · simp [binary_sort, binary_sort_loop]
      · simp [Sorted]
      · exact stable_refl cmp _
    · rw [binary_sort_start_zero cmp mem a hi ic hp]
      exact key 1 (by omega) hp (sorted_of_length_le_one cmp (by rw [List.length_take]; omega))
  · exact key start hpos hst hs

theorem binary_sort_sorts_range_witness :
    ∃ mem' oc', binary_sort int_cmp [9, 2, 4, 3, 1, 7] 1 4 2 none = some (mem', oc') ∧
      mem'.length = ([9, 2, 4, 3, 1, 7] : List Int).length ∧
      Sorted int_cmp ((mem'.drop 1).take 4) ∧
      Stable int_cmp ((([9, 2, 4, 3, 1, 7] : List Int).drop 1).take 4) ((mem'.drop 1).take 4) ∧
      mem'.drop (1 + 4) = ([9, 2, 4, 3, 1, 7] : List Int).drop (1 + 4) ∧
      mem'.take 1 = ([9, 2, 4, 3, 1, 7] : List Int).take 1 :=
  binary_sort_sorts_range int_cmp_total [9, 2, 4, 3, 1, 7] [9] [2, 4, 3, 1] [7] 1 4 2 none
    (by simp) rfl rfl (by decide) (by unfold Sorted; decide) (fun c hc => by simp at hc)

/-! ## The two merge functions give the same array -/

/-- C35: on two adjacent sorted runs `X` and `Y`, both non-empty, the first element
of `X` greater than the first element of `Y` and the last element of `X` greater
than every element of `Y`, `merge_lo` and `merge_hi` both return and leave the same
array, with the stable merge of `X` and `Y` in the place of the two runs, whichever
run is the shorter one and whatever `min_gallop` each call starts with. -/
theorem merge_lo_merge_hi_agree {cmp : α → α → Int} (h : TotalPreorder cmp)
    (s1 s2 : GtkTimSort α) (P X Y Q : List α) (base1 len1 base2 len2 : Nat)
    (hm : s1.mem = P ++ (X ++ (Y ++ Q))) (hm2 : s2.mem = s1.mem) (hP : P.length = base1)
    (hX : X.length = len1) (hb : base1 + len1 = base2) (hY : Y.length = len2)
    (hsX : Sorted cmp X) (hsY : Sorted cmp Y) (hX1 : 0 < len1) (hY1 : 0 < len2)
    (hfirst : ∀ x y, X.head? = some x → Y.head? = some y → cmp y x < 0)
    (hlast : ∀ xl, X.getLast? = some xl → ∀ y ∈ Y, cmp y xl < 0)
    (h64 : len1 + len2 < GSIZE_MOD) :
    ∃ r1 r2, merge_lo cmp s1 base1 len1 base2 len2 = some r1 ∧
      merge_hi cmp s2 base1 len1 base2 len2 = some r2 ∧ r1.mem = r2.mem ∧
      (r1.mem.drop base1).take (len1 + len2) = naive_merge cmp X Y ∧
      (r2.mem.drop base1).take (len1 + len2) = naive_merge cmp X Y ∧
      r1.mem.take base1 = s1.mem.take base1 ∧
      r1.mem.drop (base1 + (len1 + len2)) = s1.mem.drop (base1 + (len1 + len2)) := by
  obtain ⟨X0, xl, hXe⟩ := exists_concat_of_length_pos (l := X) (by omega)
  have ho : MergeOrder cmp X Y :=
    ⟨hsX, hsY, X0, xl, hXe, hlast xl (by rw [hXe]; simp)⟩
  obtain ⟨r1, e1, m1, _⟩ := merge_lo_spec h s1 hm hP hX hb hY ho hfirst (by omega)
    (by omega)
  obtain ⟨r2, e2, m2, _⟩ := merge_hi_spec h s2 (hm2.trans hm) hP hX hb hY ho hfirst
    (by omega) (by omega)
  have hl : (naive_merge cmp X Y).length = len1 + len2 := by
    rw [naive_merge_length, hX, hY]
  have hr : (((P ++ (naive_merge cmp X Y ++ Q)).drop base1).take (len1 + len2)) =
      naive_merge cmp X Y := by
    rw [← hP, List.drop_left, ← hl, List.take_left]
  refine ⟨r1, r2, e1, e2, by rw [m1, m2], by rw [m1, hr], by rw [m2, hr], ?_, ?_⟩
  · rw [m1, hm, ← hP, List.take_left, List.take_left]
  · rw [m1, hm, ← hP]
    conv_lhs => rw [← hl, ← List.append_assoc, ← List.length_append, List.drop_left]
    conv_rhs =>
      rw [← hX, ← hY, ← List.append_assoc X, ← List.length_append, ← List.append_assoc P,
        ← List.length_append, List.drop_left]

theorem merge_lo_merge_hi_agree_witness :
    ∃ r1 r2, merge_lo int_cmp (gtk_tim_sort_init [0, 2, 5, 9, 1, 3, 8, 7] 8 4) 1 3 4 3 = some r1 ∧
      merge_hi int_cmp (gtk_tim_sort_init [0, 2, 5, 9, 1, 3, 8, 7] 8 4) 1 3 4 3 = some r2 ∧
      r1.mem = r2.mem ∧
      (r1.mem.drop 1).take (3 + 3) = naive_merge int_cmp [2, 5, 9] [1, 3, 8] ∧
      (r2.mem.drop 1).take (3 + 3) = naive_merge int_cmp [2, 5, 9] [1, 3, 8] ∧
      r1.mem.take 1 = (gtk_tim_sort_init ([0, 2, 5, 9, 1, 3, 8, 7] : List Int) 8 4).mem.take 1 ∧
      r1.mem.drop (1 + (3 + 3)) =
        (gtk_tim_sort_init ([0, 2, 5, 9, 1, 3, 8, 7] : List Int) 8 4).mem.drop (1 + (3 + 3)) :=
  merge_lo_merge_hi_agree int_cmp_total _ _ [0] [2, 5, 9] [1, 3, 8] [7] 1 3 4 3 rfl rfl rfl rfl
    rfl rfl (by unfold Sorted; decide) (by unfold Sorted; decide) (by decide) (by decide)
    (fun x y hx hy => by
      simp only [List.head?_cons, Option.some.injEq] at hx hy
      subst hx
      subst hy
      decide)
    (fun xl hx => by
      simp at hx
      subst hx
      decide)
    (by decide)

/-! ## The two runs of a merge -/

/-- A call of `merge_at` that returns was made at one of the two indices its
assertion allows: the run stack splits around the two runs it merges. -/
theorem merge_at_index {cmp : α → α → Int} {self s' : GtkTimSort α}
    {oc oc' : Option GtkTimSortChange} {i : Nat} (h64 : self.pending_runs < GSIZE_MOD)
    (e : merge_at cmp self i oc = some (s', oc')) :
    ∃ pre ri ri1 post, self.run = pre ++ ri :: ri1 :: post ∧ pre.length = i ∧
      post.length ≤ 1 := by
  unfold merge_at at e
  cases h1 : self.run[i]? with
  | none => simp [h1] at e
  | some ri =>
    cases h2 : self.run[i + 1]? with
    | none => simp [h1, h2] at e
    | some ri1 =>
      simp only [h1, h2] at e
      split at e
      · rename_i hc
        obtain ⟨hp, hi, _, _⟩ := hc
        obtain ⟨hi1, e1⟩ := List.getElem?_eq_some.1 h1
        obtain ⟨hi2, e2⟩ := List.getElem?_eq_some.1 h2
        unfold GtkTimSort.pending_runs at hp hi h64
        unfold GSIZE_MOD at hi h64
        have hlen : i + 2 = self.run.length ∨ i + 3 = self.run.length := by omega
        refine ⟨self.run.take i, ri, ri1, self.run.drop (i + 2), ?_, ?_, ?_⟩
        · conv_lhs => rw [← List.take_append_drop i self.run]
          rw [List.drop_eq_getElem_cons hi1, List.drop_eq_getElem_cons hi2, e1, e2]
        · rw [List.length_take]
          omega
        · rw [List.length_drop]
          omega
      · simp at e

/-! ## The capacity of the scratch array -/

/-- One round `x |= x >> n` of the bit smearing: when the bit `i` of `x` is set
exactly when one of the `n` bits of `c` from `i` on is set, the bit `i` of the
result is set exactly when one of the `2 * n` bits of `c` from `i` on is set. -/
theorem smear_round (c x n : Nat)
    (hx : ∀ i, x.testBit i = true ↔ ∃ j, j < n ∧ c.testBit (i + j) = true) (i : Nat) :
    (x ||| (x >>> n)).testBit i = true ↔ ∃ j, j < 2 * n ∧ c.testBit (i + j) = true := by
  rw [Nat.testBit_or, Nat.testBit_shiftRight, Bool.or_eq_true, hx, hx]
  constructor
  · rintro (⟨j, hj, hb⟩ | ⟨j, hj, hb⟩)
    · exact ⟨j, by omega, hb⟩
    · exact ⟨n + j, by omega, by rw [← Nat.add_assoc, Nat.add_comm i n]; exact hb⟩
  · rintro ⟨j, hj, hb⟩
    by_cases hjn : j < n
    · exact Or.inl ⟨j, hjn, hb⟩
    · refine Or.inr ⟨j - n, by omega, ?_⟩
      rw [show n + i + (j - n) = i + j by omega]
      exact hb

/-- The highest bit of a number between `2 ^ s` and `2 ^ (s + 1)` is the bit `s`. -/
theorem testBit_top {c s : Nat} (h1 : 2 ^ s ≤ c) (h2 : c < 2 ^ (s + 1)) :
    c.testBit s = true := by
  rw [Nat.testBit_to_div_mod]
  have hd : c / 2 ^ s = 1 := by
    have hpos : 0 < 2 ^ s := Nat.two_pow_pos _
    have a1 : 1 ≤ c / 2 ^ s := (Nat.le_div_iff_mul_le hpos).2 (by omega)
    have a2 : c / 2 ^ s < 2 := (Nat.div_lt_iff_lt_mul hpos).2 (by rw [Nat.pow_succ] at h2; omega)
    omega
  rw [hd]
  decide

/-- The six rounds of bit smearing of `gtk_tim_sort_ensure_capacity` turn a number
between `2 ^ s` and `2 ^ (s + 1)`, with `s < 64`, into `2 ^ (s + 1) - 1`. -/
theorem smear_eq {c s : Nat} (h1 : 2 ^ s ≤ c) (h2 : c < 2 ^ (s + 1)) (hs : s < 64) :
    (((((c ||| (c >>> 1)) ||| ((c ||| (c >>> 1)) >>> 2)) |||
      (((c ||| (c >>> 1)) ||| ((c ||| (c >>> 1)) >>> 2)) >>> 4)) |||
      ((((c ||| (c >>> 1)) ||| ((c ||| (c >>> 1)) >>> 2)) |||
        (((c ||| (c >>> 1)) ||| ((c ||| (c >>> 1)) >>> 2)) >>> 4)) >>> 8)) |||
      (((((c ||| (c >>> 1)) ||| ((c ||| (c >>> 1)) >>> 2)) |||
        (((c ||| (c >>> 1)) ||| ((c ||| (c >>> 1)) >>> 2)) >>> 4)) |||
        ((((c ||| (c >>> 1)) ||| ((c ||| (c >>> 1)) >>> 2)) |||
          (((c ||| (c >>> 1)) ||| ((c ||| (c >>> 1)) >>> 2)) >>> 4)) >>> 8)) >>> 16)) |||
      ((((((c ||| (c >>> 1)) ||| ((c ||| (c >>> 1)) >>> 2)) |||
        (((c ||| (c >>> 1)) ||| ((c ||| (c >>> 1)) >>> 2)) >>> 4)) |||
        ((((c ||| (c >>> 1)) ||| ((c ||| (c >>> 1)) >>> 2)) |||
          (((c ||| (c >>> 1)) ||| ((c ||| (c >>> 1)) >>> 2)) >>> 4)) >>> 8)) |||
        (((((c ||| (c >>> 1)) ||| ((c ||| (c >>> 1)) >>> 2)) |||
          (((c ||| (c >>> 1)) ||| ((c ||| (c >>> 1)) >>> 2)) >>> 4)) |||
          ((((c ||| (c >>> 1)) ||| ((c ||| (c >>> 1)) >>> 2)) |||
            (((c ||| (c >>> 1)) ||| ((c ||| (c >>> 1)) >>> 2)) >>> 4)) >>> 8)) >>> 16)) >>> 32) =
      2 ^ (s + 1) - 1 := by
  have r0 : ∀ i, c.testBit i = true ↔ ∃ j, j < 1 ∧ c.testBit (i + j) = true := by
    intro i
    constructor
    · intro hb
      exact ⟨0, by omega, hb⟩
    · rintro ⟨j, hj, hb⟩
      have : j = 0 := by omega
      subst this
      exact hb
  have r1 := smear_round c _ 1 r0
  have r2 := smear_round c _ 2 r1
  have r3 := smear_round c _ 4 r2
  have r4 := smear_round c _ 8 r3
  have r5 := smear_round c _ 16 r4
  have r6 := smear_round c _ 32 r5
  apply Nat.eq_of_testBit_eq
  intro i
  rw [Nat.testBit_two_pow_sub_one]
  by_cases hi : i < s + 1
  · rw [decide_eq_true hi]
    refine (r6 i).2 ⟨s - i, by omega, ?_⟩
    rw [show i + (s - i) = s by omega]
    exact testBit_top h1 h2
  · rw [decide_eq_false hi]
    rw [Bool.eq_false_iff]
    intro hb
    obtain ⟨j, _, hj⟩ := (r6 i).1 hb
    have hlt : c < 2 ^ (i + j) :=
      Nat.lt_of_lt_of_le h2 (Nat.pow_le_pow_right (by decide) (by omega))
    rw [Nat.testBit_lt_two_pow hlt] at hj
    exact Bool.noConfusion hj

/-- The capacity `gtk_tim_sort_ensure_capacity` allocates when it has to grow the
scratch array for `c` elements: the power of two above `c`, or `c` when that power
is `2 ^ 64`. -/
theorem ensure_capacity_grow (self : GtkTimSort α) (c : Nat) (hc : c < GSIZE_MOD)
    (hlt : self.tmp_length < c) :
    (gtk_tim_sort_ensure_capacity self c).tmp_length =
      if 2 ^ (c.log2 + 1) < GSIZE_MOD then 2 ^ (c.log2 + 1) else c := by
  have hc0 : c ≠ 0 := by omega
  have h1 : 2 ^ c.log2 ≤ c := Nat.log2_self_le hc0
  have h2 : c < 2 ^ (c.log2 + 1) := Nat.lt_log2_self
  have hs : c.log2 < 64 := (Nat.log2_lt hc0).2 hc
  have hpos : 1 ≤ 2 ^ (c.log2 + 1) := Nat.two_pow_pos _
  unfold gtk_tim_sort_ensure_capacity
  rw [if_pos hlt]
  simp only []
  rw [smear_eq h1 h2 hs, Nat.sub_add_cancel hpos]
  by_cases h63 : c.log2 + 1 < 64
  · have hp : 2 ^ (c.log2 + 1) < GSIZE_MOD := by
      unfold GSIZE_MOD
      exact Nat.pow_lt_pow_right (by decide) h63
    rw [if_pos hp, Nat.mod_eq_of_lt hp, if_neg (by omega)]
  · have he : c.log2 + 1 = 64 := by omega
    rw [he]
    have hm : 2 ^ 64 % GSIZE_MOD = 0 := by
      unfold GSIZE_MOD
      exact Nat.mod_self _
    rw [hm, if_pos rfl, if_neg (by unfold GSIZE_MOD; omega)]

/-! ## What a merge asks of the scratch array -/

theorem ensure_capacity_same (self : GtkTimSort α) (c : Nat) :
    (gtk_tim_sort_ensure_capacity self c).min_gallop = self.min_gallop ∧
      (gtk_tim_sort_ensure_capacity self c).mem = self.mem :=
  ⟨ensure_capacity_min_gallop self c, ensure_capacity_mem self c⟩

/-- What `merge_lo` leaves in the sorter besides the memory: the capacity of `tmp` is
the one `gtk_tim_sort_ensure_capacity` left for `len1` elements; in `min_gallop` it
stores nothing on the two paths that return before the loop, and otherwise the value
its local variable has when the loop is left, or 1 when that is 0. -/
theorem merge_lo_write_back {cmp : α → α → Int} {self s' : GtkTimSort α}
    {base1 len1 base2 len2 : Nat}
    (e : merge_lo cmp self base1 len1 base2 len2 = some s') :
    s'.tmp_length = (gtk_tim_sort_ensure_capacity self len1).tmp_length ∧
      (s'.min_gallop = self.min_gallop ∨
        ∃ tmp fuel v0 v, v0.min_gallop = self.min_gallop ∧
          merge_lo_outer cmp tmp fuel v0 = some v ∧ s'.min_gallop = max 1 v.min_gallop) := by
  have hg := ensure_capacity_min_gallop self len1
  unfold merge_lo at e
  simp only [] at e
  repeat' split at e
  all_goals first
    | (simp only [Option.some.injEq] at e
       subst e
       exact ⟨rfl, Or.inl hg⟩)
    | (simp only [Option.some.injEq] at e
       subst e
       refine ⟨rfl, Or.inr ⟨_, _, _, _, ?_, by assumption, ?_⟩⟩
       · exact hg
       · dsimp only
         omega)
    | (simp at e)

/-- What `merge_hi` leaves in the sorter besides the memory: the capacity of `tmp` is
the one `gtk_tim_sort_ensure_capacity` left for `len2` elements; in `min_gallop` it
stores nothing on the two paths that return before the loop, and otherwise the value
its local variable has when the loop is left, or 1 when that is 0. -/
theorem merge_hi_write_back {cmp : α → α → Int} {self s' : GtkTimSort α}
    {base1 len1 base2 len2 : Nat}
    (e : merge_hi cmp self base1 len1 base2 len2 = some s') :
    s'.tmp_length = (gtk_tim_sort_ensure_capacity self len2).tmp_length ∧
      (s'.min_gallop = self.min_gallop ∨
        ∃ tmp fuel v0 v, v0.min_gallop = self.min_gallop ∧
          merge_hi_outer cmp tmp base1 fuel v0 = some v ∧
          s'.min_gallop = max 1 v.min_gallop) := by
  have hg := ensure_capacity_min_gallop self len2
  unfold merge_hi at e
  simp only [] at e
  repeat' split at e
  all_goals first
    | (simp only [Option.some.injEq] at e
       subst e
       exact ⟨rfl, Or.inl hg⟩)
    | (simp only [Option.some.injEq] at e
       subst e
       refine ⟨rfl, Or.inr ⟨_, _, _, _, ?_, by assumption, ?_⟩⟩
       · exact hg
       · dsimp only
         omega)
    | (simp at e)

/-- The capacity of `tmp` after `merge_lo` is the one `gtk_tim_sort_ensure_capacity`
left for `len1` elements, and `min_gallop` is as it was or at least 1. -/
theorem merge_lo_scratch {cmp : α → α → Int} {self s' : GtkTimSort α}
    {base1 len1 base2 len2 : Nat}
    (e : merge_lo cmp self base1 len1 base2 len2 = some s') :
    s'.tmp_length = (gtk_tim_sort_ensure_capacity self len1).tmp_length ∧
      (s'.min_gallop = self.min_gallop ∨ 1 ≤ s'.min_gallop) := by
  obtain ⟨h1, h2⟩ := merge_lo_write_back e
  refine ⟨h1, ?_⟩
  rcases h2 with h2 | ⟨_, _, _, _, _, _, h2⟩
  · exact Or.inl h2
  · exact Or.inr (by omega)

/-- The capacity of `tmp` after `merge_hi` is the one `gtk_tim_sort_ensure_capacity`
left for `len2` elements, and `min_gallop` is as it was or at least 1. -/
theorem merge_hi_scratch {cmp : α → α → Int} {self s' : GtkTimSort α}
    {base1 len1 base2 len2 : Nat}
    (e : merge_hi cmp self base1 len1 base2 len2 = some s') :
    s'.tmp_length = (gtk_tim_sort_ensure_capacity self len2).tmp_length ∧
      (s'.min_gallop = self.min_gallop ∨ 1 ≤ s'.min_gallop) := by
  obtain ⟨h1, h2⟩ := merge_hi_write_back e
  refine ⟨h1, ?_⟩
  rcases h2 with h2 | ⟨_, _, _, _, _, _, h2⟩
  · exact Or.inl h2
  · exact Or.inr (by omega)

/-- The function `merge_lo` copies the `len1` elements of the first run to `tmp`. -/
theorem merge_lo_copy {cmp : α → α → Int} {self s' : GtkTimSort α}
    {base1 len1 base2 len2 : Nat}
    (e : merge_lo cmp self base1 len1 base2 len2 = some s') :
    ∃ tmp, memcpy_tmp self.mem base1 len1 = some tmp ∧ tmp.length = len1 ∧
      base1 + len1 ≤ self.mem.length := by
  unfold merge_lo at e
  simp only [ensure_capacity_mem] at e
  split at e
  · cases ht : memcpy_tmp self.mem base1 len1 with
    | none => simp [ht] at e
    | some tmp =>
      refine ⟨tmp, rfl, ?_⟩
      unfold memcpy_tmp at ht
      split at ht
      · simp only [Option.some.injEq] at ht
        subst ht
        rw [List.length_take, List.length_drop]
        omega
      · simp at ht
  · simp at e

/-- The function `merge_hi` copies the `len2` elements of the second run to `tmp`. -/
theorem merge_hi_copy {cmp : α → α → Int} {self s' : GtkTimSort α}
    {base1 len1 base2 len2 : Nat}
    (e : merge_hi cmp self base1 len1 base2 len2 = some s') :
    ∃ tmp, memcpy_tmp self.mem base2 len2 = some tmp ∧ tmp.length = len2 ∧
      base2 + len2 ≤ self.mem.length := by
  unfold merge_hi at e
  simp only [ensure_capacity_mem] at e
  split at e
  · cases ht : memcpy_tmp self.mem base2 len2 with
    | none => simp [ht] at e
    | some tmp =>
      refine ⟨tmp, rfl, ?_⟩
      unfold memcpy_tmp at ht
      split at ht
      · simp only [Option.some.injEq] at ht
        subst ht
        rw [List.length_take, List.length_drop]
        omega
      · simp at ht
  · simp at e

/-- The code of `merge_at` from the label `done` on touches the run stack only. -/
theorem merge_at_done_same {s s2 : GtkTimSort α} {i : Nat}
    (e : merge_at_done s i = some s2) :
    s2.mem = s.mem ∧ s2.tmp_length = s.tmp_length ∧ s2.min_gallop = s.min_gallop := by
  unfold merge_at_done at e
  split at e
  · simp only [] at e
    split at e
    · split at e
      · simp only [Option.some.injEq] at e
        subst e
        exact ⟨rfl, rfl, rfl⟩
      · simp at e
    · simp only [Option.some.injEq] at e
      subst e
      exact ⟨rfl, rfl, rfl⟩
  · simp at e

/-- The calls a call of `merge_at` makes, whatever the comparison function does.  It
trims the first run with `gallop_right` and the second run with `gallop_left`.  When
a trimmed run is empty it merges nothing.  Otherwise it calls `merge_lo` when the
trimmed first run is not the longer one, and `merge_hi` when it is, once, on the
shorter trimmed run cut down to `max_merge_size` elements; the memory, the capacity of
`tmp` and `min_gallop` it leaves are those that call leaves. -/
theorem merge_at_calls {cmp : α → α → Int} {self s' : GtkTimSort α}
    {oc oc' : Option GtkTimSortChange} {i : Nat}
    (e : merge_at cmp self i oc = some (s', oc')) :
    ∃ ri ri1 key2 k, self.run[i]? = some ri ∧ self.run[i + 1]? = some ri1 ∧
      load self.mem ri1.base = some key2 ∧
      gallop_right cmp key2 self.mem ri.base ri.len 0 = some k ∧
      ((ri.len - k = 0 ∧ s'.mem = self.mem ∧ s'.tmp_length = self.tmp_length ∧
          s'.min_gallop = self.min_gallop) ∨
        (ri.len - k ≠ 0 ∧ ∃ key1 l2,
          load self.mem (ri.base + k + (ri.len - k - 1)) = some key1 ∧
          gallop_left cmp key1 self.mem ri1.base ri1.len (ri1.len - 1) = some l2 ∧
          l2 ≤ ri1.len ∧
          ((l2 = 0 ∧ s'.mem = self.mem ∧ s'.tmp_length = self.tmp_length ∧
              s'.min_gallop = self.min_gallop) ∨
            (l2 ≠ 0 ∧ ri.len - k ≤ l2 ∧ ∃ b1 s1,
              merge_lo cmp self b1 (min self.max_merge_size (ri.len - k)) ri1.base l2 =
                some s1 ∧
              s'.mem = s1.mem ∧ s'.tmp_length = s1.tmp_length ∧
              s'.min_gallop = s1.min_gallop) ∨
            (l2 ≠ 0 ∧ l2 < ri.len - k ∧ ∃ s1,
              merge_hi cmp self (ri.base + k) (ri.len - k) ri1.base
                (min self.max_merge_size l2) = some s1 ∧
              s'.mem = s1.mem ∧ s'.tmp_length = s1.tmp_length ∧
              s'.min_gallop = s1.min_gallop)))) := by
  unfold merge_at at e
  cases h1 : self.run[i]? with
  | none => simp [h1] at e
  | some ri =>
  cases h2 : self.run[i + 1]? with
  | none => simp [h1, h2] at e
  | some ri1 =>
  simp only [h1, h2] at e
  split at e
  · cases hk2 : load self.mem ri1.base with
    | none => simp [hk2] at e
    | some key2 =>
      simp only [hk2] at e
      cases hg : gallop_right cmp key2 self.mem ri.base ri.len 0 with
      | none => simp [hg] at e
      | some k =>
        simp only [hg] at e
        refine ⟨ri, ri1, key2, k, rfl, rfl, hk2, hg, ?_⟩
        by_cases hl1 : ri.len - k = 0
        · rw [if_pos hl1] at e
          cases hdn : merge_at_done self i with
          | none => simp [hdn] at e
          | some s2 =>
            simp only [hdn, Option.some.injEq, Prod.mk.injEq] at e
            obtain ⟨rfl, _⟩ := e
            exact Or.inl ⟨hl1, merge_at_done_same hdn⟩
        · rw [if_neg hl1] at e
          cases hk1 : load self.mem (ri.base + k + (ri.len - k - 1)) with
          | none => simp [hk1] at e
          | some key1 =>
            simp only [hk1] at e
            cases hg2 : gallop_left cmp key1 self.mem ri1.base ri1.len (ri1.len - 1) with
            | none => simp [hg2] at e
            | some l2 =>
              simp only [hg2] at e
              refine Or.inr ⟨hl1, key1, l2, rfl, hg2, gallop_left_le hg2, ?_⟩
              by_cases hl20 : l2 = 0
              · rw [if_pos hl20] at e
                cases hdn : merge_at_done self i with
                | none => simp [hdn] at e
                | some s2 =>
                  simp only [hdn, Option.some.injEq, Prod.mk.injEq] at e
                  obtain ⟨rfl, _⟩ := e
                  exact Or.inl ⟨hl20, merge_at_done_same hdn⟩
              · rw [if_neg hl20] at e
                by_cases hle : ri.len - k ≤ l2
                · rw [if_pos hle] at e
                  refine Or.inr (Or.inl ⟨hl20, hle, ?_⟩)
                  by_cases hcap : ri.len - k > self.max_merge_size
                  · rw [if_pos hcap] at e
                    cases hm : merge_lo cmp self (ri.base + (ri.len - self.max_merge_size))
                        self.max_merge_size ri1.base l2 with
                    | none => simp [hm] at e
                    | some s1 =>
                      simp only [hm] at e
                      split at e
                      · simp only [Option.some.injEq, Prod.mk.injEq] at e
                        obtain ⟨rfl, _⟩ := e
                        refine ⟨ri.base + (ri.len - self.max_merge_size), s1, ?_, rfl, rfl,
                          rfl⟩
                        rw [Nat.min_eq_left (by omega)]
                        exact hm
                      · simp at e
                  · rw [if_neg hcap] at e
                    cases hm : merge_lo cmp self (ri.base + k) (ri.len - k) ri1.base l2 with
                    | none => simp [hm] at e
                    | some s1 =>
                      simp only [hm] at e
                      cases hdn : merge_at_done s1 i with
                      | none => simp [hdn] at e
                      | some s2 =>
                        simp only [hdn, Option.some.injEq, Prod.mk.injEq] at e
                        obtain ⟨rfl, _⟩ := e
                        refine ⟨ri.base + k, s1, ?_, merge_at_done_same hdn⟩
                        rw [Nat.min_eq_right (by omega)]
                        exact hm
                · rw [if_neg hle] at e
                  refine Or.inr (Or.inr ⟨hl20, by omega, ?_⟩)
                  by_cases hcap : l2 > self.max_merge_size
                  · rw [if_pos hcap] at e
                    cases hm : merge_hi cmp self (ri.base + k) (ri.len - k) ri1.base
                        self.max_merge_size with
                    | none => simp [hm] at e
                    | some s1 =>
                      simp only [hm] at e
                      split at e
                      · simp only [Option.some.injEq, Prod.mk.injEq] at e
                        obtain ⟨rfl, _⟩ := e
                        refine ⟨s1, ?_, rfl, rfl, rfl⟩
                        rw [Nat.min_eq_left (by omega)]
                        exact hm
                      · simp at e
                  · rw [if_neg hcap] at e
                    cases hm : merge_hi cmp self (ri.base + k) (ri.len - k) ri1.base l2 with
                    | none => simp [hm] at e
                    | some s1 =>
                      simp only [hm] at e
                      cases hdn : merge_at_done s1 i with
                      | none => simp [hdn] at e
                      | some s2 =>
                        simp only [hdn, Option.some.injEq, Prod.mk.injEq] at e
                        obtain ⟨rfl, _⟩ := e
                        refine ⟨s1, ?_, merge_at_done_same hdn⟩
                        rw [Nat.min_eq_right (by omega)]
                        exact hm
  · simp at e

/-- After `gtk_tim_sort_ensure_capacity (self, c)` the scratch array holds `c`
elements at least and is not smaller than it was. -/
theorem ensure_capacity_le (self : GtkTimSort α) (c : Nat) (hc : c < GSIZE_MOD) :
    c ≤ (gtk_tim_sort_ensure_capacity self c).tmp_length ∧
      self.tmp_length ≤ (gtk_tim_sort_ensure_capacity self c).tmp_length := by
  by_cases hlt : self.tmp_length < c
  · rw [ensure_capacity_grow self c hc hlt]
    have h2 : c < 2 ^ (c.log2 + 1) := Nat.lt_log2_self
    split <;> omega
  · unfold gtk_tim_sort_ensure_capacity
    rw [if_neg hlt]
    omega

/-- A call of `merge_at` does not shrink the scratch array. -/
theorem merge_at_tmp_length_le {cmp : α → α → Int} {self s' : GtkTimSort α}
    {oc oc' : Option GtkTimSortChange} {i : Nat} (h64 : self.mem.length < GSIZE_MOD)
    (e : merge_at cmp self i oc = some (s', oc')) : self.tmp_length ≤ s'.tmp_length := by
  obtain ⟨ri, ri1, key2, k, _, _, _, _, hc⟩ := merge_at_calls e
  rcases hc with ⟨_, _, h, _⟩ | ⟨_, key1, l2, _, _, _, hc⟩
  · omega
  · rcases hc with ⟨_, _, h, _⟩ | ⟨_, _, b1, s1, hm, _, h, _⟩ | ⟨_, _, s1, hm, _, h, _⟩
    · omega
    · obtain ⟨_, _, _, hb⟩ := merge_lo_copy hm
      have := (ensure_capacity_le self (min self.max_merge_size (ri.len - k)) (by omega)).2
      rw [h, (merge_lo_scratch hm).1]
      exact this
    · obtain ⟨_, _, _, hb⟩ := merge_hi_copy hm
      have := (ensure_capacity_le self (min self.max_merge_size l2) (by omega)).2
      rw [h, (merge_hi_scratch hm).1]
      exact this

/-- A call of `gtk_tim_sort_step` does not shrink the scratch array. -/
theorem step_tmp_length_le {cmp : α → α → Int} {self s' : GtkTimSort α}
    {oc oc' : Option GtkTimSortChange} {b : Bool} (hp : self.pending_runs < GSIZE_MOD)
    (h64 : self.mem.length < GSIZE_MOD)
    (e : gtk_tim_sort_step cmp self oc = some (b, s', oc')) :
    self.tmp_length ≤ s'.tmp_length := by
  rcases step_move hp (gtk_tim_sort_step_move e) with ⟨_, h, _⟩ | ⟨_, _, _, ⟨n, hn⟩, _⟩ |
    ⟨_, _, _, _, ha⟩ | ⟨_, _, _, _, _, ⟨n, hn⟩, _⟩
  · rw [h]
  · exact merge_at_tmp_length_le h64 hn
  · obtain ⟨r, mem1, oc1, mem2, len, _, _, _, _, e2⟩ := merge_append_push ha
    rw [e2]
  · exact merge_at_tmp_length_le h64 hn

/-- C37: after `gtk_tim_sort_ensure_capacity (self, c)` the capacity `tmp_length` is
at least `c`.  It is unchanged when it was at least `c` already; otherwise it is the
smallest power of two greater than `c`, or `c` itself when that power of two does
not fit `gsize`.  Hence no call of `gtk_tim_sort_step` in a sort lowers
`tmp_length`. -/
theorem scratch_capacity_growth (self : GtkTimSort α) (c : Nat) (hc : c < GSIZE_MOD) :
    c ≤ (gtk_tim_sort_ensure_capacity self c).tmp_length ∧
      (c ≤ self.tmp_length → gtk_tim_sort_ensure_capacity self c = self) ∧
      (self.tmp_length < c → ∃ e, c < 2 ^ e ∧ (∀ e', c < 2 ^ e' → e ≤ e') ∧
        (gtk_tim_sort_ensure_capacity self c).tmp_length =
          if 2 ^ e < GSIZE_MOD then 2 ^ e else c) ∧
      self.tmp_length ≤ (gtk_tim_sort_ensure_capacity self c).tmp_length ∧
      (∀ (cmp : α → α → Int) (base : List α) (size element_size : Nat) (s s' : GtkTimSort α)
        (oc oc' : Option GtkTimSortChange) (b : Bool), base.length = size →
        size < GSIZE_MOD → Reachable cmp base size element_size s →
        gtk_tim_sort_step cmp s oc = some (b, s', oc') → s.tmp_length ≤ s'.tmp_length) := by
  refine ⟨(ensure_capacity_le self c hc).1, ?_, ?_, (ensure_capacity_le self c hc).2, ?_⟩
  · intro hle
    unfold gtk_tim_sort_ensure_capacity
    rw [if_neg (by omega)]
  · intro hlt
    refine ⟨c.log2 + 1, Nat.lt_log2_self, ?_, ensure_capacity_grow self c hc hlt⟩
    intro e' he'
    have h1 : 2 ^ c.log2 ≤ c := Nat.log2_self_le (by omega)
    have h2 : 2 ^ c.log2 < 2 ^ e' := Nat.lt_of_le_of_lt h1 he'
    have := (Nat.pow_lt_pow_iff_right (by decide : 1 < 2)).1 h2
    omega
  · intro cmp base size element_size s s' oc oc' b hlen h64 hr e
    have hms := reachable_memorySafe cmp hlen h64 hr
    have hp := (memorySafe_pending hms).1
    have hl : s.mem.length < GSIZE_MOD := by
      rw [hms.2.1.length_eq]
      exact hms.2.2.2
    exact step_tmp_length_le hp hl e

theorem scratch_capacity_growth_witness :
    2 ≤ (gtk_tim_sort_ensure_capacity two_runs_pushed 2).tmp_length ∧
      (2 ≤ two_runs_pushed.tmp_length →
        gtk_tim_sort_ensure_capacity two_runs_pushed 2 = two_runs_pushed) ∧
      (two_runs_pushed.tmp_length < 2 → ∃ e, 2 < 2 ^ e ∧ (∀ e', 2 < 2 ^ e' → e ≤ e') ∧
        (gtk_tim_sort_ensure_capacity two_runs_pushed 2).tmp_length =
          if 2 ^ e < GSIZE_MOD then 2 ^ e else 2) ∧
      two_runs_pushed.tmp_length ≤ (gtk_tim_sort_ensure_capacity two_runs_pushed 2).tmp_length ∧
      (∀ (cmp : Int → Int → Int) (base : List Int) (size element_size : Nat)
        (s s' : GtkTimSort Int) (oc oc' : Option GtkTimSortChange) (b : Bool),
        base.length = size → size < GSIZE_MOD → Reachable cmp base size element_size s →
        gtk_tim_sort_step cmp s oc = some (b, s', oc') → s.tmp_length ≤ s'.tmp_length) :=
  scratch_capacity_growth two_runs_pushed 2 (by decide)

/-- Two neighbours of the run stack hold no more elements than the array. -/
theorem pair_len_le {input : List α} {s : GtkTimSort α} (hR : MemorySafe input s)
    {pre post : List GtkTimSortRun} {ri ri1 : GtkTimSortRun}
    (hrun : s.run = pre ++ ri :: ri1 :: post) : ri.len + ri1.len ≤ input.length := by
  have h := (memorySafe_pending hR).2
  unfold stack_lens at h
  rw [List.sum_reverse, hrun] at h
  simp only [List.map_append, List.map_cons, List.sum_append, List.sum_cons] at h
  omega

/-- C38: in a sort of `size` elements, a call of `merge_at` trims the two runs with
`gallop_right` and `gallop_left` and, unless a trimmed run is empty, makes one call
of `merge_lo` or of `merge_hi` on `c` elements of the shorter trimmed run.  That
call asks `gtk_tim_sort_ensure_capacity` for `c` elements and copies `c` elements to
`tmp`; `c` is at most the length of either trimmed run, at most `max_merge_size`
and at most `size / 2`. -/
theorem scratch_demand_bounded (cmp : α → α → Int) (base : List α)
    (size element_size : Nat) (hlen : base.length = size) (h64 : size < GSIZE_MOD)
    (self s' : GtkTimSort α) (hr : Reachable cmp base size element_size self)
    (oc oc' : Option GtkTimSortChange) (i : Nat)
    (e : merge_at cmp self i oc = some (s', oc')) :
    ∃ ri ri1 key2 k, self.run[i]? = some ri ∧ self.run[i + 1]? = some ri1 ∧
      load self.mem ri1.base = some key2 ∧
      gallop_right cmp key2 self.mem ri.base ri.len 0 = some k ∧
      ((ri.len - k = 0 ∧ s'.tmp_length = self.tmp_length) ∨
        ∃ key1 l2, load self.mem (ri.base + k + (ri.len - k - 1)) = some key1 ∧
          gallop_left cmp key1 self.mem ri1.base ri1.len (ri1.len - 1) = some l2 ∧
          ((l2 = 0 ∧ s'.tmp_length = self.tmp_length) ∨
            ∃ c s1 tmp, c = min self.max_merge_size (min (ri.len - k) l2) ∧
              ((ri.len - k ≤ l2 ∧ ∃ b1, merge_lo cmp self b1 c ri1.base l2 = some s1 ∧
                  memcpy_tmp self.mem b1 c = some tmp) ∨
                (l2 < ri.len - k ∧
                  merge_hi cmp self (ri.base + k) (ri.len - k) ri1.base c = some s1 ∧
                  memcpy_tmp self.mem ri1.base c = some tmp)) ∧
              s1.tmp_length = (gtk_tim_sort_ensure_capacity self c).tmp_length ∧
              s'.tmp_length = s1.tmp_length ∧ tmp.length = c ∧ 0 < c ∧
              c ≤ ri.len - k ∧ c ≤ l2 ∧ c ≤ self.max_merge_size ∧ c ≤ size / 2)) := by
  have hms := reachable_memorySafe cmp hlen h64 hr
  have hp := (memorySafe_pending hms).1
  obtain ⟨pre, qi, qi1, post, hrun, hi, _⟩ := merge_at_index hp e
  have hpair := pair_len_le hms hrun
  obtain ⟨ri, ri1, key2, k, g1, g2, g3, g4, hc⟩ := merge_at_calls e
  subst hi
  rw [hrun, getElem?_pre] at g1
  rw [hrun, getElem?_pre_succ] at g2
  simp only [Option.some.injEq] at g1 g2
  subst g1
  subst g2
  have hm1 := hms.2.2.1
  refine ⟨qi, qi1, key2, k, by rw [hrun, getElem?_pre], by rw [hrun, getElem?_pre_succ],
    g3, g4, ?_⟩
  rcases hc with ⟨h0, _, h, _⟩ | ⟨h0, key1, l2, g5, g6, hl2, hc⟩
  · exact Or.inl ⟨h0, h⟩
  · refine Or.inr ⟨key1, l2, g5, g6, ?_⟩
    rcases hc with ⟨h1, _, h, _⟩ | ⟨h1, hle, b1, s1, hm, _, h, _⟩ | ⟨h1, hlt, s1, hm, _, h, _⟩
    · exact Or.inl ⟨h1, h⟩
    · obtain ⟨tmp, ht, htl, _⟩ := merge_lo_copy hm
      have hmin : min self.max_merge_size (min (qi.len - k) l2) =
          min self.max_merge_size (qi.len - k) := by rw [Nat.min_eq_left hle]
      refine Or.inr ⟨_, s1, tmp, rfl, Or.inl ⟨hle, b1, ?_, ?_⟩, ?_, h, ?_, ?_, ?_, ?_, ?_, ?_⟩
      · rw [hmin]
        exact hm
      · rw [hmin]
        exact ht
      · rw [hmin]
        exact (merge_lo_scratch hm).1
      · rw [hmin]
        exact htl
      · omega
      · omega
      · omega
      · omega
      · rw [← hlen]
        omega
    · obtain ⟨tmp, ht, htl, _⟩ := merge_hi_copy hm
      have hmin : min self.max_merge_size (min (qi.len - k) l2) =
          min self.max_merge_size l2 := by rw [Nat.min_eq_right (Nat.le_of_lt hlt)]
      refine Or.inr ⟨_, s1, tmp, rfl, Or.inr ⟨hlt, ?_, ?_⟩, ?_, h, ?_, ?_, ?_, ?_, ?_, ?_⟩
      · rw [hmin]
        exact hm
      · rw [hmin]
        exact ht
      · rw [hmin]
        exact (merge_hi_scratch hm).1
      · rw [hmin]
        exact htl
      · omega
      · omega
      · omega
      · omega
      · rw [← hlen]
        omega

/-- The two steps that push the two runs of `two_runs_input`. -/
theorem two_runs_pushed_reachable :
    Reachable int_cmp two_runs_input 32 4 two_runs_pushed :=
  Reachable.step two_runs_first two_runs_pushed none none true
    (Reachable.step _ two_runs_first none none true Reachable.init (by decide)) (by decide)

theorem scratch_demand_bounded_witness :
    Reachable int_cmp two_runs_input 32 4 two_runs_pushed ∧
      merge_at int_cmp two_runs_pushed 0 none = some (two_runs_merged, none) ∧
      (∃ ri ri1 key2 k, two_runs_pushed.run[0]? = some ri ∧ two_runs_pushed.run[0 + 1]? = some ri1 ∧
      load two_runs_pushed.mem ri1.base = some key2 ∧
      gallop_right int_cmp key2 two_runs_pushed.mem ri.base ri.len 0 = some k ∧
      ((ri.len - k = 0 ∧ two_runs_merged.tmp_length = two_runs_pushed.tmp_length) ∨
        ∃ key1 l2, load two_runs_pushed.mem (ri.base + k + (ri.len - k - 1)) = some key1 ∧
          gallop_left int_cmp key1 two_runs_pushed.mem ri1.base ri1.len (ri1.len - 1) = some l2 ∧
          ((l2 = 0 ∧ two_runs_merged.tmp_length = two_runs_pushed.tmp_length) ∨
            ∃ c s1 tmp, c = min two_runs_pushed.max_merge_size (min (ri.len - k) l2) ∧
              ((ri.len - k ≤ l2 ∧ ∃ b1, merge_lo int_cmp two_runs_pushed b1 c ri1.base l2 = some s1 ∧
                  memcpy_tmp two_runs_pushed.mem b1 c = some tmp) ∨
                (l2 < ri.len - k ∧
                  merge_hi int_cmp two_runs_pushed (ri.base + k) (ri.len - k) ri1.base c = some s1 ∧
                  memcpy_tmp two_runs_pushed.mem ri1.base c = some tmp)) ∧
              s1.tmp_length = (gtk_tim_sort_ensure_capacity two_runs_pushed c).tmp_length ∧
              two_runs_merged.tmp_length = s1.tmp_length ∧ tmp.length = c ∧ 0 < c ∧
              c ≤ ri.len - k ∧ c ≤ l2 ∧ c ≤ two_runs_pushed.max_merge_size ∧ c ≤ 32 / 2))) :=
  ⟨two_runs_pushed_reachable, by decide,
    scratch_demand_bounded int_cmp two_runs_input 32 4 rfl (by decide) two_runs_pushed
      two_runs_merged two_runs_pushed_reachable none none 0 (by decide)⟩

/-! ## The galloping threshold -/

/-- The one-at-a-time loop of `merge_lo` leaves `min_gallop` alone. -/
theorem merge_lo_linear_min_gallop (cmp : α → α → Int) (tmp : List α) :
    ∀ (fuel : Nat) (v : MergeLo α) (c1 c2 : Nat) (b : Bool) (v' : MergeLo α),
      merge_lo_linear cmp tmp fuel v c1 c2 = some (b, v') → v'.min_gallop = v.min_gallop := by
  intro fuel
  induction fuel with
  | zero =>
    intro v c1 c2 b v' e
    simp [merge_lo_linear] at e
  | succ f ih =>
    intro v c1 c2 b v' e
    rw [merge_lo_linear] at e
    repeat' first | split at e | (dsimp only at e; split at e)
    all_goals first
      | (simp only [Option.some.injEq, Prod.mk.injEq] at e
         obtain ⟨_, rfl⟩ := e
         rfl)
      | exact (ih _ _ _ _ _ e).trans rfl
      | (simp at e)

/-- The one-at-a-time loop of `merge_hi` leaves `min_gallop` alone. -/
theorem merge_hi_linear_min_gallop (cmp : α → α → Int) (tmp : List α) :
    ∀ (fuel : Nat) (v : MergeHi α) (c1 c2 : Nat) (b : Bool) (v' : MergeHi α),
      merge_hi_linear cmp tmp fuel v c1 c2 = some (b, v') → v'.min_gallop = v.min_gallop := by
  intro fuel
  induction fuel with
  | zero =>
    intro v c1 c2 b v' e
    simp [merge_hi_linear] at e
  | succ f ih =>
    intro v c1 c2 b v' e
    rw [merge_hi_linear] at e
    repeat' first | split at e | (dsimp only at e; split at e)
    all_goals first
      | (simp only [Option.some.injEq, Prod.mk.injEq] at e
         obtain ⟨_, rfl⟩ := e
         rfl)
      | exact (ih _ _ _ _ _ e).trans rfl
      | (simp at e)

theorem merge_lo_copy1_min_gallop {tmp : List α} {v v1 : MergeLo α} {k : Nat}
    (e : merge_lo_copy1 tmp v k = some v1) : v1.min_gallop = v.min_gallop := by
  unfold merge_lo_copy1 at e
  repeat' first | split at e | (dsimp only at e; split at e)
  all_goals first
    | (simp only [Option.some.injEq] at e
       subst e
       rfl)
    | (simp at e)

theorem merge_lo_copy2_min_gallop {v v1 : MergeLo α} {k : Nat}
    (e : merge_lo_copy2 v k = some v1) : v1.min_gallop = v.min_gallop := by
  unfold merge_lo_copy2 at e
  repeat' first | split at e | (dsimp only at e; split at e)
  all_goals first
    | (simp only [Option.some.injEq] at e
       subst e
       rfl)
    | (simp at e)

theorem merge_hi_move1_min_gallop {v v1 : MergeHi α} {k : Nat}
    (e : merge_hi_move1 v k = some v1) : v1.min_gallop = v.min_gallop := by
  unfold merge_hi_move1 at e
  repeat' first | split at e | (dsimp only at e; split at e)
  all_goals first
    | (simp only [Option.some.injEq] at e
       subst e
       rfl)
    | (simp at e)

theorem merge_hi_move2_min_gallop {tmp : List α} {v v1 : MergeHi α} {k : Nat}
    (e : merge_hi_move2 tmp v k = some v1) : v1.min_gallop = v.min_gallop := by
  unfold merge_hi_move2 at e
  repeat' first | split at e | (dsimp only at e; split at e)
  all_goals first
    | (simp only [Option.some.injEq] at e
       subst e
       rfl)
    | (simp at e)

/-- One round of the galloping loop of `merge_lo`: left by `goto outer` it leaves
`min_gallop` alone; completed, it takes one off `min_gallop`, unless that is 0, and
the loop ends or goes on with another round. -/
theorem merge_lo_gallop_round (cmp : α → α → Int) (tmp : List α) (fuel : Nat)
    (v : MergeLo α) (b : Bool) (v' : MergeLo α)
    (e : merge_lo_gallop cmp tmp (fuel + 1) v = some (b, v')) :
    (b = true ∧ v'.min_gallop = v.min_gallop) ∨
      ∃ v5, v5.min_gallop = v.min_gallop - 1 ∧
        ((b = false ∧ v' = v5) ∨ merge_lo_gallop cmp tmp fuel v5 = some (b, v')) := by
  rw [merge_lo_gallop] at e
  split at e
  · cases hk : load v.mem v.cursor2 with
    | none => simp [hk] at e
    | some key2 =>
    simp only [hk] at e
    cases hg : gallop_right cmp key2 tmp v.cursor1 v.len1 0 with
    | none => simp [hg] at e
    | some count1 =>
    simp only [hg] at e
    cases hc1 : merge_lo_copy1 tmp v count1 with
    | none => simp [hc1] at e
    | some v1 =>
    simp only [hc1] at e
    have m1 := merge_lo_copy1_min_gallop hc1
    split at e
    · simp only [Option.some.injEq, Prod.mk.injEq] at e
      obtain ⟨rfl, rfl⟩ := e
      exact Or.inl ⟨rfl, m1⟩
    · cases ha : ASSIGN v1.mem v1.dest v1.mem v1.cursor2 with
      | none => simp [ha] at e
      | some mem2 =>
      simp only [ha] at e
      split at e
      · simp only [Option.some.injEq, Prod.mk.injEq] at e
        obtain ⟨rfl, rfl⟩ := e
        exact Or.inl ⟨rfl, m1⟩
      · cases hk1 : load tmp v1.cursor1 with
        | none => simp [hk1] at e
        | some key1 =>
        simp only [hk1] at e
        cases hg2 : gallop_left cmp key1 mem2 (v1.cursor2 + 1) (v1.len2 - 1) 0 with
        | none => simp [hg2] at e
        | some count2 =>
        simp only [hg2] at e
        split at e
        · simp at e
        rename_i v3 hc2
        have m3 : v3.min_gallop = v.min_gallop := (merge_lo_copy2_min_gallop hc2).trans m1
        split at e
        · simp only [Option.some.injEq, Prod.mk.injEq] at e
          obtain ⟨rfl, rfl⟩ := e
          exact Or.inl ⟨rfl, m3⟩
        · cases ha2 : ASSIGN v3.mem v3.dest tmp v3.cursor1 with
          | none => simp [ha2] at e
          | some mem4 =>
          simp only [ha2] at e
          split at e
          · simp only [Option.some.injEq, Prod.mk.injEq] at e
            obtain ⟨rfl, rfl⟩ := e
            exact Or.inl ⟨rfl, m3⟩
          · generalize hv5 : (ite (v3.min_gallop > 0) _ _ : MergeLo α) = v5 at e
            have m5 : v5.min_gallop = v.min_gallop - 1 := by
              rw [← hv5, ← m3]
              split
              · rfl
              · dsimp only
                omega
            refine Or.inr ⟨v5, m5, ?_⟩
            split at e
            · exact Or.inr e
            · simp only [Option.some.injEq, Prod.mk.injEq] at e
              obtain ⟨rfl, rfl⟩ := e
              exact Or.inl ⟨rfl, rfl⟩
  · simp at e

/-- One round of the galloping loop of `merge_hi`: left by `goto outer` it leaves
`min_gallop` alone; completed, it takes one off `min_gallop`, unless that is 0, and
the loop ends or goes on with another round. -/
theorem merge_hi_gallop_round (cmp : α → α → Int) (tmp : List α) (base1 fuel : Nat)
    (v : MergeHi α) (b : Bool) (v' : MergeHi α)
    (e : merge_hi_gallop cmp tmp base1 (fuel + 1) v = some (b, v')) :
    (b = true ∧ v'.min_gallop = v.min_gallop) ∨
      ∃ v5, v5.min_gallop = v.min_gallop - 1 ∧
        ((b = false ∧ v' = v5) ∨ merge_hi_gallop cmp tmp base1 fuel v5 = some (b, v')) := by
  rw [merge_hi_gallop] at e
  split at e
  · split at e
    · simp at e
    rename_i key2 hk
    split at e
    · simp at e
    rename_i k1 hg
    try dsimp only at e
    split at e
    · simp at e
    rename_i v1 hc1
    have m1 := merge_hi_move1_min_gallop hc1
    split at e
    · simp only [Option.some.injEq, Prod.mk.injEq] at e
      obtain ⟨rfl, rfl⟩ := e
      exact Or.inl ⟨rfl, m1⟩
    · split at e
      · simp at e
      rename_i mem2 ha
      try dsimp only at e
      split at e
      · simp only [Option.some.injEq, Prod.mk.injEq] at e
        obtain ⟨rfl, rfl⟩ := e
        exact Or.inl ⟨rfl, m1⟩
      · split at e
        · simp at e
        rename_i key1 hk1
        split at e
        · simp at e
        rename_i k2 hg2
        try dsimp only at e
        split at e
        · simp at e
        rename_i v3 hc2
        have m3 : v3.min_gallop = v.min_gallop := (merge_hi_move2_min_gallop hc2).trans m1
        split at e
        · simp only [Option.some.injEq, Prod.mk.injEq] at e
          obtain ⟨rfl, rfl⟩ := e
          exact Or.inl ⟨rfl, m3⟩
        · split at e
          · simp at e
          rename_i mem4 ha2
          try dsimp only at e
          split at e
          · simp only [Option.some.injEq, Prod.mk.injEq] at e
            obtain ⟨rfl, rfl⟩ := e
            exact Or.inl ⟨rfl, m3⟩
          · generalize hv5 : (ite (v3.min_gallop > 0) _ _ : MergeHi α) = v5 at e
            have m5 : v5.min_gallop = v.min_gallop - 1 := by
              rw [← hv5, ← m3]
              split
              · rfl
              · dsimp only
                omega
            refine Or.inr ⟨v5, m5, ?_⟩
            split at e
            · exact Or.inr e
            · simp only [Option.some.injEq, Prod.mk.injEq] at e
              obtain ⟨rfl, rfl⟩ := e
              exact Or.inl ⟨rfl, rfl⟩
  · simp at e

/-- One round of the loop `while (TRUE)` of `merge_lo`: the one-at-a-time loop, then,
unless that was left by `goto outer`, the galloping loop, then, unless that was left
by `goto outer`, another round with `min_gallop` raised by 2. -/
theorem merge_lo_outer_round (cmp : α → α → Int) (tmp : List α) (fuel : Nat)
    (v v' : MergeLo α) (e : merge_lo_outer cmp tmp (fuel + 1) v = some v') :
    ∃ b1 v1, merge_lo_linear cmp tmp (v.len1 + v.len2) v 0 0 = some (b1, v1) ∧
      ((b1 = true ∧ v' = v1) ∨
        (b1 = false ∧ ∃ b2 v2,
          merge_lo_gallop cmp tmp (v1.len1 + v1.len2) v1 = some (b2, v2) ∧
          ((b2 = true ∧ v' = v2) ∨
            (b2 = false ∧
              merge_lo_outer cmp tmp fuel { v2 with min_gallop := v2.min_gallop + 2 } =
                some v')))) := by
  rw [merge_lo_outer] at e
  split at e
  · simp at e
  · rename_i v1 h1
    simp only [Option.some.injEq] at e
    exact ⟨true, v1, h1, Or.inl ⟨rfl, e.symm⟩⟩
  · rename_i v1 h1
    refine ⟨false, v1, h1, Or.inr ⟨rfl, ?_⟩⟩
    split at e
    · simp at e
    · rename_i v2 h2
      simp only [Option.some.injEq] at e
      exact ⟨true, v2, h2, Or.inl ⟨rfl, e.symm⟩⟩
    · rename_i v2 h2
      exact ⟨false, v2, h2, Or.inr ⟨rfl, e⟩⟩

/-- One round of the loop `while (TRUE)` of `merge_hi`: the one-at-a-time loop, then,
unless that was left by `goto outer`, the galloping loop, then, unless that was left
by `goto outer`, another round with `min_gallop` raised by 2. -/
theorem merge_hi_outer_round (cmp : α → α → Int) (tmp : List α) (base1 fuel : Nat)
    (v v' : MergeHi α) (e : merge_hi_outer cmp tmp base1 (fuel + 1) v = some v') :
    ∃ b1 v1, merge_hi_linear cmp tmp (v.len1 + v.len2) v 0 0 = some (b1, v1) ∧
      ((b1 = true ∧ v' = v1) ∨
        (b1 = false ∧ ∃ b2 v2,
          merge_hi_gallop cmp tmp base1 (v1.len1 + v1.len2) v1 = some (b2, v2) ∧
          ((b2 = true ∧ v' = v2) ∨
            (b2 = false ∧
              merge_hi_outer cmp tmp base1 fuel { v2 with min_gallop := v2.min_gallop + 2 } =
                some v')))) := by
  rw [merge_hi_outer] at e
  split at e
  · simp at e
  · rename_i v1 h1
    simp only [Option.some.injEq] at e
    exact ⟨true, v1, h1, Or.inl ⟨rfl, e.symm⟩⟩
  · rename_i v1 h1
    refine ⟨false, v1, h1, Or.inr ⟨rfl, ?_⟩⟩
    split at e
    · simp at e
    · rename_i v2 h2
      simp only [Option.some.injEq] at e
      exact ⟨true, v2, h2, Or.inl ⟨rfl, e.symm⟩⟩
    · rename_i v2 h2
      exact ⟨false, v2, h2, Or.inr ⟨rfl, e⟩⟩

/-- A call of `merge_at` leaves `min_gallop` as it was or at least 1. -/
theorem merge_at_min_gallop {cmp : α → α → Int} {self s' : GtkTimSort α}
    {oc oc' : Option GtkTimSortChange} {i : Nat}
    (e : merge_at cmp self i oc = some (s', oc')) :
    s'.min_gallop = self.min_gallop ∨ 1 ≤ s'.min_gallop := by
  obtain ⟨ri, ri1, key2, k, _, _, _, _, hc⟩ := merge_at_calls e
  rcases hc with ⟨_, _, _, h⟩ | ⟨_, key1, l2, _, _, _, hc⟩
  · exact Or.inl h
  · rcases hc with ⟨_, _, _, h⟩ | ⟨_, _, b1, s1, hm, _, _, h⟩ | ⟨_, _, s1, hm, _, _, h⟩
    · exact Or.inl h
    · rw [h]
      exact (merge_lo_scratch hm).2
    · rw [h]
      exact (merge_hi_scratch hm).2

/-- A call of `gtk_tim_sort_step` leaves `min_gallop` as it was or at least 1. -/
theorem step_min_gallop {cmp : α → α → Int} {self s' : GtkTimSort α}
    {oc oc' : Option GtkTimSortChange} {b : Bool} (hp : self.pending_runs < GSIZE_MOD)
    (e : gtk_tim_sort_step cmp self oc = some (b, s', oc')) :
    s'.min_gallop = self.min_gallop ∨ 1 ≤ s'.min_gallop := by
  rcases step_move hp (gtk_tim_sort_step_move e) with ⟨_, h, _⟩ | ⟨_, _, _, ⟨n, hn⟩, _⟩ |
    ⟨_, _, _, _, ha⟩ | ⟨_, _, _, _, _, ⟨n, hn⟩, _⟩
  · rw [h]
    exact Or.inl rfl
  · exact merge_at_min_gallop hn
  · obtain ⟨r, mem1, oc1, mem2, len, _, _, _, _, e2⟩ := merge_append_push ha
    rw [e2]
    exact Or.inl rfl
  · exact merge_at_min_gallop hn

/-- In every state of a sort `min_gallop` is at least 1. -/
theorem reachable_min_gallop (cmp : α → α → Int) {base : List α} {size element_size : Nat}
    (hlen : base.length = size) (h64 : size < GSIZE_MOD) {s : GtkTimSort α}
    (hr : Reachable cmp base size element_size s) : 1 ≤ s.min_gallop := by
  induction hr with
  | init => exact (by decide : 1 ≤ 7)
  | set_max s m _ ih => exact ih
  | step s s' oc oc' b hr e ih =>
    have hms := reachable_memorySafe cmp hlen h64 hr
    rcases step_min_gallop (memorySafe_pending hms).1 e with h | h
    · rw [h]
      exact ih
    · exact h

/-- C40: `gtk_tim_sort_init` sets `min_gallop` to 7, and `min_gallop` is at least 1
in every state of a sort.  A call of `merge_lo` or `merge_hi` that finds it at least 1
leaves it at least 1: the call stores nothing on the two paths that return before the
loop, and otherwise stores the value of its local variable, or 1 when that is 0.
The local variable starts as the stored value and changes in two places only: a
completed round of the galloping loop takes 1 off it, unless it is 0, and every
return from the galloping loop to the outer loop adds 2; the one-at-a-time loop and
a round left by `goto outer` do not change it. -/
theorem min_gallop_stays_positive (cmp : α → α → Int) :
    (∀ (base : List α) (size element_size : Nat),
      (gtk_tim_sort_init base size element_size).min_gallop = 7) ∧
      (∀ (base : List α) (size element_size : Nat) (s : GtkTimSort α), base.length = size →
        size < GSIZE_MOD → Reachable cmp base size element_size s → 1 ≤ s.min_gallop) ∧
      (∀ (self s' : GtkTimSort α) (base1 len1 base2 len2 : Nat),
        merge_lo cmp self base1 len1 base2 len2 = some s' →
        (1 ≤ self.min_gallop → 1 ≤ s'.min_gallop) ∧
        (s'.min_gallop = self.min_gallop ∨
          ∃ tmp fuel v0 v, v0.min_gallop = self.min_gallop ∧
            merge_lo_outer cmp tmp fuel v0 = some v ∧ s'.min_gallop = max 1 v.min_gallop)) ∧
      (∀ (self s' : GtkTimSort α) (base1 len1 base2 len2 : Nat),
        merge_hi cmp self base1 len1 base2 len2 = some s' →
        (1 ≤ self.min_gallop → 1 ≤ s'.min_gallop) ∧
        (s'.min_gallop = self.min_gallop ∨
          ∃ tmp fuel v0 v, v0.min_gallop = self.min_gallop ∧
            merge_hi_outer cmp tmp base1 fuel v0 = some v ∧
            s'.min_gallop = max 1 v.min_gallop)) ∧
      (∀ (tmp : List α) (fuel : Nat) (v : MergeLo α) (c1 c2 : Nat) (b : Bool) (v' : MergeLo α),
        merge_lo_linear cmp tmp fuel v c1 c2 = some (b, v') →
        v'.min_gallop = v.min_gallop) ∧
      (∀ (tmp : List α) (fuel : Nat) (v : MergeLo α) (b : Bool) (v' : MergeLo α),
        merge_lo_gallop cmp tmp (fuel + 1) v = some (b, v') →
        (b = true ∧ v'.min_gallop = v.min_gallop) ∨
          ∃ v5, v5.min_gallop = v.min_gallop - 1 ∧
            ((b = false ∧ v' = v5) ∨ merge_lo_gallop cmp tmp fuel v5 = some (b, v'))) ∧
      (∀ (tmp : List α) (fuel : Nat) (v v' : MergeLo α),
        merge_lo_outer cmp tmp (fuel + 1) v = some v' →
        ∃ b1 v1, merge_lo_linear cmp tmp (v.len1 + v.len2) v 0 0 = some (b1, v1) ∧
          ((b1 = true ∧ v' = v1) ∨
            (b1 = false ∧ ∃ b2 v2,
              merge_lo_gallop cmp tmp (v1.len1 + v1.len2) v1 = some (b2, v2) ∧
              ((b2 = true ∧ v' = v2) ∨
                (b2 = false ∧
                  merge_lo_outer cmp tmp fuel { v2 with min_gallop := v2.min_gallop + 2 } =
                    some v'))))) ∧
      (∀ (tmp : List α) (fuel : Nat) (v : MergeHi α) (c1 c2 : Nat) (b : Bool) (v' : MergeHi α),
        merge_hi_linear cmp tmp fuel v c1 c2 = some (b, v') →
        v'.min_gallop = v.min_gallop) ∧
      (∀ (tmp : List α) (base1 fuel : Nat) (v : MergeHi α) (b : Bool) (v' : MergeHi α),
        merge_hi_gallop cmp tmp base1 (fuel + 1) v = some (b, v') →
        (b = true ∧ v'.min_gallop = v.min_gallop) ∨
          ∃ v5, v5.min_gallop = v.min_gallop - 1 ∧
            ((b = false ∧ v' = v5) ∨ merge_hi_gallop cmp tmp base1 fuel v5 = some (b, v'))) ∧
      (∀ (tmp : List α) (base1 fuel : Nat) (v v' : MergeHi α),
        merge_hi_outer cmp tmp base1 (fuel + 1) v = some v' →
        ∃ b1 v1, merge_hi_linear cmp tmp (v.len1 + v.len2) v 0 0 = some (b1, v1) ∧
          ((b1 = true ∧ v' = v1) ∨
            (b1 = false ∧ ∃ b2 v2,
              merge_hi_gallop cmp tmp base1 (v1.len1 + v1.len2) v1 = some (b2, v2) ∧
              ((b2 = true ∧ v' = v2) ∨
                (b2 = false ∧
                  merge_hi_outer cmp tmp base1 fuel
                    { v2 with min_gallop := v2.min_gallop + 2 } = some v'))))) := by
  refine ⟨fun _ _ _ => rfl, fun base size es s hlen h64 hr => reachable_min_gallop cmp hlen h64 hr,
    ?_, ?_, merge_lo_linear_min_gallop cmp, merge_lo_gallop_round cmp,
    merge_lo_outer_round cmp, merge_hi_linear_min_gallop cmp, merge_hi_gallop_round cmp,
    merge_hi_outer_round cmp⟩
  · intro self s' base1 len1 base2 len2 e
    refine ⟨fun h1 => ?_, (merge_lo_write_back e).2⟩
    rcases (merge_lo_scratch e).2 with h | h
    · rw [h]
      exact h1
    · exact h
  · intro self s' base1 len1 base2 len2 e
    refine ⟨fun h1 => ?_, (merge_hi_write_back e).2⟩
    rcases (merge_hi_scratch e).2 with h | h
    · rw [h]
      exact h1
    · exact h

theorem two_runs_merged_reachable :
    Reachable int_cmp two_runs_input 32 4 two_runs_merged :=
  Reachable.step two_runs_pushed two_runs_merged none none true two_runs_pushed_reachable
    (by decide)

theorem min_gallop_stays_positive_witness :
    (gtk_tim_sort_init two_runs_input 32 4).min_gallop = 7 ∧
      Reachable int_cmp two_runs_input 32 4 two_runs_merged ∧
      1 ≤ two_runs_merged.min_gallop :=
  ⟨(min_gallop_stays_positive int_cmp).1 two_runs_input 32 4, two_runs_merged_reachable,
    (min_gallop_stays_positive int_cmp).2.1 two_runs_input 32 4 two_runs_merged rfl
      (by decide) two_runs_merged_reachable⟩

/-! ## Progress across a call that is not a partial merge -/

/-- One call of `step` on a sorter made of sorted runs: the progress estimate is
defined before and after the call, and it does not decrease unless the call is a
partial merge, which returns `TRUE` and leaves the number of pending runs as it
was. -/
theorem step_progress_unless_partial {cmp : α → α → Int} (h : TotalPreorder cmp)
    (self : GtkTimSort α) (oc : Option GtkTimSortChange) {segs : List (List α)}
    {tail : List α} (hL : Layout cmp self segs tail)
    (h64 : 4 * self.mem.length < GSIZE_MOD) (hmax : 1 ≤ self.max_merge_size) :
    ∃ b self' oc' p p', step cmp self oc = some (b, self', oc') ∧
      gtk_tim_sort_get_progress self = some p ∧
      gtk_tim_sort_get_progress self' = some p' ∧
      ((b = false ∨ self'.pending_runs ≠ self.pending_runs) → p ≤ p') := by
  have h64' : self.mem.length < GSIZE_MOD := by omega
  obtain ⟨b, self', oc', e, hsh⟩ := step_shape h self oc hL h64' hmax
  obtain ⟨_, e2, _, e4⟩ := layout_lens hL
  have key : ∃ p', gtk_tim_sort_get_progress self' = some p' ∧
      ((b = false ∨ self'.pending_runs ≠ self.pending_runs) →
        progress_of (segs.map List.length) ≤ p') := by
    rcases hsh with ⟨_, rfl⟩ | ⟨_, seg, rest, hlen, hL'⟩ | ⟨hb, pre, A, B, post, rfl, hpost, hc⟩
    · exact ⟨_, layout_progress hL h64, fun _ => Nat.le_refl _⟩
    · obtain ⟨_, e2', _, _⟩ := layout_lens hL'
      refine ⟨_, layout_progress hL' ?_, fun _ => ?_⟩
      · simp only [List.map_append, List.sum_append, List.map_cons, List.map_nil,
          List.sum_cons, List.sum_nil] at e2'
        omega
      · rw [List.map_append]
        exact progress_of_push _ _
    · rcases hc with ⟨C, hL', hs⟩ | ⟨C, D, hL', hCD, _⟩
      · obtain ⟨_, e2', _, _⟩ := layout_lens hL'
        have hC : C.length = A.length + B.length := by
          have := stable_length_eq hs
          rw [List.length_append] at this
          omega
        simp only [List.map_append, List.sum_append, List.map_cons, List.sum_cons] at e2 e2'
        refine ⟨_, layout_progress hL' (by omega), fun _ => ?_⟩
        simp only [List.map_append, List.map_cons, hC]
        exact progress_of_merge _ _ _ _ (by simpa using hpost)
      · obtain ⟨_, e2', _, e4'⟩ := layout_lens hL'
        simp only [List.map_append, List.sum_append, List.map_cons, List.sum_cons] at e2 e2'
        refine ⟨_, layout_progress hL' (by omega), fun hne => ?_⟩
        exfalso
        rcases hne with hf | hne
        · rw [hb] at hf
          exact Bool.noConfusion hf
        · apply hne
          rw [e4, e4']
          simp only [List.length_append, List.length_cons]
  obtain ⟨p', e', hle⟩ := key
  exact ⟨b, self', oc', _, p', e, layout_progress hL h64, e', hle⟩

/-- C14 (amended): for every state reachable from `gtk_tim_sort_init` on `size`
elements, with `4 * size` below `2 ^ 64`, and whatever its `max_merge_size`, a call
of `gtk_tim_sort_step` returns, `gtk_tim_sort_get_progress` has a value before and
after it, and the value after the call is greater than or equal to the value before
it unless the call is a partial merge: it is so whenever the call returns `FALSE` or
changes the number of pending runs, as a push of a run and a complete merge do. -/
theorem progress_monotone_unless_partial {cmp : α → α → Int} (h : TotalPreorder cmp)
    (base : List α) (size element_size : Nat) (hlen : base.length = size)
    (h64 : 4 * size < GSIZE_MOD) (s : GtkTimSort α)
    (hr : Reachable cmp base size element_size s) (oc : Option GtkTimSortChange) :
    ∃ b s' oc' p p', gtk_tim_sort_step cmp s oc = some (b, s', oc') ∧
      gtk_tim_sort_get_progress s = some p ∧ gtk_tim_sort_get_progress s' = some p' ∧
      ((b = false ∨ s'.pending_runs ≠ s.pending_runs) → p ≤ p') := by
  obtain ⟨⟨segs, tail, hL⟩, hst, hmax, _⟩ := reachable_resumable h hlen (by omega) hr
  have hm : s.mem.length = size := by rw [stable_length_eq hst, hlen]
  rw [gtk_tim_sort_step_eq]
  exact step_progress_unless_partial h s oc hL (by omega) hmax

theorem progress_monotone_unless_partial_witness :
    TotalPreorder int_cmp ∧ two_runs_input.length = 32 ∧ 4 * 32 < GSIZE_MOD ∧
      Reachable int_cmp two_runs_input 32 4 two_runs_pushed ∧
      ∃ b s' oc' p p', gtk_tim_sort_step int_cmp two_runs_pushed none = some (b, s', oc') ∧
        gtk_tim_sort_get_progress two_runs_pushed = some p ∧
        gtk_tim_sort_get_progress s' = some p' ∧
        ((b = false ∨ s'.pending_runs ≠ two_runs_pushed.pending_runs) → p ≤ p') :=
  ⟨int_cmp_total, rfl, by decide, two_runs_pushed_reachable,
    progress_monotone_unless_partial int_cmp_total two_runs_input 32 4 rfl (by decide) _
      two_runs_pushed_reachable none⟩

/-! ## The run stack after a complete merge -/

/-- The run stack with the two runs at the index `pre.length` replaced by one is the
bookkeeping `MergedAt` of a complete merge. -/
theorem mergedAt_of_runs {self s' : GtkTimSort α} (pre post : List GtkTimSortRun)
    (ri ri1 : GtkTimSortRun) (hrun : self.run = pre ++ ri :: ri1 :: post)
    (hfull : s'.run = pre ++ { ri with len := ri.len + ri1.len } :: post) :
    MergedAt self s' pre.length ri ri1 := by
  refine ⟨?_, ?_, ?_, ?_⟩
  · unfold GtkTimSort.pending_runs
    rw [hfull, hrun]
    simp only [List.length_append, List.length_cons]
    omega
  · rw [hfull, getElem?_pre]
  · intro r hr
    rw [hrun, List.getElem?_append_right (by omega)] at hr
    rw [hfull, List.getElem?_append_right (by omega)]
    rw [show pre.length + 2 - pre.length = 0 + 1 + 1 by omega] at hr
    rw [show pre.length + 1 - pre.length = 0 + 1 by omega]
    simpa using hr
  · intro j hj
    rw [hfull, hrun, List.getElem?_append_left hj, List.getElem?_append_left hj]

/-- Which of its branches a call of `merge_at` took, read off the lengths it is left
with once `gallop_right` has skipped the `k` elements of the first run that are in
place and `gallop_left` has kept the `l2` elements of the second run that are not:
the two runs become one when one of the two lengths is `0` or the smaller one is at
most `max_merge_size`, and the number of pending runs is kept otherwise. -/
theorem merge_at_branch {cmp : α → α → Int} {self s' : GtkTimSort α}
    {oc oc' : Option GtkTimSortChange} (pre post : List GtkTimSortRun)
    (ri ri1 : GtkTimSortRun) (hrun : self.run = pre ++ ri :: ri1 :: post)
    (hpost : post.length ≤ 1) (h64 : self.pending_runs < GSIZE_MOD)
    (e : merge_at cmp self pre.length oc = some (s', oc')) :
    ∃ key2 k, load self.mem ri1.base = some key2 ∧
      gallop_right cmp key2 self.mem ri.base ri.len 0 = some k ∧
      (ri.len - k = 0 → s'.run = pre ++ { ri with len := ri.len + ri1.len } :: post) ∧
      (ri.len - k ≠ 0 →
        ∃ key1 l2, load self.mem (ri.base + k + (ri.len - k - 1)) = some key1 ∧
          gallop_left cmp key1 self.mem ri1.base ri1.len (ri1.len - 1) = some l2 ∧
          ((l2 = 0 ∨ min (ri.len - k) l2 ≤ self.max_merge_size) →
            s'.run = pre ++ { ri with len := ri.len + ri1.len } :: post) ∧
          (l2 ≠ 0 → self.max_merge_size < min (ri.len - k) l2 →
            s'.pending_runs = self.pending_runs)) := by
  have hdone : ∀ (s1 : GtkTimSort α), MergeFrame self s1 →
      ∀ s2, merge_at_done s1 pre.length = some s2 →
      s2.run = pre ++ { ri with len := ri.len + ri1.len } :: post := by
    intro s1 hf s2 e2
    have hrun1 : s1.run = pre ++ ri :: ri1 :: post := by rw [hf.1, hrun]
    have h641 : s1.pending_runs < GSIZE_MOD := by
      unfold GtkTimSort.pending_runs at h64 ⊢
      rw [hf.1]
      exact h64
    rw [merge_at_done_runs s1 pre post ri ri1 hrun1 hpost h641] at e2
    simp only [Option.some.injEq] at e2
    subst e2
    rfl
  have hkeep : ∀ (s1 : GtkTimSort α) (a b : GtkTimSortRun), MergeFrame self s1 →
      ({ s1 with run := (s1.run.set pre.length a).set (pre.length + 1) b } :
        GtkTimSort α).pending_runs = self.pending_runs := by
    intro s1 a b hf
    unfold GtkTimSort.pending_runs
    simp only [List.length_set]
    rw [hf.1]
  unfold merge_at at e
  rw [hrun, getElem?_pre, getElem?_pre_succ] at e
  simp only [] at e
  split at e
  · cases hk2 : load self.mem ri1.base with
    | none => simp [hk2] at e
    | some key2 =>
      simp only [hk2] at e
      cases hg : gallop_right cmp key2 self.mem ri.base ri.len 0 with
      | none => simp [hg] at e
      | some k =>
        simp only [hg] at e
        refine ⟨key2, k, by first | rfl | exact hk2, by first | rfl | exact hg, ?_, ?_⟩
        · intro hl1
          rw [if_pos hl1] at e
          cases hdn : merge_at_done self pre.length with
          | none => simp [hdn] at e
          | some s2 =>
            simp only [hdn, Option.some.injEq, Prod.mk.injEq] at e
            obtain ⟨rfl, _⟩ := e
            exact hdone self (merge_frame_refl self) s2 hdn
        · intro hl1
          rw [if_neg hl1] at e
          cases hk1 : load self.mem (ri.base + k + (ri.len - k - 1)) with
          | none => simp [hk1] at e
          | some key1 =>
            simp only [hk1] at e
            cases hg2 : gallop_left cmp key1 self.mem ri1.base ri1.len (ri1.len - 1) with
            | none => simp [hg2] at e
            | some l2 =>
              simp only [hg2] at e
              refine ⟨key1, l2, by first | rfl | exact hk1, by first | rfl | exact hg2, ?_, ?_⟩
              · intro hfull
                by_cases hl20 : l2 = 0
                · rw [if_pos hl20] at e
                  cases hdn : merge_at_done self pre.length with
                  | none => simp [hdn] at e
                  | some s2 =>
                    simp only [hdn, Option.some.injEq, Prod.mk.injEq] at e
                    obtain ⟨rfl, _⟩ := e
                    exact hdone self (merge_frame_refl self) s2 hdn
                · rw [if_neg hl20] at e
                  have hmin : min (ri.len - k) l2 ≤ self.max_merge_size := by
                    rcases hfull with h0 | h0
                    · exact absurd h0 hl20
                    · exact h0
                  by_cases hle : ri.len - k ≤ l2
                  · rw [if_pos hle] at e
                    rw [Nat.min_eq_left hle] at hmin
                    rw [if_neg (by omega)] at e
                    cases hm : merge_lo cmp self (ri.base + k) (ri.len - k) ri1.base l2 with
                    | none => simp [hm] at e
                    | some s1 =>
                      simp only [hm] at e
                      cases hdn : merge_at_done s1 pre.length with
                      | none => simp [hdn] at e
                      | some s2 =>
                        simp only [hdn, Option.some.injEq, Prod.mk.injEq] at e
                        obtain ⟨rfl, _⟩ := e
                        exact hdone s1 (merge_lo_frame hm) s2 hdn
                  · rw [if_neg hle] at e
                    rw [Nat.min_eq_right (Nat.le_of_lt (Nat.lt_of_not_le hle))] at hmin
                    rw [if_neg (by omega)] at e
                    cases hm : merge_hi cmp self (ri.base + k) (ri.len - k) ri1.base l2 with
                    | none => simp [hm] at e
                    | some s1 =>
                      simp only [hm] at e
                      cases hdn : merge_at_done s1 pre.length with
                      | none => simp [hdn] at e
                      | some s2 =>
                        simp only [hdn, Option.some.injEq, Prod.mk.injEq] at e
                        obtain ⟨rfl, _⟩ := e
                        exact hdone s1 (merge_hi_frame hm) s2 hdn
              · intro hl20 hcap
                rw [if_neg hl20] at e
                by_cases hle : ri.len - k ≤ l2
                · rw [if_pos hle] at e
                  rw [Nat.min_eq_left hle] at hcap
                  rw [if_pos (by omega)] at e
                  cases hm : merge_lo cmp self (ri.base + (ri.len - self.max_merge_size))
                      self.max_merge_size ri1.base l2 with
                  | none => simp [hm] at e
                  | some s1 =>
                    simp only [hm] at e
                    split at e
                    · simp only [Option.some.injEq, Prod.mk.injEq] at e
                      obtain ⟨rfl, _⟩ := e
                      exact hkeep s1 _ _ (merge_lo_frame hm)
                    · simp at e
                · rw [if_neg hle] at e
                  rw [Nat.min_eq_right (Nat.le_of_lt (Nat.lt_of_not_le hle))] at hcap
                  rw [if_pos (by omega)] at e
                  cases hm : merge_hi cmp self (ri.base + k) (ri.len - k) ri1.base
                      self.max_merge_size with
                  | none => simp [hm] at e
                  | some s1 =>
                    simp only [hm] at e
                    split at e
                    · simp only [Option.some.injEq, Prod.mk.injEq] at e
                      obtain ⟨rfl, _⟩ := e
                      exact hkeep s1 _ _ (merge_hi_frame hm)
                    · simp at e
  · simp at e

/-- C36: a call `merge_at (i)` that returns leaves the cursor, `base` and `size`,
alone.  With `k` the number of elements of `run[i]` that `gallop_right` finds in
place and `l2` the number of elements of `run[i + 1]` that `gallop_left` keeps, the
call is not a partial merge when `run[i]` is left with no element, when `l2` is `0`,
the two cases in which the runs are in order already, or when the smaller of the two
lengths left is at most `max_merge_size`.  After such a call one run less is
pending, `run[i]` keeps its base and has the length of the two runs together, a run
above the pair is at the index `i + 1`, unchanged, and the runs below the index `i`
are unchanged.  In the remaining case, a partial merge, as many runs are pending as
before. -/
theorem merge_at_full_bookkeeping (cmp : α → α → Int) (self s' : GtkTimSort α)
    (oc oc' : Option GtkTimSortChange) (i : Nat) (h64 : self.pending_runs < GSIZE_MOD)
    (e : merge_at cmp self i oc = some (s', oc')) :
    ∃ ri ri1 key2 k, self.run[i]? = some ri ∧ self.run[i + 1]? = some ri1 ∧
      load self.mem ri1.base = some key2 ∧
      gallop_right cmp key2 self.mem ri.base ri.len 0 = some k ∧
      s'.base = self.base ∧ s'.size = self.size ∧
      (ri.len - k = 0 → MergedAt self s' i ri ri1) ∧
      (ri.len - k ≠ 0 →
        ∃ key1 l2, load self.mem (ri.base + k + (ri.len - k - 1)) = some key1 ∧
          gallop_left cmp key1 self.mem ri1.base ri1.len (ri1.len - 1) = some l2 ∧
          ((l2 = 0 ∨ min (ri.len - k) l2 ≤ self.max_merge_size) →
            MergedAt self s' i ri ri1) ∧
          (l2 ≠ 0 → self.max_merge_size < min (ri.len - k) l2 →
            s'.pending_runs = self.pending_runs)) := by
  obtain ⟨pre, ri, ri1, post, hrun, hi, hpost⟩ := merge_at_index h64 e
  subst hi
  obtain ⟨hpar, _⟩ := merge_at_runs pre post ri ri1 hrun hpost h64 e
  obtain ⟨key2, k, hk2, hg, h0, h1⟩ := merge_at_branch pre post ri ri1 hrun hpost h64 e
  refine ⟨ri, ri1, key2, k, by rw [hrun, getElem?_pre], by rw [hrun, getElem?_pre_succ],
    hk2, hg, hpar.1, hpar.2.1, fun hz => mergedAt_of_runs pre post ri ri1 hrun (h0 hz), ?_⟩
  intro hz
  obtain ⟨key1, l2, hk1, hg2, hfull, hpart⟩ := h1 hz
  exact ⟨key1, l2, hk1, hg2, fun hc => mergedAt_of_runs pre post ri ri1 hrun (hfull hc),
    hpart⟩

theorem merge_at_full_bookkeeping_witness :
    three_runs_state.pending_runs < GSIZE_MOD ∧
      merge_at int_cmp three_runs_state 0 none = some (three_runs_merged, none) ∧
      ∃ ri ri1 key2 k, three_runs_state.run[0]? = some ri ∧
        three_runs_state.run[0 + 1]? = some ri1 ∧
        load three_runs_state.mem ri1.base = some key2 ∧
        gallop_right int_cmp key2 three_runs_state.mem ri.base ri.len 0 = some k ∧
        three_runs_merged.base = three_runs_state.base ∧
        three_runs_merged.size = three_runs_state.size ∧
        (ri.len - k = 0 → MergedAt three_runs_state three_runs_merged 0 ri ri1) ∧
        (ri.len - k ≠ 0 →
          ∃ key1 l2, load three_runs_state.mem (ri.base + k + (ri.len - k - 1)) = some key1 ∧
            gallop_left int_cmp key1 three_runs_state.mem ri1.base ri1.len (ri1.len - 1) =
              some l2 ∧
            ((l2 = 0 ∨ min (ri.len - k) l2 ≤ three_runs_state.max_merge_size) →
              MergedAt three_runs_state three_runs_merged 0 ri ri1) ∧
            (l2 ≠ 0 → three_runs_state.max_merge_size < min (ri.len - k) l2 →
              three_runs_merged.pending_runs = three_runs_state.pending_runs)) :=
  ⟨by decide, by decide,
    merge_at_full_bookkeeping int_cmp three_runs_state three_runs_merged none none 0
      (by decide) (by decide)⟩

/-! ## The assertion on the capacity of the run stack -/

theorem push_run_checked_eq {max_pending : Nat} {self : GtkTimSort α}
    (h : self.pending_runs < max_pending) (base len : Nat) :
    gtk_tim_sort_push_run_checked max_pending self base len =
      gtk_tim_sort_push_run self base len := by
  unfold gtk_tim_sort_push_run_checked
  rw [if_pos h]

theorem push_run_checked_full {max_pending : Nat} {self : GtkTimSort α}
    (h : max_pending ≤ self.pending_runs) (base len : Nat) :
    gtk_tim_sort_push_run_checked max_pending self base len = none := by
  unfold gtk_tim_sort_push_run_checked
  rw [if_neg (by omega)]

/-- Below the capacity of the run stack the assertion of `gtk_tim_sort_push_run` holds
and `merge_append` does what it does without it. -/
theorem merge_append_checked_eq {max_pending : Nat} (cmp : α → α → Int) {self : GtkTimSort α}
    (h : self.pending_runs < max_pending) (oc : Option GtkTimSortChange) :
    merge_append_checked max_pending cmp self oc = merge_append cmp self oc := by
  unfold merge_append_checked merge_append
  cases prepare_run cmp self oc with
  | none => rfl
  | some r =>
    obtain ⟨run_len, mem, oc1⟩ := r
    simp only []
    have e1 : ∀ (m : List α) (b l : Nat),
        gtk_tim_sort_push_run_checked max_pending { self with mem := m } b l =
          gtk_tim_sort_push_run { self with mem := m } b l :=
      fun m b l => @push_run_checked_eq _ max_pending { self with mem := m } h b l
    simp only [e1]
    try rfl

/-- On an empty tail `merge_append` pushes no run, whatever the capacity of the
stack. -/
theorem merge_append_checked_empty (max_pending : Nat) (cmp : α → α → Int)
    {self : GtkTimSort α} (h : self.size = 0) (oc : Option GtkTimSortChange) :
    merge_append_checked max_pending cmp self oc = merge_append cmp self oc := by
  unfold merge_append_checked merge_append prepare_run
  simp only []
  rw [if_pos (by omega)]
  simp only [h]
  rfl

/-- On a full run stack `merge_append` fails as soon as the tail is not empty: the
assertion of `gtk_tim_sort_push_run` does not hold. -/
theorem merge_append_checked_full {max_pending : Nat} (cmp : α → α → Int)
    {self : GtkTimSort α} (h : max_pending ≤ self.pending_runs) (hpos : 0 < self.size)
    (oc : Option GtkTimSortChange) :
    merge_append_checked max_pending cmp self oc = none := by
  have hf : ∀ s2 oc2, merge_append cmp self oc ≠ some (false, s2, oc2) := by
    intro s2 oc2 e
    have := (merge_append_false e).1
    omega
  unfold merge_append at hf
  unfold merge_append_checked
  cases hp : prepare_run cmp self oc with
  | none => rfl
  | some r =>
    obtain ⟨run_len, mem, oc1⟩ := r
    rw [hp] at hf
    simp only [] at hf ⊢
    by_cases h0 : run_len = 0
    · rw [if_pos h0] at hf
      exact absurd rfl (hf _ _)
    · rw [if_neg h0]
      have e1 : ∀ (m : List α) (b l : Nat),
          gtk_tim_sort_push_run_checked max_pending { self with mem := m } b l = none :=
        fun m b l => @push_run_checked_full _ max_pending { self with mem := m } h b l
      simp only [e1]
      split
      · split <;> rfl
      · rfl

/-- The loop of `gtk_tim_sort_set_runs` on a zero-terminated list of positive
lengths that fit the unconsumed part of the array and whose number fits the free
entries of the run stack: it pushes one run per length. -/
theorem set_runs_loop_checked_eq (max_pending : Nat) (rs : List Nat) :
    ∀ (self : GtkTimSort α) (rest : List Nat), (∀ r ∈ rs, 0 < r) → rs.sum ≤ self.size →
      self.pending_runs + rs.length ≤ max_pending →
      set_runs_loop_checked max_pending (rs ++ 0 :: rest) self =
        some { self with
          run := self.run ++ runs_from self.base rs
          base := self.base + rs.sum
          size := self.size - rs.sum } := by
  induction rs with
  | nil =>
    intro self rest _ _ _
    simp [set_runs_loop_checked, runs_from]
  | cons r rs ih =>
    intro self rest hpos hsum hcap
    have hr : 0 < r := hpos r (by simp)
    simp only [List.sum_cons] at hsum
    simp only [List.length_cons] at hcap
    simp only [List.cons_append, set_runs_loop_checked]
    rw [if_pos (by omega), push_run_checked_eq (by omega)]
    unfold gtk_tim_sort_push_run
    rw [if_pos (by omega)]
    simp only []
    have e := ih { self with
        run := self.run ++ [{ base := self.base, len := r }]
        base := self.base + r
        size := self.size - r } rest (fun x hx => hpos x (by simp [hx]))
      (by show rs.sum ≤ self.size - r; omega)
      (by
        unfold GtkTimSort.pending_runs at hcap ⊢
        simp only [List.length_append, List.length_cons, List.length_nil]
        omega)
    show set_runs_loop_checked max_pending (rs ++ 0 :: rest) _ = _
    rw [e]
    simp only [runs_from, List.sum_cons, List.append_assoc, List.singleton_append,
      Nat.add_assoc, Nat.sub_sub]

theorem set_runs_checked_init (max_pending : Nat) (base : List α) (size element_size : Nat)
    (rs : List Nat) (hpos : ∀ r ∈ rs, 0 < r) (hsum : rs.sum ≤ size)
    (hcap : rs.length ≤ max_pending) :
    gtk_tim_sort_set_runs_checked max_pending (gtk_tim_sort_init base size element_size)
        (rs ++ [0]) =
      some { gtk_tim_sort_init base size element_size with
        run := runs_from 0 rs, base := rs.sum, size := size - rs.sum } := by
  unfold gtk_tim_sort_set_runs_checked
  rw [if_pos (show (gtk_tim_sort_init base size element_size).pending_runs = 0 from rfl)]
  rw [set_runs_loop_checked_eq max_pending rs _ [] hpos hsum
    (by
      show 0 + rs.length ≤ max_pending
      omega)]
  simp [gtk_tim_sort_init]

/-- C16: Round trip of `gtk_tim_sort_set_runs` and `gtk_tim_sort_get_runs`.  For a
freshly initialised sorter of `size` elements, a run stack of `max_pending` entries
and every list `rs` of positive run lengths whose sum is at most `size` and whose
number is at most `max_pending`, `gtk_tim_sort_set_runs` given `rs` followed by `0`
returns, every assertion of `gtk_tim_sort_push_run` holding, after which
`gtk_tim_sort_get_runs` writes exactly `rs` followed by `0`, the run `j` of the stack
has the length `rs[j]` and starts at the offset `rs[0] + ... + rs[j - 1]`, as many
runs are pending as `rs` has entries, and the unconsumed tail starts after the last
run and has `size` minus the sum elements; the array is not touched. -/
theorem set_runs_get_runs_below_capacity (base : List α)
    (size element_size max_pending : Nat) (rs : List Nat) (hpos : ∀ r ∈ rs, 0 < r)
    (hsum : rs.sum ≤ size) (hcap : rs.length ≤ max_pending) :
    ∃ s, gtk_tim_sort_set_runs_checked max_pending
        (gtk_tim_sort_init base size element_size) (rs ++ [0]) = some s ∧
      gtk_tim_sort_get_runs s = rs ++ [0] ∧
      (∀ j r, rs[j]? = some r →
        s.run[j]? = some ({ base := (rs.take j).sum, len := r } : GtkTimSortRun)) ∧
      s.pending_runs = rs.length ∧ s.base = rs.sum ∧ s.size = size - rs.sum ∧
      s.mem = base := by
  refine ⟨_, set_runs_checked_init max_pending base size element_size rs hpos hsum hcap,
    ?_, ?_, ?_, rfl, rfl, rfl⟩
  · rw [get_runs_eq]
    show (runs_from 0 rs).map (fun r => r.len) ++ [0] = _
    rw [runs_from_lens]
  · intro j r e
    show (runs_from 0 rs)[j]? = _
    rw [runs_from_getElem rs 0 j r e, Nat.zero_add]
  · show (runs_from 0 rs).length = _
    have := congrArg List.length (runs_from_lens rs 0)
    simpa using this

theorem set_runs_get_runs_below_capacity_witness :
    (∀ r ∈ [3, 2], 0 < r) ∧ [3, 2].sum ≤ 6 ∧ [3, 2].length ≤ 2 ∧
      ∃ s, gtk_tim_sort_set_runs_checked 2
          (gtk_tim_sort_init ([1, 2, 3, 1, 2, 0] : List Int) 6 4) ([3, 2] ++ [0]) = some s ∧
        gtk_tim_sort_get_runs s = [3, 2] ++ [0] ∧
        (∀ j r, [3, 2][j]? = some r →
          s.run[j]? =
            some ({ base := (([3, 2] : List Nat).take j).sum, len := r } : GtkTimSortRun)) ∧
        s.pending_runs = [3, 2].length ∧ s.base = [3, 2].sum ∧ s.size = 6 - [3, 2].sum ∧
        s.mem = [1, 2, 3, 1, 2, 0] :=
  ⟨by decide, by decide, by decide,
    set_runs_get_runs_below_capacity [1, 2, 3, 1, 2, 0] 6 4 2 [3, 2] (by decide) (by decide)
      (by decide)⟩

/-! ## The depth of the run stack of a resumed sorter -/

theorem tainted_cap {m n : Nat} {t : List Nat} (hle : ∀ v ∈ t, v ≤ n) (h : Tainted m t) :
    Tainted n t := by
  match t, h, hle with
  | z :: y :: x :: _, h, hle =>
    simp only [Tainted] at h ⊢
    rcases h with h | h
    · exact Or.inl h
    · exact Or.inr ⟨hle y (by simp), h.2⟩

theorem midInv_cap {m n : Nat} {t : List Nat} (hle : ∀ v ∈ t, v ≤ n) (h : MidInv m t) :
    MidInv n t := by
  refine ⟨h.1, ?_⟩
  intro z y x w v rest ht
  rcases h.2 z y x w v rest ht with h1 | h1
  · exact Or.inl h1
  · exact Or.inr (tainted_cap hle h1)

theorem mass_cap {k m n : Nat} {t : List Nat} (hle : ∀ v ∈ t, v ≤ n) (h : Mass k m t) :
    Mass k n t := by
  rcases h with h | ⟨h3, h2 | h2⟩
  · exact Or.inl h
  · exact Or.inr ⟨h3, Or.inl h2⟩
  · exact Or.inr ⟨h3, Or.inr (tainted_cap hle h2)⟩

/-- A run is about to be pushed: at most 85 runs are pending. -/
theorem collapse_done_depth {cmp : α → α → Int} {input : List α} {s s1 : GtkTimSort α}
    {oc oc1 : Option GtkTimSortChange} (hS : StackSafe input s)
    (e : merge_collapse cmp s oc = some (false, s1, oc1)) (hpos : 0 < s.size) :
    s.pending_runs ≤ 85 := by
  obtain ⟨hms, hk, hI, hM⟩ := hS
  obtain ⟨hp64, hsum⟩ := memorySafe_pending hms
  have h64 : input.length < GSIZE_MOD := hms.2.2.2
  have hdone := merge_collapse_false_done hp64 e
  have hs := collapseDone_stackInv hdone hI
  by_contra hc
  have hl : 86 ≤ (stack_lens s).length := by
    simp only [stack_lens, List.length_reverse, List.length_map]
    unfold GtkTimSort.pending_runs at hc
    omega
  match ht : stack_lens s, hl with
  | z :: y :: rest, hl =>
    have hzy : s.min_run ≤ z + y := by
      rcases hM hpos with h | ⟨_, h | h⟩
      · rw [ht] at h
        simp at h
      · rw [ht] at h
        simpa [Nat.add_comm] using h
      · exact absurd h (collapseDone_not_tainted hdone)
    rw [hk] at hzy
    rw [ht] at hs hsum
    have hyz : y > z := hs.2 z y rest rfl
    have hge := ginv_sum_ge 84 z y rest hs.1 (by simpa using hl)
    rw [min_stack_sum_eq] at hge
    have hco : stack_coeffs 84 =
        (420196140727489673, 679891637638612257, 1100087778366101844) := by decide
    rw [hco] at hge
    simp only [] at hge
    by_cases h32 : 32 ≤ input.length
    · obtain ⟨k1, k2, k3⟩ := min_run_bound input.length h32 h64
      generalize compute_min_run input.length = k at *
      generalize (z :: y :: rest).sum = S at *
      omega
    · have := compute_min_run_small input.length (by omega)
      rw [this] at hzy
      simp only [List.sum_cons] at hsum
      omega

/-- One call of `gtk_tim_sort_step` keeps `StackSafe`. -/
theorem stackSafe_step {cmp : α → α → Int} {input : List α} {s s' : GtkTimSort α}
    {oc oc' : Option GtkTimSortChange} {b : Bool} (hS : StackSafe input s)
    (e : gtk_tim_sort_step cmp s oc = some (b, s', oc')) : StackSafe input s' := by
  obtain ⟨hms, hk, hI, hM⟩ := hS
  obtain ⟨b2, s2, oc2, e2, hR, _⟩ := memorySafe_step cmp hms oc
  rw [e] at e2
  simp only [Option.some.injEq, Prod.mk.injEq] at e2
  obtain ⟨_, rfl, _⟩ := e2
  obtain ⟨i1, i2, i3, i4⟩ := step_stack_invariant (memorySafe_pending hms).1
    (gtk_tim_sort_step_move e) hI hM
  refine ⟨hR, by rw [i2, hk], by rw [i1]; exact i3, ?_⟩
  rw [i1, i2]
  exact i4

/-- On a `StackSafe` sorter the assertion on the capacity of the run stack holds in
every call of `gtk_tim_sort_step`, for a stack of 86 entries or more. -/
theorem step_checked_eq {cmp : α → α → Int} {input : List α} {s : GtkTimSort α}
    (max_pending : Nat) (hcap : 86 ≤ max_pending) (hS : StackSafe input s)
    (oc : Option GtkTimSortChange) :
    gtk_tim_sort_step_checked max_pending cmp s oc = gtk_tim_sort_step cmp s oc := by
  have e1 : gtk_tim_sort_step_checked max_pending cmp s oc =
      step_checked max_pending cmp s oc := by
    unfold gtk_tim_sort_step_checked
    split <;> rfl
  rw [e1, gtk_tim_sort_step_eq]
  unfold step_checked step
  rcases merge_collapse_move cmp s oc (memorySafe_pending hS.1).1 with
    ⟨_, e⟩ | ⟨_, _, n, e, _⟩
  · rw [e]
    simp only []
    have e2 : merge_append_checked max_pending cmp s oc = merge_append cmp s oc := by
      rcases Nat.eq_zero_or_pos s.size with h0 | hpos
      · exact merge_append_checked_empty max_pending cmp h0 oc
      · have := collapse_done_depth hS e hpos
        exact merge_append_checked_eq cmp (by omega) oc
    rw [e2]
    try rfl
  · rw [e]
    cases merge_at cmp s n oc with
    | none => rfl
    | some r => rfl

/-- On a `StackSafe` sorter the loop of calls of `gtk_tim_sort_step` never fails on
the assertion on the capacity of the run stack, for a stack of 86 entries or more. -/
theorem loop_checked_eq {cmp : α → α → Int} {input : List α} (max_pending : Nat)
    (hcap : 86 ≤ max_pending) : ∀ (fuel : Nat) (s : GtkTimSort α), StackSafe input s →
      gtk_tim_sort_loop_checked max_pending cmp fuel s = gtk_tim_sort_loop cmp fuel s := by
  intro fuel
  induction fuel with
  | zero =>
    intro s _
    rfl
  | succ fuel ih =>
    intro s hS
    simp only [gtk_tim_sort_loop_checked, gtk_tim_sort_loop]
    rw [step_checked_eq max_pending hcap hS none]
    cases e : gtk_tim_sort_step cmp s none with
    | none => rfl
    | some r =>
      obtain ⟨b, s1, oc1⟩ := r
      cases b with
      | false => rfl
      | true => exact ih s1 (stackSafe_step hS e)

/-- The freshly initialised sorter, with any cap on merges, is `StackSafe`. -/
theorem stackSafe_init (base : List α) (size element_size max_merge_size : Nat)
    (hlen : base.length = size) (h64 : size < GSIZE_MOD) :
    StackSafe base (gtk_tim_sort_set_max_merge_size
      (gtk_tim_sort_init base size element_size) max_merge_size) := by
  refine ⟨memorySafe_set_max (memorySafe_init base size element_size hlen h64) max_merge_size,
    ?_, ?_, fun _ => Or.inl rfl⟩
  · rw [hlen]
    rfl
  · exact ⟨by simp [stack_lens, gtk_tim_sort_set_max_merge_size, gtk_tim_sort_init, GInv],
      by simp [stack_lens, gtk_tim_sort_set_max_merge_size, gtk_tim_sort_init]⟩

/-- A sorter driven by `gtk_tim_sort_step` alone from a `StackSafe` state with at
most 86 pending runs stays `StackSafe` and never has more than 86 pending runs. -/
theorem drivenFrom_depth {cmp : α → α → Int} {input : List α} {s0 s : GtkTimSort α}
    (h0 : StackSafe input s0) (hp0 : s0.pending_runs ≤ 86) (hd : DrivenFrom cmp s0 s) :
    StackSafe input s ∧ s.pending_runs ≤ 86 := by
  induction hd with
  | start => exact ⟨h0, hp0⟩
  | step s s' oc oc' b _ e ih =>
    obtain ⟨hS, hp⟩ := ih
    refine ⟨stackSafe_step hS e, ?_⟩
    rcases step_move (memorySafe_pending hS.1).1 (gtk_tim_sort_step_move e) with
      ⟨_, rfl, _⟩ | ⟨_, _, _, _, _, _, hq⟩ | ⟨_, _, hmc, hpos, ha⟩ |
      ⟨_, _, _, _, _, _, _, _, hq⟩
    · exact hp
    · omega
    · have := collapse_done_depth hS hmc hpos
      obtain ⟨_, _, _, _, _, _, _, _, _, e2⟩ := merge_append_push ha
      subst e2
      unfold GtkTimSort.pending_runs at this ⊢
      simp only [List.length_append, List.length_cons, List.length_nil]
      omega
    · omega

/-- The loop of `gtk_tim_sort` on a freshly initialised sorter, with any cap on merges,
never fails on the assertion on the capacity of the run stack, for a stack of 86
entries or more. -/
theorem fresh_loop_checked_eq (cmp : α → α → Int) (base : List α)
    (size element_size max_merge_size : Nat) (hlen : base.length = size)
    (h64 : size < GSIZE_MOD) (max_pending : Nat) (hcap : 86 ≤ max_pending) (fuel : Nat) :
    gtk_tim_sort_loop_checked max_pending cmp fuel
        (gtk_tim_sort_set_max_merge_size (gtk_tim_sort_init base size element_size)
          max_merge_size) =
      gtk_tim_sort_loop cmp fuel
        (gtk_tim_sort_set_max_merge_size (gtk_tim_sort_init base size element_size)
          max_merge_size) :=
  loop_checked_eq max_pending hcap fuel _
    (stackSafe_init base size element_size max_merge_size hlen h64)

theorem drivenFrom_reachable {cmp : α → α → Int} {base : List α} {size element_size : Nat}
    {s0 s : GtkTimSort α} (h0 : Reachable cmp base size element_size s0)
    (hd : DrivenFrom cmp s0 s) : Reachable cmp base size element_size s := by
  induction hd with
  | start => exact h0
  | step s s' oc oc' b _ e ih => exact Reachable.step s s' oc oc' b ih e

/-! ## A pushed run on a stack below its capacity -/

/-- C24, as stated, fails on a full run stack.  With the capacity of 86 entries,
`gtk_tim_sort_set_runs` on a fresh sorter for the 98 elements of `full_stack_input`
accepts the 86 runs of `full_stack_runs` and leaves a tail of one element;
`merge_collapse` has nothing to merge on the run lengths 8, 4, 2 and 1 it ends with,
and `merge_append`, which has a run to push, fails on the assertion of
`gtk_tim_sort_push_run`, and the call of `gtk_tim_sort_step` with it.  Whatever the
capacity is, `merge_append` fails in the same way on every sorter with a non-empty
tail whose run stack is full. -/
theorem merge_append_aborts_on_full_stack :
    gtk_tim_sort_set_runs_checked 86 (gtk_tim_sort_init full_stack_input 98 4)
        full_stack_runs = some full_stack_state ∧
      full_stack_state.pending_runs = 86 ∧ full_stack_state.size = 1 ∧
      merge_collapse int_cmp full_stack_state none = some (false, full_stack_state, none) ∧
      merge_append_checked 86 int_cmp full_stack_state none = none ∧
      gtk_tim_sort_step_checked 86 int_cmp full_stack_state none = none ∧
      ∀ (max_pending : Nat) (self : GtkTimSort Int), max_pending ≤ self.pending_runs →
        0 < self.size → merge_append_checked max_pending int_cmp self none = none :=
  ⟨by set_option maxRecDepth 100000 in decide, by decide, by decide, by decide, by decide,
    by decide, fun _ _ hfull hpos => merge_append_checked_full int_cmp hfull hpos none⟩

/-- C24 (amended): on a sorter with a non-empty unconsumed `tail` and fewer pending
runs than the run stack has entries, `merge_append` pushes exactly one run: the run
of length `r` that `prepare_run` finds when `r ≥ min_run`, and otherwise
`min (min_run, size)` elements.  The run starts at the cursor and is non-decreasing,
the cursor advances by its length, and the run has at least `min_run` elements unless
it exhausts the tail. -/
theorem merge_append_pushes_below_capacity {cmp : α → α → Int} (h : TotalPreorder cmp)
    (max_pending : Nat) (self : GtkTimSort α) (oc : Option GtkTimSortChange)
    (A tail : List α) (hm : self.mem = A ++ tail) (hA : A.length = self.base)
    (ht : tail.length = self.size) (hpos : 0 < self.size)
    (hcap : self.pending_runs < max_pending) :
    ∃ r mem1 oc1 self' oc' len, prepare_run cmp self oc = some (r, mem1, oc1) ∧
      merge_append_checked max_pending cmp self oc = some (true, self', oc') ∧
      len = (if self.min_run ≤ r then r else min self.min_run self.size) ∧
      self'.run = self.run ++ [{ base := self.base, len := len }] ∧
      self'.pending_runs = self.pending_runs + 1 ∧
      Sorted cmp (run_slice self'.mem { base := self.base, len := len }) ∧
      self'.base = self.base + len ∧ self'.size = self.size - len ∧ len ≤ self.size ∧
      (0 < self'.size → self.min_run ≤ len) := by
  rw [merge_append_checked_eq cmp hcap]
  exact merge_append_push_spec h self oc A tail hm hA ht hpos

theorem merge_append_pushes_below_capacity_witness :
    TotalPreorder int_cmp ∧
      two_runs_first.mem = two_runs_input.take 20 ++ two_runs_input.drop 20 ∧
      (two_runs_input.take 20).length = two_runs_first.base ∧
      (two_runs_input.drop 20).length = two_runs_first.size ∧ 0 < two_runs_first.size ∧
      two_runs_first.pending_runs < 86 ∧
      ∃ r mem1 oc1 self' oc' len,
        prepare_run int_cmp two_runs_first none = some (r, mem1, oc1) ∧
        merge_append_checked 86 int_cmp two_runs_first none = some (true, self', oc') ∧
        len = (if two_runs_first.min_run ≤ r then r
          else min two_runs_first.min_run two_runs_first.size) ∧
        self'.run = two_runs_first.run ++ [{ base := two_runs_first.base, len := len }] ∧
        self'.pending_runs = two_runs_first.pending_runs + 1 ∧
        Sorted int_cmp (run_slice self'.mem { base := two_runs_first.base, len := len }) ∧
        self'.base = two_runs_first.base + len ∧
        self'.size = two_runs_first.size - len ∧ len ≤ two_runs_first.size ∧
        (0 < self'.size → two_runs_first.min_run ≤ len) :=
  ⟨int_cmp_total, by decide, by decide, by decide, by decide, by decide,
    merge_append_pushes_below_capacity int_cmp_total 86 two_runs_first none
      (two_runs_input.take 20) (two_runs_input.drop 20) (by decide) (by decide) (by decide)
      (by decide) (by decide)⟩

/-! ## Resuming from saved runs -/

/-- The second sorter of a resume, a fresh sorter given the runs of the `StackSafe`
sorter `s`, is `StackSafe` too. -/
theorem stackSafe_resume {input : List α} {s : GtkTimSort α} (hS : StackSafe input s)
    (size element_size : Nat) (hsz : size = input.length) (rs : List GtkTimSortRun)
    (hrs : rs = s.run) (b : Nat) (hb : b = s.base) (n : Nat) (hn : n = s.size) :
    StackSafe input
      { gtk_tim_sort_init s.mem size element_size with run := rs, base := b, size := n } := by
  subst hrs
  subst hb
  subst hn
  obtain ⟨hms, hk, hI, hM⟩ := hS
  obtain ⟨⟨segs, tail, hL⟩, hperm, _, h64⟩ := hms
  obtain ⟨_, hsum⟩ := memorySafe_pending (⟨⟨segs, tail, hL⟩, hperm, by assumption, h64⟩ :
    MemorySafe input s)
  have hle : ∀ v ∈ stack_lens s, v ≤ G_MAXSIZE := by
    intro v hv
    have := List.single_le_sum (fun x _ => Nat.zero_le x) v hv
    unfold G_MAXSIZE
    unfold GSIZE_MOD at h64
    omega
  have hst : stack_lens ({ gtk_tim_sort_init s.mem size element_size with
      run := s.run, base := s.base, size := s.size } : GtkTimSort α) = stack_lens s := rfl
  refine ⟨⟨⟨segs, tail, hL.1, hL.2.1, hL.2.2.1, hL.2.2.2.1, hL.2.2.2.2⟩, hperm, ?_, h64⟩,
    ?_, ?_, ?_⟩
  · show 1 ≤ G_MAXSIZE
    unfold G_MAXSIZE
    omega
  · show compute_min_run size = _
    rw [hsz]
  · rw [hst]
    exact midInv_cap hle hI
  · intro hpos
    rw [hst]
    have := mass_cap hle (hM hpos)
    show Mass (compute_min_run size) G_MAXSIZE (stack_lens s)
    rw [hsz, ← hk]
    exact this

/-- C15: Resume through `gtk_tim_sort_get_runs` and `gtk_tim_sort_set_runs`.  Let
`s` be a state that calls of `gtk_tim_sort_step` lead to from a freshly initialised
sorter, whatever its `max_merge_size`, under a comparison function that is a total
preorder, and let the run stack have 86 entries or more.  A second sorter freshly
initialised on the array as `s` holds it, with the same number of elements and the
same element size, and given the zero-terminated list that `gtk_tim_sort_get_runs`
produces for `s`, has the run stack, `base` and `size` of `s`; stepping either sorter
until `FALSE` is returned ends, and both leave the same array.  No assertion of
`gtk_tim_sort_push_run` on the capacity of the run stack fails on the way, neither
in `gtk_tim_sort_set_runs` nor in a step of either sorter. -/
theorem resume_through_saved_runs {cmp : α → α → Int} (h : TotalPreorder cmp)
    (base : List α) (size element_size max_merge_size : Nat) (hlen : base.length = size)
    (h64 : size < GSIZE_MOD) (max_pending : Nat) (hcap : 86 ≤ max_pending)
    (s : GtkTimSort α)
    (hd : DrivenFrom cmp (gtk_tim_sort_set_max_merge_size
      (gtk_tim_sort_init base size element_size) max_merge_size) s) :
    ∃ s2, gtk_tim_sort_set_runs_checked max_pending
        (gtk_tim_sort_init s.mem size element_size) (gtk_tim_sort_get_runs s) = some s2 ∧
      s2.run = s.run ∧ s2.base = s.base ∧ s2.size = s.size ∧ s2.mem = s.mem ∧
      (∃ fuel t, gtk_tim_sort_loop_checked max_pending cmp fuel s = some t) ∧
      (∃ fuel t, gtk_tim_sort_loop_checked max_pending cmp fuel s2 = some t) ∧
      ∀ fuel fuel2 t t2, gtk_tim_sort_loop_checked max_pending cmp fuel s = some t →
        gtk_tim_sort_loop_checked max_pending cmp fuel2 s2 = some t2 → t2.mem = t.mem := by
  obtain ⟨hS, hp86⟩ := drivenFrom_depth
    (stackSafe_init base size element_size max_merge_size hlen h64)
    (show (gtk_tim_sort_set_max_merge_size
      (gtk_tim_sort_init base size element_size) max_merge_size).pending_runs ≤ 86 from
        Nat.zero_le _) hd
  have hr : Reachable cmp base size element_size s :=
    drivenFrom_reachable (Reachable.set_max _ max_merge_size Reachable.init) hd
  have hR := reachable_resumable h hlen h64 hr
  obtain ⟨⟨segs, tail, hL⟩, hst, hmax, hin⟩ := hR
  obtain ⟨e1, e2, e3, e4⟩ := layout_lens hL
  have hm : s.mem.length = size := by rw [stable_length_eq hst, hlen]
  have hbase : s.base = (segs.map List.length).sum := by
    rw [hL.2.2.1, List.length_flatten]
  have hsize : s.size = size - (segs.map List.length).sum := by
    rw [hL.2.2.2.1]
    omega
  have hrun : s.run = runs_from 0 (segs.map List.length) := by
    rw [runs_from_lengths, hL.2.1]
  have hset := set_runs_checked_init max_pending s.mem size element_size
    (segs.map List.length) e3 (by omega)
    (by
      rw [List.length_map, ← e4]
      omega)
  rw [get_runs_eq, e1, hset]
  have hR2 : Resumable cmp base
      { gtk_tim_sort_init s.mem size element_size with
        run := runs_from 0 (segs.map List.length), base := (segs.map List.length).sum,
        size := size - (segs.map List.length).sum } := by
    refine ⟨⟨segs, tail, hL.1, ?_, ?_, ?_, hL.2.2.2.2⟩, hst, ?_, hin⟩
    · show runs_from 0 (segs.map List.length) = _
      rw [runs_from_lengths]
    · show (segs.map List.length).sum = _
      rw [List.length_flatten]
    · show size - (segs.map List.length).sum = _
      omega
    · show 1 ≤ G_MAXSIZE
      unfold G_MAXSIZE
      omega
  have hS2 := stackSafe_resume hS size element_size hlen.symm
    (runs_from 0 (segs.map List.length)) hrun.symm (segs.map List.length).sum hbase.symm
    (size - (segs.map List.length).sum) hsize.symm
  obtain ⟨t1, a1⟩ := loop_spec h ⟨⟨segs, tail, hL⟩, hst, hmax, hin⟩
  obtain ⟨t2, a2⟩ := loop_spec h hR2
  refine ⟨_, rfl, hrun.symm, hbase.symm, hsize.symm, rfl, ?_, ?_, ?_⟩
  · obtain ⟨fuel, t, e⟩ := t1
    exact ⟨fuel, t, by rw [loop_checked_eq max_pending hcap fuel s hS]; exact e⟩
  · obtain ⟨fuel, t, e⟩ := t2
    exact ⟨fuel, t, by rw [loop_checked_eq max_pending hcap fuel _ hS2]; exact e⟩
  · intro fuel fuel2 t u ht hu
    rw [loop_checked_eq max_pending hcap fuel s hS] at ht
    rw [loop_checked_eq max_pending hcap fuel2 _ hS2] at hu
    obtain ⟨b1, b2⟩ := a1 fuel t ht
    obtain ⟨c1, c2⟩ := a2 fuel2 u hu
    exact sorted_stable_unique h c1 b1 c2 b2

theorem resume_through_saved_runs_witness :
    TotalPreorder int_cmp ∧ two_runs_input.length = 32 ∧ 32 < GSIZE_MOD ∧ 86 ≤ 86 ∧
      DrivenFrom int_cmp
        (gtk_tim_sort_set_max_merge_size (gtk_tim_sort_init two_runs_input 32 4) 1)
        (gtk_tim_sort_set_max_merge_size two_runs_pushed 1) ∧
      gtk_tim_sort_get_runs (gtk_tim_sort_set_max_merge_size two_runs_pushed 1) =
        [20, 12, 0] ∧
      ∃ s2, gtk_tim_sort_set_runs_checked 86
          (gtk_tim_sort_init (gtk_tim_sort_set_max_merge_size two_runs_pushed 1).mem 32 4)
          (gtk_tim_sort_get_runs (gtk_tim_sort_set_max_merge_size two_runs_pushed 1)) =
            some s2 ∧
        s2.run = (gtk_tim_sort_set_max_merge_size two_runs_pushed 1).run ∧
        s2.base = (gtk_tim_sort_set_max_merge_size two_runs_pushed 1).base ∧
        s2.size = (gtk_tim_sort_set_max_merge_size two_runs_pushed 1).size ∧
        s2.mem = (gtk_tim_sort_set_max_merge_size two_runs_pushed 1).mem ∧
        (∃ fuel t, gtk_tim_sort_loop_checked 86 int_cmp fuel
          (gtk_tim_sort_set_max_merge_size two_runs_pushed 1) = some t) ∧
        (∃ fuel t, gtk_tim_sort_loop_checked 86 int_cmp fuel s2 = some t) ∧
        ∀ fuel fuel2 t t2,
          gtk_tim_sort_loop_checked 86 int_cmp fuel
            (gtk_tim_sort_set_max_merge_size two_runs_pushed 1) = some t →
          gtk_tim_sort_loop_checked 86 int_cmp fuel2 s2 = some t2 → t2.mem = t.mem :=
  ⟨int_cmp_total, rfl, by decide, by decide,
    DrivenFrom.step (gtk_tim_sort_set_max_merge_size two_runs_first 1) _ none none true
      (DrivenFrom.step _ _ none none true DrivenFrom.start (by decide)) (by decide),
    by decide,
    resume_through_saved_runs int_cmp_total two_runs_input 32 4 1 rfl (by decide) 86
      (by decide) _
      (DrivenFrom.step (gtk_tim_sort_set_max_merge_size two_runs_first 1) _ none none true
        (DrivenFrom.step _ _ none none true DrivenFrom.start (by decide)) (by decide))⟩

end TimSort
